import Mathlib

/-!
# Global router: grid graph, indexed priority queue and per-net search

Shallow embedding of `graph.hpp`, `grp.hpp`, `grp2graph.hpp`,
`priority_queue.hpp` and `connector.hpp`.

Conventions of the embedding.
* Node and edge indices, grid dimensions and positions are `Nat`; the values a
  problem file can carry (pin coordinates, widths, capacities) are `Int`.
* `-1` as "no node" / "no edge" in `preceding_node` and `relevant_edge` is `none`.
* `std::set<int>` is an ascending duplicate-free `List Nat`.
* Machine integers. The router adds values of type `int` in three places: the
  capacity a net requires, the aggregated width of an edge, and the iteration
  counter. Where such a sum is not a value of a 32-bit `int` the source has no
  defined behaviour and the model returns `none` (`fits_int`).
* Floating point. The source divides in `float` in `tile_of_coordinate` and
  keeps the distances of the search in `float`; both are embedded in exact
  arithmetic. A `float` holds every integer below `2^24` exactly, so the two
  agree as long as the coordinates, the edge weights and the distances stay
  below `2^24`; `GlobalRoutingProblem.exact_range` and
  `Connector.weights_exact` describe that range, and the statements about the
  router are made inside it.
* Assertions. An `assert` whose outcome depends on the input is control flow:
  the function returns `none` where it fails. These are, in
  `create_search_forest`, `min_net_width >= 0`, `current_iteration >= 0`,
  `0 <= s && s < graph.count_nodes()`, `0 <= aggregated_width[edgeindex]`,
  `required_capacity + aggregated_width[edgeindex] <= current_edge_capacity`,
  `current_edge_capacity > 0` and `not pq.empty()`; in the update loop of
  `connect`, `required_capacity >= 0` and the two `aggregated_width[edgeindex]
  >= 0`; the assertions of `tile_of_coordinate` and
  `get_nodeindex_from_position` (`pin_node`), of
  `createGraphFromGlobalRoutingProblem`, of `PriorityQueue::remove` and of
  `GlobalRoutingProblem::check` (`check_run`). Calls that cannot continue
  (`exit(1)` in the queue, an index outside a vector) return `none` as well.
  The assertions on the queue and on the popped entries, which compare values
  the search has just computed, are evaluated along the run by `relax_asserts`
  and `pop_asserts` and proved to hold; the assertions on the bounding box are
  proved with it. The test `verify_connector` that `connect` asserts of each
  returned edge set is not embedded: what it tests (every pin node is an end
  of an edge, the edges form a tree, a node with one edge is a pin node) is
  stated and proved of the result of `connect`.
* Loops run on a fuel argument that the callers set from the graph size.
-/

namespace GlobalRouting

/-! ## Machine integers -/

/-- The value `std::numeric_limits< int >::max()` of a 32-bit `int`. -/
def int_max : Int := 2147483647

/-- The value `std::numeric_limits< int >::min()` of a 32-bit `int`. -/
def int_min : Int := -2147483648

/-- The number `x` is a value of a 32-bit `int`. -/
def fits_int (x : Int) : Prop := int_min ≤ x ∧ x ≤ int_max

instance (x : Int) : Decidable (fits_int x) := by
  unfold fits_int
  infer_instance

/-! ## graph.hpp -/

/-- The enum `Graph::direction`, in the order of its enumerators. -/
inductive direction where
  | x_plus | x_minus | y_plus | y_minus | z_plus | z_minus
  deriving DecidableEq

/-- Function `Graph::opposite_direction`. -/
def direction.opposite_direction : direction → direction
  | .x_plus => .x_minus
  | .x_minus => .x_plus
  | .y_plus => .y_minus
  | .y_minus => .y_plus
  | .z_plus => .z_minus
  | .z_minus => .z_plus

/-- The six directions as `static_cast<direction>(i)` yields them for `i = 0..5`. -/
def direction.all : List direction :=
  [.x_plus, .x_minus, .y_plus, .y_minus, .z_plus, .z_minus]

/-- Class `Graph`: the three dimensions and the capacity vector. -/
structure Graph where
  dim_x : Nat
  dim_y : Nat
  dim_z : Nat
  capacities : List Int

namespace Graph

/-- Method `Graph::count_nodes`. -/
def count_nodes (g : Graph) : Nat := g.dim_x * g.dim_y * g.dim_z

/-- Method `Graph::count_edges`. -/
def count_edges (g : Graph) : Nat :=
  g.dim_x * g.dim_y * (g.dim_z - 1) + g.dim_x * (g.dim_y - 1) * g.dim_z
    + (g.dim_x - 1) * g.dim_y * g.dim_z

/-- Constructor `Graph::Graph`: all capacities start at zero. -/
def create (dim_x dim_y dim_z : Nat) : Graph :=
  { dim_x := dim_x, dim_y := dim_y, dim_z := dim_z,
    capacities := List.replicate
      (dim_x * dim_y * (dim_z - 1) + dim_x * (dim_y - 1) * dim_z + (dim_x - 1) * dim_y * dim_z) 0 }

/-- What the constructor establishes: positive dimensions, one capacity per edge. -/
def wf (g : Graph) : Prop :=
  1 ≤ g.dim_x ∧ 1 ≤ g.dim_y ∧ 1 ≤ g.dim_z ∧ g.capacities.length = g.count_edges

/-- Method `Graph::get_nodeindex_from_position`. -/
def get_nodeindex_from_position (g : Graph) (x y z : Nat) : Nat :=
  x * g.dim_y * g.dim_z + y * g.dim_z + z

/-- Method `Graph::get_position_from_nodeindex`. -/
def get_position_from_nodeindex (g : Graph) (nodeindex : Nat) : Nat × Nat × Nat :=
  (nodeindex / (g.dim_y * g.dim_z),
   nodeindex % (g.dim_y * g.dim_z) / g.dim_z,
   nodeindex % (g.dim_y * g.dim_z) % g.dim_z)

/-- Method `Graph::is_direction_possible`. -/
def is_direction_possible (g : Graph) (nodeindex : Nat) (dir : direction) : Bool :=
  match g.get_position_from_nodeindex nodeindex, dir with
  | (x, _, _), .x_plus => decide (x < g.dim_x - 1)
  | (x, _, _), .x_minus => decide (1 ≤ x)
  | (_, y, _), .y_plus => decide (y < g.dim_y - 1)
  | (_, y, _), .y_minus => decide (1 ≤ y)
  | (_, _, z), .z_plus => decide (z < g.dim_z - 1)
  | (_, _, z), .z_minus => decide (1 ≤ z)

/-- Method `Graph::get_neighbor`. -/
def get_neighbor (g : Graph) (nodeindex : Nat) (dir : direction) : Nat :=
  match g.get_position_from_nodeindex nodeindex, dir with
  | (x, y, z), .x_plus => g.get_nodeindex_from_position (x + 1) y z
  | (x, y, z), .x_minus => g.get_nodeindex_from_position (x - 1) y z
  | (x, y, z), .y_plus => g.get_nodeindex_from_position x (y + 1) z
  | (x, y, z), .y_minus => g.get_nodeindex_from_position x (y - 1) z
  | (x, y, z), .z_plus => g.get_nodeindex_from_position x y (z + 1)
  | (x, y, z), .z_minus => g.get_nodeindex_from_position x y (z - 1)

/-- Method `Graph::get_edgeindex_from_node_and_direction`: a minus direction is
first turned into the plus direction of the node one step back. -/
def get_edgeindex_from_node_and_direction (g : Graph) (nodeindex : Nat) (dir : direction) : Nat :=
  match g.get_position_from_nodeindex nodeindex, dir with
  | (x, y, z), .x_plus => x * g.dim_y * g.dim_z + y * g.dim_z + z
  | (x, y, z), .x_minus => (x - 1) * g.dim_y * g.dim_z + y * g.dim_z + z
  | (x, y, z), .y_plus =>
      (g.dim_x - 1) * g.dim_y * g.dim_z + (y * g.dim_x * g.dim_z + x * g.dim_z + z)
  | (x, y, z), .y_minus =>
      (g.dim_x - 1) * g.dim_y * g.dim_z + ((y - 1) * g.dim_x * g.dim_z + x * g.dim_z + z)
  | (x, y, z), .z_plus =>
      (g.dim_x - 1) * g.dim_y * g.dim_z + g.dim_x * (g.dim_y - 1) * g.dim_z
        + (z * g.dim_x * g.dim_y + x * g.dim_y + y)
  | (x, y, z), .z_minus =>
      (g.dim_x - 1) * g.dim_y * g.dim_z + g.dim_x * (g.dim_y - 1) * g.dim_z
        + ((z - 1) * g.dim_x * g.dim_y + x * g.dim_y + y)

/-- Method `Graph::get_edgeindices_from_node`: the edges of the possible
directions, in enumerator order. -/
def get_edgeindices_from_node (g : Graph) (nodeindex : Nat) : List Nat :=
  (direction.all.filter (fun dir => g.is_direction_possible nodeindex dir)).map
    (fun dir => g.get_edgeindex_from_node_and_direction nodeindex dir)

/-- Method `Graph::get_nodes_of_edge`: base node and its neighbour in the plus
direction of the index range the edge lies in. -/
def get_nodes_of_edge (g : Graph) (edge_index : Nat) : Nat × Nat :=
  if edge_index < (g.dim_x - 1) * g.dim_y * g.dim_z then
    let e := edge_index
    let x := e / (g.dim_y * g.dim_z)
    let y := e % (g.dim_y * g.dim_z) / g.dim_z
    let z := e % (g.dim_y * g.dim_z) % g.dim_z
    let base_node := g.get_nodeindex_from_position x y z
    (base_node, g.get_neighbor base_node .x_plus)
  else if edge_index < (g.dim_x - 1) * g.dim_y * g.dim_z + g.dim_x * (g.dim_y - 1) * g.dim_z then
    let e := edge_index - (g.dim_x - 1) * g.dim_y * g.dim_z
    let y := e / (g.dim_x * g.dim_z)
    let x := e % (g.dim_x * g.dim_z) / g.dim_z
    let z := e % (g.dim_x * g.dim_z) % g.dim_z
    let base_node := g.get_nodeindex_from_position x y z
    (base_node, g.get_neighbor base_node .y_plus)
  else
    let e := edge_index - (g.dim_x - 1) * g.dim_y * g.dim_z - g.dim_x * (g.dim_y - 1) * g.dim_z
    let z := e / (g.dim_x * g.dim_y)
    let x := e % (g.dim_x * g.dim_y) / g.dim_y
    let y := e % (g.dim_x * g.dim_y) % g.dim_y
    let base_node := g.get_nodeindex_from_position x y z
    (base_node, g.get_neighbor base_node .z_plus)

/-- Method `Graph::get_edge_direction`: read off the positions of the two end
nodes; `none` when no case applies (the source then reaches `assert(false)`).
The tests `x1 == x2-1` are written `x1 + 1 = x2` so that they mean the same
over the naturals. -/
def get_edge_direction (g : Graph) (edge_index : Nat) : Option direction :=
  match g.get_position_from_nodeindex (g.get_nodes_of_edge edge_index).1,
        g.get_position_from_nodeindex (g.get_nodes_of_edge edge_index).2 with
  | (x1, y1, z1), (x2, y2, z2) =>
    if x1 + 1 = x2 ∧ y1 = y2 ∧ z1 = z2 then some .x_plus
    else if x1 = x2 + 1 ∧ y1 = y2 ∧ z1 = z2 then some .x_plus
    else if x1 = x2 ∧ y1 + 1 = y2 ∧ z1 = z2 then some .y_plus
    else if x1 = x2 ∧ y1 = y2 + 1 ∧ z1 = z2 then some .y_plus
    else if x1 = x2 ∧ y1 = y2 ∧ z1 + 1 = z2 then some .z_plus
    else if x1 = x2 ∧ y1 = y2 ∧ z1 = z2 + 1 then some .z_plus
    else none

/-- Method `Graph::get_capacity`. -/
def get_capacity (g : Graph) (edgeindex : Nat) : Int := g.capacities.getD edgeindex 0

/-- Method `Graph::set_capacity`. -/
def set_capacity (g : Graph) (edgeindex : Nat) (new_capacity : Int) : Graph :=
  { g with capacities := g.capacities.set edgeindex new_capacity }

end Graph

/-! ## grp.hpp -/

/-- Struct `Grid`. -/
structure Grid where
  x_grids : Int
  y_grids : Int
  layers : Int

/-- Struct `Capacity`. -/
structure Capacity where
  vertical : List Int
  horizontal : List Int

/-- Struct `Dimension`. -/
structure Dimension where
  minimum_width : List Int
  minimum_spacing : List Int
  via_spacing : List Int

/-- Struct `TileInfo`. -/
structure TileInfo where
  lower_left_x : Int
  lower_left_y : Int
  tile_width : Int
  tile_height : Int

/-- Struct `Pin`; the layer is zero-based. -/
structure Pin where
  x : Int
  y : Int
  layer : Int

/-- Struct `Net`. -/
structure Net where
  name : String
  id : Int
  num_pins : Int
  minimum_width : Int
  pins : List Pin

/-- Struct `CapacityAdjustment`; layers are zero-based. -/
structure CapacityAdjustment where
  col_start : Int
  row_start : Int
  layer_start : Int
  col_end : Int
  row_end : Int
  layer_end : Int
  adjusted_capacity : Int

/-- Class `GlobalRoutingProblem`. -/
structure GlobalRoutingProblem where
  grid : Grid
  capacity : Capacity
  dimension : Dimension
  tileInfo : TileInfo
  nets : List Net
  capacityAdjustments : List CapacityAdjustment

namespace GlobalRoutingProblem

/-- Method `GlobalRoutingProblem::check`: the outcome of its tests, which is
the value it returns when it gets past its `assert` lines on the signs of
capacities and design rules (`check_assertions`). The method as it runs, with
these assertions, is `check_run`. -/
def check (p : GlobalRoutingProblem) : Bool :=
  if p.grid.x_grids ≤ 0 ∨ p.grid.y_grids ≤ 0 ∨ p.grid.layers ≤ 0 then false
  else if (p.capacity.vertical.length : Int) ≠ p.grid.layers
      ∨ (p.capacity.horizontal.length : Int) ≠ p.grid.layers then false
  else if (p.dimension.minimum_width.length : Int) ≠ p.grid.layers
      ∨ (p.dimension.minimum_spacing.length : Int) ≠ p.grid.layers
      ∨ (p.dimension.via_spacing.length : Int) ≠ p.grid.layers then false
  else if p.tileInfo.tile_width ≤ 0 ∨ p.tileInfo.tile_height ≤ 0 then false
  else if p.nets.any (fun net =>
      decide (net.num_pins ≠ (net.pins.length : Int)) ||
      net.pins.any (fun pin =>
        decide (pin.layer < 0 ∨ pin.layer ≥ p.grid.layers) ||
        decide (pin.x < p.tileInfo.lower_left_x
          ∨ pin.x > p.tileInfo.lower_left_x + p.grid.x_grids * p.tileInfo.tile_width
          ∨ pin.y < p.tileInfo.lower_left_y
          ∨ pin.y > p.tileInfo.lower_left_y + p.grid.y_grids * p.tileInfo.tile_height))) then false
  else if p.capacityAdjustments.any (fun capAdj =>
      decide (capAdj.col_start < 0 ∨ capAdj.col_start ≥ p.grid.x_grids
        ∨ capAdj.row_start < 0 ∨ capAdj.row_start ≥ p.grid.y_grids
        ∨ capAdj.layer_start < 0 ∨ capAdj.layer_start ≥ p.grid.layers
        ∨ capAdj.col_end < 0 ∨ capAdj.col_end ≥ p.grid.x_grids
        ∨ capAdj.row_end < 0 ∨ capAdj.row_end ≥ p.grid.y_grids
        ∨ capAdj.layer_end < 0 ∨ capAdj.layer_end ≥ p.grid.layers)) then false
  else true

/-- Method `GlobalRoutingProblem::tile_of_coordinate`: the floor of the
quotient. The source takes the quotient in `float`; its floor is the exact one
when the difference is not negative and the difference and the tile size are
below `2^24`. -/
def tile_of_coordinate (p : GlobalRoutingProblem) (x y : Int) : Int × Int :=
  (Int.fdiv (x - p.tileInfo.lower_left_x) p.tileInfo.tile_width,
   Int.fdiv (y - p.tileInfo.lower_left_y) p.tileInfo.tile_height)

end GlobalRoutingProblem

/-! ## priority_queue.hpp -/

/-- Struct `PriorityQueue::Entry`. -/
structure Entry (V P : Type) where
  value : V
  priority : P

namespace Entry

variable {V P : Type} [LinearOrder V] [LinearOrder P]

/-- Comparison `Entry::operator<`: lexicographic on (priority, value). -/
def lt (a b : Entry V P) : Prop :=
  a.priority < b.priority ∨ (a.priority = b.priority ∧ a.value < b.value)

instance (a b : Entry V P) : Decidable (a.lt b) := by
  unfold Entry.lt
  infer_instance

end Entry

namespace PriorityQueue

variable {V P : Type} [LinearOrder V] [LinearOrder P]

/-- The call `swap( heap[i], heap[j] )`. -/
def swap {α : Type} (heap : List α) (i j : Nat) : List α :=
  match heap[i]?, heap[j]? with
  | some a, some b => (heap.set i b).set j a
  | _, _ => heap

/-- The test `heap[i] < heap[j]`. -/
def ltAt (heap : List (Entry V P)) (i j : Nat) : Bool :=
  match heap[i]?, heap[j]? with
  | some a, some b => decide (a.lt b)
  | _, _ => false

/-- Loop of `heapifyUp`; every round moves `index` to its parent, so `index`
rounds of fuel are enough. -/
def heapifyUpAux : Nat → List (Entry V P) → Nat → List (Entry V P)
  | 0, heap, _ => heap
  | fuel + 1, heap, index =>
    if 0 < index then
      if ltAt heap index ((index - 1) / 2) then
        heapifyUpAux fuel (swap heap index ((index - 1) / 2)) ((index - 1) / 2)
      else heap
    else heap

/-- Method `PriorityQueue::heapifyUp` (the heap it leaves; the index it returns
is not used by any caller). -/
def heapifyUp (heap : List (Entry V P)) (index : Nat) : List (Entry V P) :=
  heapifyUpAux index heap index

/-- The index `smallest` that one round of `heapifyDown` computes. -/
def smallestOf (heap : List (Entry V P)) (index : Nat) : Nat :=
  let leftChild := 2 * index + 1
  let rightChild := 2 * index + 2
  let smallest := if leftChild < heap.length ∧ ltAt heap leftChild index then leftChild else index
  if rightChild < heap.length ∧ ltAt heap rightChild smallest then rightChild else smallest

/-- Loop of `heapifyDown`; every round moves `index` to a child, so
`heap.size()` rounds of fuel are enough. -/
def heapifyDownAux : Nat → List (Entry V P) → Nat → List (Entry V P)
  | 0, heap, _ => heap
  | fuel + 1, heap, index =>
    if smallestOf heap index ≠ index then
      heapifyDownAux fuel (swap heap index (smallestOf heap index)) (smallestOf heap index)
    else heap

/-- Method `PriorityQueue::heapifyDown` (the heap it leaves). -/
def heapifyDown (heap : List (Entry V P)) (index : Nat) : List (Entry V P) :=
  heapifyDownAux heap.length heap index

/-- Method `PriorityQueue::contains`. -/
def contains (heap : List (Entry V P)) (value : V) : Bool :=
  heap.any (fun entry => decide (entry.value = value))

/-- Method `PriorityQueue::push`. -/
def push (heap : List (Entry V P)) (value : V) (priority : P) : List (Entry V P) :=
  heapifyUp (heap ++ [⟨value, priority⟩]) heap.length

/-- Method `PriorityQueue::pop`: the top entry and the heap left; `none` on an
empty queue, where the source exits. -/
def pop (heap : List (Entry V P)) : Option (Entry V P × List (Entry V P)) :=
  match heap with
  | [] => none
  | top :: rest =>
    let heap1 := ((top :: rest).set 0 ((top :: rest).getLast (List.cons_ne_nil top rest))).dropLast
    some (top, if heap1.isEmpty then heap1 else heapifyDown heap1 0)

/-- Method `PriorityQueue::setPriority`: `none` when no entry carries the value,
where the source exits. -/
def setPriority (heap : List (Entry V P)) (value : V) (new_priority : P) :
    Option (List (Entry V P)) :=
  match heap[heap.findIdx (fun entry => decide (entry.value = value))]? with
  | none => none
  | some it =>
    let index := heap.findIdx (fun entry => decide (entry.value = value))
    let heap1 := heap.set index { it with priority := new_priority }
    if it.priority > new_priority then some (heapifyUp heap1 index)
    else if it.priority < new_priority then some (heapifyDown heap1 index)
    else some heap1

end PriorityQueue

/-! ## connector.hpp -/

/-- The value `other_node` of `create_search_forest`: the end of the edge that
is not `current_node`. -/
def Graph.other_node (g : Graph) (edgeindex current_node : Nat) : Nat :=
  if (g.get_nodes_of_edge edgeindex).1 = current_node then (g.get_nodes_of_edge edgeindex).2
  else (g.get_nodes_of_edge edgeindex).1

/-- Struct `BoundingBox`. -/
structure BoundingBox where
  minx : Int
  maxx : Int
  miny : Int
  maxy : Int
  minz : Int
  maxz : Int

/-- The test `BB.minx > x or BB.maxx < x or ...` of the search. -/
def BoundingBox.outside (BB : BoundingBox) (pos : Nat × Nat × Nat) : Bool :=
  decide (BB.minx > (pos.1 : Int) ∨ BB.maxx < (pos.1 : Int)
    ∨ BB.miny > (pos.2.1 : Int) ∨ BB.maxy < (pos.2.1 : Int)
    ∨ BB.minz > (pos.2.2 : Int) ∨ BB.maxz < (pos.2.2 : Int))

/-- The call `std::set<int>::insert` on an ascending duplicate-free list. -/
def set_insert (a : Nat) : List Nat → List Nat
  | [] => [a]
  | b :: l => if a < b then a :: b :: l else if a = b then b :: l else b :: set_insert a l

/-- The three lines `std::sort`, `std::unique`, `erase` of `connect`: the
values of the list in ascending order, each once. -/
def sort_unique (nodes : List Nat) : List Nat := nodes.foldr set_insert []

/-- Assignment `v[i] = a` on a vector that is read through indices only. -/
def assign {α : Type} (v : Nat → α) (i : Nat) (a : α) : Nat → α :=
  fun j => if j = i then a else v j

/-- Class `Connector`. The field `emergency_log` counts the lines
`EMERGENCY MODE` written to `std::clog`. -/
structure Connector where
  problem : GlobalRoutingProblem
  graph : Graph
  queued : Nat → Int
  preceding_node : Nat → Option Nat
  relevant_edge : Nat → Option Nat
  distance : Nat → Nat
  pq : List (Entry Nat Nat)
  current_iteration : Int
  aggregated_width : Nat → Int
  emergency_log : Nat

namespace Connector

/-- Constructor `Connector::Connector`. The `NaN` that fills `distance` is never
read; it is 0 here. -/
def create (problem : GlobalRoutingProblem) (graph : Graph) : Connector :=
  { problem := problem, graph := graph,
    queued := fun _ => -1, preceding_node := fun _ => none, relevant_edge := fun _ => none,
    distance := fun _ => 0, pq := [], current_iteration := 0,
    aggregated_width := fun _ => 0, emergency_log := 0 }

/-- The capacity a net of width `min_net_width` takes on an edge that is not a
via: `min_spacing + std::max(min_width, min_net_width)` on the layer of the
edge's first node. -/
def required_capacity (c : Connector) (min_net_width : Int) (edgeindex : Nat) : Int :=
  let z1 := (c.graph.get_position_from_nodeindex (c.graph.get_nodes_of_edge edgeindex).1).2.2
  c.problem.dimension.minimum_spacing.getD z1 0
    + max (c.problem.dimension.minimum_width.getD z1 0) min_net_width

/-- The weight of an edge of direction `dir`: its length, which is one for
each of the three axes, plus, outside respect-capacity mode,
`capacity_penalty_factor * std::max(0.f, aggregated_width - capacity)`. -/
def edge_weight (c : Connector) (respect_capacity : Bool) (capacity_penalty_factor : Nat)
    (dir : direction) (edgeindex : Nat) : Nat :=
  ((if dir = .x_plus then 1 else 0) + (if dir = .y_plus then 1 else 0)
      + (if dir = .z_plus then 1 else 0))
    + (if respect_capacity then 0
       else capacity_penalty_factor
         * (c.aggregated_width edgeindex - c.graph.get_capacity edgeindex).toNat)

/-- What the block `if( current_direction != Graph::direction::z_plus )` in
the body of the loop over the edges needs to get to its end: the sum
`min_spacing + std::max(min_width,min_net_width)` is a value of `int`,
`assert( 0 <= aggregated_width[edgeindex] )` holds, and in respect-capacity
mode the sum `aggregated_width[edgeindex] + required_capacity` of the capacity
test is a value of `int`. -/
def block_asserts (c : Connector) (min_net_width : Int) (respect_capacity : Bool)
    (edgeindex : Nat) : Prop :=
  fits_int (c.required_capacity min_net_width edgeindex)
    ∧ 0 ≤ c.aggregated_width edgeindex
    ∧ (respect_capacity = true →
        fits_int (c.aggregated_width edgeindex + c.required_capacity min_net_width edgeindex))

instance (c : Connector) (min_net_width : Int) (respect_capacity : Bool) (edgeindex : Nat) :
    Decidable (c.block_asserts min_net_width respect_capacity edgeindex) := by
  unfold block_asserts
  infer_instance

/-- The two assertions that follow the capacity test in respect-capacity mode:
`required_capacity + aggregated_width[edgeindex] <= current_edge_capacity` and
`current_edge_capacity > 0`; `required_capacity` is 0 for an edge in z
direction. -/
def capacity_asserts (c : Connector) (min_net_width : Int) (current_direction : direction)
    (edgeindex : Nat) : Prop :=
  (if current_direction ≠ .z_plus then c.required_capacity min_net_width edgeindex else 0)
      + c.aggregated_width edgeindex ≤ c.graph.get_capacity edgeindex
    ∧ c.graph.get_capacity edgeindex > 0

instance (c : Connector) (min_net_width : Int) (current_direction : direction)
    (edgeindex : Nat) : Decidable (c.capacity_asserts min_net_width current_direction edgeindex) := by
  unfold capacity_asserts
  infer_instance

/-- Body of the loop over the edges of `current_node` in `create_search_forest`.
`none` where the program stops: at a failing assertion of the block for edges
that are not vias (`block_asserts`), at one of the two assertions after the
capacity test (`capacity_asserts`), or in `setPriority`. -/
def relax (min_net_width : Int) (BB : BoundingBox) (respect_capacity : Bool)
    (capacity_penalty_factor : Nat) (current_node : Nat)
    (c : Connector) (edgeindex : Nat) : Option Connector :=
  let other_node := c.graph.other_node edgeindex current_node
  if respect_capacity ∧ BB.outside (c.graph.get_position_from_nodeindex other_node) then some c
  else
    match c.graph.get_edge_direction edgeindex with
    | none => none
    | some current_direction =>
      if current_direction ≠ .z_plus
          ∧ ¬ c.block_asserts min_net_width respect_capacity edgeindex then none
      else if current_direction ≠ .z_plus ∧ respect_capacity
          ∧ c.aggregated_width edgeindex + c.required_capacity min_net_width edgeindex
              > c.graph.get_capacity edgeindex then some c
      else if respect_capacity
          ∧ ¬ c.capacity_asserts min_net_width current_direction edgeindex then none
      else
        let new_distance := c.distance current_node
          + c.edge_weight respect_capacity capacity_penalty_factor current_direction edgeindex
        if c.queued other_node < c.current_iteration then
          some { c with
            pq := PriorityQueue.push c.pq other_node new_distance
            queued := assign c.queued other_node c.current_iteration
            distance := assign c.distance other_node new_distance
            preceding_node := assign c.preceding_node other_node (some current_node)
            relevant_edge := assign c.relevant_edge other_node (some edgeindex) }
        else if c.queued other_node = c.current_iteration ∧ new_distance < c.distance other_node then
          match PriorityQueue.setPriority c.pq other_node new_distance with
          | none => none
          | some pq1 =>
            some { c with
              pq := pq1
              distance := assign c.distance other_node new_distance
              preceding_node := assign c.preceding_node other_node (some current_node)
              relevant_edge := assign c.relevant_edge other_node (some edgeindex) }
        else some c

/-- The loop `for( const auto edgeindex : edges )` of `create_search_forest`. -/
def relax_all (min_net_width : Int) (BB : BoundingBox) (respect_capacity : Bool)
    (capacity_penalty_factor : Nat) (current_node : Nat) :
    Connector → List Nat → Option Connector
  | c, [] => some c
  | c, edgeindex :: edges =>
    match relax min_net_width BB respect_capacity capacity_penalty_factor current_node c edgeindex with
    | none => none
    | some c1 =>
      relax_all min_net_width BB respect_capacity capacity_penalty_factor current_node c1 edges

/-- The loop `while( not active_T.empty() )` of `create_search_forest`, up to
the point where it ends or finds the queue empty. The result is the state and
`true` when no target is left, `false` when the queue ran empty first. -/
def search_loop (min_net_width : Int) (BB : BoundingBox) (respect_capacity : Bool)
    (capacity_penalty_factor : Nat) : Nat → Connector → List Nat → Option (Bool × Connector)
  | 0, c, active_T =>
    if active_T.isEmpty then some (true, c)
    else if c.pq.isEmpty then some (false, c)
    else none
  | fuel + 1, c, active_T =>
    if active_T.isEmpty then some (true, c)
    else
      match PriorityQueue.pop c.pq with
      | none => some (false, c)
      | some (current_entry, pq1) =>
        match relax_all min_net_width BB respect_capacity capacity_penalty_factor
            current_entry.value { c with pq := pq1 }
            (c.graph.get_edgeindices_from_node current_entry.value) with
        | none => none
        | some c1 =>
          search_loop min_net_width BB respect_capacity capacity_penalty_factor fuel c1
            (active_T.erase current_entry.value)

/-- The loop `for( int s : S )` that enters the sources into the queue. -/
def push_sources : Connector → List Nat → Option Connector
  | c, [] => some c
  | c, s :: S =>
    if s < c.graph.count_nodes then
      push_sources { c with
        pq := PriorityQueue.push c.pq s 0
        queued := assign c.queued s c.current_iteration
        preceding_node := assign c.preceding_node s none
        relevant_edge := assign c.relevant_edge s none
        distance := assign c.distance s 0 } S
    else none

/-- The loop `while( preceding_node[p] != -1 )` of the tree extraction; a chain
visits no node twice, so `count_nodes` rounds of fuel are enough. -/
def walk_back (c : Connector) : Nat → Nat → List Nat → Option (List Nat)
  | 0, p, ret => if c.preceding_node p = none then some ret else none
  | fuel + 1, p, ret =>
    match c.preceding_node p with
    | none => some ret
    | some q =>
      match c.relevant_edge p with
      | none => none
      | some edgeindex => walk_back c fuel q (set_insert edgeindex ret)

/-- The loop `for( const auto t : T )` of the tree extraction. -/
def collect_edges (c : Connector) : List Nat → List Nat → Option (List Nat)
  | [], ret => some ret
  | t :: T, ret =>
    match walk_back c c.graph.count_nodes t ret with
    | none => none
    | some ret1 => collect_edges c T ret1

/-- The assertions at the head of `create_search_forest`:
`capacity_penalty_factor >= 0. and min_net_width >= 0`, of which the first
holds of every natural number, and, after `current_iteration++`,
`current_iteration >= 0`; the incremented counter is a value of `int`. -/
def head_asserts (c : Connector) (min_net_width : Int) : Prop :=
  0 ≤ min_net_width ∧ fits_int (c.current_iteration + 1) ∧ 0 ≤ c.current_iteration + 1

instance (c : Connector) (min_net_width : Int) : Decidable (c.head_asserts min_net_width) := by
  unfold head_asserts
  infer_instance

/-- One activation of `create_search_forest` up to its `return`: the edge set
when the search ended with all targets found, `none` inside when the queue ran
empty (where the source calls itself again or stops). `none` where an
assertion fails. -/
def search_pass (c : Connector) (S T : List Nat) (min_net_width : Int) (BB : BoundingBox)
    (respect_capacity : Bool) (capacity_penalty_factor : Nat) :
    Option (Option (List Nat) × Connector) :=
  if ¬ c.head_asserts min_net_width then none
  else
  match push_sources { c with pq := [], current_iteration := c.current_iteration + 1 } S with
  | none => none
  | some c0 =>
    match search_loop min_net_width BB respect_capacity capacity_penalty_factor
        c0.graph.count_nodes c0 T with
    | none => none
    | some (false, c1) => some (none, c1)
    | some (true, c1) =>
      match collect_edges c1 T [] with
      | none => none
      | some ret => some (some ret, c1)

/-- Method `Connector::create_search_forest`. When the pass in respect-capacity
mode finds the queue empty it logs `EMERGENCY MODE` and runs the pass again
without respect for capacities; that second pass must not find the queue
empty. The caller passes the penalty factor; `connect` uses the default 10. -/
def create_search_forest (c : Connector) (S T : List Nat) (min_net_width : Int)
    (BB : BoundingBox) (respect_capacity : Bool) (capacity_penalty_factor : Nat) :
    Option (List Nat × Connector) :=
  match search_pass c S T min_net_width BB respect_capacity capacity_penalty_factor with
  | none => none
  | some (some ret, c1) => some (ret, c1)
  | some (none, c1) =>
    if respect_capacity then
      match search_pass { c1 with emergency_log := c1.emergency_log + 1 } S T min_net_width BB
          false capacity_penalty_factor with
      | some (some ret, c2) => some (ret, c2)
      | _ => none
    else none

/-- The node of a pin in `connect`: `tile_of_coordinate`, then
`get_nodeindex_from_position`; `none` when the tile or the layer is outside the
grid, which both functions assert and which would index outside the vectors. -/
def pin_node (c : Connector) (pin : Pin) : Option Nat :=
  let tile_xy := c.problem.tile_of_coordinate pin.x pin.y
  if 0 ≤ tile_xy.1 ∧ tile_xy.1 < c.problem.grid.x_grids
      ∧ 0 ≤ tile_xy.2 ∧ tile_xy.2 < c.problem.grid.y_grids
      ∧ tile_xy.1 < c.graph.dim_x ∧ tile_xy.2 < c.graph.dim_y
      ∧ 0 ≤ pin.layer ∧ pin.layer < c.graph.dim_z then
    some (c.graph.get_nodeindex_from_position tile_xy.1.toNat tile_xy.2.toNat pin.layer.toNat)
  else none

/-- The loop over the pins of a net in `connect`. -/
def pin_nodes (c : Connector) : List Pin → Option (List Nat)
  | [] => some []
  | pin :: pins =>
    match pin_node c pin, pin_nodes c pins with
    | some nodeindex, some nodes => some (nodeindex :: nodes)
    | _, _ => none

/-- The bounding box of `connect`: the hull of the nodes, widened by 10 on
every side and cut to the grid. -/
def bounding_box (c : Connector) (nodes : List Nat) : BoundingBox :=
  let BB0 : BoundingBox :=
    { minx := c.problem.grid.x_grids, maxx := 0,
      miny := c.problem.grid.y_grids, maxy := 0,
      minz := c.problem.grid.layers, maxz := 0 }
  let BB1 := nodes.foldl (fun (BB : BoundingBox) nodeindex =>
    let pos := c.graph.get_position_from_nodeindex nodeindex
    { minx := min (pos.1 : Int) BB.minx, maxx := max (pos.1 : Int) BB.maxx,
      miny := min (pos.2.1 : Int) BB.miny, maxy := max (pos.2.1 : Int) BB.maxy,
      minz := min (pos.2.2 : Int) BB.minz, maxz := max (pos.2.2 : Int) BB.maxz }) BB0
  { maxx := min (BB1.maxx + 10) (c.problem.grid.x_grids - 1),
    maxy := min (BB1.maxy + 10) (c.problem.grid.y_grids - 1),
    maxz := min (BB1.maxz + 10) (c.problem.grid.layers - 1),
    minx := max (BB1.minx - 10) 0,
    miny := max (BB1.miny - 10) 0,
    minz := max (BB1.minz - 10) 0 }

/-- The value `required_capacity` of the update loop in `connect`:
`std::max( min_net_width, minimum_width[z1] ) + minimum_spacing[z1]` on the
layer of the edge's first node. -/
def commit_capacity (c : Connector) (min_net_width : Int) (edgeindex : Nat) : Int :=
  let z1 := (c.graph.get_position_from_nodeindex (c.graph.get_nodes_of_edge edgeindex).1).2.2
  max min_net_width (c.problem.dimension.minimum_width.getD z1 0)
    + c.problem.dimension.minimum_spacing.getD z1 0

/-- What the body of the update loop of `connect` needs to get to its end for
an edge that is not a via: `required_capacity` is a value of `int`,
`assert( required_capacity >= 0 )`, `assert( aggregated_width[edgeindex] >= 0 )`
before the addition, the sum is a value of `int`, and
`assert( aggregated_width[edgeindex] >= 0 )` after the addition. -/
def commit_asserts (c : Connector) (min_net_width : Int) (edgeindex : Nat) : Prop :=
  fits_int (c.commit_capacity min_net_width edgeindex)
    ∧ c.commit_capacity min_net_width edgeindex ≥ 0
    ∧ c.aggregated_width edgeindex ≥ 0
    ∧ fits_int (c.aggregated_width edgeindex + c.commit_capacity min_net_width edgeindex)
    ∧ c.aggregated_width edgeindex + c.commit_capacity min_net_width edgeindex ≥ 0

instance (c : Connector) (min_net_width : Int) (edgeindex : Nat) :
    Decidable (c.commit_asserts min_net_width edgeindex) := by
  unfold commit_asserts
  infer_instance

/-- The loop `for( const auto edgeindex : edgeindices )` of `connect` that
updates the aggregated widths; `none` where one of its assertions fails. -/
def commit (min_net_width : Int) : Connector → List Nat → Option Connector
  | c, [] => some c
  | c, edgeindex :: edgeindices =>
    match c.graph.get_edge_direction edgeindex with
    | none => none
    | some edge_orientation =>
      if edge_orientation = .z_plus then commit min_net_width c edgeindices
      else if ¬ c.commit_asserts min_net_width edgeindex then none
      else
        commit min_net_width
          { c with
            aggregated_width := assign c.aggregated_width edgeindex
              (c.aggregated_width edgeindex + c.commit_capacity min_net_width edgeindex) }
          edgeindices

/-- Body of the loop over the nets in `connect`: the tree of one net and the
state after it. -/
def connect_net (c : Connector) (net : Net) : Option (List Nat × Connector) :=
  if net.pins.isEmpty then some ([], c)
  else
    match pin_nodes c net.pins with
    | none => none
    | some nodes0 =>
      let nodes := sort_unique nodes0
      let BB := bounding_box c nodes
      let S := nodes.take 1
      let T := nodes.drop 1
      match create_search_forest c S T net.minimum_width BB true 10 with
      | none => none
      | some (edgeindices, c1) =>
        match commit net.minimum_width c1 edgeindices with
        | none => none
        | some c2 => some (edgeindices, c2)

/-- The loop over the nets in `connect`, on a list of nets. -/
def connect_nets : Connector → List Net → Option (List (List Nat) × Connector)
  | c, [] => some ([], c)
  | c, net :: nets =>
    match connect_net c net with
    | none => none
    | some (tree, c1) =>
      match connect_nets c1 nets with
      | none => none
      | some (trees, c2) => some (tree :: trees, c2)

/-- Method `Connector::connect`. -/
def connect (c : Connector) : Option (List (List Nat) × Connector) :=
  connect_nets c c.problem.nets

end Connector

/-! ## Vocabulary of the statements -/

namespace Graph

/-- Index of the first edge of the Y range. -/
def offset_y (g : Graph) : Nat := (g.dim_x - 1) * g.dim_y * g.dim_z

/-- Index of the first edge of the Z range. -/
def offset_z (g : Graph) : Nat :=
  (g.dim_x - 1) * g.dim_y * g.dim_z + g.dim_x * (g.dim_y - 1) * g.dim_z

/-- The edge `e` runs from position `(x, y, z)` one step along the x axis. -/
def is_x_edge (g : Graph) (e x y z : Nat) : Prop :=
  x + 1 < g.dim_x ∧ y < g.dim_y ∧ z < g.dim_z
    ∧ e = x * g.dim_y * g.dim_z + y * g.dim_z + z
    ∧ g.get_nodes_of_edge e
        = (g.get_nodeindex_from_position x y z, g.get_nodeindex_from_position (x + 1) y z)

/-- The edge `e` runs from position `(x, y, z)` one step along the y axis. -/
def is_y_edge (g : Graph) (e x y z : Nat) : Prop :=
  x < g.dim_x ∧ y + 1 < g.dim_y ∧ z < g.dim_z
    ∧ e = g.offset_y + (y * g.dim_x * g.dim_z + x * g.dim_z + z)
    ∧ g.get_nodes_of_edge e
        = (g.get_nodeindex_from_position x y z, g.get_nodeindex_from_position x (y + 1) z)

/-- The edge `e` runs from position `(x, y, z)` one step along the z axis. -/
def is_z_edge (g : Graph) (e x y z : Nat) : Prop :=
  x < g.dim_x ∧ y < g.dim_y ∧ z + 1 < g.dim_z
    ∧ e = g.offset_z + (z * g.dim_x * g.dim_y + x * g.dim_y + y)
    ∧ g.get_nodes_of_edge e
        = (g.get_nodeindex_from_position x y z, g.get_nodeindex_from_position x y (z + 1))

end Graph

namespace Entry

variable {V P : Type} [LinearOrder V] [LinearOrder P]

/-- The pair an entry is ordered by, in the lexicographic order of pairs. -/
def key (a : Entry V P) : Lex (P × V) := toLex (a.priority, a.value)

end Entry

namespace PriorityQueue

variable {V P : Type} [LinearOrder V] [LinearOrder P]

/-- The key at an index of the heap array; indices past the end count as
larger than every key. -/
def keyAt (heap : List (Entry V P)) (i : Nat) : WithTop (Lex (P × V)) :=
  match heap[i]? with
  | some a => ((a.key : Lex (P × V)) : WithTop (Lex (P × V)))
  | none => ⊤

/-- The heap invariant: no entry is smaller than its parent. -/
def heap_ok (heap : List (Entry V P)) : Prop :=
  ∀ i, 0 < i → i < heap.length → ltAt heap i ((i - 1) / 2) = false

/-- The heap invariant everywhere but between `k` and its parent, where the
children of `k` are not smaller than the parent of `k`. -/
def up_inv (heap : List (Entry V P)) (k : Nat) : Prop :=
  (∀ i, 0 < i → i ≠ k → keyAt heap ((i - 1) / 2) ≤ keyAt heap i)
    ∧ (∀ i, 0 < i → (i - 1) / 2 = k → 0 < k → keyAt heap ((k - 1) / 2) ≤ keyAt heap i)

/-- The heap invariant everywhere but between `k` and its children, where the
children of `k` are not smaller than the parent of `k`. -/
def down_inv (heap : List (Entry V P)) (k : Nat) : Prop :=
  (∀ i, 0 < i → (i - 1) / 2 ≠ k → keyAt heap ((i - 1) / 2) ≤ keyAt heap i)
    ∧ (∀ i, 0 < i → (i - 1) / 2 = k → 0 < k → keyAt heap ((k - 1) / 2) ≤ keyAt heap i)

end PriorityQueue

namespace Graph

/-- Edge `e` has the end nodes `u` and `v`. -/
def joins (g : Graph) (e u v : Nat) : Prop :=
  g.get_nodes_of_edge e = (u, v) ∨ g.get_nodes_of_edge e = (v, u)

end Graph

namespace Connector

/-- Node `v` was entered into the queue in the current call. -/
def seen (c : Connector) (v : Nat) : Prop := c.queued v = c.current_iteration

/-- Node `v` has an entry in the queue. -/
def in_queue (c : Connector) (v : Nat) : Prop := v ∈ c.pq.map (fun entry => entry.value)

/-- Node `v` was entered into the queue in the current call and popped since. -/
def settled (c : Connector) (v : Nat) : Prop := c.seen v ∧ ¬ c.in_queue v

/-- The search does not skip edge `e` when it relaxes it from node `u`: in
respect-capacity mode the other end lies inside the bounding box and a
non-via edge has room for the net. -/
def usable (c : Connector) (min_net_width : Int) (BB : BoundingBox) (respect_capacity : Bool)
    (u e : Nat) : Prop :=
  ¬ (respect_capacity = true
      ∧ BB.outside (c.graph.get_position_from_nodeindex (c.graph.other_node e u)) = true)
    ∧ ¬ (c.graph.get_edge_direction e ≠ some .z_plus ∧ respect_capacity = true
      ∧ c.aggregated_width e + c.required_capacity min_net_width e > c.graph.get_capacity e)

/-- The weight the search gives edge `e`. -/
def weight (c : Connector) (respect_capacity : Bool) (capacity_penalty_factor : Nat)
    (e : Nat) : Nat :=
  match c.graph.get_edge_direction e with
  | some dir => c.edge_weight respect_capacity capacity_penalty_factor dir e
  | none => 0

/-- Two states agree in everything a search does not write. -/
def same_frame (c c1 : Connector) : Prop :=
  c1.problem = c.problem ∧ c1.graph = c.graph ∧ c1.current_iteration = c.current_iteration
    ∧ c1.aggregated_width = c.aggregated_width ∧ c1.emergency_log = c.emergency_log

/-- No assertion of the body of the loop over the edges that depends on the
input fails at edge `e`, from whichever node the search relaxes it. For an
edge that is not a via: the block for such edges gets to its end, and in
respect-capacity mode the capacity of the edge is positive when the edge has
room for the net. For a via in respect-capacity mode: the aggregated width is
at most the capacity, and the capacity is positive. -/
def edge_asserts (c : Connector) (min_net_width : Int) (respect_capacity : Bool)
    (e : Nat) : Prop :=
  (c.graph.get_edge_direction e ≠ some .z_plus →
      c.block_asserts min_net_width respect_capacity e
        ∧ (respect_capacity = true →
            c.aggregated_width e + c.required_capacity min_net_width e ≤ c.graph.get_capacity e →
            0 < c.graph.get_capacity e))
    ∧ (c.graph.get_edge_direction e = some .z_plus → respect_capacity = true →
        c.aggregated_width e ≤ c.graph.get_capacity e ∧ 0 < c.graph.get_capacity e)

instance (c : Connector) (min_net_width : Int) (respect_capacity : Bool) (e : Nat) :
    Decidable (c.edge_asserts min_net_width respect_capacity e) := by
  unfold edge_asserts
  infer_instance

/-- No assertion of a call of `create_search_forest` that depends on the input
fails: the width of the net is not negative, the iteration counter is not
negative and leaves room for the two activations of a call, and
`edge_asserts` holds of every edge of the graph. -/
structure search_asserts (c : Connector) (min_net_width : Int) (respect_capacity : Bool) :
    Prop where
  width : 0 ≤ min_net_width
  counter : 0 ≤ c.current_iteration ∧ c.current_iteration + 2 ≤ int_max
  edges : ∀ e, e < c.graph.count_edges → c.edge_asserts min_net_width respect_capacity e

/-- The `float` arithmetic of a search from state `c` is exact: the graph has
fewer than `2^24` nodes, and for a search without respect for capacities no
aggregated width reaches `2^24` and, with `W` a bound on the weights of the
edges, the product of `W` and the number of nodes stays below `2^24`, so that
every distance does. -/
def weights_exact (c : Connector) (respect_capacity : Bool) (capacity_penalty_factor : Nat) :
    Prop :=
  c.graph.count_nodes < 16777216
    ∧ (respect_capacity = false →
        (∀ e, e < c.graph.count_edges → c.aggregated_width e < 16777216)
          ∧ ∃ W : Nat, (∀ e, e < c.graph.count_edges →
                c.weight false capacity_penalty_factor e ≤ W)
              ∧ c.graph.count_nodes * W < 16777216)

/-- Invariant of the search loop of `create_search_forest`. `last` is the
distance of the node popped last. -/
structure SearchInv (S : List Nat) (min_net_width : Int) (BB : BoundingBox)
    (respect_capacity : Bool) (capacity_penalty_factor : Nat) (last : Nat) (c : Connector) :
    Prop where
  graph_wf : c.graph.wf
  heap : PriorityQueue.heap_ok c.pq
  nodup : (c.pq.map (fun entry => entry.value)).Nodup
  queued_le : ∀ v, c.queued v ≤ c.current_iteration
  pq_seen : ∀ entry ∈ c.pq,
    c.seen entry.value ∧ c.distance entry.value = entry.priority ∧ last ≤ entry.priority
  seen_lt : ∀ v, c.seen v → v < c.graph.count_nodes
  settled_le : ∀ v, c.settled v → c.distance v ≤ last
  sources : ∀ s ∈ S, c.seen s ∧ c.preceding_node s = none ∧ c.relevant_edge s = none
    ∧ c.distance s = 0
  tree : ∀ v, c.seen v →
    (v ∈ S ∧ c.preceding_node v = none ∧ c.relevant_edge v = none ∧ c.distance v = 0)
    ∨ (∃ u e, c.preceding_node v = some u ∧ c.relevant_edge v = some e ∧ c.settled u
        ∧ e ∈ c.graph.get_edgeindices_from_node u ∧ c.graph.other_node e u = v
        ∧ c.usable min_net_width BB respect_capacity u e
        ∧ c.distance v = c.distance u + c.weight respect_capacity capacity_penalty_factor e)

/-- Every edge of a popped node that the search does not skip has been
relaxed, but for the edges of `u0` outside `done`. -/
def closed_but (min_net_width : Int) (BB : BoundingBox) (respect_capacity : Bool)
    (capacity_penalty_factor : Nat) (c : Connector) (u0 : Nat) (done : List Nat) : Prop :=
  ∀ u, c.settled u → ∀ e ∈ c.graph.get_edgeindices_from_node u, (u = u0 → e ∈ done) →
    c.usable min_net_width BB respect_capacity u e →
      c.seen (c.graph.other_node e u)
        ∧ c.distance (c.graph.other_node e u)
            ≤ c.distance u + c.weight respect_capacity capacity_penalty_factor e

/-- Every edge of a popped node that the search does not skip has been relaxed. -/
def closed (min_net_width : Int) (BB : BoundingBox) (respect_capacity : Bool)
    (capacity_penalty_factor : Nat) (c : Connector) : Prop :=
  ∀ u, c.settled u → ∀ e ∈ c.graph.get_edgeindices_from_node u,
    c.usable min_net_width BB respect_capacity u e →
      c.seen (c.graph.other_node e u)
        ∧ c.distance (c.graph.other_node e u)
            ≤ c.distance u + c.weight respect_capacity capacity_penalty_factor e

/-- State `c1` continues the search of state `c`: more nodes seen, the popped
nodes and their distances kept, no distance raised. -/
structure extends_search (c c1 : Connector) : Prop where
  frame : same_frame c c1
  seen_mono : ∀ v, c.seen v → c1.seen v
  settled_iff : ∀ v, c1.settled v ↔ c.settled v
  dist_settled : ∀ v, c.settled v → c1.distance v = c.distance v
  dist_le : ∀ v, c.seen v → c1.distance v ≤ c.distance v

/-- The number of nodes not yet seen plus the number of queue entries: a bound
on the rounds the search loop still runs. -/
def rounds_left (c : Connector) : Nat :=
  (List.range c.graph.count_nodes).countP (fun v => decide (c.queued v ≠ c.current_iteration))
    + c.pq.length

/-- Node `v` lies on the chain of preceding nodes that starts at node `t`. -/
inductive on_chain (c : Connector) : Nat → Nat → Prop
  | start (t : Nat) : on_chain c t t
  | step (t u v : Nat) : c.preceding_node t = some u → on_chain c u v → on_chain c t v

/-- Edge `e` is the relevant edge of a node with a preceding node on the chain
of some target: the edges the tree extraction inserts. -/
def chain_edge (c : Connector) (T : List Nat) (e : Nat) : Prop :=
  ∃ t ∈ T, ∃ v u, on_chain c t v ∧ c.preceding_node v = some u ∧ c.relevant_edge v = some e

/-- The number of seen nodes nearer to the source than `p`: a bound on the
length of the chain of `p`. -/
def chain_rank (c : Connector) (p : Nat) : Nat :=
  (List.range c.graph.count_nodes).countP
    (fun v => decide (c.queued v = c.current_iteration ∧ c.distance v < c.distance p))

/-- What a finished pass of the search in mode `respect_capacity` leaves: the
invariant, every target settled, and in `ret` the edges of the chains of the
targets in ascending order. -/
structure search_result (c : Connector) (s : Nat) (T : List Nat) (min_net_width : Int)
    (BB : BoundingBox) (respect_capacity : Bool) (capacity_penalty_factor : Nat)
    (ret : List Nat) : Prop where
  inv : ∃ last, SearchInv [s] min_net_width BB respect_capacity capacity_penalty_factor last c
  all_relaxed : closed min_net_width BB respect_capacity capacity_penalty_factor c
  targets : ∀ t ∈ T, c.settled t
  sorted : ret.Sorted (fun a b => a < b)
  mem : ∀ e, e ∈ ret ↔ chain_edge c T e

/-- The facts about preceding nodes the extraction relies on: the preceding
node of a seen node is seen and strictly nearer to the source, and comes with a
relevant edge. -/
def chain_facts (c : Connector) : Prop :=
  (∀ v, c.seen v → v < c.graph.count_nodes)
    ∧ ∀ v u, c.seen v → c.preceding_node v = some u →
        c.seen u ∧ c.distance u < c.distance v ∧ ∃ e, c.relevant_edge v = some e

/-- In respect-capacity mode the search may go from node `u` to node `w`: an
edge of the graph joins them, `w` lies inside the bounding box, and the edge is
a via or has room for the net on top of the aggregated width. -/
def allowed_step (c : Connector) (min_net_width : Int) (BB : BoundingBox) (u w : Nat) : Prop :=
  ∃ e, e < c.graph.count_edges ∧ c.graph.joins e u w
    ∧ BB.outside (c.graph.get_position_from_nodeindex w) = false
    ∧ (c.graph.get_edge_direction e = some .z_plus
        ∨ c.aggregated_width e + c.required_capacity min_net_width e ≤ c.graph.get_capacity e)

/-- A path of `k` allowed steps from `u` to `v`. -/
inductive allowed_path (c : Connector) (min_net_width : Int) (BB : BoundingBox) :
    Nat → Nat → Nat → Prop
  | nil (u : Nat) : allowed_path c min_net_width BB u u 0
  | cons (u w v k : Nat) : allowed_step c min_net_width BB u w →
      allowed_path c min_net_width BB w v k → allowed_path c min_net_width BB u v (k + 1)

/-- Following the preceding nodes from `t` reaches `v` after `k` steps, each
over a relevant edge that lies in `E`. -/
inductive chain_steps (c : Connector) (E : List Nat) : Nat → Nat → Nat → Prop
  | zero (t : Nat) : chain_steps c E t t 0
  | succ (t u v k e : Nat) : c.preceding_node t = some u → c.relevant_edge t = some e →
      e ∈ E → c.graph.joins e u t → chain_steps c E u v k → chain_steps c E t v (k + 1)

/-- State `c1` is state `c` after one more activation of the search: the
problem, the graph and the aggregated widths are those of `c`, the iteration
counter is one higher and bounds every entry of `queued`. -/
def after_pass (c c1 : Connector) : Prop :=
  c1.problem = c.problem ∧ c1.graph = c.graph ∧ c1.aggregated_width = c.aggregated_width
    ∧ c1.current_iteration = c.current_iteration + 1
    ∧ ∀ v, c1.queued v ≤ c1.current_iteration

end Connector

namespace Graph

/-- Nodes `u` and `v` are joined by a path made only of edges of `E`. -/
def connected_by (g : Graph) (E : List Nat) : Nat → Nat → Prop :=
  Relation.ReflTransGen (fun u v => ∃ e ∈ E, g.joins e u v)

end Graph

namespace GlobalRoutingProblem

/-- No pin lies on the upper or the right border of the grid, where
`tile_of_coordinate` would name a tile past the last one. -/
def pins_inside (p : GlobalRoutingProblem) : Prop :=
  ∀ net ∈ p.nets, ∀ pin ∈ net.pins,
    pin.x < p.tileInfo.lower_left_x + p.grid.x_grids * p.tileInfo.tile_width
      ∧ pin.y < p.tileInfo.lower_left_y + p.grid.y_grids * p.tileInfo.tile_height

end GlobalRoutingProblem

namespace Connector

/-- The graph of the connector has the dimensions of the grid of its problem. -/
def grid_matches (c : Connector) : Prop :=
  (c.graph.dim_x : Int) = c.problem.grid.x_grids ∧ (c.graph.dim_y : Int) = c.problem.grid.y_grids
    ∧ (c.graph.dim_z : Int) = c.problem.grid.layers

/-- What holds of a connector between two nets: a well-formed graph with the
grid of the problem, and no entry of `queued` above the iteration counter. -/
def ready (c : Connector) : Prop :=
  c.graph.wf ∧ c.grid_matches ∧ ∀ v, c.queued v ≤ c.current_iteration

/-- The amount the update loop of `connect` adds to the aggregated width of
edge `e` for a net of width `min_net_width` whose tree is `tree`. -/
def committed (c : Connector) (min_net_width : Int) (tree : List Nat) (e : Nat) : Int :=
  if e ∈ tree ∧ c.graph.get_edge_direction e ≠ some .z_plus then
    c.commit_capacity min_net_width e
  else 0

/-- What `connect` does for one net, from state `c` to state `c2` with the
tree `tree`: the aggregated widths grow by what the tree takes; a net without
pins gets the empty tree; for any other net the tree is the result of a search
from the least pin node `s` to the other pin nodes `T`, in respect-capacity
mode (`r1 = true`) or, when some target cannot be reached by allowed steps, in
the emergency pass, which adds one line to the log. -/
structure net_routed (c : Connector) (net : Net) (tree : List Nat) (c2 : Connector) : Prop where
  run : connect_net c net = some (tree, c2)
  problem_eq : c2.problem = c.problem
  graph_eq : c2.graph = c.graph
  is_ready : c2.ready
  counter : c.current_iteration ≤ c2.current_iteration
    ∧ c2.current_iteration ≤ c.current_iteration + 2
  agg : ∀ e, c2.aggregated_width e
    = c.aggregated_width e + committed c net.minimum_width tree e
  log_le : c.emergency_log ≤ c2.emergency_log
  empty : net.pins = [] → tree = [] ∧ c2.emergency_log = c.emergency_log
  search : net.pins ≠ [] → ∃ nodes0 s T c1 r1,
    pin_nodes c net.pins = some nodes0 ∧ sort_unique nodes0 = s :: T
      ∧ search_result c1 s T net.minimum_width (bounding_box c (s :: T)) r1 10 tree
      ∧ c1.problem = c.problem ∧ c1.graph = c.graph
      ∧ c1.aggregated_width = c.aggregated_width
      ∧ (r1 = true ∧ c2.emergency_log = c.emergency_log
          ∨ r1 = false ∧ c2.emergency_log = c.emergency_log + 1
            ∧ ∃ t ∈ T, ∀ k,
                ¬ allowed_path c net.minimum_width (bounding_box c (s :: T)) s t k)

/-- What `connect` does for a list of nets, net by net. -/
inductive nets_routed : Connector → List Net → List (List Nat) → Connector → Prop
  | nil (c : Connector) : nets_routed c [] [] c
  | cons (c c1 c2 : Connector) (net : Net) (nets : List Net) (tree : List Nat)
      (trees : List (List Nat)) : net_routed c net tree c1 → nets_routed c1 nets trees c2 →
      nets_routed c (net :: nets) (tree :: trees) c2

/-- Every pin of the nets maps to a node of the graph. -/
def pins_mapped (c : Connector) (nets : List Net) : Prop :=
  ∀ net ∈ nets, ∀ pin ∈ net.pins, ∃ v, pin_node c pin = some v ∧ v < c.graph.count_nodes

/-- What lets `connect` route the nets `nets` from state `c` without a failing
assertion, with `D` a bound on what a net takes on an edge: no net has a
negative width; what a net takes on an edge lies between 0 and `D`; every edge
has a positive capacity or is no via and every net takes a positive width on
it; no aggregated width is negative, those of the vias are 0, and every
aggregated width and the iteration counter leave room for the nets. -/
structure can_route (c : Connector) (nets : List Net) (D : Int) : Prop where
  bound_nonneg : 0 ≤ D
  widths : ∀ net ∈ nets, 0 ≤ net.minimum_width
  takes_nonneg : ∀ net ∈ nets, ∀ e, e < c.graph.count_edges →
    0 ≤ c.required_capacity net.minimum_width e
  takes_le : ∀ net ∈ nets, ∀ e, e < c.graph.count_edges →
    c.required_capacity net.minimum_width e ≤ D
  usable : ∀ e, e < c.graph.count_edges → 0 < c.graph.get_capacity e
    ∨ (c.graph.get_edge_direction e ≠ some .z_plus
        ∧ ∀ net ∈ nets, 0 < c.required_capacity net.minimum_width e)
  agg_nonneg : ∀ e, 0 ≤ c.aggregated_width e
  agg_via : ∀ e, c.graph.get_edge_direction e = some .z_plus → c.aggregated_width e = 0
  agg_le : ∀ e, c.aggregated_width e + (nets.length : Int) * D ≤ int_max
  counter : 0 ≤ c.current_iteration ∧ c.current_iteration + 2 * (nets.length : Int) ≤ int_max

end Connector

/-- The demand of the specification: routing net `net` through an edge that is
not a via on layer `z` takes `minimum_spacing[z] + max(minimum_width[z],
net.minimum_width)` of the capacity of the edge. -/
def demand (p : GlobalRoutingProblem) (net : Net) (z : Nat) : Int :=
  p.dimension.minimum_spacing.getD z 0 + max (p.dimension.minimum_width.getD z 0) net.minimum_width

/-- The layer of an edge: the layer of its first node. -/
def Graph.layer_of_edge (g : Graph) (e : Nat) : Nat :=
  (g.get_position_from_nodeindex (g.get_nodes_of_edge e).1).2.2

namespace GlobalRoutingProblem

/-- What the router needs of a problem and its graph, beyond `check`, to route
every net without a failing assertion: no pin lies on the upper or the right
border of the grid; no net has a negative width (`assert( min_net_width >= 0 )`
in `create_search_forest`); and every edge of the graph has a positive capacity
or is no via and takes a positive demand from every net, so that the search
skips it rather than relaxes it at capacity 0
(`assert( current_edge_capacity > 0 )`). -/
structure routable (p : GlobalRoutingProblem) (g : Graph) : Prop where
  pins : p.pins_inside
  widths : ∀ net ∈ p.nets, 0 ≤ net.minimum_width
  capacities : ∀ e, e < g.count_edges → 0 < g.get_capacity e
    ∨ (g.get_edge_direction e ≠ some .z_plus
        ∧ ∀ net ∈ p.nets, 0 < demand p net (g.layer_of_edge e))

/-- The range of values inside which `tile_of_coordinate` and the tests of
`check` on the pins compute exactly: the corner of the grid lies within `2^24`
of the origin and the grid is less than `2^24` wide and high, so that for a
pin that `check` accepts the difference to the corner and the size of a tile
are integers below `2^24`, which a `float` holds exactly, and no sum or
product leaves the type `int`. -/
structure tiles_exact (p : GlobalRoutingProblem) : Prop where
  corner_x : -16777216 < p.tileInfo.lower_left_x ∧ p.tileInfo.lower_left_x < 16777216
  corner_y : -16777216 < p.tileInfo.lower_left_y ∧ p.tileInfo.lower_left_y < 16777216
  width : p.grid.x_grids * p.tileInfo.tile_width < 16777216
  height : p.grid.y_grids * p.tileInfo.tile_height < 16777216

/-- The range of values inside which the `int` sums and the `float`
arithmetic of the router are exact for problem `p` on graph `g`:
`tiles_exact`; there are fewer than `2^24` nets; and with `D` a bound on the
demand of a net on a layer, the number of nodes times the largest edge weight
`1 + 10 * (number of nets * D)` stays below `2^24`, so that every aggregated
width is a value of `int` and every distance of a search is exact. -/
structure exact_range (p : GlobalRoutingProblem) (g : Graph) : Prop where
  tiles : p.tiles_exact
  nets : (p.nets.length : Int) < 16777216
  demands : ∃ D : Int, 0 ≤ D ∧ (∀ net ∈ p.nets, ∀ z, z < g.dim_z → demand p net z ≤ D)
    ∧ (g.count_nodes : Int) * (1 + 10 * ((p.nets.length : Int) * D)) < 16777216

end GlobalRoutingProblem

/-! ## Straight segments -/

/-- The position `i` steps from `pos` in direction `dir`. -/
def direction.move (dir : direction) (pos : Nat × Nat × Nat) (i : Nat) : Nat × Nat × Nat :=
  match dir with
  | .x_plus => (pos.1 + i, pos.2.1, pos.2.2)
  | .x_minus => (pos.1 - i, pos.2.1, pos.2.2)
  | .y_plus => (pos.1, pos.2.1 + i, pos.2.2)
  | .y_minus => (pos.1, pos.2.1 - i, pos.2.2)
  | .z_plus => (pos.1, pos.2.1, pos.2.2 + i)
  | .z_minus => (pos.1, pos.2.1, pos.2.2 - i)

/-- The coordinate of a position on the axis of `dir`. -/
def direction.coordinate (dir : direction) (pos : Nat × Nat × Nat) : Nat :=
  match dir with
  | .x_plus => pos.1
  | .x_minus => pos.1
  | .y_plus => pos.2.1
  | .y_minus => pos.2.1
  | .z_plus => pos.2.2
  | .z_minus => pos.2.2

/-- The direction is one of the three plus directions. -/
def direction.is_plus (dir : direction) : Prop :=
  dir = .x_plus ∨ dir = .y_plus ∨ dir = .z_plus

/-- The node `i` steps from node `a` in direction `dir`. -/
def Graph.segment_node (g : Graph) (dir : direction) (a i : Nat) : Nat :=
  let pos := dir.move (g.get_position_from_nodeindex a) i
  g.get_nodeindex_from_position pos.1 pos.2.1 pos.2.2

/-- The edge number `i` of the straight segment that leaves node `a` in
direction `dir`: the edge from the node `i` steps from `a` one step further. -/
def Graph.segment_edge (g : Graph) (dir : direction) (a i : Nat) : Nat :=
  g.get_edgeindex_from_node_and_direction (g.segment_node dir a i) dir

/-! ## Further methods of graph.hpp and priority_queue.hpp -/

namespace Graph

/-- Method `Graph::get_edgeindex_from_nodes`; `none` is `invalid_index`. The
tests `x1 == x2-1` are written `x1 + 1 = x2`, as in `get_edge_direction`. -/
def get_edgeindex_from_nodes (g : Graph) (nodeindex1 nodeindex2 : Nat) : Option Nat :=
  match g.get_position_from_nodeindex nodeindex1, g.get_position_from_nodeindex nodeindex2 with
  | (x1, y1, z1), (x2, y2, z2) =>
    if x1 + 1 = x2 ∧ y1 = y2 ∧ z1 = z2 then
      some (g.get_edgeindex_from_node_and_direction nodeindex1 .x_plus)
    else if x1 = x2 + 1 ∧ y1 = y2 ∧ z1 = z2 then
      some (g.get_edgeindex_from_node_and_direction nodeindex1 .x_minus)
    else if x1 = x2 ∧ y1 + 1 = y2 ∧ z1 = z2 then
      some (g.get_edgeindex_from_node_and_direction nodeindex1 .y_plus)
    else if x1 = x2 ∧ y1 = y2 + 1 ∧ z1 = z2 then
      some (g.get_edgeindex_from_node_and_direction nodeindex1 .y_minus)
    else if x1 = x2 ∧ y1 = y2 ∧ z1 + 1 = z2 then
      some (g.get_edgeindex_from_node_and_direction nodeindex1 .z_plus)
    else if x1 = x2 ∧ y1 = y2 ∧ z1 = z2 + 1 then
      some (g.get_edgeindex_from_node_and_direction nodeindex1 .z_minus)
    else none

/-- Two positions differ by exactly 1 in exactly one coordinate. -/
def adjacent_positions (p q : Nat × Nat × Nat) : Prop :=
  ((p.1 + 1 = q.1 ∨ q.1 + 1 = p.1) ∧ p.2.1 = q.2.1 ∧ p.2.2 = q.2.2)
    ∨ (p.1 = q.1 ∧ (p.2.1 + 1 = q.2.1 ∨ q.2.1 + 1 = p.2.1) ∧ p.2.2 = q.2.2)
    ∨ (p.1 = q.1 ∧ p.2.1 = q.2.1 ∧ (p.2.2 + 1 = q.2.2 ∨ q.2.2 + 1 = p.2.2))

/-- The step from position `pos` in direction `dir` stays inside the grid. -/
def step_inside (g : Graph) (pos : Nat × Nat × Nat) (dir : direction) : Prop :=
  match dir with
  | .x_plus => pos.1 + 1 < g.dim_x
  | .x_minus => 1 ≤ pos.1
  | .y_plus => pos.2.1 + 1 < g.dim_y
  | .y_minus => 1 ≤ pos.2.1
  | .z_plus => pos.2.2 + 1 < g.dim_z
  | .z_minus => 1 ≤ pos.2.2

end Graph

namespace PriorityQueue

variable {V P : Type} [LinearOrder V] [LinearOrder P]

/-- Method `PriorityQueue::peek`: the top entry, and the heap as the call
leaves it; `none` on an empty queue, where the source exits. -/
def peek (heap : List (Entry V P)) : Option (Entry V P × List (Entry V P)) :=
  match heap with
  | [] => none
  | top :: _ => some (top, heap)

/-- Method `PriorityQueue::getPriority`: the priority of the first entry with
the value; `none` when there is none, where the source exits. -/
def getPriority (heap : List (Entry V P)) (value : V) : Option P :=
  match heap.find? (fun entry => decide (entry.value = value)) with
  | some it => some it.priority
  | none => none

/-- The loop `for( const auto& entry : entries ) pq.push( entry.value,
entry.priority )` of the unit test. -/
def push_all (heap : List (Entry V P)) (entries : List (Entry V P)) : List (Entry V P) :=
  entries.foldl (fun h entry => push h entry.value entry.priority) heap

/-- The loop of `pq.setPriority( value, w )` calls of the unit test. -/
def set_all : List (Entry V P) → List (V × P) → Option (List (Entry V P))
  | heap, [] => some heap
  | heap, (value, w) :: updates =>
    match setPriority heap value w with
    | none => none
    | some heap1 => set_all heap1 updates

/-- Popping until the queue is empty: the popped entries in the order of the
calls, and the heap left. One round of fuel per entry is enough. -/
def pop_all : Nat → List (Entry V P) → Option (List (Entry V P) × List (Entry V P))
  | 0, heap => if heap.isEmpty then some ([], heap) else none
  | fuel + 1, heap =>
    match pop heap with
    | none => some ([], heap)
    | some (top, heap1) =>
      match pop_all fuel heap1 with
      | none => none
      | some (out, rest) => some (top :: out, rest)

/-- Popping until the queue is empty, with the fuel the size of the queue gives. -/
def drain (heap : List (Entry V P)) : Option (List (Entry V P) × List (Entry V P)) :=
  pop_all heap.length heap

/-- A queue built from the empty queue by `push`, `pop` and `setPriority`. -/
inductive built : List (Entry V P) → Prop
  | empty : built []
  | push (heap : List (Entry V P)) (value : V) (priority : P) :
      built heap → built (push heap value priority)
  | pop (heap heap1 : List (Entry V P)) (top : Entry V P) :
      built heap → pop heap = some (top, heap1) → built heap1
  | setPriority (heap heap1 : List (Entry V P)) (value : V) (new_priority : P) :
      built heap → setPriority heap value new_priority = some heap1 → built heap1

/-- Modelled from the words of the claim: the priority assigned last to
`value` by a sequence of `setPriority` calls, `priority` when there is none. -/
def last_priority (updates : List (V × P)) (value : V) (priority : P) : P :=
  updates.foldl (fun p u => if u.1 = value then u.2 else p) priority

end PriorityQueue

namespace Connector

/-- The sets `S` and `T` that `connect` passes to `create_search_forest` for a
net with pins: of the sorted, duplicate-free pin nodes the one at index 0 and
the others. -/
def search_sets (c : Connector) (net : Net) : Option (List Nat × List Nat) :=
  match pin_nodes c net.pins with
  | none => none
  | some nodes0 => some ((sort_unique nodes0).take 1, (sort_unique nodes0).drop 1)

end Connector

/-! ## Problems of the end-to-end scenarios -/

/-- A problem with lower-left corner `(0, 0)`, tiles of 10 by 10, the same
capacity and design rules on every layer, and no capacity adjustment. -/
def scenario_problem (nx ny nz : Nat) (capacity minimum_width minimum_spacing : Int)
    (nets : List Net) : GlobalRoutingProblem :=
  { grid := { x_grids := nx, y_grids := ny, layers := nz },
    capacity := { vertical := List.replicate nz capacity,
                  horizontal := List.replicate nz capacity },
    dimension := { minimum_width := List.replicate nz minimum_width,
                   minimum_spacing := List.replicate nz minimum_spacing,
                   via_spacing := List.replicate nz 0 },
    tileInfo := { lower_left_x := 0, lower_left_y := 0, tile_width := 10, tile_height := 10 },
    nets := nets,
    capacityAdjustments := [] }

/-- Scenario "straight horizontal": a 3x1x1 grid, capacity 100, minimum width
0, minimum spacing 1, one net with the pins `(5,5)` and `(25,5)` on layer one. -/
def straight_problem : GlobalRoutingProblem :=
  scenario_problem 3 1 1 100 0 1
    [{ name := "n0", id := 0, num_pins := 2, minimum_width := 0,
       pins := [{ x := 5, y := 5, layer := 0 }, { x := 25, y := 5, layer := 0 }] }]

/-- The graph of the scenario "straight horizontal": two X edges of capacity 100. -/
def straight_graph : Graph := { dim_x := 3, dim_y := 1, dim_z := 1, capacities := [100, 100] }

/-- Scenario "via required": a 1x1x3 grid, one net with two pins on the one
tile, on the layers one and three. -/
def via_problem : GlobalRoutingProblem :=
  scenario_problem 1 1 3 100 0 1
    [{ name := "n0", id := 0, num_pins := 2, minimum_width := 0,
       pins := [{ x := 5, y := 5, layer := 0 }, { x := 5, y := 5, layer := 2 }] }]

/-- The graph of the scenario "via required": two Z edges of the largest
capacity an `int` holds. -/
def via_graph : Graph :=
  { dim_x := 1, dim_y := 1, dim_z := 3, capacities := [2147483647, 2147483647] }

/-- Scenario "emergency fallback": a 2x1x1 grid whose one edge has capacity 0,
minimum spacing 1, one net with a pin on each tile. -/
def saturated_problem : GlobalRoutingProblem :=
  scenario_problem 2 1 1 0 0 1
    [{ name := "n0", id := 0, num_pins := 2, minimum_width := 0,
       pins := [{ x := 5, y := 5, layer := 0 }, { x := 15, y := 5, layer := 0 }] }]

/-- The graph of the scenario "emergency fallback": one X edge of capacity 0. -/
def saturated_graph : Graph := { dim_x := 2, dim_y := 1, dim_z := 1, capacities := [0] }

/-- A net of the scenario "capacity forces detour": a pin on each of the tiles
`(0,0)` and `(1,0)`. -/
def detour_net (id : Int) (name : String) : Net :=
  { name := name, id := id, num_pins := 2, minimum_width := 0,
    pins := [{ x := 5, y := 5, layer := 0 }, { x := 15, y := 5, layer := 0 }] }

/-- Scenario "capacity forces detour": a 3x2x1 grid with capacity 1 on every
edge, minimum spacing 1, and two nets that each have a pin on the tiles
`(0,0)` and `(1,0)`. -/
def detour_problem : GlobalRoutingProblem :=
  scenario_problem 3 2 1 1 0 1 [detour_net 0 "n0", detour_net 1 "n1"]

/-- The graph of the scenario "capacity forces detour": four X edges and three
Y edges of capacity 1. -/
def detour_graph : Graph :=
  { dim_x := 3, dim_y := 2, dim_z := 1, capacities := [1, 1, 1, 1, 1, 1, 1] }

/-- The scenario "straight horizontal" with the two pins in the other order. -/
def reversed_problem : GlobalRoutingProblem :=
  scenario_problem 3 1 1 100 0 1
    [{ name := "n0", id := 0, num_pins := 2, minimum_width := 0,
       pins := [{ x := 25, y := 5, layer := 0 }, { x := 5, y := 5, layer := 0 }] }]

/-! ## Further methods of grp.hpp, grp2graph.hpp and the assertions of the search -/

namespace GlobalRoutingProblem

/-- The `assert` lines of `GlobalRoutingProblem::check`, which it reaches after
the tests of the grid, the array sizes and the tile: no capacity and no design
rule is negative. -/
def check_assertions (p : GlobalRoutingProblem) : Prop :=
  (∀ c ∈ p.capacity.vertical, c ≥ 0) ∧ (∀ c ∈ p.capacity.horizontal, c ≥ 0)
    ∧ (∀ mw ∈ p.dimension.minimum_width, mw ≥ 0)
    ∧ (∀ ms ∈ p.dimension.minimum_spacing, ms ≥ 0)
    ∧ (∀ vs ∈ p.dimension.via_spacing, vs ≥ 0)

instance (p : GlobalRoutingProblem) : Decidable p.check_assertions := by
  unfold check_assertions
  infer_instance

/-- The values `mx`, `my`, `mz` of `heuristic_optimization`: the means of the
coordinates of the pins, taken exactly where the source computes in `float`. -/
def centroid (pins : List Pin) : ℚ × ℚ × ℚ :=
  ((pins.map (fun pin => (pin.x : ℚ))).sum / (pins.length : ℚ),
   (pins.map (fun pin => (pin.y : ℚ))).sum / (pins.length : ℚ),
   (pins.map (fun pin => (pin.layer : ℚ))).sum / (pins.length : ℚ))

/-- The values `diff1` and `diff2` of `heuristic_optimization`:
`fabs( pin.x - mx ) + fabs( pin.y - my ) + fabs( pin.layer - mz )`. -/
def centroid_distance (m : ℚ × ℚ × ℚ) (pin : Pin) : ℚ :=
  |(pin.x : ℚ) - m.1| + |(pin.y : ℚ) - m.2.1| + |(pin.layer : ℚ) - m.2.2|

/-- Body of the two loops over `m` and `n` in `heuristic_optimization`:
`if( diff1 > diff2 ) std::swap( pins[m], pins[n] )`, where `diff` gives the
values `diff1` and `diff2` of the pins at `m` and at `n`. -/
def compare_and_swap {K : Type} [LinearOrder K] (diff : Pin → K) (pins : List Pin)
    (m n : Nat) : List Pin :=
  match pins[m]?, pins[n]? with
  | some pin1, some pin2 =>
    if diff pin1 > diff pin2 then PriorityQueue.swap pins m n else pins
  | _, _ => pins

/-- The two loops `for m`, `for n` of `heuristic_optimization` on the pins of
one net. -/
def exchange_loops {K : Type} [LinearOrder K] (diff : Pin → K) (pins : List Pin) : List Pin :=
  (List.range pins.length).foldl
    (fun pins1 m =>
      (List.range pins.length).foldl (fun pins2 n => compare_and_swap diff pins2 m n) pins1)
    pins

/-- What `heuristic_optimization` does to the pins of one net: the two loops
with the distance from the centroid of the pins. -/
def order_pins (pins : List Pin) : List Pin :=
  exchange_loops (centroid_distance (centroid pins)) pins

/-- Method `GlobalRoutingProblem::heuristic_optimization`: the pins of every
net reordered, then the nets sorted by their number of pins. `std::sort` leaves
the order of nets with equally many pins open; they keep their order here. -/
def heuristic_optimization (p : GlobalRoutingProblem) : GlobalRoutingProblem :=
  { p with
    nets := (p.nets.map (fun net => { net with pins := order_pins net.pins })).insertionSort
      (fun a b => a.pins.length ≤ b.pins.length) }

end GlobalRoutingProblem

namespace Graph

/-- One block `if( graph.is_direction_possible( nodeindex, dir ) ) { ... }` of
`createGraphFromGlobalRoutingProblem`; `capacity` is the entry of the capacity
array the block reads, `none` when the array has no such entry. -/
def init_capacity (graph : Graph) (nodeindex : Nat) (dir : direction) (capacity : Option Int) :
    Option Graph :=
  if graph.is_direction_possible nodeindex dir then
    match capacity with
    | none => none
    | some c =>
      some (graph.set_capacity (graph.get_edgeindex_from_node_and_direction nodeindex dir) c)
  else some graph

/-- The positions `(x, y, z)` in the order of the three loops of
`createGraphFromGlobalRoutingProblem`. -/
def grid_positions (nx ny nz : Nat) : List (Nat × Nat × Nat) :=
  (List.range nx).flatMap (fun x => (List.range ny).flatMap (fun y =>
    (List.range nz).map (fun z => (x, y, z))))

end Graph

/-- Body of the three loops of `createGraphFromGlobalRoutingProblem` that set
the default capacities, at one position. -/
def init_capacities_at (problem : GlobalRoutingProblem) (graph : Graph)
    (pos : Nat × Nat × Nat) : Option Graph :=
  let nodeindex := graph.get_nodeindex_from_position pos.1 pos.2.1 pos.2.2
  (graph.init_capacity nodeindex .x_plus problem.capacity.horizontal[pos.2.2]?).bind
    (fun g1 => (g1.init_capacity nodeindex .x_minus problem.capacity.horizontal[pos.2.2]?).bind
      (fun g2 => (g2.init_capacity nodeindex .y_plus problem.capacity.vertical[pos.2.2]?).bind
        (fun g3 => (g3.init_capacity nodeindex .y_minus problem.capacity.vertical[pos.2.2]?).bind
          (fun g4 => (g4.init_capacity nodeindex .z_plus (some int_max)).bind
            (fun g5 => g5.init_capacity nodeindex .z_minus (some int_max))))))

/-- The three loops of `createGraphFromGlobalRoutingProblem` that set the
default capacities, over a list of positions. -/
def init_capacities (problem : GlobalRoutingProblem) :
    Graph → List (Nat × Nat × Nat) → Option Graph
  | graph, [] => some graph
  | graph, pos :: rest =>
    match init_capacities_at problem graph pos with
    | none => none
    | some g1 => init_capacities problem g1 rest

/-- Body of the loop over the capacity adjustments in
`createGraphFromGlobalRoutingProblem`; `none` where an assertion of the body
or of the methods it calls fails. -/
def apply_adjustment (graph : Graph) (capAdj : CapacityAdjustment) : Option Graph :=
  if 0 ≤ capAdj.col_start ∧ capAdj.col_start < graph.dim_x
      ∧ 0 ≤ capAdj.row_start ∧ capAdj.row_start < graph.dim_y
      ∧ 0 ≤ capAdj.layer_start ∧ capAdj.layer_start < graph.dim_z
      ∧ 0 ≤ capAdj.col_end ∧ capAdj.col_end < graph.dim_x
      ∧ 0 ≤ capAdj.row_end ∧ capAdj.row_end < graph.dim_y
      ∧ 0 ≤ capAdj.layer_end ∧ capAdj.layer_end < graph.dim_z then
    let start_nodeindex := graph.get_nodeindex_from_position
      capAdj.col_start.toNat capAdj.row_start.toNat capAdj.layer_start.toNat
    let end_nodeindex := graph.get_nodeindex_from_position
      capAdj.col_end.toNat capAdj.row_end.toNat capAdj.layer_end.toNat
    if start_nodeindex < graph.count_nodes ∧ end_nodeindex < graph.count_nodes then
      match graph.get_edgeindex_from_nodes start_nodeindex end_nodeindex with
      | none => none
      | some edgeindex =>
        if edgeindex < graph.count_edges ∧ edgeindex < graph.capacities.length
            ∧ capAdj.adjusted_capacity ≤ graph.get_capacity edgeindex
            ∧ graph.get_position_from_nodeindex start_nodeindex
                = (capAdj.col_start.toNat, capAdj.row_start.toNat, capAdj.layer_start.toNat)
            ∧ graph.get_position_from_nodeindex end_nodeindex
                = (capAdj.col_end.toNat, capAdj.row_end.toNat, capAdj.layer_end.toNat) then
          some (graph.set_capacity edgeindex capAdj.adjusted_capacity)
        else none
    else none
  else none

/-- The loop `for( const auto &capAdj : problem.capacityAdjustments )` of
`createGraphFromGlobalRoutingProblem`. -/
def apply_adjustments : Graph → List CapacityAdjustment → Option Graph
  | graph, [] => some graph
  | graph, capAdj :: rest =>
    match apply_adjustment graph capAdj with
    | none => none
    | some g1 => apply_adjustments g1 rest

/-- Function `createGraphFromGlobalRoutingProblem`; `none` where an assertion
fails: of the constructor of the graph (a dimension below 1), of the loop over
the adjustments, or of the last loop (a negative capacity). -/
def createGraphFromGlobalRoutingProblem (problem : GlobalRoutingProblem) : Option Graph :=
  if 1 ≤ problem.grid.x_grids ∧ 1 ≤ problem.grid.y_grids ∧ 1 ≤ problem.grid.layers then
    match init_capacities problem
        (Graph.create problem.grid.x_grids.toNat problem.grid.y_grids.toNat
          problem.grid.layers.toNat)
        (Graph.grid_positions problem.grid.x_grids.toNat problem.grid.y_grids.toNat
          problem.grid.layers.toNat) with
    | none => none
    | some g1 =>
      match apply_adjustments g1 problem.capacityAdjustments with
      | none => none
      | some graph =>
        if (List.range graph.count_edges).all (fun e => decide (graph.get_capacity e ≥ 0)) then
          some graph
        else none
  else none

namespace CapacityAdjustment

/-- The position of the first end of a capacity adjustment. -/
def start_position (capAdj : CapacityAdjustment) : Nat × Nat × Nat :=
  (capAdj.col_start.toNat, capAdj.row_start.toNat, capAdj.layer_start.toNat)

/-- The position of the second end of a capacity adjustment. -/
def end_position (capAdj : CapacityAdjustment) : Nat × Nat × Nat :=
  (capAdj.col_end.toNat, capAdj.row_end.toNat, capAdj.layer_end.toNat)

/-- The edge a capacity adjustment names in graph `g`: what
`get_edgeindex_from_nodes` returns for the nodes of its two ends. -/
def edge (capAdj : CapacityAdjustment) (g : Graph) : Option Nat :=
  g.get_edgeindex_from_nodes
    (g.get_nodeindex_from_position capAdj.col_start.toNat capAdj.row_start.toNat
      capAdj.layer_start.toNat)
    (g.get_nodeindex_from_position capAdj.col_end.toNat capAdj.row_end.toNat
      capAdj.layer_end.toNat)

/-- Both ends of a capacity adjustment lie inside the grid of graph `g`. -/
def inside (capAdj : CapacityAdjustment) (g : Graph) : Prop :=
  0 ≤ capAdj.col_start ∧ capAdj.col_start < g.dim_x
    ∧ 0 ≤ capAdj.row_start ∧ capAdj.row_start < g.dim_y
    ∧ 0 ≤ capAdj.layer_start ∧ capAdj.layer_start < g.dim_z
    ∧ 0 ≤ capAdj.col_end ∧ capAdj.col_end < g.dim_x
    ∧ 0 ≤ capAdj.row_end ∧ capAdj.row_end < g.dim_y
    ∧ 0 ≤ capAdj.layer_end ∧ capAdj.layer_end < g.dim_z

instance (capAdj : CapacityAdjustment) (g : Graph) : Decidable (capAdj.inside g) := by
  unfold inside
  infer_instance

end CapacityAdjustment

instance (p q : Nat × Nat × Nat) : Decidable (Graph.adjacent_positions p q) := by
  unfold Graph.adjacent_positions
  infer_instance

/-- Modelled from the words of the claim: the default capacity of edge `e`,
`horizontal[z]` for an X-axis edge on layer `z`, `vertical[z]` for a Y-axis
edge on layer `z`, the largest `int` for a Z-axis edge. -/
def default_capacity (p : GlobalRoutingProblem) (g : Graph) (e : Nat) : Int :=
  match g.get_edge_direction e with
  | some .x_plus => p.capacity.horizontal.getD (g.layer_of_edge e) 0
  | some .y_plus => p.capacity.vertical.getD (g.layer_of_edge e) 0
  | _ => int_max

/-- Modelled from the words of the claim: what the adjustments of a list make
of the capacity `capacity` of edge `e`, the `adjusted_capacity` of the last
adjustment that names `e`, and `capacity` when none does. -/
def adjusted_from (g : Graph) (adjustments : List CapacityAdjustment) (capacity : Int)
    (e : Nat) : Int :=
  adjustments.foldl
    (fun cap capAdj => if capAdj.edge g = some e then capAdj.adjusted_capacity else cap)
    capacity

/-- Modelled from the words of the claim: the capacity edge `e` holds after
the adjustments of the list, starting from its default capacity. -/
def adjusted_capacity (p : GlobalRoutingProblem) (g : Graph)
    (adjustments : List CapacityAdjustment) (e : Nat) : Int :=
  adjusted_from g adjustments (default_capacity p g e) e

namespace Connector

/-- One pass through the body of the loop over the edges in
`create_search_forest`: the mode, the node popped, the state at the start of
the body, and the edge. -/
structure relax_call where
  respect_capacity : Bool
  current_node : Nat
  state : Connector
  edgeindex : Nat

/-- The assertions of the last part of the body of the loop over the edges in
`create_search_forest`, evaluated where the body reaches them from state `c`:
`queued[other_node] <= current_iteration`; before `pq.push`,
`not pq.contains( other_node )`; before `pq.setPriority`,
`pq.contains( other_node )`; and where the body does neither,
`queued[other_node] == current_iteration` and
`new_distance >= distance[other_node]`. The value is `true` where the body
skips the edge or stops before it gets there. -/
def relax_asserts (min_net_width : Int) (BB : BoundingBox) (respect_capacity : Bool)
    (capacity_penalty_factor : Nat) (current_node : Nat)
    (c : Connector) (edgeindex : Nat) : Bool :=
  let other_node := c.graph.other_node edgeindex current_node
  if respect_capacity ∧ BB.outside (c.graph.get_position_from_nodeindex other_node) then true
  else
    match c.graph.get_edge_direction edgeindex with
    | none => true
    | some current_direction =>
      if current_direction ≠ .z_plus
          ∧ ¬ c.block_asserts min_net_width respect_capacity edgeindex then true
      else if current_direction ≠ .z_plus ∧ respect_capacity
          ∧ c.aggregated_width edgeindex + c.required_capacity min_net_width edgeindex
              > c.graph.get_capacity edgeindex then true
      else if respect_capacity
          ∧ ¬ c.capacity_asserts min_net_width current_direction edgeindex then true
      else
        let new_distance := c.distance current_node
          + c.edge_weight respect_capacity capacity_penalty_factor current_direction edgeindex
        decide (c.queued other_node ≤ c.current_iteration)
          && (if c.queued other_node < c.current_iteration then
                !PriorityQueue.contains c.pq other_node
              else if c.queued other_node = c.current_iteration
                  ∧ new_distance < c.distance other_node then
                PriorityQueue.contains c.pq other_node
              else decide (c.queued other_node = c.current_iteration)
                && decide (new_distance ≥ c.distance other_node))

/-- The passes through the body of the loop over the edges of `current_node`,
in the order of the run. -/
def relax_all_calls (min_net_width : Int) (BB : BoundingBox) (respect_capacity : Bool)
    (capacity_penalty_factor : Nat) (current_node : Nat) :
    Connector → List Nat → List relax_call
  | _, [] => []
  | c, edgeindex :: edges =>
    ⟨respect_capacity, current_node, c, edgeindex⟩ ::
      match relax min_net_width BB respect_capacity capacity_penalty_factor current_node c
          edgeindex with
      | none => []
      | some c1 =>
        relax_all_calls min_net_width BB respect_capacity capacity_penalty_factor current_node
          c1 edges

/-- The passes through the body of the loop over the edges during the loop
`while( not active_T.empty() )`, in the order of the run. -/
def search_loop_calls (min_net_width : Int) (BB : BoundingBox) (respect_capacity : Bool)
    (capacity_penalty_factor : Nat) : Nat → Connector → List Nat → List relax_call
  | 0, _, _ => []
  | fuel + 1, c, active_T =>
    if active_T.isEmpty then []
    else
      match PriorityQueue.pop c.pq with
      | none => []
      | some (current_entry, pq1) =>
        relax_all_calls min_net_width BB respect_capacity capacity_penalty_factor
            current_entry.value { c with pq := pq1 }
            (c.graph.get_edgeindices_from_node current_entry.value)
          ++ match relax_all min_net_width BB respect_capacity capacity_penalty_factor
              current_entry.value { c with pq := pq1 }
              (c.graph.get_edgeindices_from_node current_entry.value) with
            | none => []
            | some c1 =>
              search_loop_calls min_net_width BB respect_capacity capacity_penalty_factor fuel c1
                (active_T.erase current_entry.value)

/-- The passes through the body of the loop over the edges during one
activation of `create_search_forest`. -/
def search_pass_calls (c : Connector) (S T : List Nat) (min_net_width : Int) (BB : BoundingBox)
    (respect_capacity : Bool) (capacity_penalty_factor : Nat) : List relax_call :=
  if ¬ c.head_asserts min_net_width then []
  else
  match push_sources { c with pq := [], current_iteration := c.current_iteration + 1 } S with
  | none => []
  | some c0 =>
    search_loop_calls min_net_width BB respect_capacity capacity_penalty_factor
      c0.graph.count_nodes c0 T

/-- The passes through the body of the loop over the edges during a call of
`create_search_forest`, those of the emergency pass included. -/
def create_search_forest_calls (c : Connector) (S T : List Nat) (min_net_width : Int)
    (BB : BoundingBox) (respect_capacity : Bool) (capacity_penalty_factor : Nat) :
    List relax_call :=
  search_pass_calls c S T min_net_width BB respect_capacity capacity_penalty_factor
    ++ match search_pass c S T min_net_width BB respect_capacity capacity_penalty_factor with
      | some (none, c1) =>
        if respect_capacity then
          search_pass_calls { c1 with emergency_log := c1.emergency_log + 1 } S T min_net_width
            BB false capacity_penalty_factor
        else []
      | _ => []

end Connector

/-! ## Further problems -/

/-- A problem accepted by `check` with a pin on the right border of the grid:
one tile of 10 by 10, the pin at `(10, 5)`. -/
def border_problem : GlobalRoutingProblem :=
  scenario_problem 1 1 1 100 0 1
    [{ name := "n0", id := 0, num_pins := 1, minimum_width := 0,
       pins := [{ x := 10, y := 5, layer := 0 }] }]

/-- The graph of `border_problem`: one node, no edge. -/
def border_graph : Graph := { dim_x := 1, dim_y := 1, dim_z := 1, capacities := [] }

/-- A 3x1x1 grid with capacity 100 and one capacity adjustment between the
tiles `(0,0)` and `(2,0)`, which are two steps apart. -/
def nonadjacent_problem : GlobalRoutingProblem :=
  { scenario_problem 3 1 1 100 0 1 [] with
    capacityAdjustments :=
      [{ col_start := 0, row_start := 0, layer_start := 0,
         col_end := 2, row_end := 0, layer_end := 0, adjusted_capacity := 50 }] }

/-- A 2x1x1 grid with capacity 5 and one capacity adjustment of its edge to 7. -/
def raised_problem : GlobalRoutingProblem :=
  { scenario_problem 2 1 1 5 0 1 [] with
    capacityAdjustments :=
      [{ col_start := 0, row_start := 0, layer_start := 0,
         col_end := 1, row_end := 0, layer_end := 0, adjusted_capacity := 7 }] }

/-- A 2x1x1 grid with capacity 5 and two capacity adjustments of its edge, to
3 and then to 2. -/
def lowered_problem : GlobalRoutingProblem :=
  { scenario_problem 2 1 1 5 0 1 [] with
    capacityAdjustments :=
      [{ col_start := 0, row_start := 0, layer_start := 0,
         col_end := 1, row_end := 0, layer_end := 0, adjusted_capacity := 3 },
       { col_start := 1, row_start := 0, layer_start := 0,
         col_end := 0, row_end := 0, layer_end := 0, adjusted_capacity := 2 }] }

/-- Three pins on one line, at `x = 0`, `3` and `9`: their centroid is
`(4, 0, 0)`, their distances from it 4, 1 and 5. -/
def spread_pins : List Pin :=
  [{ x := 0, y := 0, layer := 0 }, { x := 3, y := 0, layer := 0 }, { x := 9, y := 0, layer := 0 }]

/-- A problem on a 10x1x1 grid with tiles of 1 by 1 whose one net has the pins
`spread_pins`. -/
def spread_problem : GlobalRoutingProblem :=
  { scenario_problem 10 1 1 100 0 1
      [{ name := "n0", id := 0, num_pins := 3, minimum_width := 0, pins := spread_pins }] with
    tileInfo := { lower_left_x := 0, lower_left_y := 0, tile_width := 1, tile_height := 1 } }

/-! ## Removal from the queue, the pops of the search and the order of the pins -/

namespace PriorityQueue

variable {V P : Type} [LinearOrder V] [LinearOrder P]

/-- Method `PriorityQueue::remove`: the entry found takes the last entry, the
vector loses its last element, and `heapifyDown( index )` runs when the heap is
not empty. `none` where an assertion fails: `assert( it != heap.end() )` when no
entry carries the value, and `assert( 0 <= index && index < heap.size() )` of
`heapifyDown` when `index` is not an index of the shrunken heap. -/
def remove (heap : List (Entry V P)) (value : V) : Option (List (Entry V P)) :=
  match heap[heap.findIdx (fun entry => decide (entry.value = value))]?, heap.getLast? with
  | some _, some back =>
    let index := heap.findIdx (fun entry => decide (entry.value = value))
    let heap1 := (heap.set index back).dropLast
    if heap1.isEmpty then some heap1
    else if index < heap1.length then some (heapifyDown heap1 index)
    else none
  | _, _ => none

/-- A heap array given by its priorities, every entry with its priority as
value. -/
def of_priorities (priorities : List Nat) : List (Entry Nat Nat) :=
  priorities.map (fun p => ⟨p, p⟩)

end PriorityQueue

namespace Graph

end Graph

namespace Connector

/-- The two assertions that follow the capacity test in the body of the loop
over the edges in `create_search_forest`, evaluated where the body reaches them
from state `c`: `required_capacity + aggregated_width[edgeindex] <=
current_edge_capacity` and `current_edge_capacity > 0`, both made in
respect-capacity mode only. `required_capacity` is 0 for an edge in z
direction. Both values are `true` where the body skips the edge or stops
before it gets there. -/
def relax_capacity_asserts (min_net_width : Int) (BB : BoundingBox) (respect_capacity : Bool)
    (current_node : Nat) (c : Connector) (edgeindex : Nat) : Bool × Bool :=
  let other_node := c.graph.other_node edgeindex current_node
  if respect_capacity ∧ BB.outside (c.graph.get_position_from_nodeindex other_node) then
    (true, true)
  else
    match c.graph.get_edge_direction edgeindex with
    | none => (true, true)
    | some current_direction =>
      if current_direction ≠ .z_plus
          ∧ ¬ c.block_asserts min_net_width respect_capacity edgeindex then (true, true)
      else if current_direction ≠ .z_plus ∧ respect_capacity
          ∧ c.aggregated_width edgeindex + c.required_capacity min_net_width edgeindex
              > c.graph.get_capacity edgeindex then (true, true)
      else if respect_capacity then
        (decide ((if current_direction ≠ .z_plus then
              c.required_capacity min_net_width edgeindex else 0)
            + c.aggregated_width edgeindex ≤ c.graph.get_capacity edgeindex),
          decide (c.graph.get_capacity edgeindex > 0))
      else (true, true)

/-- One pass through the head of the loop `while( not active_T.empty() )` of
`create_search_forest` that pops an entry: the value of `last_distance` before
the pop, the entry popped, and the state after the pop. -/
structure pop_call where
  last_distance : Nat
  current_entry : Entry Nat Nat
  state : Connector

/-- The two assertions that follow `pq.pop()`:
`current_distance == distance[current_node]` and
`last_distance <= current_distance`. -/
def pop_asserts (x : pop_call) : Bool :=
  decide (x.current_entry.priority = x.state.distance x.current_entry.value)
    && decide (x.last_distance ≤ x.current_entry.priority)

/-- The pops of the loop `while( not active_T.empty() )`, in the order of the
run; `last_distance` is the variable of that name. -/
def search_loop_pops (min_net_width : Int) (BB : BoundingBox) (respect_capacity : Bool)
    (capacity_penalty_factor : Nat) : Nat → Connector → List Nat → Nat → List pop_call
  | 0, _, _, _ => []
  | fuel + 1, c, active_T, last_distance =>
    if active_T.isEmpty then []
    else
      match PriorityQueue.pop c.pq with
      | none => []
      | some (current_entry, pq1) =>
        ⟨last_distance, current_entry, { c with pq := pq1 }⟩ ::
          match relax_all min_net_width BB respect_capacity capacity_penalty_factor
              current_entry.value { c with pq := pq1 }
              (c.graph.get_edgeindices_from_node current_entry.value) with
          | none => []
          | some c1 =>
            search_loop_pops min_net_width BB respect_capacity capacity_penalty_factor fuel c1
              (active_T.erase current_entry.value) current_entry.priority

/-- The pops of one activation of `create_search_forest`; `last_distance`
starts at 0. -/
def search_pass_pops (c : Connector) (S T : List Nat) (min_net_width : Int) (BB : BoundingBox)
    (respect_capacity : Bool) (capacity_penalty_factor : Nat) : List pop_call :=
  if ¬ c.head_asserts min_net_width then []
  else
  match push_sources { c with pq := [], current_iteration := c.current_iteration + 1 } S with
  | none => []
  | some c0 =>
    search_loop_pops min_net_width BB respect_capacity capacity_penalty_factor
      c0.graph.count_nodes c0 T 0

/-- The pops of a call of `create_search_forest`, one list for each
activation: the first pass and, when it finds the queue empty in
respect-capacity mode, the emergency pass. -/
def create_search_forest_pops (c : Connector) (S T : List Nat) (min_net_width : Int)
    (BB : BoundingBox) (respect_capacity : Bool) (capacity_penalty_factor : Nat) :
    List (List pop_call) :=
  search_pass_pops c S T min_net_width BB respect_capacity capacity_penalty_factor ::
    match search_pass c S T min_net_width BB respect_capacity capacity_penalty_factor with
    | some (none, c1) =>
      if respect_capacity then
        [search_pass_pops { c1 with emergency_log := c1.emergency_log + 1 } S T min_net_width
          BB false capacity_penalty_factor]
      else []
    | _ => []

end Connector

namespace GlobalRoutingProblem

/-- Two problems agree in everything the router reads but the nets: the grid,
the design rules and the tiles. -/
def same_rules (p p1 : GlobalRoutingProblem) : Prop :=
  p1.grid = p.grid ∧ p1.dimension = p.dimension ∧ p1.tileInfo = p.tileInfo

end GlobalRoutingProblem

namespace Connector

/-- States `c` and `c1` give a search the same inputs: their problems agree in
the grid, the design rules and the tiles, they have the same graph and the same
aggregated widths, and in neither state an entry of `queued` lies above the
iteration counter. -/
structure same_inputs (c c1 : Connector) : Prop where
  rules : c.problem.same_rules c1.problem
  graph_eq : c1.graph = c.graph
  agg_eq : c1.aggregated_width = c.aggregated_width
  queued_le : ∀ v, c.queued v ≤ c.current_iteration
  queued_le1 : ∀ v, c1.queued v ≤ c1.current_iteration

/-- States `c` and `c1` are at the same point of the same search: same inputs,
the same queue, the same nodes entered into the queue in the current call, and
the same distance, preceding node and relevant edge for each of these nodes;
the values of the queue and the preceding nodes of such nodes are such nodes. -/
structure sim (c c1 : Connector) : Prop where
  inputs : same_inputs c c1
  pq_eq : c1.pq = c.pq
  seen_iff : ∀ v, c1.seen v ↔ c.seen v
  distance_eq : ∀ v, c.seen v → c1.distance v = c.distance v
  preceding_eq : ∀ v, c.seen v → c1.preceding_node v = c.preceding_node v
  relevant_eq : ∀ v, c.seen v → c1.relevant_edge v = c.relevant_edge v
  pq_seen : ∀ entry ∈ c.pq, c.seen entry.value
  preceding_seen : ∀ v u, c.seen v → c.preceding_node v = some u → c.seen u

end Connector

/-! ## Problems and heaps of the last statements -/

/-- A 2x1x1 grid whose one edge has capacity 0, with minimum width 0 and
minimum spacing 0, and one net of width 0 with a pin on each tile. -/
def free_problem : GlobalRoutingProblem :=
  scenario_problem 2 1 1 0 0 0
    [{ name := "n0", id := 0, num_pins := 2, minimum_width := 0,
       pins := [{ x := 5, y := 5, layer := 0 }, { x := 15, y := 5, layer := 0 }] }]

/-- The graph `createGraphFromGlobalRoutingProblem` returns for
`free_problem`: one X edge of capacity 0. -/
def free_graph : Graph := { dim_x := 2, dim_y := 1, dim_z := 1, capacities := [0] }

/-- A state of the connector of the scenario "emergency fallback" as earlier
calls could have left it: the counter at 5, node 1 marked as entered into the
queue in the call before, and leftovers in `distance`, `preceding_node`,
`relevant_edge` and the queue. -/
def stale_connector : Connector :=
  { Connector.create saturated_problem saturated_graph with
    queued := fun v => if v = 1 then 5 else 2
    distance := fun _ => 3
    preceding_node := fun _ => some 0
    relevant_edge := fun _ => some 0
    pq := [⟨1, 4⟩]
    current_iteration := 5 }

/-- A heap of seven entries; the entry of priority 11 sits at index 3, below
the entry of priority 10, and the last entry, below the entry of priority 2,
has priority 3. -/
def lopsided_heap : List (Entry Nat Nat) :=
  PriorityQueue.of_priorities [1, 10, 2, 11, 12, 6, 3]

/-- A heap of two entries. -/
def pair_heap : List (Entry Nat Nat) := PriorityQueue.of_priorities [1, 2]

end GlobalRouting

/-! ## Grid arithmetic: nodes and positions -/

namespace GlobalRouting

/-! ### Mixed-radix arithmetic behind the node and edge indices -/

theorem radix_div (A B a b c : Nat) (hb : b < A) (hc : c < B) :
    (a * A * B + b * B + c) / (A * B) = a := by
  have h1 : b * B + c < A * B := by
    calc b * B + c < b * B + B := by omega
      _ = (b + 1) * B := by ring
      _ ≤ A * B := Nat.mul_le_mul_right B hb
  have hpos : 0 < A * B := by
    rcases Nat.eq_zero_or_pos (A * B) with h | h
    · omega
    · exact h
  have : a * A * B + b * B + c = (b * B + c) + (A * B) * a := by ring
  rw [this, Nat.add_mul_div_left _ _ hpos, Nat.div_eq_of_lt h1]
  simp

theorem radix_mod (A B a b c : Nat) (hb : b < A) (hc : c < B) :
    (a * A * B + b * B + c) % (A * B) = b * B + c := by
  have h1 : b * B + c < A * B := by
    calc b * B + c < b * B + B := by omega
      _ = (b + 1) * B := by ring
      _ ≤ A * B := Nat.mul_le_mul_right B hb
  have : a * A * B + b * B + c = (b * B + c) + (A * B) * a := by ring
  rw [this, Nat.add_mul_mod_self_left, Nat.mod_eq_of_lt h1]

theorem radix_mid (A B a b c : Nat) (hb : b < A) (hc : c < B) :
    (a * A * B + b * B + c) % (A * B) / B = b := by
  rw [radix_mod A B a b c hb hc]
  have hB : 0 < B := by omega
  have : b * B + c = c + B * b := by ring
  rw [this, Nat.add_mul_div_left _ _ hB, Nat.div_eq_of_lt hc]
  simp

theorem radix_low (A B a b c : Nat) (hb : b < A) (hc : c < B) :
    (a * A * B + b * B + c) % (A * B) % B = c := by
  rw [radix_mod A B a b c hb hc]
  have : b * B + c = c + B * b := by ring
  rw [this, Nat.add_mul_mod_self_left, Nat.mod_eq_of_lt hc]

theorem radix_recompose (A B n : Nat) :
    n / (A * B) * A * B + n % (A * B) / B * B + n % (A * B) % B = n := by
  have h1 := Nat.div_add_mod n (A * B)
  have h2 := Nat.div_add_mod (n % (A * B)) B
  calc n / (A * B) * A * B + n % (A * B) / B * B + n % (A * B) % B
      = (A * B) * (n / (A * B)) + (B * (n % (A * B) / B) + n % (A * B) % B) := by ring
    _ = n := by rw [h2, h1]

theorem radix_high_lt (M A B n : Nat) (h : n < M * A * B) : n / (A * B) < M := by
  apply Nat.div_lt_of_lt_mul
  calc n < M * A * B := h
    _ = A * B * M := by ring

theorem radix_mid_lt (A B n : Nat) (hA : 0 < A) (hB : 0 < B) : n % (A * B) / B < A := by
  apply Nat.div_lt_of_lt_mul
  have : n % (A * B) < A * B := Nat.mod_lt _ (Nat.mul_pos hA hB)
  calc n % (A * B) < A * B := this
    _ = B * A := by ring

theorem radix_low_lt (A B n : Nat) (hB : 0 < B) : n % (A * B) % B < B :=
  Nat.mod_lt _ hB

namespace Graph

/-! ### Nodes and positions -/

theorem position_of_nodeindex (g : Graph) (x y z : Nat) (hy : y < g.dim_y) (hz : z < g.dim_z) :
    g.get_position_from_nodeindex (g.get_nodeindex_from_position x y z) = (x, y, z) := by
  unfold get_position_from_nodeindex get_nodeindex_from_position
  rw [radix_div _ _ _ _ _ hy hz, radix_mid _ _ _ _ _ hy hz, radix_low _ _ _ _ _ hy hz]

theorem nodeindex_of_position (g : Graph) (n : Nat) :
    g.get_nodeindex_from_position (g.get_position_from_nodeindex n).1
      (g.get_position_from_nodeindex n).2.1 (g.get_position_from_nodeindex n).2.2 = n := by
  unfold get_position_from_nodeindex get_nodeindex_from_position
  exact radix_recompose _ _ _

theorem position_lt (g : Graph) (hg : g.wf) (n : Nat) (hn : n < g.count_nodes) :
    (g.get_position_from_nodeindex n).1 < g.dim_x
      ∧ (g.get_position_from_nodeindex n).2.1 < g.dim_y
      ∧ (g.get_position_from_nodeindex n).2.2 < g.dim_z := by
  obtain ⟨_, hy, hz, _⟩ := hg
  unfold get_position_from_nodeindex
  exact ⟨radix_high_lt _ _ _ _ hn, radix_mid_lt _ _ _ hy hz, radix_low_lt _ _ _ hz⟩

theorem nodeindex_lt (g : Graph) (x y z : Nat) (hx : x < g.dim_x) (hy : y < g.dim_y)
    (hz : z < g.dim_z) : g.get_nodeindex_from_position x y z < g.count_nodes := by
  unfold get_nodeindex_from_position count_nodes
  have h1 : y * g.dim_z + z < g.dim_y * g.dim_z := by
    calc y * g.dim_z + z < y * g.dim_z + g.dim_z := by omega
      _ = (y + 1) * g.dim_z := by ring
      _ ≤ g.dim_y * g.dim_z := Nat.mul_le_mul_right _ hy
  calc x * g.dim_y * g.dim_z + y * g.dim_z + z
      = x * (g.dim_y * g.dim_z) + (y * g.dim_z + z) := by ring
    _ < x * (g.dim_y * g.dim_z) + g.dim_y * g.dim_z := by omega
    _ = (x + 1) * (g.dim_y * g.dim_z) := by ring
    _ ≤ g.dim_x * (g.dim_y * g.dim_z) := Nat.mul_le_mul_right _ hx
    _ = g.dim_x * g.dim_y * g.dim_z := by ring

theorem nodeindex_injective (g : Graph) (x y z x' y' z' : Nat) (hy : y < g.dim_y) (hz : z < g.dim_z)
    (hy' : y' < g.dim_y) (hz' : z' < g.dim_z)
    (h : g.get_nodeindex_from_position x y z = g.get_nodeindex_from_position x' y' z') :
    x = x' ∧ y = y' ∧ z = z' := by
  have h1 := position_of_nodeindex g x y z hy hz
  have h2 := position_of_nodeindex g x' y' z' hy' hz'
  rw [h] at h1
  rw [h1] at h2
  simpa using h2

end Graph
end GlobalRouting

/-! ## Grid arithmetic: edges -/

namespace GlobalRouting

theorem radix_lt (M A B a b c : Nat) (ha : a < M) (hb : b < A) (hc : c < B) :
    a * A * B + b * B + c < M * A * B := by
  have h1 : b * B + c < A * B := by
    calc b * B + c < b * B + B := by omega
      _ = (b + 1) * B := by ring
      _ ≤ A * B := Nat.mul_le_mul_right B hb
  calc a * A * B + b * B + c = a * (A * B) + (b * B + c) := by ring
    _ < a * (A * B) + A * B := by omega
    _ = (a + 1) * (A * B) := by ring
    _ ≤ M * (A * B) := Nat.mul_le_mul_right _ ha
    _ = M * A * B := by ring

namespace Graph

theorem count_edges_eq (g : Graph) :
    g.count_edges = g.offset_z + g.dim_x * g.dim_y * (g.dim_z - 1) := by
  unfold count_edges offset_z
  ring

theorem x_edge_index (g : Graph) (x y z : Nat) (hx : x + 1 < g.dim_x) (hy : y < g.dim_y)
    (hz : z < g.dim_z) :
    x * g.dim_y * g.dim_z + y * g.dim_z + z < g.offset_y
      ∧ g.is_x_edge (x * g.dim_y * g.dim_z + y * g.dim_z + z) x y z := by
  have hlt : x * g.dim_y * g.dim_z + y * g.dim_z + z < g.offset_y :=
    radix_lt (g.dim_x - 1) _ _ _ _ _ (by omega) hy hz
  refine ⟨hlt, hx, hy, hz, rfl, ?_⟩
  unfold offset_y at hlt
  unfold get_nodes_of_edge
  rw [if_pos hlt]
  simp only [radix_div _ _ _ _ _ hy hz, radix_mid _ _ _ _ _ hy hz, radix_low _ _ _ _ _ hy hz]
  unfold get_neighbor
  rw [position_of_nodeindex g x y z hy hz]

theorem y_edge_index (g : Graph) (x y z : Nat) (hx : x < g.dim_x) (hy : y + 1 < g.dim_y)
    (hz : z < g.dim_z) :
    g.offset_y + (y * g.dim_x * g.dim_z + x * g.dim_z + z) < g.offset_z
      ∧ g.is_y_edge (g.offset_y + (y * g.dim_x * g.dim_z + x * g.dim_z + z)) x y z := by
  have h1 : y * g.dim_x * g.dim_z + x * g.dim_z + z < (g.dim_y - 1) * g.dim_x * g.dim_z :=
    radix_lt (g.dim_y - 1) _ _ _ _ _ (by omega) hx hz
  have h2 : (g.dim_y - 1) * g.dim_x * g.dim_z = g.dim_x * (g.dim_y - 1) * g.dim_z := by ring
  have hlt : g.offset_y + (y * g.dim_x * g.dim_z + x * g.dim_z + z) < g.offset_z := by
    unfold offset_y offset_z
    omega
  refine ⟨hlt, hx, hy, hz, rfl, ?_⟩
  unfold offset_y offset_z at hlt
  unfold get_nodes_of_edge offset_y
  rw [if_neg (by omega), if_pos hlt]
  simp only [Nat.add_sub_cancel_left, radix_div _ _ _ _ _ hx hz, radix_mid _ _ _ _ _ hx hz,
    radix_low _ _ _ _ _ hx hz]
  unfold get_neighbor
  rw [position_of_nodeindex g x y z (by omega) hz]

theorem z_edge_index (g : Graph) (x y z : Nat) (hx : x < g.dim_x) (hy : y < g.dim_y)
    (hz : z + 1 < g.dim_z) :
    g.offset_z + (z * g.dim_x * g.dim_y + x * g.dim_y + y) < g.count_edges
      ∧ g.is_z_edge (g.offset_z + (z * g.dim_x * g.dim_y + x * g.dim_y + y)) x y z := by
  have h1 : z * g.dim_x * g.dim_y + x * g.dim_y + y < (g.dim_z - 1) * g.dim_x * g.dim_y :=
    radix_lt (g.dim_z - 1) _ _ _ _ _ (by omega) hx hy
  have h2 : (g.dim_z - 1) * g.dim_x * g.dim_y = g.dim_x * g.dim_y * (g.dim_z - 1) := by ring
  have hlt : g.offset_z + (z * g.dim_x * g.dim_y + x * g.dim_y + y) < g.count_edges := by
    rw [count_edges_eq]
    omega
  refine ⟨hlt, hx, hy, hz, rfl, ?_⟩
  unfold get_nodes_of_edge offset_z
  rw [if_neg (by omega), if_neg (by omega)]
  have h3 : (g.dim_x - 1) * g.dim_y * g.dim_z + g.dim_x * (g.dim_y - 1) * g.dim_z
      + (z * g.dim_x * g.dim_y + x * g.dim_y + y) - (g.dim_x - 1) * g.dim_y * g.dim_z
      - g.dim_x * (g.dim_y - 1) * g.dim_z = z * g.dim_x * g.dim_y + x * g.dim_y + y := by omega
  simp only [h3, radix_div _ _ _ _ _ hx hy, radix_mid _ _ _ _ _ hx hy,
    radix_low _ _ _ _ _ hx hy]
  unfold get_neighbor
  rw [position_of_nodeindex g x y z hy (by omega)]

/-- Every edge index below `count_edges` is an x, y or z edge at some position. -/
theorem edge_cases (g : Graph) (hg : g.wf) (e : Nat) (he : e < g.count_edges) :
    (e < g.offset_y ∧ ∃ x y z, g.is_x_edge e x y z)
      ∨ (g.offset_y ≤ e ∧ e < g.offset_z ∧ ∃ x y z, g.is_y_edge e x y z)
      ∨ (g.offset_z ≤ e ∧ ∃ x y z, g.is_z_edge e x y z) := by
  obtain ⟨hx1, hy1, hz1, _⟩ := hg
  by_cases h1 : e < g.offset_y
  · left
    refine ⟨h1, e / (g.dim_y * g.dim_z), e % (g.dim_y * g.dim_z) / g.dim_z,
      e % (g.dim_y * g.dim_z) % g.dim_z, ?_⟩
    have hx : e / (g.dim_y * g.dim_z) < g.dim_x - 1 := radix_high_lt _ _ _ _ h1
    have hy := radix_mid_lt g.dim_y g.dim_z e hy1 hz1
    have hz := radix_low_lt g.dim_y g.dim_z e hz1
    have := (x_edge_index g (e / (g.dim_y * g.dim_z)) _ _ (by omega) hy hz).2
    rwa [radix_recompose] at this
  · by_cases h2 : e < g.offset_z
    · right; left
      refine ⟨by omega, h2, ?_⟩
      have hlt : e - g.offset_y < (g.dim_y - 1) * g.dim_x * g.dim_z := by
        have : (g.dim_y - 1) * g.dim_x * g.dim_z = g.dim_x * (g.dim_y - 1) * g.dim_z := by ring
        unfold offset_y offset_z at *
        omega
      refine ⟨(e - g.offset_y) % (g.dim_x * g.dim_z) / g.dim_z,
        (e - g.offset_y) / (g.dim_x * g.dim_z), (e - g.offset_y) % (g.dim_x * g.dim_z) % g.dim_z, ?_⟩
      have hy : (e - g.offset_y) / (g.dim_x * g.dim_z) < g.dim_y - 1 := radix_high_lt _ _ _ _ hlt
      have hx := radix_mid_lt g.dim_x g.dim_z (e - g.offset_y) hx1 hz1
      have hz := radix_low_lt g.dim_x g.dim_z (e - g.offset_y) hz1
      have := (y_edge_index g _ ((e - g.offset_y) / (g.dim_x * g.dim_z)) _ hx (by omega) hz).2
      rw [radix_recompose] at this
      have h3 : g.offset_y + (e - g.offset_y) = e := by omega
      rwa [h3] at this
    · right; right
      refine ⟨by omega, ?_⟩
      have hlt : e - g.offset_z < (g.dim_z - 1) * g.dim_x * g.dim_y := by
        have : (g.dim_z - 1) * g.dim_x * g.dim_y = g.dim_x * g.dim_y * (g.dim_z - 1) := by ring
        rw [count_edges_eq] at he
        omega
      refine ⟨(e - g.offset_z) % (g.dim_x * g.dim_y) / g.dim_y,
        (e - g.offset_z) % (g.dim_x * g.dim_y) % g.dim_y, (e - g.offset_z) / (g.dim_x * g.dim_y), ?_⟩
      have hz : (e - g.offset_z) / (g.dim_x * g.dim_y) < g.dim_z - 1 := radix_high_lt _ _ _ _ hlt
      have hx := radix_mid_lt g.dim_x g.dim_y (e - g.offset_z) hx1 hy1
      have hy := radix_low_lt g.dim_x g.dim_y (e - g.offset_z) hy1
      have := (z_edge_index g _ _ ((e - g.offset_z) / (g.dim_x * g.dim_y)) hx hy (by omega)).2
      rw [radix_recompose] at this
      have h3 : g.offset_z + (e - g.offset_z) = e := by omega
      rwa [h3] at this

end Graph
end GlobalRouting

/-! ## Directions, neighbours and incidence -/

namespace GlobalRouting
namespace Graph

theorem mem_direction_all (d : direction) : d ∈ direction.all := by
  cases d <;> simp [direction.all]

theorem mem_edgeindices (g : Graph) (u e : Nat) :
    e ∈ g.get_edgeindices_from_node u
      ↔ ∃ d, g.is_direction_possible u d = true
          ∧ g.get_edgeindex_from_node_and_direction u d = e := by
  unfold get_edgeindices_from_node
  simp only [List.mem_map, List.mem_filter]
  constructor
  · rintro ⟨d, ⟨_, hd⟩, he⟩
    exact ⟨d, hd, he⟩
  · rintro ⟨d, hd, he⟩
    exact ⟨d, ⟨mem_direction_all d, hd⟩, he⟩

theorem x_edge_direction (g : Graph) (e x y z : Nat) (h : g.is_x_edge e x y z) :
    g.get_edge_direction e = some .x_plus := by
  obtain ⟨hx, hy, hz, _, hn⟩ := h
  unfold get_edge_direction
  rw [hn]
  simp only [position_of_nodeindex g _ y z hy hz]
  simp

theorem y_edge_direction (g : Graph) (e x y z : Nat) (h : g.is_y_edge e x y z) :
    g.get_edge_direction e = some .y_plus := by
  obtain ⟨hx, hy, hz, _, hn⟩ := h
  unfold get_edge_direction
  rw [hn]
  simp only [position_of_nodeindex g x y z (by omega) hz,
    position_of_nodeindex g x (y + 1) z hy hz]
  simp

theorem z_edge_direction (g : Graph) (e x y z : Nat) (h : g.is_z_edge e x y z) :
    g.get_edge_direction e = some .z_plus := by
  obtain ⟨hx, hy, hz, _, hn⟩ := h
  unfold get_edge_direction
  rw [hn]
  simp only [position_of_nodeindex g x y z hy (by omega),
    position_of_nodeindex g x y (z + 1) hy hz]
  simp

/-- The direction of an edge is the plus direction of its index range. -/
theorem edge_direction_cases (g : Graph) (hg : g.wf) (e : Nat) (he : e < g.count_edges) :
    (e < g.offset_y ∧ g.get_edge_direction e = some .x_plus)
      ∨ (g.offset_y ≤ e ∧ e < g.offset_z ∧ g.get_edge_direction e = some .y_plus)
      ∨ (g.offset_z ≤ e ∧ g.get_edge_direction e = some .z_plus) := by
  rcases edge_cases g hg e he with ⟨h1, x, y, z, h⟩ | ⟨h1, h2, x, y, z, h⟩ | ⟨h1, x, y, z, h⟩
  · exact Or.inl ⟨h1, x_edge_direction g e x y z h⟩
  · exact Or.inr (Or.inl ⟨h1, h2, y_edge_direction g e x y z h⟩)
  · exact Or.inr (Or.inr ⟨h1, z_edge_direction g e x y z h⟩)

theorem edge_direction_plus (g : Graph) (hg : g.wf) (e : Nat) (he : e < g.count_edges) :
    g.get_edge_direction e = some .x_plus ∨ g.get_edge_direction e = some .y_plus
      ∨ g.get_edge_direction e = some .z_plus := by
  rcases edge_direction_cases g hg e he with h | h | h
  · exact Or.inl h.2
  · exact Or.inr (Or.inl h.2.2)
  · exact Or.inr (Or.inr h.2)

/-- The two end nodes of an edge are different nodes of the graph. -/
theorem nodes_of_edge_lt (g : Graph) (hg : g.wf) (e : Nat) (he : e < g.count_edges) :
    (g.get_nodes_of_edge e).1 < g.count_nodes ∧ (g.get_nodes_of_edge e).2 < g.count_nodes
      ∧ (g.get_nodes_of_edge e).1 ≠ (g.get_nodes_of_edge e).2 := by
  rcases edge_cases g hg e he with ⟨_, x, y, z, h⟩ | ⟨_, _, x, y, z, h⟩ | ⟨_, x, y, z, h⟩
  · obtain ⟨hx, hy, hz, _, hn⟩ := h
    rw [hn]
    refine ⟨nodeindex_lt g _ _ _ (by omega) hy hz, nodeindex_lt g _ _ _ hx hy hz, ?_⟩
    intro hc
    have := nodeindex_injective g _ _ _ _ _ _ hy hz hy hz hc
    omega
  · obtain ⟨hx, hy, hz, _, hn⟩ := h
    rw [hn]
    refine ⟨nodeindex_lt g _ _ _ hx (by omega) hz, nodeindex_lt g _ _ _ hx hy hz, ?_⟩
    intro hc
    have := nodeindex_injective g _ _ _ _ _ _ (by omega) hz hy hz hc
    omega
  · obtain ⟨hx, hy, hz, _, hn⟩ := h
    rw [hn]
    refine ⟨nodeindex_lt g _ _ _ hx hy (by omega), nodeindex_lt g _ _ _ hx hy hz, ?_⟩
    intro hc
    have := nodeindex_injective g _ _ _ _ _ _ hy (by omega) hy hz hc
    omega

theorem possible_at (g : Graph) (x y z : Nat) (hy : y < g.dim_y) (hz : z < g.dim_z)
    (d : direction) :
    g.is_direction_possible (g.get_nodeindex_from_position x y z) d =
      match d with
      | .x_plus => decide (x < g.dim_x - 1)
      | .x_minus => decide (1 ≤ x)
      | .y_plus => decide (y < g.dim_y - 1)
      | .y_minus => decide (1 ≤ y)
      | .z_plus => decide (z < g.dim_z - 1)
      | .z_minus => decide (1 ≤ z) := by
  unfold is_direction_possible
  rw [position_of_nodeindex g x y z hy hz]
  cases d <;> rfl

theorem edgeindex_at (g : Graph) (x y z : Nat) (hy : y < g.dim_y) (hz : z < g.dim_z)
    (d : direction) :
    g.get_edgeindex_from_node_and_direction (g.get_nodeindex_from_position x y z) d =
      match d with
      | .x_plus => x * g.dim_y * g.dim_z + y * g.dim_z + z
      | .x_minus => (x - 1) * g.dim_y * g.dim_z + y * g.dim_z + z
      | .y_plus => g.offset_y + (y * g.dim_x * g.dim_z + x * g.dim_z + z)
      | .y_minus => g.offset_y + ((y - 1) * g.dim_x * g.dim_z + x * g.dim_z + z)
      | .z_plus => g.offset_z + (z * g.dim_x * g.dim_y + x * g.dim_y + y)
      | .z_minus => g.offset_z + ((z - 1) * g.dim_x * g.dim_y + x * g.dim_y + y) := by
  unfold get_edgeindex_from_node_and_direction
  rw [position_of_nodeindex g x y z hy hz]
  cases d <;> rfl

theorem neighbor_at (g : Graph) (x y z : Nat) (hy : y < g.dim_y) (hz : z < g.dim_z)
    (d : direction) :
    g.get_neighbor (g.get_nodeindex_from_position x y z) d =
      match d with
      | .x_plus => g.get_nodeindex_from_position (x + 1) y z
      | .x_minus => g.get_nodeindex_from_position (x - 1) y z
      | .y_plus => g.get_nodeindex_from_position x (y + 1) z
      | .y_minus => g.get_nodeindex_from_position x (y - 1) z
      | .z_plus => g.get_nodeindex_from_position x y (z + 1)
      | .z_minus => g.get_nodeindex_from_position x y (z - 1) := by
  unfold get_neighbor
  rw [position_of_nodeindex g x y z hy hz]
  cases d <;> rfl

/-- The edge found at a node in a possible direction joins the node and its
neighbour in that direction. -/
theorem edge_of_direction (g : Graph) (x y z : Nat) (hx : x < g.dim_x) (hy : y < g.dim_y)
    (hz : z < g.dim_z) (d : direction)
    (hd : g.is_direction_possible (g.get_nodeindex_from_position x y z) d = true) :
    g.get_edgeindex_from_node_and_direction (g.get_nodeindex_from_position x y z) d < g.count_edges
      ∧ (g.get_nodes_of_edge
            (g.get_edgeindex_from_node_and_direction (g.get_nodeindex_from_position x y z) d)
          = (g.get_nodeindex_from_position x y z,
              g.get_neighbor (g.get_nodeindex_from_position x y z) d)
        ∨ g.get_nodes_of_edge
            (g.get_edgeindex_from_node_and_direction (g.get_nodeindex_from_position x y z) d)
          = (g.get_neighbor (g.get_nodeindex_from_position x y z) d,
              g.get_nodeindex_from_position x y z)) := by
  rw [possible_at g x y z hy hz] at hd
  rw [edgeindex_at g x y z hy hz, neighbor_at g x y z hy hz]
  have hyz : g.offset_y ≤ g.offset_z := by unfold offset_y offset_z; omega
  have hzc : g.offset_z ≤ g.count_edges := by rw [count_edges_eq]; omega
  cases d <;> simp only [decide_eq_true_eq] at hd ⊢
  · obtain ⟨h1, h2⟩ := x_edge_index g x y z (by omega) hy hz
    exact ⟨by omega, Or.inl h2.2.2.2.2⟩
  · obtain ⟨h1, h2⟩ := x_edge_index g (x - 1) y z (by omega) hy hz
    refine ⟨by omega, Or.inr ?_⟩
    have := h2.2.2.2.2
    rwa [Nat.sub_add_cancel hd] at this
  · obtain ⟨h1, h2⟩ := y_edge_index g x y z hx (by omega) hz
    exact ⟨by omega, Or.inl h2.2.2.2.2⟩
  · obtain ⟨h1, h2⟩ := y_edge_index g x (y - 1) z hx (by omega) hz
    refine ⟨by omega, Or.inr ?_⟩
    have := h2.2.2.2.2
    rwa [Nat.sub_add_cancel hd] at this
  · obtain ⟨h1, h2⟩ := z_edge_index g x y z hx hy (by omega)
    exact ⟨by omega, Or.inl h2.2.2.2.2⟩
  · obtain ⟨h1, h2⟩ := z_edge_index g x y (z - 1) hx hy (by omega)
    refine ⟨by omega, Or.inr ?_⟩
    have := h2.2.2.2.2
    rwa [Nat.sub_add_cancel hd] at this

/-- Every edge listed at a node of the graph is an edge of the graph with that
node as one end. -/
theorem edgeindices_incident (g : Graph) (hg : g.wf) (u e : Nat) (hu : u < g.count_nodes)
    (he : e ∈ g.get_edgeindices_from_node u) :
    e < g.count_edges ∧ ((g.get_nodes_of_edge e).1 = u ∨ (g.get_nodes_of_edge e).2 = u) := by
  obtain ⟨d, hd, rfl⟩ := (mem_edgeindices g u e).1 he
  obtain ⟨hx, hy, hz⟩ := position_lt g hg u hu
  have hu' := nodeindex_of_position g u
  rw [← hu'] at hd ⊢
  obtain ⟨h1, h2 | h2⟩ := edge_of_direction g _ _ _ hx hy hz d hd
  · exact ⟨h1, Or.inl (by rw [h2])⟩
  · exact ⟨h1, Or.inr (by rw [h2])⟩

/-- Every edge of the graph is listed at both of its end nodes. -/
theorem edge_mem_edgeindices (g : Graph) (hg : g.wf) (e : Nat) (he : e < g.count_edges) :
    e ∈ g.get_edgeindices_from_node (g.get_nodes_of_edge e).1
      ∧ e ∈ g.get_edgeindices_from_node (g.get_nodes_of_edge e).2 := by
  rcases edge_cases g hg e he with ⟨_, x, y, z, h⟩ | ⟨_, _, x, y, z, h⟩ | ⟨_, x, y, z, h⟩
  · obtain ⟨hx, hy, hz, hi, hn⟩ := h
    rw [hn]
    constructor
    · refine (mem_edgeindices _ _ _).2 ⟨.x_plus, ?_, ?_⟩
      · rw [possible_at g x y z hy hz]; simp; omega
      · rw [edgeindex_at g x y z hy hz]; exact hi.symm
    · refine (mem_edgeindices _ _ _).2 ⟨.x_minus, ?_, ?_⟩
      · rw [possible_at g _ y z hy hz]; simp
      · rw [edgeindex_at g _ y z hy hz]; simpa using hi.symm
  · obtain ⟨hx, hy, hz, hi, hn⟩ := h
    rw [hn]
    constructor
    · refine (mem_edgeindices _ _ _).2 ⟨.y_plus, ?_, ?_⟩
      · rw [possible_at g x y z (by omega) hz]; simp; omega
      · rw [edgeindex_at g x y z (by omega) hz]; exact hi.symm
    · refine (mem_edgeindices _ _ _).2 ⟨.y_minus, ?_, ?_⟩
      · rw [possible_at g x _ z hy hz]; simp
      · rw [edgeindex_at g x _ z hy hz]; simpa using hi.symm
  · obtain ⟨hx, hy, hz, hi, hn⟩ := h
    rw [hn]
    constructor
    · refine (mem_edgeindices _ _ _).2 ⟨.z_plus, ?_, ?_⟩
      · rw [possible_at g x y z hy (by omega)]; simp; omega
      · rw [edgeindex_at g x y z hy (by omega)]; exact hi.symm
    · refine (mem_edgeindices _ _ _).2 ⟨.z_minus, ?_, ?_⟩
      · rw [possible_at g x y _ hy hz]; simp
      · rw [edgeindex_at g x y _ hy hz]; simpa using hi.symm

end Graph
end GlobalRouting

/-! ## Binary heap: keys and swaps -/

namespace GlobalRouting

namespace Entry
variable {V P : Type} [LinearOrder V] [LinearOrder P]

theorem lt_iff_key (a b : Entry V P) : a.lt b ↔ a.key < b.key := by
  unfold Entry.lt Entry.key
  rw [Prod.Lex.lt_iff]

theorem key_injective (a b : Entry V P) (h : a.key = b.key) : a = b := by
  unfold Entry.key at h
  cases a; cases b
  simp only [EmbeddingLike.apply_eq_iff_eq, Prod.mk.injEq] at h
  obtain ⟨h1, h2⟩ := h
  subst h1; subst h2; rfl

end Entry

namespace PriorityQueue
variable {V P : Type} [LinearOrder V] [LinearOrder P]

/-! ### Swapping two cells -/

theorem swap_length {α : Type} (h : List α) (i j : Nat) : (swap h i j).length = h.length := by
  unfold swap
  split <;> simp

theorem swap_getElem? {α : Type} (h : List α) (i j : Nat) (hi : i < h.length) (hj : j < h.length)
    (m : Nat) : (swap h i j)[m]? = h[if m = i then j else if m = j then i else m]? := by
  unfold swap
  rw [List.getElem?_eq_getElem hi, List.getElem?_eq_getElem hj]
  simp only
  rw [List.getElem?_set, List.getElem?_set]
  by_cases hmj : m = j
  · subst hmj
    simp only [if_true, List.length_set, hj]
    by_cases hmi : m = i
    · subst hmi; simp
    · simp [hmi, List.getElem?_eq_getElem hi]
  · have : ¬ j = m := fun h => hmj h.symm
    simp only [this, if_false, hmj]
    by_cases hmi : m = i
    · subst hmi; simp [hi, List.getElem?_eq_getElem hj]
    · have : ¬ i = m := fun h => hmi h.symm
      simp [this, hmi]

theorem set_self {α : Type} (l : List α) (k : Nat) (hk : k < l.length) : l.set k l[k] = l := by
  apply List.ext_getElem?
  intro m
  rw [List.getElem?_set]
  by_cases hm : k = m
  · subst hm; simp [hk]
  · simp [hm]

theorem set_perm_cons {α : Type} (l : List α) (k : Nat) (a : α) (hk : k < l.length) :
    List.Perm (l[k] :: l.set k a) (a :: l) := by
  induction l generalizing k with
  | nil => simp at hk
  | cons b t ih =>
    cases k with
    | zero => simp [List.Perm.swap]
    | succ k =>
      simp only [List.length_cons, Nat.add_lt_add_iff_right] at hk
      simp only [List.getElem_cons_succ, List.set_cons_succ]
      have := ih k hk
      exact (List.Perm.swap b t[k] (t.set k a)).trans ((this.cons b).trans (List.Perm.swap a b t))

theorem swap_perm {α : Type} (h : List α) (i j : Nat) : List.Perm (swap h i j) h := by
  unfold swap
  split
  · rename_i a b ha hb
    obtain ⟨hi, rfl⟩ := List.getElem?_eq_some_iff.1 ha
    obtain ⟨hj, rfl⟩ := List.getElem?_eq_some_iff.1 hb
    by_cases hij : i = j
    · subst hij
      rw [List.set_set, set_self h i hi]
    · have h1 := set_perm_cons h i h[j] hi
      have hj' : j < (h.set i h[j]).length := by simpa using hj
      have h2 := set_perm_cons (h.set i h[j]) j h[i] hj'
      have h3 : (h.set i h[j])[j] = h[j] := by
        rw [List.getElem_set_of_ne hij]
      rw [h3] at h2
      exact (List.perm_cons _).1 (h2.trans h1)
  · exact List.Perm.refl _

/-! ### Keys at indices -/

theorem keyAt_of_lt (h : List (Entry V P)) (i : Nat) (hi : i < h.length) :
    keyAt h i = ((h[i].key : Lex (P × V)) : WithTop (Lex (P × V))) := by
  unfold keyAt
  rw [List.getElem?_eq_getElem hi]

theorem keyAt_of_le (h : List (Entry V P)) (i : Nat) (hi : h.length ≤ i) : keyAt h i = ⊤ := by
  unfold keyAt
  rw [List.getElem?_eq_none hi]

theorem keyAt_lt_top (h : List (Entry V P)) (i : Nat) : keyAt h i < ⊤ ↔ i < h.length := by
  constructor
  · intro hlt
    by_contra hc
    rw [keyAt_of_le h i (by omega)] at hlt
    exact lt_irrefl _ hlt
  · intro hi
    rw [keyAt_of_lt h i hi]
    exact WithTop.coe_lt_top _

theorem ltAt_iff (h : List (Entry V P)) (i j : Nat) :
    ltAt h i j = true ↔ j < h.length ∧ keyAt h i < keyAt h j := by
  unfold ltAt
  by_cases hj : j < h.length
  · by_cases hi : i < h.length
    · rw [List.getElem?_eq_getElem hi, List.getElem?_eq_getElem hj, keyAt_of_lt h i hi,
        keyAt_of_lt h j hj]
      simp [Entry.lt_iff_key, hj]
    · rw [List.getElem?_eq_none (by omega), keyAt_of_le h i (by omega)]
      simp
  · have hn : h[j]? = none := List.getElem?_eq_none (by omega)
    rw [hn]
    simp only [hj, false_and, iff_false]
    split <;> simp_all

theorem ltAt_eq_false_iff (h : List (Entry V P)) (i j : Nat) (hj : j < h.length) :
    ltAt h i j = false ↔ keyAt h j ≤ keyAt h i := by
  rw [← not_lt, ← Bool.not_eq_true, ltAt_iff]
  simp [hj]

theorem keyAt_swap (h : List (Entry V P)) (i j : Nat) (hi : i < h.length) (hj : j < h.length)
    (m : Nat) : keyAt (swap h i j) m = keyAt h (if m = i then j else if m = j then i else m) := by
  unfold keyAt
  rw [swap_getElem? h i j hi hj]

theorem heap_ok_iff (h : List (Entry V P)) :
    heap_ok h ↔ ∀ i, 0 < i → keyAt h ((i - 1) / 2) ≤ keyAt h i := by
  constructor
  · intro hok i hi
    by_cases hlt : i < h.length
    · exact (ltAt_eq_false_iff h i _ (by omega)).1 (hok i hi hlt)
    · rw [keyAt_of_le h i (by omega)]
      exact le_top
  · intro hok i hi hlt
    exact (ltAt_eq_false_iff h i _ (by omega)).2 (hok i hi)

/-- In a heap the first entry is the least. -/
theorem heap_ok_root_le (h : List (Entry V P)) (hok : heap_ok h) (i : Nat) :
    keyAt h 0 ≤ keyAt h i := by
  rw [heap_ok_iff] at hok
  induction i using Nat.strong_induction_on with
  | _ i ih =>
    rcases Nat.eq_zero_or_pos i with h0 | h0
    · subst h0; exact le_refl _
    · exact le_trans (ih ((i - 1) / 2) (by omega)) (hok i h0)

end PriorityQueue
end GlobalRouting

/-! ## Binary heap: sifting -/

namespace GlobalRouting
namespace PriorityQueue
variable {V P : Type} [LinearOrder V] [LinearOrder P]

/-! ### heapifyUp -/

theorem heapifyUpAux_perm (fuel : Nat) (h : List (Entry V P)) (k : Nat) :
    List.Perm (heapifyUpAux fuel h k) h := by
  induction fuel generalizing h k with
  | zero => exact List.Perm.refl _
  | succ fuel ih =>
    unfold heapifyUpAux
    split
    · split
      · exact (ih _ _).trans (swap_perm _ _ _)
      · exact List.Perm.refl _
    · exact List.Perm.refl _

theorem up_inv_swap (h : List (Entry V P)) (k : Nat) (hk : k < h.length) (hk0 : 0 < k)
    (hinv : up_inv h k) (hlt : keyAt h k < keyAt h ((k - 1) / 2)) :
    up_inv (swap h k ((k - 1) / 2)) ((k - 1) / 2) := by
  obtain ⟨h1, h2⟩ := hinv
  have hp : (k - 1) / 2 < h.length := by omega
  have hs := fun m => keyAt_swap h k ((k - 1) / 2) hk hp m
  constructor
  · intro i hi hne
    rw [hs, hs]
    by_cases hik : i = k
    · subst hik
      have e1 : ¬ ((i - 1) / 2 = i) := by omega
      simp only [e1, if_false, if_true]
      exact le_of_lt hlt
    · have e1 : ¬ (i = (k - 1) / 2) := hne
      simp only [hik, e1, if_false]
      by_cases hpk : (i - 1) / 2 = k
      · simp only [hpk, if_true]
        exact h2 i hi hpk hk0
      · simp only [hpk, if_false]
        by_cases hpp : (i - 1) / 2 = (k - 1) / 2
        · simp only [hpp, if_true]
          have := h1 i hi hik
          rw [hpp] at this
          exact le_trans (le_of_lt hlt) this
        · simp only [hpp, if_false]
          exact h1 i hi hik
  · intro i hi hpar hp0
    rw [hs, hs]
    have e1 : ¬ (((k - 1) / 2 - 1) / 2 = k) := by omega
    have e2 : ¬ (((k - 1) / 2 - 1) / 2 = (k - 1) / 2) := by omega
    simp only [e1, e2, if_false]
    have hpar' := h1 ((k - 1) / 2) hp0 (by omega)
    by_cases hik : i = k
    · subst hik
      simp only [if_true]
      exact hpar'
    · have e3 : ¬ (i = (k - 1) / 2) := by omega
      simp only [hik, e3, if_false]
      have := h1 i hi hik
      rw [hpar] at this
      exact le_trans hpar' this

theorem heapifyUpAux_ok (fuel : Nat) (h : List (Entry V P)) (k : Nat) (hf : k ≤ fuel)
    (hk : k < h.length) (hinv : up_inv h k) : heap_ok (heapifyUpAux fuel h k) := by
  induction fuel generalizing h k with
  | zero =>
    have hk0 : k = 0 := by omega
    subst hk0
    unfold heapifyUpAux
    rw [heap_ok_iff]
    intro i hi
    exact hinv.1 i hi (by omega)
  | succ fuel ih =>
    unfold heapifyUpAux
    by_cases hk0 : 0 < k
    · rw [if_pos hk0]
      by_cases hlt : ltAt h k ((k - 1) / 2) = true
      · rw [if_pos hlt]
        have hlt' := ((ltAt_iff h k _).1 hlt).2
        apply ih
        · omega
        · rw [swap_length]; omega
        · exact up_inv_swap h k hk hk0 hinv hlt'
      · rw [if_neg hlt]
        rw [heap_ok_iff]
        intro i hi
        by_cases hik : i = k
        · subst hik
          exact (ltAt_eq_false_iff h i _ (by omega)).1 (by simpa using hlt)
        · exact hinv.1 i hi hik
    · rw [if_neg hk0]
      rw [heap_ok_iff]
      intro i hi
      exact hinv.1 i hi (by omega)

theorem heapifyUp_ok (h : List (Entry V P)) (k : Nat) (hk : k < h.length) (hinv : up_inv h k) :
    heap_ok (heapifyUp h k) :=
  heapifyUpAux_ok k h k (le_refl _) hk hinv

theorem heapifyUp_perm (h : List (Entry V P)) (k : Nat) : List.Perm (heapifyUp h k) h :=
  heapifyUpAux_perm k h k

/-! ### heapifyDown -/

theorem heapifyDownAux_perm (fuel : Nat) (h : List (Entry V P)) (k : Nat) :
    List.Perm (heapifyDownAux fuel h k) h := by
  induction fuel generalizing h k with
  | zero => exact List.Perm.refl _
  | succ fuel ih =>
    unfold heapifyDownAux
    split
    · exact (ih _ _).trans (swap_perm _ _ _)
    · exact List.Perm.refl _

theorem smallestOf_spec (h : List (Entry V P)) (k : Nat) (hk : k < h.length) :
    (smallestOf h k = k ∨ smallestOf h k = 2 * k + 1 ∨ smallestOf h k = 2 * k + 2)
      ∧ smallestOf h k < h.length
      ∧ keyAt h (smallestOf h k) ≤ keyAt h k
      ∧ keyAt h (smallestOf h k) ≤ keyAt h (2 * k + 1)
      ∧ keyAt h (smallestOf h k) ≤ keyAt h (2 * k + 2)
      ∧ (smallestOf h k ≠ k → keyAt h (smallestOf h k) < keyAt h k) := by
  have hktop : keyAt h k < ⊤ := (keyAt_lt_top h k).2 hk
  have c1 : ∀ a b, b < h.length → ((a < h.length ∧ ltAt h a b = true) ↔ keyAt h a < keyAt h b) := by
    intro a b hb
    rw [ltAt_iff]
    constructor
    · intro hh; exact hh.2.2
    · intro hh
      exact ⟨(keyAt_lt_top h a).1 (lt_of_lt_of_le hh le_top), hb, hh⟩
  unfold smallestOf
  simp only
  by_cases hl : keyAt h (2 * k + 1) < keyAt h k
  · have hl' := (c1 (2 * k + 1) k hk).2 hl
    rw [if_pos hl']
    by_cases hr : keyAt h (2 * k + 2) < keyAt h (2 * k + 1)
    · rw [if_pos ((c1 (2 * k + 2) (2 * k + 1) hl'.1).2 hr)]
      have := (c1 (2 * k + 2) (2 * k + 1) hl'.1).2 hr
      refine ⟨Or.inr (Or.inr rfl), this.1, le_of_lt (lt_trans hr hl), le_of_lt hr, le_refl _, ?_⟩
      intro _; exact lt_trans hr hl
    · rw [if_neg (fun hc => hr ((c1 (2 * k + 2) (2 * k + 1) hl'.1).1 hc))]
      refine ⟨Or.inr (Or.inl rfl), hl'.1, le_of_lt hl, le_refl _, not_lt.1 hr, ?_⟩
      intro _; exact hl
  · rw [if_neg (fun hc => hl ((c1 (2 * k + 1) k hk).1 hc))]
    by_cases hr : keyAt h (2 * k + 2) < keyAt h k
    · have hr' := (c1 (2 * k + 2) k hk).2 hr
      rw [if_pos hr']
      refine ⟨Or.inr (Or.inr rfl), hr'.1, le_of_lt hr, le_trans (le_of_lt hr) (not_lt.1 hl),
        le_refl _, ?_⟩
      intro _; exact hr
    · rw [if_neg (fun hc => hr ((c1 (2 * k + 2) k hk).1 hc))]
      refine ⟨Or.inl rfl, hk, le_refl _, not_lt.1 hl, not_lt.1 hr, ?_⟩
      intro hc; exact absurd rfl hc

theorem down_inv_swap (h : List (Entry V P)) (k s : Nat) (hk : k < h.length) (hs : s < h.length)
    (hsk : s = 2 * k + 1 ∨ s = 2 * k + 2) (hinv : down_inv h k)
    (hlt : keyAt h s < keyAt h k) (hl : keyAt h s ≤ keyAt h (2 * k + 1))
    (hr : keyAt h s ≤ keyAt h (2 * k + 2)) :
    down_inv (swap h k s) s := by
  obtain ⟨h1, h2⟩ := hinv
  have hsw := fun m => keyAt_swap h k s hk hs m
  have hpar : (s - 1) / 2 = k := by omega
  constructor
  · intro i hi hne
    rw [hsw, hsw]
    by_cases his : i = s
    · subst his
      have e1 : ¬ (i = k) := by omega
      simp only [hpar, e1, if_true, if_false]
      exact le_of_lt hlt
    · by_cases hik : i = k
      · subst hik
        have e1 : ¬ ((i - 1) / 2 = i) := by omega
        have e2 : ¬ ((i - 1) / 2 = s) := by omega
        simp only [e1, e2, if_true, if_false]
        exact h2 s (by omega) hpar hi
      · simp only [hik, his, if_false]
        by_cases hpk : (i - 1) / 2 = k
        · simp only [hpk, if_true]
          have : i = 2 * k + 1 ∨ i = 2 * k + 2 := by omega
          rcases this with rfl | rfl
          · exact hl
          · exact hr
        · have e2 : ¬ ((i - 1) / 2 = s) := hne
          simp only [hpk, e2, if_false]
          exact h1 i hi hpk
  · intro i hi hpi hs0
    rw [hsw, hsw]
    have e1 : ¬ (i = k) := by omega
    have e2 : ¬ (i = s) := by omega
    have e3 : ¬ ((s - 1) / 2 = s) := by omega
    simp only [hpar, e1, e2, if_true, if_false]
    have := h1 i hi (by omega)
    rwa [hpi] at this

theorem heapifyDownAux_ok (fuel : Nat) (h : List (Entry V P)) (k : Nat)
    (hf : h.length ≤ fuel + k) (hk : k < h.length) (hinv : down_inv h k) :
    heap_ok (heapifyDownAux fuel h k) := by
  induction fuel generalizing h k with
  | zero => omega
  | succ fuel ih =>
    unfold heapifyDownAux
    obtain ⟨hc, hs, hsk, hsl, hsr, hne⟩ := smallestOf_spec h k hk
    by_cases hsm : smallestOf h k = k
    · rw [if_neg (by simpa using hsm)]
      rw [hsm] at hsl hsr
      rw [heap_ok_iff]
      intro i hi
      by_cases hpk : (i - 1) / 2 = k
      · have : i = 2 * k + 1 ∨ i = 2 * k + 2 := by omega
        rw [hpk]
        rcases this with rfl | rfl
        · exact hsl
        · exact hsr
      · exact hinv.1 i hi hpk
    · rw [if_pos hsm]
      have hc' : smallestOf h k = 2 * k + 1 ∨ smallestOf h k = 2 * k + 2 := by
        rcases hc with hc | hc | hc
        · exact absurd hc hsm
        · exact Or.inl hc
        · exact Or.inr hc
      apply ih
      · rw [swap_length]; omega
      · rw [swap_length]; exact hs
      · exact down_inv_swap h k _ hk hs hc' hinv (hne hsm) hsl hsr

theorem heapifyDown_ok (h : List (Entry V P)) (k : Nat) (hk : k < h.length)
    (hinv : down_inv h k) : heap_ok (heapifyDown h k) :=
  heapifyDownAux_ok h.length h k (by omega) hk hinv

theorem heapifyDown_perm (h : List (Entry V P)) (k : Nat) : List.Perm (heapifyDown h k) h :=
  heapifyDownAux_perm h.length h k

end PriorityQueue
end GlobalRouting

/-! ## Binary heap: push, pop, setPriority -/

namespace GlobalRouting
namespace PriorityQueue
variable {V P : Type} [LinearOrder V] [LinearOrder P]

theorem keyAt_append_left (h l : List (Entry V P)) (m : Nat) (hm : m < h.length) :
    keyAt (h ++ l) m = keyAt h m := by
  unfold keyAt
  rw [List.getElem?_append_left hm]

theorem keyAt_set (h : List (Entry V P)) (i : Nat) (a : Entry V P) (hi : i < h.length) (m : Nat) :
    keyAt (h.set i a) m
      = if m = i then ((a.key : Lex (P × V)) : WithTop (Lex (P × V))) else keyAt h m := by
  unfold keyAt
  rw [List.getElem?_set]
  by_cases hm : i = m
  · subst hm; simp [hi]
  · have : ¬ m = i := fun h => hm h.symm
    simp [hm, this]

/-! ### push -/

theorem push_perm (h : List (Entry V P)) (v : V) (p : P) :
    List.Perm (push h v p) (⟨v, p⟩ :: h) := by
  unfold push
  exact (heapifyUp_perm _ _).trans (List.perm_append_singleton _ _)

theorem push_ok (h : List (Entry V P)) (v : V) (p : P) (hok : heap_ok h) :
    heap_ok (push h v p) := by
  unfold push
  apply heapifyUp_ok
  · simp
  · rw [heap_ok_iff] at hok
    have hlen : (h ++ [(⟨v, p⟩ : Entry V P)]).length = h.length + 1 := by simp
    constructor
    · intro i hi hne
      by_cases hlt : i < h.length
      · rw [keyAt_append_left _ _ _ hlt, keyAt_append_left _ _ _ (by omega)]
        exact hok i hi
      · rw [keyAt_of_le _ i (by rw [hlen]; omega)]
        exact le_top
    · intro i hi hpar _
      rw [keyAt_of_le _ i (by rw [hlen]; omega)]
      exact le_top

theorem push_length (h : List (Entry V P)) (v : V) (p : P) :
    (push h v p).length = h.length + 1 := by
  rw [(push_perm h v p).length_eq]
  simp

theorem mem_push (h : List (Entry V P)) (v : V) (p : P) (e : Entry V P) :
    e ∈ push h v p ↔ e = ⟨v, p⟩ ∨ e ∈ h := by
  rw [(push_perm h v p).mem_iff]
  simp

/-! ### pop -/

theorem pop_eq_none (h : List (Entry V P)) : pop h = none ↔ h = [] := by
  unfold pop
  cases h <;> simp

theorem pop_spec (h : List (Entry V P)) (top : Entry V P) (h1 : List (Entry V P))
    (hp : pop h = some (top, h1)) :
    List.Perm h (top :: h1) ∧ (heap_ok h → heap_ok h1 ∧ ∀ e ∈ h, top.key ≤ e.key) := by
  unfold pop at hp
  cases h with
  | nil => simp at hp
  | cons t rest =>
    simp only [Option.some.injEq, Prod.mk.injEq] at hp
    obtain ⟨rfl, hh⟩ := hp
    have hmin : heap_ok (t :: rest) → ∀ e ∈ t :: rest, t.key ≤ e.key := by
      intro hok e he
      obtain ⟨i, hi, rfl⟩ := List.mem_iff_getElem.1 he
      have := heap_ok_root_le (t :: rest) hok i
      rw [keyAt_of_lt _ 0 (by simp), keyAt_of_lt _ i hi] at this
      simpa using this
    cases rest with
    | nil =>
      simp at hh
      subst hh
      refine ⟨List.Perm.refl _, fun hok => ⟨?_, hmin hok⟩⟩
      intro i _ hi
      simp at hi
    | cons r rest' =>
      have hne : r :: rest' ≠ [] := by simp
      have hset : (t :: r :: rest').set 0 ((t :: r :: rest').getLast (List.cons_ne_nil _ _))
          = (r :: rest').getLast hne :: r :: rest' := by
        simp [List.getLast_cons]
      have hdrop : ((t :: r :: rest').set 0
            ((t :: r :: rest').getLast (List.cons_ne_nil _ _))).dropLast
          = (r :: rest').getLast hne :: (r :: rest').dropLast := by
        rw [hset, List.dropLast_cons_of_ne_nil hne]
      rw [hdrop] at hh
      simp only [List.isEmpty_cons, Bool.false_eq_true, if_false] at hh
      subst hh
      have hperm1 : List.Perm ((r :: rest').getLast hne :: (r :: rest').dropLast) (r :: rest') := by
        have := List.dropLast_append_getLast hne
        calc List.Perm ((r :: rest').getLast hne :: (r :: rest').dropLast)
              ((r :: rest').dropLast ++ [(r :: rest').getLast hne]) :=
                (List.perm_append_singleton _ _).symm
          _ = r :: rest' := this
      refine ⟨((heapifyDown_perm _ 0).trans hperm1).symm.cons t, fun hok => ⟨?_, hmin hok⟩⟩
      apply heapifyDown_ok
      · simp
      · rw [heap_ok_iff] at hok
        have hkey : ∀ m, 1 ≤ m → m < (r :: rest').length →
            keyAt ((r :: rest').getLast hne :: (r :: rest').dropLast) m
              = keyAt (t :: r :: rest') m := by
          intro m hm1 hm2
          unfold keyAt
          obtain ⟨m', rfl⟩ : ∃ m', m = m' + 1 := ⟨m - 1, by omega⟩
          rw [List.getElem?_cons_succ, List.getElem?_cons_succ, List.getElem?_dropLast]
          have hm3 : m' < (r :: rest').length - 1 := by omega
          rw [if_pos hm3]
        have hlen : ((r :: rest').getLast hne :: (r :: rest').dropLast).length
            = (r :: rest').length := by simp
        constructor
        · intro i hi hpar
          by_cases hlt : i < (r :: rest').length
          · rw [hkey i (by omega) hlt, hkey _ (by omega) (by omega)]
            exact hok i hi
          · rw [keyAt_of_le _ i (by rw [hlen]; omega)]
            exact le_top
        · intro i _ _ h0
          omega

theorem pop_isSome (h : List (Entry V P)) (hne : h ≠ []) :
    ∃ top h1, pop h = some (top, h1) := by
  cases hp : pop h with
  | none => exact absurd ((pop_eq_none h).1 hp) hne
  | some r => exact ⟨r.1, r.2, rfl⟩

/-! ### setPriority -/

theorem setPriority_spec (h : List (Entry V P)) (v : V) (p : P)
    (hv : v ∈ h.map (fun e => e.value)) :
    ∃ h1 idx, ∃ (hidx : idx < h.length),
      setPriority h v p = some h1 ∧ h[idx].value = v
        ∧ List.Perm h1 (h.set idx ⟨v, p⟩) ∧ (heap_ok h → heap_ok h1) := by
  have hex : ∃ x ∈ h, (fun entry : Entry V P => decide (entry.value = v)) x = true := by
    obtain ⟨e, he, hev⟩ := List.mem_map.1 hv
    exact ⟨e, he, by simpa using hev⟩
  have hidx := List.findIdx_lt_length_of_exists hex
  have hval : h[h.findIdx (fun entry => decide (entry.value = v))].value = v := by
    have := @List.findIdx_getElem _ (fun entry : Entry V P => decide (entry.value = v)) h hidx
    simpa using this
  generalize hi : h.findIdx (fun entry => decide (entry.value = v)) = idx at hidx hval
  have hnew : ({ h[idx] with priority := p } : Entry V P) = ⟨v, p⟩ := by
    rw [← hval]
  unfold setPriority
  rw [hi, List.getElem?_eq_getElem hidx]
  simp only [hnew]
  have hk1 := keyAt_set h idx ⟨v, p⟩ hidx
  have hkold : keyAt h idx = ((h[idx].key : Lex (P × V)) : WithTop (Lex (P × V))) :=
    keyAt_of_lt h idx hidx
  by_cases hgt : h[idx].priority > p
  · rw [if_pos hgt]
    refine ⟨_, idx, hidx, rfl, hval, heapifyUp_perm _ _, fun hok => ?_⟩
    rw [heap_ok_iff] at hok
    have hlt : (((⟨v, p⟩ : Entry V P).key : Lex (P × V)) : WithTop (Lex (P × V))) < keyAt h idx := by
      rw [hkold, WithTop.coe_lt_coe, ← Entry.lt_iff_key]
      exact Or.inl hgt
    apply heapifyUp_ok _ _ (by simpa using hidx)
    constructor
    · intro i hi0 hne
      rw [hk1, hk1, if_neg hne]
      by_cases hpi : (i - 1) / 2 = idx
      · rw [if_pos hpi]
        have := hok i hi0
        rw [hpi] at this
        exact le_trans (le_of_lt hlt) this
      · rw [if_neg hpi]
        exact hok i hi0
    · intro i hi0 hpar h0
      rw [hk1, hk1, if_neg (by omega), if_neg (by omega)]
      have h2 := hok i hi0
      rw [hpar] at h2
      exact le_trans (hok idx h0) h2
  · rw [if_neg hgt]
    by_cases hlt' : h[idx].priority < p
    · rw [if_pos hlt']
      refine ⟨_, idx, hidx, rfl, hval, heapifyDown_perm _ _, fun hok => ?_⟩
      rw [heap_ok_iff] at hok
      have hlt : keyAt h idx < (((⟨v, p⟩ : Entry V P).key : Lex (P × V)) : WithTop (Lex (P × V))) := by
        rw [hkold, WithTop.coe_lt_coe, ← Entry.lt_iff_key]
        exact Or.inl hlt'
      apply heapifyDown_ok _ _ (by simpa using hidx)
      constructor
      · intro i hi0 hpar
        rw [hk1, hk1, if_neg hpar]
        by_cases hii : i = idx
        · rw [if_pos hii]
          have := hok i hi0
          rw [show keyAt h i = keyAt h idx from by rw [hii]] at this
          exact le_trans this (le_of_lt hlt)
        · rw [if_neg hii]
          exact hok i hi0
      · intro i hi0 hpar h0
        rw [hk1, hk1, if_neg (by omega), if_neg (by omega)]
        have h2 := hok i hi0
        rw [hpar] at h2
        exact le_trans (hok idx h0) h2
    · rw [if_neg hlt']
      refine ⟨_, idx, hidx, rfl, hval, List.Perm.refl _, fun hok => ?_⟩
      have hpe : h[idx].priority = p := le_antisymm (not_lt.1 hgt) (not_lt.1 hlt')
      have : (⟨v, p⟩ : Entry V P) = h[idx] := by
        rw [← hval, ← hpe]
      rw [this, set_self h idx hidx]
      exact hok

theorem setPriority_eq_none (h : List (Entry V P)) (v : V) (p : P)
    (hv : v ∉ h.map (fun e => e.value)) : setPriority h v p = none := by
  have : h.findIdx (fun entry => decide (entry.value = v)) = h.length := by
    rw [List.findIdx_eq_length]
    intro x hx
    simp only [decide_eq_false_iff_not]
    intro hc
    exact hv (List.mem_map.2 ⟨x, hx, hc⟩)
  unfold setPriority
  rw [this, List.getElem?_eq_none (le_refl _)]

end PriorityQueue
end GlobalRouting

/-! ## Search: edges and frames -/

namespace GlobalRouting

namespace Graph

/-- An edge listed at a node leads to another node of the graph and is joined
to both. -/
theorem other_node_spec (g : Graph) (hg : g.wf) (u e : Nat) (hu : u < g.count_nodes)
    (he : e ∈ g.get_edgeindices_from_node u) :
    e < g.count_edges ∧ g.other_node e u < g.count_nodes ∧ g.other_node e u ≠ u
      ∧ g.joins e u (g.other_node e u) := by
  obtain ⟨hlt, hinc⟩ := edgeindices_incident g hg u e hu he
  obtain ⟨h1, h2, h3⟩ := nodes_of_edge_lt g hg e hlt
  unfold other_node joins
  by_cases hf : (g.get_nodes_of_edge e).1 = u
  · rw [if_pos hf]
    refine ⟨hlt, h2, ?_, Or.inl ?_⟩
    · rw [← hf]; exact fun hc => h3 hc.symm
    · rw [← hf]
  · rw [if_neg hf]
    have hs : (g.get_nodes_of_edge e).2 = u := by
      rcases hinc with h | h
      · exact absurd h hf
      · exact h
    refine ⟨hlt, h1, hf, Or.inr ?_⟩
    rw [← hs]

theorem joins_other_node (g : Graph) (e u v : Nat) (h : g.joins e u v) (huv : u ≠ v) :
    g.other_node e u = v ∧ g.other_node e v = u := by
  unfold other_node
  rcases h with h | h <;> rw [h] <;> simp [huv, Ne.symm huv]

theorem joins_symm (g : Graph) (e u v : Nat) (h : g.joins e u v) : g.joins e v u := by
  rcases h with h | h
  · exact Or.inr h
  · exact Or.inl h

end Graph

namespace Connector

theorem same_frame_refl (c : Connector) : same_frame c c := ⟨rfl, rfl, rfl, rfl, rfl⟩

theorem same_frame_trans {c c1 c2 : Connector} (h1 : same_frame c c1) (h2 : same_frame c1 c2) :
    same_frame c c2 := by
  obtain ⟨a1, a2, a3, a4, a5⟩ := h1
  obtain ⟨b1, b2, b3, b4, b5⟩ := h2
  exact ⟨b1.trans a1, b2.trans a2, b3.trans a3, b4.trans a4, b5.trans a5⟩

theorem usable_frame {c c1 : Connector} (h : same_frame c c1) (mnw : Int) (BB : BoundingBox)
    (r : Bool) (u e : Nat) : usable c1 mnw BB r u e ↔ usable c mnw BB r u e := by
  obtain ⟨a1, a2, a3, a4, a5⟩ := h
  unfold usable required_capacity
  rw [a1, a2, a4]

theorem weight_frame {c c1 : Connector} (h : same_frame c c1) (r : Bool) (f e : Nat) :
    weight c1 r f e = weight c r f e := by
  obtain ⟨a1, a2, a3, a4, a5⟩ := h
  unfold weight edge_weight
  rw [a2, a4]

/-- The assertions on an edge depend on the problem, the graph and the
aggregated widths only. -/
theorem edge_asserts_congr {c c1 : Connector} (a1 : c1.problem = c.problem)
    (a2 : c1.graph = c.graph) (a4 : c1.aggregated_width = c.aggregated_width) (mnw : Int)
    (r : Bool) (e : Nat) : edge_asserts c1 mnw r e ↔ edge_asserts c mnw r e := by
  unfold edge_asserts block_asserts required_capacity
  rw [a1, a2, a4]

theorem edge_asserts_frame {c c1 : Connector} (h : same_frame c c1) (mnw : Int) (r : Bool)
    (e : Nat) : edge_asserts c1 mnw r e ↔ edge_asserts c mnw r e :=
  edge_asserts_congr h.1 h.2.1 h.2.2.2.1 mnw r e

/-- In respect-capacity mode the assertions ask for more than without respect
for capacities. -/
theorem edge_asserts_emergency (c : Connector) (mnw : Int) (r : Bool) (e : Nat)
    (h : edge_asserts c mnw r e) : edge_asserts c mnw false e := by
  unfold edge_asserts block_asserts at h ⊢
  refine ⟨fun hd => ⟨⟨(h.1 hd).1.1, (h.1 hd).1.2.1, fun hc => by simp at hc⟩,
    fun hc => by simp at hc⟩, fun _ hc => by simp at hc⟩

/-- The weight of an edge of the graph is at least one. -/
theorem one_le_weight (c : Connector) (hg : c.graph.wf) (r : Bool) (f e : Nat)
    (he : e < c.graph.count_edges) : 1 ≤ weight c r f e := by
  unfold weight edge_weight
  rcases Graph.edge_direction_plus c.graph hg e he with h | h | h <;> rw [h] <;> simp

/-- The outcomes of relaxing one edge. -/
theorem relax_cases (mnw : Int) (BB : BoundingBox) (r : Bool) (f u : Nat) (c c1 : Connector)
    (e : Nat) (h : relax mnw BB r f u c e = some c1) :
    (¬ usable c mnw BB r u e ∧ c1 = c)
    ∨ (usable c mnw BB r u e ∧ c.queued (c.graph.other_node e u) < c.current_iteration
        ∧ c1 = { c with
            pq := PriorityQueue.push c.pq (c.graph.other_node e u) (c.distance u + weight c r f e)
            queued := assign c.queued (c.graph.other_node e u) c.current_iteration
            distance := assign c.distance (c.graph.other_node e u) (c.distance u + weight c r f e)
            preceding_node := assign c.preceding_node (c.graph.other_node e u) (some u)
            relevant_edge := assign c.relevant_edge (c.graph.other_node e u) (some e) })
    ∨ (usable c mnw BB r u e ∧ c.queued (c.graph.other_node e u) = c.current_iteration
        ∧ c.distance u + weight c r f e < c.distance (c.graph.other_node e u)
        ∧ ∃ pq1, PriorityQueue.setPriority c.pq (c.graph.other_node e u)
              (c.distance u + weight c r f e) = some pq1
          ∧ c1 = { c with
              pq := pq1
              distance := assign c.distance (c.graph.other_node e u) (c.distance u + weight c r f e)
              preceding_node := assign c.preceding_node (c.graph.other_node e u) (some u)
              relevant_edge := assign c.relevant_edge (c.graph.other_node e u) (some e) })
    ∨ (usable c mnw BB r u e ∧ ¬ c.queued (c.graph.other_node e u) < c.current_iteration
        ∧ ¬ (c.queued (c.graph.other_node e u) = c.current_iteration
              ∧ c.distance u + weight c r f e < c.distance (c.graph.other_node e u))
        ∧ c1 = c) := by
  unfold relax at h
  simp only at h
  by_cases hbb : r = true
      ∧ BB.outside (c.graph.get_position_from_nodeindex (c.graph.other_node e u)) = true
  · rw [if_pos hbb] at h
    left
    exact ⟨fun hu => hu.1 hbb, (Option.some.inj h).symm⟩
  · rw [if_neg hbb] at h
    cases hd : c.graph.get_edge_direction e with
    | none => rw [hd] at h; simp at h
    | some d =>
      rw [hd] at h
      simp only at h
      have hw : weight c r f e = c.edge_weight r f d e := by
        unfold weight; rw [hd]
      rw [← hw] at h
      by_cases hblk : d ≠ .z_plus ∧ ¬ c.block_asserts mnw r e
      · rw [if_pos hblk] at h; simp at h
      rw [if_neg hblk] at h
      by_cases hcap : d ≠ .z_plus ∧ r = true
          ∧ c.aggregated_width e + c.required_capacity mnw e > c.graph.get_capacity e
      · rw [if_pos hcap] at h
        left
        refine ⟨fun hu => hu.2 ⟨?_, hcap.2⟩, (Option.some.inj h).symm⟩
        rw [hd]
        exact fun hc => hcap.1 (Option.some.inj hc)
      · rw [if_neg hcap] at h
        by_cases hca : r = true ∧ ¬ c.capacity_asserts mnw d e
        · rw [if_pos hca] at h; simp at h
        rw [if_neg hca] at h
        have husable : usable c mnw BB r u e := by
          refine ⟨hbb, fun hc => hcap ⟨?_, hc.2⟩⟩
          have := hc.1
          rw [hd] at this
          exact fun hc' => this (by rw [hc'])
        right
        by_cases hq : c.queued (c.graph.other_node e u) < c.current_iteration
        · rw [if_pos hq] at h
          left
          exact ⟨husable, hq, (Option.some.inj h).symm⟩
        · rw [if_neg hq] at h
          right
          by_cases hupd : c.queued (c.graph.other_node e u) = c.current_iteration
              ∧ c.distance u + weight c r f e < c.distance (c.graph.other_node e u)
          · rw [if_pos hupd] at h
            left
            cases hsp : PriorityQueue.setPriority c.pq (c.graph.other_node e u)
                (c.distance u + weight c r f e) with
            | none => rw [hsp] at h; simp at h
            | some pq1 =>
              rw [hsp] at h
              exact ⟨husable, hupd.1, hupd.2, pq1, rfl, (Option.some.inj h).symm⟩
          · rw [if_neg hupd] at h
            right
            exact ⟨husable, hq, hupd, (Option.some.inj h).symm⟩

end Connector
end GlobalRouting

/-! ## Search: assignments and queue values -/

namespace GlobalRouting

theorem assign_same {α : Type} (v : Nat → α) (i : Nat) (a : α) : assign v i a i = a := by
  unfold assign; simp

theorem assign_ne {α : Type} (v : Nat → α) (i j : Nat) (a : α) (h : j ≠ i) :
    assign v i a j = v j := by
  unfold assign; simp [h]

namespace PriorityQueue
variable {V P : Type} [LinearOrder V] [LinearOrder P]

theorem push_values (h : List (Entry V P)) (v : V) (p : P) :
    List.Perm ((push h v p).map (fun e => e.value)) (v :: h.map (fun e => e.value)) :=
  (push_perm h v p).map _

/-- What `setPriority` does to a queue with distinct values. -/
theorem setPriority_mem (h : List (Entry V P)) (v : V) (p : P)
    (hv : v ∈ h.map (fun e => e.value)) (hnd : (h.map (fun e => e.value)).Nodup) :
    ∃ h1, setPriority h v p = some h1
      ∧ (heap_ok h → heap_ok h1)
      ∧ List.Perm (h1.map (fun e => e.value)) (h.map (fun e => e.value))
      ∧ h1.length = h.length
      ∧ (⟨v, p⟩ : Entry V P) ∈ h1
      ∧ ∀ e ∈ h1, e = ⟨v, p⟩ ∨ (e ∈ h ∧ e.value ≠ v) := by
  obtain ⟨h1, idx, hidx, hsp, hval, hperm, hok⟩ := setPriority_spec h v p hv
  refine ⟨h1, hsp, hok, ?_, ?_, ?_, ?_⟩
  · have := hperm.map (fun e : Entry V P => e.value)
    rw [List.map_set] at this
    have h2 : (h.map (fun e => e.value)).set idx v = h.map (fun e => e.value) := by
      have hidx1 : idx < (h.map (fun e => e.value)).length := by simpa using hidx
      have h3 : (h.map (fun e => e.value))[idx] = v := by
        simpa using hval
      rw [← h3]
      exact set_self _ idx (by simpa using hidx)
    rwa [h2] at this
  · rw [hperm.length_eq]; simp
  · rw [hperm.mem_iff]
    exact List.mem_iff_getElem.2 ⟨idx, by simpa using hidx, by simp⟩
  · intro e he
    rw [hperm.mem_iff] at he
    obtain ⟨j, hj, rfl⟩ := List.mem_iff_getElem.1 he
    rw [List.getElem_set]
    by_cases hij : idx = j
    · simp [hij]
    · rw [if_neg hij]
      right
      have hj' : j < h.length := by simpa using hj
      refine ⟨List.getElem_mem _, ?_⟩
      intro hc
      apply hij
      have hidx1 : idx < (h.map (fun e => e.value)).length := by simpa using hidx
      have hj1 : j < (h.map (fun e => e.value)).length := by simpa using hj'
      have h4 : (h.map (fun e => e.value))[idx] = (h.map (fun e => e.value))[j] := by
        simp [hval, hc]
      exact (List.Nodup.getElem_inj_iff hnd).1 h4

end PriorityQueue

namespace Connector

theorem countP_assign_le (N : Nat) (q : Nat → Int) (it : Int) (w : Nat) (hw : w < N)
    (hq : q w ≠ it) :
    (List.range N).countP (fun v => decide (assign q w it v ≠ it)) + 1
      ≤ (List.range N).countP (fun v => decide (q v ≠ it)) := by
  induction N with
  | zero => omega
  | succ n ih =>
    rw [List.range_succ, List.countP_append, List.countP_append]
    by_cases hwn : w = n
    · subst hwn
      have h1 : (List.range w).countP (fun v => decide (assign q w it v ≠ it))
          = (List.range w).countP (fun v => decide (q v ≠ it)) := by
        apply List.countP_congr
        intro v hv
        have : v ≠ w := by
          have := List.mem_range.1 hv
          omega
        rw [assign_ne _ _ _ _ this]
      rw [h1]
      simp [assign_same, hq]
    · have := ih (by omega)
      have h2 : [n].countP (fun v => decide (assign q w it v ≠ it))
          = [n].countP (fun v => decide (q v ≠ it)) := by
        have : n ≠ w := fun h => hwn h.symm
        simp only [List.countP_cons, List.countP_nil, assign_ne _ _ _ _ this]
      rw [h2]
      omega

end Connector
end GlobalRouting

/-! ## Search: relaxing into a fresh node -/

namespace GlobalRouting
namespace Connector

theorem extends_refl (c : Connector) : extends_search c c :=
  ⟨same_frame_refl c, fun _ h => h, fun _ => Iff.rfl, fun _ _ => rfl, fun _ _ => le_refl _⟩

theorem extends_trans {c c1 c2 : Connector} (h1 : extends_search c c1)
    (h2 : extends_search c1 c2) : extends_search c c2 where
  frame := same_frame_trans h1.frame h2.frame
  seen_mono := fun v hv => h2.seen_mono v (h1.seen_mono v hv)
  settled_iff := fun v => (h2.settled_iff v).trans (h1.settled_iff v)
  dist_settled := fun v hv => by
    rw [h2.dist_settled v ((h1.settled_iff v).2 hv), h1.dist_settled v hv]
  dist_le := fun v hv => le_trans (h2.dist_le v (h1.seen_mono v hv)) (h1.dist_le v hv)

theorem in_queue_seen {S : List Nat} {mnw : Int} {BB : BoundingBox} {r : Bool} {f last : Nat}
    {c : Connector} (hinv : SearchInv S mnw BB r f last c) (v : Nat) (hv : c.in_queue v) :
    c.seen v := by
  obtain ⟨entry, he, rfl⟩ := List.mem_map.1 hv
  exact (hinv.pq_seen entry he).1

/-- Relaxing an edge of the node popped last, when the other end was not seen
before. -/
theorem relax_push_step (S : List Nat) (mnw : Int) (BB : BoundingBox) (r : Bool) (f last u : Nat)
    (c : Connector) (e : Nat) (hinv : SearchInv S mnw BB r f last c) (hu : c.settled u)
    (hdu : c.distance u = last) (he : e ∈ c.graph.get_edgeindices_from_node u)
    (husable : usable c mnw BB r u e)
    (hq : c.queued (c.graph.other_node e u) < c.current_iteration) (c1 : Connector)
    (hc1 : c1 = { c with
      pq := PriorityQueue.push c.pq (c.graph.other_node e u) (c.distance u + weight c r f e)
      queued := assign c.queued (c.graph.other_node e u) c.current_iteration
      distance := assign c.distance (c.graph.other_node e u) (c.distance u + weight c r f e)
      preceding_node := assign c.preceding_node (c.graph.other_node e u) (some u)
      relevant_edge := assign c.relevant_edge (c.graph.other_node e u) (some e) }) :
    SearchInv S mnw BB r f last c1 ∧ extends_search c c1 ∧ rounds_left c1 ≤ rounds_left c
      ∧ c1.seen (c.graph.other_node e u)
      ∧ c1.distance (c.graph.other_node e u) ≤ c1.distance u + weight c1 r f e := by
  have hg := hinv.graph_wf
  have huN := hinv.seen_lt u hu.1
  obtain ⟨helt, hwN, hwu, _⟩ := Graph.other_node_spec c.graph hg u e huN he
  generalize hw : c.graph.other_node e u = w at *
  have hframe : same_frame c c1 := by subst hc1; exact ⟨rfl, rfl, rfl, rfl, rfl⟩
  have hunseen : ¬ c.seen w := by unfold seen; omega
  have hnotin : ¬ c.in_queue w := fun h => hunseen (in_queue_seen hinv w h)
  have hseen : ∀ v, c1.seen v ↔ v = w ∨ c.seen v := by
    intro v
    subst hc1
    unfold seen
    dsimp only
    by_cases hvw : v = w
    · subst hvw; simp [assign_same]
    · simp [assign_ne _ _ _ _ hvw, hvw]
  have hvals : List.Perm (c1.pq.map (fun entry => entry.value))
      (w :: c.pq.map (fun entry => entry.value)) := by
    subst hc1; exact PriorityQueue.push_values _ _ _
  have hinq : ∀ v, c1.in_queue v ↔ v = w ∨ c.in_queue v := by
    intro v
    unfold in_queue
    rw [hvals.mem_iff]
    simp
  have hsettled : ∀ v, c1.settled v ↔ c.settled v := by
    intro v
    unfold settled
    rw [hseen, hinq]
    constructor
    · rintro ⟨h1, h2⟩
      push_neg at h2
      rcases h1 with h1 | h1
      · exact absurd h1 h2.1
      · exact ⟨h1, h2.2⟩
    · rintro ⟨h1, h2⟩
      refine ⟨Or.inr h1, ?_⟩
      push_neg
      exact ⟨fun hc => hunseen (hc ▸ h1), h2⟩
  have hdist : ∀ v, v ≠ w → c1.distance v = c.distance v := by
    intro v hv; subst hc1; exact assign_ne _ _ _ _ hv
  have hdistw : c1.distance w = c.distance u + weight c r f e := by
    subst hc1; exact assign_same _ _ _
  have hpred : ∀ v, v ≠ w → c1.preceding_node v = c.preceding_node v := by
    intro v hv; subst hc1; exact assign_ne _ _ _ _ hv
  have hrel : ∀ v, v ≠ w → c1.relevant_edge v = c.relevant_edge v := by
    intro v hv; subst hc1; exact assign_ne _ _ _ _ hv
  have hgraph : c1.graph = c.graph := hframe.2.1
  have hsw : ∀ v, c.settled v → v ≠ w := fun v hv hc => hunseen (hc ▸ hv.1)
  have hwt := weight_frame hframe r f
  have hext : extends_search c c1 :=
    ⟨hframe, fun v hv => (hseen v).2 (Or.inr hv), hsettled,
      fun v hv => hdist v (hsw v hv),
      fun v hv => le_of_eq (hdist v (fun hc => hunseen (hc ▸ hv)))⟩
  refine ⟨?_, hext, ?_, (hseen w).2 (Or.inl rfl), ?_⟩
  · constructor
    · rw [hgraph]; exact hg
    · subst hc1; exact PriorityQueue.push_ok _ _ _ hinv.heap
    · rw [hvals.nodup_iff]
      exact List.nodup_cons.2 ⟨hnotin, hinv.nodup⟩
    · intro v
      subst hc1
      dsimp only
      by_cases hvw : v = w
      · subst hvw; rw [assign_same]
      · rw [assign_ne _ _ _ _ hvw]; exact hinv.queued_le v
    · intro entry hentry
      have : entry = ⟨w, c.distance u + weight c r f e⟩ ∨ entry ∈ c.pq := by
        subst hc1
        exact (PriorityQueue.mem_push _ _ _ _).1 hentry
      rcases this with rfl | hmem
      · exact ⟨(hseen w).2 (Or.inl rfl), hdistw, by dsimp only; omega⟩
      · obtain ⟨h1, h2, h3⟩ := hinv.pq_seen entry hmem
        have hne : entry.value ≠ w := fun hc => hunseen (hc ▸ h1)
        exact ⟨(hseen _).2 (Or.inr h1), by rw [hdist _ hne]; exact h2, h3⟩
    · intro v hv
      rw [hgraph]
      rcases (hseen v).1 hv with rfl | h
      · exact hwN
      · exact hinv.seen_lt v h
    · intro v hv
      have hv' := (hsettled v).1 hv
      rw [hdist v (hsw v hv')]
      exact hinv.settled_le v hv'
    · intro s hs
      obtain ⟨b1, b2, b3, b4⟩ := hinv.sources s hs
      have hne : s ≠ w := fun hc => hunseen (hc ▸ b1)
      exact ⟨(hseen s).2 (Or.inr b1), by rw [hpred s hne]; exact b2,
        by rw [hrel s hne]; exact b3, by rw [hdist s hne]; exact b4⟩
    · intro v hv
      by_cases hvw : v = w
      · subst hvw
        right
        refine ⟨u, e, ?_, ?_, (hsettled u).2 hu, ?_, ?_, (usable_frame hframe _ _ _ _ _).2 husable, ?_⟩
        · subst hc1; exact assign_same _ _ _
        · subst hc1; exact assign_same _ _ _
        · rw [hgraph]; exact he
        · rw [hgraph]; exact hw
        · rw [hdistw, hdist u (hsw u hu), hwt]
      · have hvs : c.seen v := by
          rcases (hseen v).1 hv with h | h
          · exact absurd h hvw
          · exact h
        rcases hinv.tree v hvs with ⟨h1, h2, h3, h4⟩ | ⟨u', e', h1, h2, h3, h4, h5, h6, h7⟩
        · left
          exact ⟨h1, by rw [hpred v hvw]; exact h2, by rw [hrel v hvw]; exact h3,
            by rw [hdist v hvw]; exact h4⟩
        · right
          refine ⟨u', e', by rw [hpred v hvw]; exact h1, by rw [hrel v hvw]; exact h2,
            (hsettled u').2 h3, by rw [hgraph]; exact h4, by rw [hgraph]; exact h5,
            (usable_frame hframe _ _ _ _ _).2 h6, ?_⟩
          rw [hdist v hvw, hdist u' (hsw u' h3), hwt]
          exact h7
  · unfold rounds_left
    have h1 : c1.pq.length = c.pq.length + 1 := by
      subst hc1; exact PriorityQueue.push_length _ _ _
    have h2 := countP_assign_le c.graph.count_nodes c.queued c.current_iteration w hwN
      (by intro hc; exact hunseen hc)
    have h3 : (List.range c1.graph.count_nodes).countP
        (fun v => decide (c1.queued v ≠ c1.current_iteration))
        = (List.range c.graph.count_nodes).countP
            (fun v => decide (assign c.queued w c.current_iteration v ≠ c.current_iteration)) := by
      subst hc1; rfl
    rw [h1, h3]
    omega
  · rw [hdistw, hdist u (hsw u hu), hwt]

end Connector
end GlobalRouting

/-! ## Search: relaxing into a queued node -/

namespace GlobalRouting
namespace Connector

/-- Relaxing an edge of the node popped last, when the other end is in the
queue at a larger distance. -/
theorem relax_update_step (S : List Nat) (mnw : Int) (BB : BoundingBox) (r : Bool)
    (f last u : Nat) (c : Connector) (e : Nat) (hinv : SearchInv S mnw BB r f last c)
    (hu : c.settled u) (hdu : c.distance u = last)
    (he : e ∈ c.graph.get_edgeindices_from_node u) (husable : usable c mnw BB r u e)
    (hq : c.queued (c.graph.other_node e u) = c.current_iteration)
    (hlt : c.distance u + weight c r f e < c.distance (c.graph.other_node e u)) :
    ∃ pq1, PriorityQueue.setPriority c.pq (c.graph.other_node e u)
        (c.distance u + weight c r f e) = some pq1
      ∧ ∀ c1 : Connector, c1 = { c with
          pq := pq1
          distance := assign c.distance (c.graph.other_node e u) (c.distance u + weight c r f e)
          preceding_node := assign c.preceding_node (c.graph.other_node e u) (some u)
          relevant_edge := assign c.relevant_edge (c.graph.other_node e u) (some e) } →
        SearchInv S mnw BB r f last c1 ∧ extends_search c c1 ∧ rounds_left c1 ≤ rounds_left c
          ∧ c1.seen (c.graph.other_node e u)
          ∧ c1.distance (c.graph.other_node e u) ≤ c1.distance u + weight c1 r f e := by
  have hg := hinv.graph_wf
  have huN := hinv.seen_lt u hu.1
  obtain ⟨helt, hwN, hwu, _⟩ := Graph.other_node_spec c.graph hg u e huN he
  generalize hw : c.graph.other_node e u = w at *
  have hwseen : c.seen w := hq
  have hwin : c.in_queue w := by
    by_contra hc
    have := hinv.settled_le w ⟨hwseen, hc⟩
    omega
  obtain ⟨pq1, hsp, hok, hvals, hlen, hmem, hall⟩ :=
    PriorityQueue.setPriority_mem c.pq w (c.distance u + weight c r f e) hwin hinv.nodup
  refine ⟨pq1, hsp, ?_⟩
  intro c1 hc1
  have hframe : same_frame c c1 := by subst hc1; exact ⟨rfl, rfl, rfl, rfl, rfl⟩
  have hseen : ∀ v, c1.seen v ↔ c.seen v := by
    intro v; subst hc1; exact Iff.rfl
  have hpq : c1.pq = pq1 := by subst hc1; rfl
  have hinq : ∀ v, c1.in_queue v ↔ c.in_queue v := by
    intro v
    unfold in_queue
    rw [hpq, hvals.mem_iff]
  have hsettled : ∀ v, c1.settled v ↔ c.settled v := by
    intro v
    unfold settled
    rw [hseen, hinq]
  have hdist : ∀ v, v ≠ w → c1.distance v = c.distance v := by
    intro v hv; subst hc1; exact assign_ne _ _ _ _ hv
  have hdistw : c1.distance w = c.distance u + weight c r f e := by
    subst hc1; exact assign_same _ _ _
  have hpred : ∀ v, v ≠ w → c1.preceding_node v = c.preceding_node v := by
    intro v hv; subst hc1; exact assign_ne _ _ _ _ hv
  have hrel : ∀ v, v ≠ w → c1.relevant_edge v = c.relevant_edge v := by
    intro v hv; subst hc1; exact assign_ne _ _ _ _ hv
  have hgraph : c1.graph = c.graph := hframe.2.1
  have hsw : ∀ v, c.settled v → v ≠ w := fun v hv hc => hv.2 (hc ▸ hwin)
  have hwt := weight_frame hframe r f
  have hext : extends_search c c1 := by
    refine ⟨hframe, fun v hv => (hseen v).2 hv, hsettled, fun v hv => hdist v (hsw v hv), ?_⟩
    intro v _
    by_cases hvw : v = w
    · subst hvw; rw [hdistw]; exact le_of_lt hlt
    · exact le_of_eq (hdist v hvw)
  refine ⟨?_, hext, ?_, (hseen w).2 hwseen, ?_⟩
  · constructor
    · rw [hgraph]; exact hg
    · rw [hpq]; exact hok hinv.heap
    · rw [hpq, hvals.nodup_iff]; exact hinv.nodup
    · intro v
      subst hc1
      exact hinv.queued_le v
    · intro entry hentry
      rw [hpq] at hentry
      rcases hall entry hentry with rfl | ⟨hm, hne⟩
      · exact ⟨(hseen w).2 hwseen, hdistw, by dsimp only; omega⟩
      · obtain ⟨h1, h2, h3⟩ := hinv.pq_seen entry hm
        exact ⟨(hseen _).2 h1, by rw [hdist _ hne]; exact h2, h3⟩
    · intro v hv
      rw [hgraph]
      exact hinv.seen_lt v ((hseen v).1 hv)
    · intro v hv
      have hv' := (hsettled v).1 hv
      rw [hdist v (hsw v hv')]
      exact hinv.settled_le v hv'
    · intro s hs
      obtain ⟨b1, b2, b3, b4⟩ := hinv.sources s hs
      have hne : s ≠ w := by
        intro hc
        subst hc
        omega
      exact ⟨(hseen s).2 b1, by rw [hpred s hne]; exact b2,
        by rw [hrel s hne]; exact b3, by rw [hdist s hne]; exact b4⟩
    · intro v hv
      by_cases hvw : v = w
      · subst hvw
        right
        refine ⟨u, e, ?_, ?_, (hsettled u).2 hu, ?_, ?_, (usable_frame hframe _ _ _ _ _).2 husable, ?_⟩
        · subst hc1; exact assign_same _ _ _
        · subst hc1; exact assign_same _ _ _
        · rw [hgraph]; exact he
        · rw [hgraph]; exact hw
        · rw [hdistw, hdist u (hsw u hu), hwt]
      · have hvs : c.seen v := (hseen v).1 hv
        rcases hinv.tree v hvs with ⟨h1, h2, h3, h4⟩ | ⟨u', e', h1, h2, h3, h4, h5, h6, h7⟩
        · left
          exact ⟨h1, by rw [hpred v hvw]; exact h2, by rw [hrel v hvw]; exact h3,
            by rw [hdist v hvw]; exact h4⟩
        · right
          refine ⟨u', e', by rw [hpred v hvw]; exact h1, by rw [hrel v hvw]; exact h2,
            (hsettled u').2 h3, by rw [hgraph]; exact h4, by rw [hgraph]; exact h5,
            (usable_frame hframe _ _ _ _ _).2 h6, ?_⟩
          rw [hdist v hvw, hdist u' (hsw u' h3), hwt]
          exact h7
  · unfold rounds_left
    have h3 : (List.range c1.graph.count_nodes).countP
        (fun v => decide (c1.queued v ≠ c1.current_iteration))
        = (List.range c.graph.count_nodes).countP
            (fun v => decide (c.queued v ≠ c.current_iteration)) := by
      subst hc1; rfl
    rw [h3, hpq, hlen]
  · rw [hdistw, hdist u (hsw u hu), hwt]

/-- Relaxing an edge of the node popped last keeps the invariant and relaxes
the edge. -/
theorem relax_step (S : List Nat) (mnw : Int) (BB : BoundingBox) (r : Bool) (f last u : Nat)
    (c c1 : Connector) (e : Nat) (hinv : SearchInv S mnw BB r f last c) (hu : c.settled u)
    (hdu : c.distance u = last) (he : e ∈ c.graph.get_edgeindices_from_node u)
    (h : relax mnw BB r f u c e = some c1) :
    SearchInv S mnw BB r f last c1 ∧ extends_search c c1 ∧ rounds_left c1 ≤ rounds_left c
      ∧ (usable c mnw BB r u e → c1.seen (c.graph.other_node e u)
          ∧ c1.distance (c.graph.other_node e u) ≤ c1.distance u + weight c1 r f e) := by
  rcases relax_cases mnw BB r f u c c1 e h with ⟨h1, rfl⟩ | ⟨h1, h2, h3⟩ | ⟨h1, h2, h3, pq1, h4, h5⟩
      | ⟨h1, h2, h3, rfl⟩
  · exact ⟨hinv, extends_refl _, le_refl _, fun hc => absurd hc h1⟩
  · obtain ⟨a, b, c', d, e'⟩ := relax_push_step S mnw BB r f last u c e hinv hu hdu he h1 h2 c1 h3
    exact ⟨a, b, c', fun _ => ⟨d, e'⟩⟩
  · obtain ⟨pq2, hsp, hall⟩ := relax_update_step S mnw BB r f last u c e hinv hu hdu he h1 h2 h3
    have : pq2 = pq1 := Option.some.inj (hsp.symm.trans h4)
    subst this
    obtain ⟨a, b, c', d, e'⟩ := hall c1 h5
    exact ⟨a, b, c', fun _ => ⟨d, e'⟩⟩
  · refine ⟨hinv, extends_refl _, le_refl _, fun _ => ?_⟩
    have hle := hinv.queued_le (c1.graph.other_node e u)
    have hseen : c1.queued (c1.graph.other_node e u) = c1.current_iteration := by omega
    refine ⟨hseen, ?_⟩
    have := fun hc => h3 ⟨hseen, hc⟩
    omega

/-- Relaxing an edge of the node popped last does not stop the program when
the assertions that depend on the input hold of the edge. -/
theorem relax_some (S : List Nat) (mnw : Int) (BB : BoundingBox) (r : Bool) (f last u : Nat)
    (c : Connector) (e : Nat) (hinv : SearchInv S mnw BB r f last c) (hu : c.settled u)
    (hdu : c.distance u = last) (he : e ∈ c.graph.get_edgeindices_from_node u)
    (hok : c.edge_asserts mnw r e ∨ ∃ c1, relax mnw BB r f u c e = some c1) :
    ∃ c1, relax mnw BB r f u c e = some c1 := by
  rcases hok with hok | hok
  swap
  · exact hok
  have hg := hinv.graph_wf
  have huN := hinv.seen_lt u hu.1
  obtain ⟨helt, _, _, _⟩ := Graph.other_node_spec c.graph hg u e huN he
  have hdir : ∃ d, c.graph.get_edge_direction e = some d := by
    rcases Graph.edge_direction_plus c.graph hg e helt with h | h | h <;> exact ⟨_, h⟩
  obtain ⟨d, hd⟩ := hdir
  have hw : weight c r f e = c.edge_weight r f d e := by
    unfold weight; rw [hd]
  unfold edge_asserts at hok
  rw [hd] at hok
  unfold relax
  simp only [hd]
  rw [← hw]
  by_cases hbb : r = true
      ∧ BB.outside (c.graph.get_position_from_nodeindex (c.graph.other_node e u)) = true
  · rw [if_pos hbb]
    exact ⟨_, rfl⟩
  rw [if_neg hbb]
  have hblk : ¬ (d ≠ .z_plus ∧ ¬ c.block_asserts mnw r e) := by
    rintro ⟨h1, h2⟩
    exact h2 (hok.1 (fun hc => h1 (Option.some.inj hc))).1
  rw [if_neg hblk]
  by_cases hcap : d ≠ .z_plus ∧ r = true
      ∧ c.aggregated_width e + c.required_capacity mnw e > c.graph.get_capacity e
  · rw [if_pos hcap]
    exact ⟨_, rfl⟩
  rw [if_neg hcap]
  have hca : ¬ (r = true ∧ ¬ c.capacity_asserts mnw d e) := by
    rintro ⟨h1, h2⟩
    apply h2
    unfold capacity_asserts
    by_cases hz : d = .z_plus
    · subst hz
      have := hok.2 rfl h1
      simp only [ne_eq, not_true_eq_false, if_false]
      omega
    · have h3 := hok.1 (fun hc => hz (Option.some.inj hc))
      have h4 : c.aggregated_width e + c.required_capacity mnw e ≤ c.graph.get_capacity e := by
        by_contra hc
        exact hcap ⟨hz, h1, by omega⟩
      have h5 := h3.2 h1 h4
      rw [if_pos hz]
      exact ⟨by omega, h5⟩
  rw [if_neg hca]
  split
  · exact ⟨_, rfl⟩
  · split
    · rename_i hq hupd
      have husable : usable c mnw BB r u e := by
        refine ⟨hbb, fun hc => hcap ⟨?_, hc.2⟩⟩
        have := hc.1
        rw [hd] at this
        exact fun hc' => this (by rw [hc'])
      obtain ⟨pq1, hsp, _⟩ :=
        relax_update_step S mnw BB r f last u c e hinv hu hdu he husable hupd.1 hupd.2
      rw [hsp]
      exact ⟨_, rfl⟩
    · exact ⟨_, rfl⟩

end Connector
end GlobalRouting

/-! ## Search: one round of the loop -/

namespace GlobalRouting
namespace Connector

theorem closed_but_mono (mnw : Int) (BB : BoundingBox) (r : Bool) (f : Nat) (c c1 : Connector)
    (u0 : Nat) (done : List Nat) (hext : extends_search c c1)
    (hcl : closed_but mnw BB r f c u0 done) : closed_but mnw BB r f c1 u0 done := by
  intro u hu e he hdone husable
  have hgraph : c1.graph = c.graph := hext.frame.2.1
  have hu' := (hext.settled_iff u).1 hu
  rw [hgraph] at he ⊢
  obtain ⟨h1, h2⟩ := hcl u hu' e he hdone ((usable_frame hext.frame _ _ _ _ _).1 husable)
  refine ⟨hext.seen_mono _ h1, ?_⟩
  rw [hext.dist_settled u hu', weight_frame hext.frame]
  exact le_trans (hext.dist_le _ h1) h2

theorem closed_but_snoc (mnw : Int) (BB : BoundingBox) (r : Bool) (f : Nat) (c : Connector)
    (u0 : Nat) (done : List Nat) (e0 : Nat) (hcl : closed_but mnw BB r f c u0 done)
    (hnew : usable c mnw BB r u0 e0 → c.seen (c.graph.other_node e0 u0)
      ∧ c.distance (c.graph.other_node e0 u0) ≤ c.distance u0 + weight c r f e0) :
    closed_but mnw BB r f c u0 (done ++ [e0]) := by
  intro u hu e he hdone husable
  by_cases hc : u = u0 ∧ e = e0
  · obtain ⟨rfl, rfl⟩ := hc
    exact hnew husable
  · apply hcl u hu e he _ husable
    intro huu
    have := hdone huu
    rw [List.mem_append] at this
    rcases this with h | h
    · exact h
    · exact absurd ⟨huu, by simpa using h⟩ hc

/-- The loop over the edges of the node popped last keeps the invariant and
relaxes all its edges. It gets to its end when the assertions that depend on
the input hold of the edges; the last hypothesis is that, or that the loop is
known to get to its end. -/
theorem relax_all_step (S : List Nat) (mnw : Int) (BB : BoundingBox) (r : Bool)
    (f last u : Nat) (es : List Nat) :
    ∀ (c : Connector) (done : List Nat), SearchInv S mnw BB r f last c → c.settled u →
      c.distance u = last → (∀ e ∈ es, e ∈ c.graph.get_edgeindices_from_node u) →
      closed_but mnw BB r f c u done →
      ((∀ e ∈ es, c.edge_asserts mnw r e) ∨ ∃ c1, relax_all mnw BB r f u c es = some c1) →
      ∃ c1, relax_all mnw BB r f u c es = some c1 ∧ SearchInv S mnw BB r f last c1
        ∧ extends_search c c1 ∧ rounds_left c1 ≤ rounds_left c
        ∧ closed_but mnw BB r f c1 u (done ++ es) := by
  induction es with
  | nil =>
    intro c done hinv _ _ _ hcl _
    exact ⟨c, rfl, hinv, extends_refl c, le_refl _, by simpa using hcl⟩
  | cons e es ih =>
    intro c done hinv hu hdu hes hcl hok
    have he := hes e (List.mem_cons_self _ _)
    have hok_e : c.edge_asserts mnw r e ∨ ∃ c1, relax mnw BB r f u c e = some c1 := by
      rcases hok with hok | ⟨c1, hc1⟩
      · exact Or.inl (hok e (List.mem_cons_self _ _))
      · right
        unfold relax_all at hc1
        cases hrel : relax mnw BB r f u c e with
        | none => rw [hrel] at hc1; simp at hc1
        | some c' => exact ⟨c', rfl⟩
    obtain ⟨c', hc'⟩ := relax_some S mnw BB r f last u c e hinv hu hdu he hok_e
    obtain ⟨hinv', hext, hrounds, hfact⟩ := relax_step S mnw BB r f last u c c' e hinv hu hdu he hc'
    have hgraph : c'.graph = c.graph := hext.frame.2.1
    have hok' : (∀ e1 ∈ es, c'.edge_asserts mnw r e1)
        ∨ ∃ c1, relax_all mnw BB r f u c' es = some c1 := by
      rcases hok with hok | ⟨c1, hc1⟩
      · exact Or.inl (fun e1 he1 =>
          (edge_asserts_frame hext.frame mnw r e1).2 (hok e1 (List.mem_cons_of_mem _ he1)))
      · right
        unfold relax_all at hc1
        rw [hc'] at hc1
        exact ⟨c1, hc1⟩
    have hcl' : closed_but mnw BB r f c' u (done ++ [e]) := by
      apply closed_but_snoc _ _ _ _ _ _ _ _ (closed_but_mono _ _ _ _ _ _ _ _ hext hcl)
      intro hus
      rw [hgraph]
      exact hfact ((usable_frame hext.frame _ _ _ _ _).1 hus)
    obtain ⟨c1, h1, h2, h3, h4, h5⟩ := ih c' (done ++ [e]) hinv' ((hext.settled_iff u).2 hu)
      (by rw [hext.dist_settled u hu]; exact hdu)
      (fun e' he' => by rw [hgraph]; exact hes e' (List.mem_cons_of_mem _ he')) hcl' hok'
    refine ⟨c1, ?_, h2, extends_trans hext h3, le_trans h4 hrounds, ?_⟩
    · unfold relax_all
      rw [hc']
      exact h1
    · simpa using h5

/-- Popping the least entry keeps the invariant, with the popped node settled
at the new last distance. -/
theorem pop_step (S : List Nat) (mnw : Int) (BB : BoundingBox) (r : Bool) (f last : Nat)
    (c : Connector) (top : Entry Nat Nat) (pq1 : List (Entry Nat Nat))
    (hinv : SearchInv S mnw BB r f last c) (hcl : closed mnw BB r f c)
    (hpop : PriorityQueue.pop c.pq = some (top, pq1)) :
    SearchInv S mnw BB r f top.priority { c with pq := pq1 }
      ∧ ({ c with pq := pq1 } : Connector).settled top.value
      ∧ c.distance top.value = top.priority
      ∧ closed_but mnw BB r f { c with pq := pq1 } top.value []
      ∧ rounds_left { c with pq := pq1 } + 1 = rounds_left c
      ∧ (∀ v, ({ c with pq := pq1 } : Connector).settled v ↔ c.settled v ∨ v = top.value) := by
  obtain ⟨hperm, hrest⟩ := PriorityQueue.pop_spec c.pq top pq1 hpop
  obtain ⟨hok1, hmin⟩ := hrest hinv.heap
  have htop : top ∈ c.pq := hperm.mem_iff.2 (List.mem_cons_self _ _)
  obtain ⟨hts, htd, htl⟩ := hinv.pq_seen top htop
  have hsub : ∀ entry ∈ pq1, entry ∈ c.pq := fun entry h =>
    hperm.mem_iff.2 (List.mem_cons_of_mem _ h)
  have hvals : List.Perm (c.pq.map (fun entry => entry.value))
      (top.value :: pq1.map (fun entry => entry.value)) := hperm.map _
  have hnd := hvals.nodup_iff.1 hinv.nodup
  have hprio : ∀ entry ∈ c.pq, top.priority ≤ entry.priority := by
    intro entry h
    have := hmin entry h
    unfold Entry.key at this
    rw [Prod.Lex.le_iff] at this
    rcases this with h1 | h1
    · exact le_of_lt h1
    · exact le_of_eq h1.1
  have hsettled : ∀ v, ({ c with pq := pq1 } : Connector).settled v
      ↔ c.settled v ∨ v = top.value := by
    intro v
    unfold settled in_queue seen
    dsimp only
    rw [hvals.mem_iff, List.mem_cons]
    constructor
    · rintro ⟨h1, h2⟩
      by_cases hv : v = top.value
      · exact Or.inr hv
      · exact Or.inl ⟨h1, fun hc => by rcases hc with hc | hc; exact hv hc; exact h2 hc⟩
    · rintro (⟨h1, h2⟩ | rfl)
      · exact ⟨h1, fun hc => h2 (Or.inr hc)⟩
      · exact ⟨hts, (List.nodup_cons.1 hnd).1⟩
  refine ⟨?_, (hsettled _).2 (Or.inr rfl), htd, ?_, ?_, hsettled⟩
  · constructor
    · exact hinv.graph_wf
    · exact hok1
    · exact (List.nodup_cons.1 hnd).2
    · exact hinv.queued_le
    · intro entry h
      obtain ⟨h1, h2, _⟩ := hinv.pq_seen entry (hsub entry h)
      exact ⟨h1, h2, hprio entry (hsub entry h)⟩
    · exact hinv.seen_lt
    · intro v hv
      rcases (hsettled v).1 hv with h | rfl
      · exact le_trans (hinv.settled_le v h) htl
      · exact le_of_eq htd
    · exact hinv.sources
    · intro v hv
      rcases hinv.tree v hv with h | ⟨u', e', h1, h2, h3, h4⟩
      · exact Or.inl h
      · exact Or.inr ⟨u', e', h1, h2, (hsettled u').2 (Or.inl h3), h4⟩
  · intro u hu e he hdone husable
    rcases (hsettled u).1 hu with h | rfl
    · exact hcl u h e he husable
    · exact absurd (hdone rfl) (List.not_mem_nil _)
  · unfold rounds_left
    dsimp only
    rw [hperm.length_eq]
    simp
    omega

end Connector
end GlobalRouting

/-! ## Search: the loop -/

namespace GlobalRouting
namespace Connector

/-- The search loop ends within the fuel, keeps the invariant, and either has
settled every target or has emptied the queue with a target left. It gets to
its end when the assertions that depend on the input hold of the edges of the
graph; the last hypothesis is that, or that the loop is known to get to its
end. -/
theorem search_loop_spec (S T : List Nat) (mnw : Int) (BB : BoundingBox) (r : Bool) (f : Nat) :
    ∀ (fuel : Nat) (c : Connector) (active_T : List Nat) (last : Nat),
      SearchInv S mnw BB r f last c → closed mnw BB r f c → rounds_left c ≤ fuel →
      active_T.Nodup → (∀ t ∈ active_T, t ∈ T ∧ ¬ c.settled t) →
      (∀ t ∈ T, t ∉ active_T → c.settled t) →
      ((∀ e, e < c.graph.count_edges → c.edge_asserts mnw r e)
        ∨ ∃ res, search_loop mnw BB r f fuel c active_T = some res) →
      ∃ b c1 last1, search_loop mnw BB r f fuel c active_T = some (b, c1)
        ∧ SearchInv S mnw BB r f last1 c1 ∧ closed mnw BB r f c1 ∧ same_frame c c1
        ∧ (b = true → ∀ t ∈ T, c1.settled t)
        ∧ (b = false → c1.pq = [] ∧ ∃ t ∈ T, ¬ c1.settled t) := by
  intro fuel
  induction fuel with
  | zero =>
    intro c active_T last hinv hcl hfuel _ hA hT _
    have hpq : c.pq = [] := by
      unfold rounds_left at hfuel
      exact List.length_eq_zero.1 (by omega)
    cases active_T with
    | nil =>
      refine ⟨true, c, last, by simp [search_loop], hinv, hcl, same_frame_refl c, ?_, by simp⟩
      intro _ t ht
      exact hT t ht (List.not_mem_nil _)
    | cons a rest =>
      refine ⟨false, c, last, by simp [search_loop, hpq], hinv, hcl, same_frame_refl c,
        by simp, ?_⟩
      intro _
      exact ⟨hpq, a, (hA a (List.mem_cons_self _ _)).1, (hA a (List.mem_cons_self _ _)).2⟩
  | succ fuel ih =>
    intro c active_T last hinv hcl hfuel hnd hA hT hok
    cases active_T with
    | nil =>
      refine ⟨true, c, last, by simp [search_loop], hinv, hcl, same_frame_refl c, ?_, by simp⟩
      intro _ t ht
      exact hT t ht (List.not_mem_nil _)
    | cons a rest =>
      cases hpop : PriorityQueue.pop c.pq with
      | none =>
        have hpq := (PriorityQueue.pop_eq_none c.pq).1 hpop
        refine ⟨false, c, last, by simp [search_loop, hpop], hinv, hcl, same_frame_refl c,
          by simp, ?_⟩
        intro _
        exact ⟨hpq, a, (hA a (List.mem_cons_self _ _)).1, (hA a (List.mem_cons_self _ _)).2⟩
      | some res =>
        obtain ⟨top, pq1⟩ := res
        obtain ⟨hinv', hset, hdist, hcb, hrounds, hsettled⟩ :=
          pop_step S mnw BB r f last c top pq1 hinv hcl hpop
        have hok1 : (∀ e ∈ c.graph.get_edgeindices_from_node top.value,
              ({ c with pq := pq1 } : Connector).edge_asserts mnw r e)
            ∨ ∃ c1, relax_all mnw BB r f top.value { c with pq := pq1 }
                (c.graph.get_edgeindices_from_node top.value) = some c1 := by
          rcases hok with hok | ⟨res, hres⟩
          · left
            intro e he
            have hlt := (Graph.other_node_spec c.graph hinv.graph_wf top.value e
              (hinv'.seen_lt _ hset.1) he).1
            exact (@edge_asserts_frame c { c with pq := pq1 }
              ⟨rfl, rfl, rfl, rfl, rfl⟩ mnw r e).2 (hok e hlt)
          · right
            simp only [search_loop, List.isEmpty_cons, Bool.false_eq_true, if_false, hpop] at hres
            cases hrel : relax_all mnw BB r f top.value { c with pq := pq1 }
                (c.graph.get_edgeindices_from_node top.value) with
            | none => rw [hrel] at hres; simp at hres
            | some c1 => exact ⟨c1, rfl⟩
        obtain ⟨c1, hrel, hinv1, hext, hrounds1, hcb1⟩ :=
          relax_all_step S mnw BB r f top.priority top.value
            (c.graph.get_edgeindices_from_node top.value) { c with pq := pq1 } [] hinv' hset hdist
            (fun e he => he) hcb hok1
        have hcl1 : closed mnw BB r f c1 := by
          intro u hu e he husable
          apply hcb1 u hu e he _ husable
          intro huu
          have hgraph : c1.graph = c.graph := hext.frame.2.1
          rw [hgraph, huu] at he
          simpa using he
        have hframe : same_frame c c1 := by
          obtain ⟨a1, a2, a3, a4, a5⟩ := hext.frame
          exact ⟨a1, a2, a3, a4, a5⟩
        have hset1 : ∀ v, c1.settled v ↔ c.settled v ∨ v = top.value := fun v =>
          (hext.settled_iff v).trans (hsettled v)
        obtain ⟨b, c2, last2, hloop, h1, h2, h3, h4, h5⟩ :=
          ih c1 ((a :: rest).erase top.value) top.priority hinv1 hcl1 (by omega)
            (hnd.erase _)
            (fun t ht => by
              have hm := List.mem_of_mem_erase ht
              refine ⟨(hA t hm).1, fun hc => ?_⟩
              rcases (hset1 t).1 hc with h | h
              · exact (hA t hm).2 h
              · rw [h] at ht
                exact (List.Nodup.not_mem_erase hnd) ht)
            (fun t ht hne => by
              by_cases htv : t = top.value
              · exact (hset1 t).2 (Or.inr htv)
              · refine (hset1 t).2 (Or.inl (hT t ht ?_))
                intro hm
                exact hne ((List.mem_erase_of_ne htv).2 hm))
            (by
              rcases hok with hok | ⟨res, hres⟩
              · left
                intro e he
                rw [hframe.2.1] at he
                exact (edge_asserts_frame hframe mnw r e).2 (hok e he)
              · right
                simp only [search_loop, List.isEmpty_cons, Bool.false_eq_true, if_false, hpop,
                  hrel] at hres
                exact ⟨res, hres⟩)
        refine ⟨b, c2, last2, ?_, h1, h2, same_frame_trans hframe h3, h4, h5⟩
        simp only [search_loop, List.isEmpty_cons, Bool.false_eq_true, if_false, hpop, hrel]
        exact hloop

end Connector
end GlobalRouting

/-! ## Search: the emergency pass reaches every node -/

namespace GlobalRouting

theorem line_induction (P : Nat → Prop) (n a0 : Nat) (h0 : P a0)
    (hup : ∀ a, a + 1 < n → P a → P (a + 1)) (hdown : ∀ a, a + 1 < n → P (a + 1) → P a)
    (ha0 : a0 < n) : ∀ a, a < n → P a := by
  have hzero : ∀ k, k ≤ a0 → P (a0 - k) := by
    intro k
    induction k with
    | zero => intro _; exact h0
    | succ k ih =>
      intro hk
      have := ih (by omega)
      have h2 : a0 - k = (a0 - (k + 1)) + 1 := by omega
      rw [h2] at this
      exact hdown _ (by omega) this
  have hP0 : P 0 := by
    have := hzero a0 (le_refl _)
    simpa using this
  intro a
  induction a with
  | zero => intro _; exact hP0
  | succ a ih =>
    intro ha
    exact hup a ha (ih (by omega))

namespace Graph

/-- A step from a node in a possible direction follows an edge listed at the
node. -/
theorem neighbor_step (g : Graph) (x y z : Nat) (hx : x < g.dim_x) (hy : y < g.dim_y)
    (hz : z < g.dim_z) (d : direction)
    (hd : g.is_direction_possible (g.get_nodeindex_from_position x y z) d = true) :
    ∃ e ∈ g.get_edgeindices_from_node (g.get_nodeindex_from_position x y z),
      g.other_node e (g.get_nodeindex_from_position x y z)
        = g.get_neighbor (g.get_nodeindex_from_position x y z) d := by
  refine ⟨g.get_edgeindex_from_node_and_direction (g.get_nodeindex_from_position x y z) d,
    (mem_edgeindices _ _ _).2 ⟨d, hd, rfl⟩, ?_⟩
  obtain ⟨_, hn⟩ := edge_of_direction g x y z hx hy hz d hd
  have hne : g.get_nodeindex_from_position x y z
      ≠ g.get_neighbor (g.get_nodeindex_from_position x y z) d := by
    rw [neighbor_at g x y z hy hz]
    rw [possible_at g x y z hy hz] at hd
    intro hc
    cases d <;> simp only [decide_eq_true_eq] at hd hc
    · have := nodeindex_injective g _ _ _ _ _ _ hy hz hy hz hc; omega
    · have := nodeindex_injective g _ _ _ _ _ _ hy hz hy hz hc; omega
    · have := nodeindex_injective g _ _ _ _ _ _ hy hz (by omega) hz hc; omega
    · have := nodeindex_injective g _ _ _ _ _ _ hy hz (by omega) hz hc; omega
    · have := nodeindex_injective g _ _ _ _ _ _ hy hz hy (by omega) hc; omega
    · have := nodeindex_injective g _ _ _ _ _ _ hy hz hy (by omega) hc; omega
  exact (joins_other_node g _ _ _ hn hne).1

/-- The grid is connected: a set of nodes that holds one node and is closed
under following the edges listed at its nodes holds every node. -/
theorem reach_all (g : Graph) (hg : g.wf) (X : Nat → Prop) (s : Nat) (hs : s < g.count_nodes)
    (hXs : X s)
    (hstep : ∀ u, u < g.count_nodes → X u → ∀ e ∈ g.get_edgeindices_from_node u,
      X (g.other_node e u)) :
    ∀ v, v < g.count_nodes → X v := by
  have hmove : ∀ x y z, x < g.dim_x → y < g.dim_y → z < g.dim_z → ∀ d,
      g.is_direction_possible (g.get_nodeindex_from_position x y z) d = true →
      X (g.get_nodeindex_from_position x y z) →
      X (g.get_neighbor (g.get_nodeindex_from_position x y z) d) := by
    intro x y z hx hy hz d hd hX
    obtain ⟨e, he, heq⟩ := neighbor_step g x y z hx hy hz d hd
    rw [← heq]
    exact hstep _ (nodeindex_lt g x y z hx hy hz) hX e he
  obtain ⟨hx0, hy0, hz0⟩ := position_lt g hg s hs
  have hs' := nodeindex_of_position g s
  generalize (g.get_position_from_nodeindex s).1 = x0 at hx0 hs'
  generalize (g.get_position_from_nodeindex s).2.1 = y0 at hy0 hs'
  generalize (g.get_position_from_nodeindex s).2.2 = z0 at hz0 hs'
  rw [← hs'] at hXs
  have h1 : ∀ x, x < g.dim_x → X (g.get_nodeindex_from_position x y0 z0) := by
    apply line_induction (fun a => X (g.get_nodeindex_from_position a y0 z0)) g.dim_x x0 hXs _ _ hx0
    · intro a ha hX
      have := hmove a y0 z0 (by omega) hy0 hz0 .x_plus
        (by rw [possible_at g a y0 z0 hy0 hz0]; simp; omega) hX
      rwa [neighbor_at g a y0 z0 hy0 hz0] at this
    · intro a ha hX
      have := hmove (a + 1) y0 z0 ha hy0 hz0 .x_minus
        (by rw [possible_at g _ y0 z0 hy0 hz0]; simp) hX
      rwa [neighbor_at g _ y0 z0 hy0 hz0] at this
  have h2 : ∀ x, x < g.dim_x → ∀ y, y < g.dim_y → X (g.get_nodeindex_from_position x y z0) := by
    intro x hx
    apply line_induction (fun a => X (g.get_nodeindex_from_position x a z0)) g.dim_y y0 (h1 x hx) _ _ hy0
    · intro a ha hX
      have := hmove x a z0 hx (by omega) hz0 .y_plus
        (by rw [possible_at g x a z0 (by omega) hz0]; simp; omega) hX
      rwa [neighbor_at g x a z0 (by omega) hz0] at this
    · intro a ha hX
      have := hmove x (a + 1) z0 hx ha hz0 .y_minus
        (by rw [possible_at g x _ z0 ha hz0]; simp) hX
      rwa [neighbor_at g x _ z0 ha hz0] at this
  have h3 : ∀ x, x < g.dim_x → ∀ y, y < g.dim_y → ∀ z, z < g.dim_z →
      X (g.get_nodeindex_from_position x y z) := by
    intro x hx y hy
    apply line_induction (fun a => X (g.get_nodeindex_from_position x y a)) g.dim_z z0 (h2 x hx y hy) _ _ hz0
    · intro a ha hX
      have := hmove x y a hx hy (by omega) .z_plus
        (by rw [possible_at g x y a hy (by omega)]; simp; omega) hX
      rwa [neighbor_at g x y a hy (by omega)] at this
    · intro a ha hX
      have := hmove x y (a + 1) hx hy ha .z_minus
        (by rw [possible_at g x y _ hy ha]; simp) hX
      rwa [neighbor_at g x y _ hy ha] at this
  intro v hv
  obtain ⟨hx, hy, hz⟩ := position_lt g hg v hv
  have := h3 _ hx _ hy _ hz
  rwa [nodeindex_of_position] at this

end Graph

namespace Connector

/-- Without respect for capacities no edge is skipped. -/
theorem usable_emergency (c : Connector) (mnw : Int) (BB : BoundingBox) (u e : Nat) :
    usable c mnw BB false u e := by
  unfold usable
  simp

/-- In the pass without respect for capacities the queue cannot run empty
before every node of the grid is settled. -/
theorem emergency_all_settled (S : List Nat) (mnw : Int) (BB : BoundingBox) (f last : Nat)
    (c : Connector) (hinv : SearchInv S mnw BB false f last c) (hcl : closed mnw BB false f c)
    (hpq : c.pq = []) (s : Nat) (hs : s ∈ S) :
    ∀ v, v < c.graph.count_nodes → c.settled v := by
  have hseen : ∀ v, v < c.graph.count_nodes → c.seen v := by
    apply Graph.reach_all c.graph hinv.graph_wf c.seen s (hinv.seen_lt s (hinv.sources s hs).1)
      (hinv.sources s hs).1
    intro u _ hu e he
    have hsettled : c.settled u := ⟨hu, by unfold in_queue; rw [hpq]; simp⟩
    exact (hcl u hsettled e he (usable_emergency c mnw BB u e)).1
  intro v hv
  exact ⟨hseen v hv, by unfold in_queue; rw [hpq]; simp⟩

/-- The state after the counter is raised and the source entered satisfies the
invariant of the search. -/
theorem push_sources_spec (c : Connector) (s : Nat) (mnw : Int) (BB : BoundingBox) (r : Bool)
    (f : Nat) (hg : c.graph.wf) (hq : ∀ v, c.queued v ≤ c.current_iteration)
    (hs : s < c.graph.count_nodes) :
    ∃ c0, push_sources { c with pq := [], current_iteration := c.current_iteration + 1 } [s]
        = some c0
      ∧ SearchInv [s] mnw BB r f 0 c0 ∧ closed mnw BB r f c0
      ∧ rounds_left c0 ≤ c0.graph.count_nodes
      ∧ (∀ v, ¬ c0.settled v)
      ∧ c0.problem = c.problem ∧ c0.graph = c.graph
      ∧ c0.current_iteration = c.current_iteration + 1
      ∧ c0.aggregated_width = c.aggregated_width ∧ c0.emergency_log = c.emergency_log := by
  have hpush : PriorityQueue.push ([] : List (Entry Nat Nat)) s 0 = [⟨s, 0⟩] := by
    simp [PriorityQueue.push, PriorityQueue.heapifyUp, PriorityQueue.heapifyUpAux]
  obtain ⟨c0, hc0⟩ : ∃ c0 : Connector, c0 = { c with
      pq := [⟨s, 0⟩]
      current_iteration := c.current_iteration + 1
      queued := assign c.queued s (c.current_iteration + 1)
      preceding_node := assign c.preceding_node s none
      relevant_edge := assign c.relevant_edge s none
      distance := assign c.distance s 0 } := ⟨_, rfl⟩
  have hps : push_sources { c with pq := [], current_iteration := c.current_iteration + 1 } [s]
      = some c0 := by
    simp only [push_sources, hs, if_true, hpush]
    rw [hc0]
  have hpq : c0.pq = [⟨s, 0⟩] := by subst hc0; rfl
  have hit : c0.current_iteration = c.current_iteration + 1 := by subst hc0; rfl
  have hgraph : c0.graph = c.graph := by subst hc0; rfl
  have hqueued : c0.queued = assign c.queued s (c.current_iteration + 1) := by subst hc0; rfl
  have hdist : c0.distance s = 0 := by subst hc0; exact assign_same _ _ _
  have hpred : c0.preceding_node s = none := by subst hc0; exact assign_same _ _ _
  have hrel : c0.relevant_edge s = none := by subst hc0; exact assign_same _ _ _
  have hseen_s : c0.seen s := by
    unfold seen; rw [hqueued, hit, assign_same]
  have hseen : ∀ v, c0.seen v → v = s := by
    intro v hv
    unfold seen at hv
    rw [hqueued, hit] at hv
    by_contra hne
    rw [assign_ne _ _ _ _ hne] at hv
    have := hq v
    omega
  have hinq : c0.in_queue s := by unfold in_queue; rw [hpq]; simp
  have hnoset : ∀ v, ¬ c0.settled v := by
    intro v hv
    have := hseen v hv.1
    subst this
    exact hv.2 hinq
  refine ⟨c0, hps, ?_, ?_, ?_, hnoset, by subst hc0; rfl, hgraph, hit, by subst hc0; rfl,
    by subst hc0; rfl⟩
  · constructor
    · rw [hgraph]; exact hg
    · rw [hpq]
      intro i hi hlt
      simp at hlt
      omega
    · rw [hpq]; simp
    · intro v
      rw [hqueued, hit]
      by_cases hv : v = s
      · subst hv; rw [assign_same]
      · rw [assign_ne _ _ _ _ hv]
        have := hq v
        omega
    · intro entry hentry
      rw [hpq] at hentry
      simp only [List.mem_singleton] at hentry
      subst hentry
      exact ⟨hseen_s, hdist, le_refl _⟩
    · intro v hv
      rw [hseen v hv, hgraph]
      exact hs
    · intro v hv
      exact absurd hv (hnoset v)
    · intro t ht
      simp only [List.mem_singleton] at ht
      subst ht
      exact ⟨hseen_s, hpred, hrel, hdist⟩
    · intro v hv
      have := hseen v hv
      subst this
      left
      exact ⟨List.mem_singleton_self _, hpred, hrel, hdist⟩
  · intro u hu
    exact absurd hu (hnoset u)
  · unfold rounds_left
    rw [hgraph, hqueued, hit, hpq]
    have h1 := countP_assign_le c.graph.count_nodes c.queued (c.current_iteration + 1) s hs
      (by have := hq s; omega)
    have h2 : (List.range c.graph.count_nodes).countP
        (fun v => decide (c.queued v ≠ c.current_iteration + 1)) ≤ c.graph.count_nodes := by
      have := List.countP_le_length (fun v => decide (c.queued v ≠ c.current_iteration + 1))
        (l := List.range c.graph.count_nodes)
      simpa using this
    simp only [List.length_singleton]
    omega

end Connector
end GlobalRouting

/-! ## Tree extraction -/

namespace GlobalRouting

theorem mem_set_insert (a b : Nat) (l : List Nat) : b ∈ set_insert a l ↔ b = a ∨ b ∈ l := by
  induction l with
  | nil => simp [set_insert]
  | cons x l ih =>
    unfold set_insert
    split
    · simp
    · split
      · rename_i h1 h2
        subst h2
        simp
      · simp only [List.mem_cons, ih]
        tauto

theorem sorted_set_insert (a : Nat) (l : List Nat) (h : l.Sorted (fun a b => a < b)) :
    (set_insert a l).Sorted (fun a b => a < b) := by
  induction l with
  | nil => simp [set_insert]
  | cons x l ih =>
    unfold set_insert
    have hx := List.sorted_cons.1 h
    split
    · rename_i hax
      refine List.sorted_cons.2 ⟨?_, h⟩
      intro b hb
      rcases List.mem_cons.1 hb with rfl | hb
      · exact hax
      · exact lt_trans hax (hx.1 b hb)
    · split
      · exact h
      · rename_i h1 h2
        refine List.sorted_cons.2 ⟨?_, ih hx.2⟩
        intro b hb
        rcases (mem_set_insert a b l).1 hb with rfl | hb
        · omega
        · exact hx.1 b hb

theorem countP_lt_of_imp (l : List Nat) (p1 p2 : Nat → Bool) (q : Nat) (hq : q ∈ l)
    (himp : ∀ x, p1 x = true → p2 x = true) (h1 : p1 q = false) (h2 : p2 q = true) :
    l.countP p1 + 1 ≤ l.countP p2 := by
  induction l with
  | nil => simp at hq
  | cons x l ih =>
    rw [List.countP_cons, List.countP_cons]
    rcases List.mem_cons.1 hq with rfl | hq
    · have := List.countP_mono_left (l := l) (p := p1) (q := p2) (fun x _ => himp x)
      simp [h1, h2]
      omega
    · have := ih hq
      by_cases hp : p1 x = true
      · simp [hp, himp x hp]; omega
      · simp [hp]; omega

namespace Connector

theorem on_chain_of_none (c : Connector) (t v : Nat) (h : c.preceding_node t = none)
    (hc : on_chain c t v) : v = t := by
  cases hc with
  | start => rfl
  | step _ u _ hp _ => rw [h] at hp; simp at hp

theorem on_chain_of_some (c : Connector) (t u v : Nat) (h : c.preceding_node t = some u) :
    on_chain c t v ↔ v = t ∨ on_chain c u v := by
  constructor
  · intro hc
    cases hc with
    | start => exact Or.inl rfl
    | step _ u' _ hp hrest =>
      rw [h] at hp
      have := Option.some.inj hp
      subst this
      exact Or.inr hrest
  · rintro (rfl | hc)
    · exact on_chain.start _
    · exact on_chain.step _ _ _ h hc

theorem chain_facts_of_inv (S : List Nat) (mnw : Int) (BB : BoundingBox) (r : Bool)
    (f last : Nat) (c : Connector) (hinv : SearchInv S mnw BB r f last c) : chain_facts c := by
  refine ⟨hinv.seen_lt, ?_⟩
  intro v u hv hp
  rcases hinv.tree v hv with ⟨_, h2, _⟩ | ⟨u', e, h1, h2, h3, h4, h5, h6, h7⟩
  · rw [h2] at hp; simp at hp
  · rw [h1] at hp
    have := Option.some.inj hp
    subst this
    have huN := hinv.seen_lt u' h3.1
    obtain ⟨helt, _⟩ := Graph.other_node_spec c.graph hinv.graph_wf u' e huN h4
    have := one_le_weight c hinv.graph_wf r f e helt
    exact ⟨h3.1, by omega, e, h2⟩

theorem chain_rank_lt (c : Connector) (hf : chain_facts c) (p q : Nat) (hp : c.seen p)
    (hq : c.preceding_node p = some q) : chain_rank c q + 1 ≤ chain_rank c p := by
  obtain ⟨hqs, hlt, _⟩ := hf.2 p q hp hq
  unfold chain_rank
  apply countP_lt_of_imp _ _ _ q (List.mem_range.2 (hf.1 q hqs))
  · intro x hx
    simp only [decide_eq_true_eq] at hx ⊢
    exact ⟨hx.1, by omega⟩
  · simp
  · simp only [decide_eq_true_eq]
    exact ⟨hqs, hlt⟩

/-- The walk from a seen node back to the source ends within the fuel and
inserts the relevant edges of the nodes on the chain. -/
theorem walk_back_spec (c : Connector) (hf : chain_facts c) :
    ∀ (fuel p : Nat) (ret : List Nat), c.seen p → chain_rank c p ≤ fuel →
      ∃ ret1, walk_back c fuel p ret = some ret1
        ∧ (ret.Sorted (fun a b => a < b) → ret1.Sorted (fun a b => a < b))
        ∧ ∀ e, e ∈ ret1 ↔ e ∈ ret
            ∨ ∃ v u, on_chain c p v ∧ c.preceding_node v = some u
                ∧ c.relevant_edge v = some e := by
  intro fuel
  induction fuel with
  | zero =>
    intro p ret hp hr
    cases hpred : c.preceding_node p with
    | some q =>
      have := chain_rank_lt c hf p q hp hpred
      omega
    | none =>
      refine ⟨ret, by simp [walk_back, hpred], fun h => h, ?_⟩
      intro e
      constructor
      · exact fun h => Or.inl h
      · rintro (h | ⟨v, u, h1, h2, _⟩)
        · exact h
        · have := on_chain_of_none c p v hpred h1
          subst this
          rw [hpred] at h2
          simp at h2
  | succ fuel ih =>
    intro p ret hp hr
    cases hpred : c.preceding_node p with
    | none =>
      refine ⟨ret, by simp [walk_back, hpred], fun h => h, ?_⟩
      intro e
      constructor
      · exact fun h => Or.inl h
      · rintro (h | ⟨v, u, h1, h2, _⟩)
        · exact h
        · have := on_chain_of_none c p v hpred h1
          subst this
          rw [hpred] at h2
          simp at h2
    | some q =>
      obtain ⟨hqs, _, e0, he0⟩ := hf.2 p q hp hpred
      have hrank := chain_rank_lt c hf p q hp hpred
      obtain ⟨ret1, h1, h2, h3⟩ := ih q (set_insert e0 ret) hqs (by omega)
      refine ⟨ret1, by simp [walk_back, hpred, he0, h1],
        fun h => h2 (sorted_set_insert _ _ h), ?_⟩
      intro e
      rw [h3, mem_set_insert]
      constructor
      · rintro ((rfl | h) | ⟨v, u, a1, a2, a3⟩)
        · exact Or.inr ⟨p, q, on_chain.start _, hpred, he0⟩
        · exact Or.inl h
        · exact Or.inr ⟨v, u, on_chain.step _ _ _ hpred a1, a2, a3⟩
      · rintro (h | ⟨v, u, a1, a2, a3⟩)
        · exact Or.inl (Or.inr h)
        · rcases (on_chain_of_some c p q v hpred).1 a1 with rfl | a1
          · rw [he0] at a3
            exact Or.inl (Or.inl (Option.some.inj a3).symm)
          · exact Or.inr ⟨v, u, a1, a2, a3⟩

theorem chain_rank_le (c : Connector) (p : Nat) : chain_rank c p ≤ c.graph.count_nodes := by
  unfold chain_rank
  have := List.countP_le_length
    (fun v => decide (c.queued v = c.current_iteration ∧ c.distance v < c.distance p))
    (l := List.range c.graph.count_nodes)
  simpa using this

/-- The tree extraction ends and returns, in ascending order, the relevant
edges of the nodes on the chains of the targets. -/
theorem collect_edges_spec (c : Connector) (hf : chain_facts c) :
    ∀ (T ret : List Nat), (∀ t ∈ T, c.seen t) →
      ∃ ret1, collect_edges c T ret = some ret1
        ∧ (ret.Sorted (fun a b => a < b) → ret1.Sorted (fun a b => a < b))
        ∧ ∀ e, e ∈ ret1 ↔ e ∈ ret ∨ chain_edge c T e := by
  intro T
  induction T with
  | nil =>
    intro ret _
    refine ⟨ret, rfl, fun h => h, ?_⟩
    intro e
    unfold chain_edge
    simp
  | cons t T ih =>
    intro ret hT
    obtain ⟨ret1, h1, h2, h3⟩ := walk_back_spec c hf c.graph.count_nodes t ret
      (hT t (List.mem_cons_self _ _)) (chain_rank_le c t)
    obtain ⟨ret2, g1, g2, g3⟩ := ih ret1 (fun t' ht' => hT t' (List.mem_cons_of_mem _ ht'))
    refine ⟨ret2, by simp [collect_edges, h1, g1], fun h => g2 (h2 h), ?_⟩
    intro e
    rw [g3, h3]
    unfold chain_edge
    constructor
    · rintro ((h | ⟨v, u, a1, a2, a3⟩) | ⟨t', ht', v, u, a1, a2, a3⟩)
      · exact Or.inl h
      · exact Or.inr ⟨t, List.mem_cons_self _ _, v, u, a1, a2, a3⟩
      · exact Or.inr ⟨t', List.mem_cons_of_mem _ ht', v, u, a1, a2, a3⟩
    · rintro (h | ⟨t', ht', v, u, a1, a2, a3⟩)
      · exact Or.inl (Or.inl h)
      · rcases List.mem_cons.1 ht' with rfl | ht'
        · exact Or.inl (Or.inr ⟨v, u, a1, a2, a3⟩)
        · exact Or.inr ⟨t', ht', v, u, a1, a2, a3⟩

end Connector
end GlobalRouting

/-! ## Search: one pass and the method -/

namespace GlobalRouting
namespace Connector

/-- One activation of the search on a single source: it ends, and either
returns the edges of the chains of all targets, or, in respect-capacity mode
only, reports the queue empty. It gets to its end when the assertions that
depend on the input hold; the last hypothesis is that, or that the activation
is known to get to its end. -/
theorem search_pass_spec (c : Connector) (s : Nat) (T : List Nat) (mnw : Int) (BB : BoundingBox)
    (r : Bool) (f : Nat) (hg : c.graph.wf) (hq : ∀ v, c.queued v ≤ c.current_iteration)
    (hs : s < c.graph.count_nodes) (hT : T.Nodup) (hTN : ∀ t ∈ T, t < c.graph.count_nodes)
    (hok : (c.head_asserts mnw ∧ ∀ e, e < c.graph.count_edges → c.edge_asserts mnw r e)
      ∨ ∃ res, search_pass c [s] T mnw BB r f = some res) :
    ∃ res c1, search_pass c [s] T mnw BB r f = some (res, c1) ∧ after_pass c c1
      ∧ c1.emergency_log = c.emergency_log
      ∧ (∀ ret, res = some ret → search_result c1 s T mnw BB r f ret)
      ∧ (res = none → r = true ∧ c1.pq = [] ∧ closed mnw BB r f c1
          ∧ (∃ last, SearchInv [s] mnw BB r f last c1) ∧ ∃ t ∈ T, ¬ c1.settled t) := by
  obtain ⟨c0, h0, hinv0, hcl0, hr0, hns0, hp0, hg0, hi0, ha0, he0⟩ :=
    push_sources_spec c s mnw BB r f hg hq hs
  have hhead : ¬ ¬ c.head_asserts mnw := by
    rcases hok with hok | ⟨res, hres⟩
    · exact not_not.2 hok.1
    · intro hc
      unfold search_pass at hres
      rw [if_pos hc] at hres
      simp at hres
  have hok0 : (∀ e, e < c0.graph.count_edges → c0.edge_asserts mnw r e)
      ∨ ∃ res, search_loop mnw BB r f c0.graph.count_nodes c0 T = some res := by
    rcases hok with hok | ⟨res, hres⟩
    · left
      intro e he
      rw [hg0] at he
      exact (edge_asserts_congr hp0 hg0 ha0 mnw r e).2 (hok.2 e he)
    · right
      unfold search_pass at hres
      rw [if_neg hhead] at hres
      simp only [h0] at hres
      cases hl : search_loop mnw BB r f c0.graph.count_nodes c0 T with
      | none => rw [hl] at hres; simp at hres
      | some res0 => exact ⟨res0, rfl⟩
  obtain ⟨b, c1, last1, hloop, hinv1, hcl1, hframe, hb1, hb2⟩ :=
    search_loop_spec [s] T mnw BB r f c0.graph.count_nodes c0 T 0 hinv0 hcl0 hr0 hT
      (fun t ht => ⟨ht, hns0 t⟩) (fun t ht hne => absurd ht hne) hok0
  obtain ⟨f1, f2, f3, f4, f5⟩ := hframe
  have hafter : after_pass c c1 :=
    ⟨f1.trans hp0, f2.trans hg0, f4.trans ha0, f3.trans hi0, hinv1.queued_le⟩
  cases b with
  | false =>
    refine ⟨none, c1, ?_, hafter, f5.trans he0, fun ret h => by simp at h, ?_⟩
    · unfold search_pass
      rw [if_neg hhead]
      simp only [h0, hloop]
    · intro _
      obtain ⟨hpq, t, ht, hnot⟩ := hb2 rfl
      refine ⟨?_, hpq, hcl1, ⟨last1, hinv1⟩, t, ht, hnot⟩
      cases r with
      | true => rfl
      | false =>
        exfalso
        apply hnot
        have := emergency_all_settled [s] mnw BB f last1 c1 hinv1 hcl1 hpq s
          (List.mem_singleton_self _) t
        apply this
        rw [f2, hg0]
        exact hTN t ht
  | true =>
    have hset := hb1 rfl
    obtain ⟨ret, hcol, hsorted, hmem⟩ :=
      collect_edges_spec c1 (chain_facts_of_inv _ _ _ _ _ _ _ hinv1) T []
        (fun t ht => (hset t ht).1)
    refine ⟨some ret, c1, ?_, hafter, f5.trans he0, ?_, fun h => by simp at h⟩
    · unfold search_pass
      rw [if_neg hhead]
      simp only [h0, hloop, hcol]
    · intro ret' hret'
      have := Option.some.inj hret'
      subst this
      exact ⟨⟨last1, hinv1⟩, hcl1, hset, hsorted List.sorted_nil,
        fun e => by rw [hmem]; simp⟩

/-- An allowed step from a node of the graph follows a usable edge listed at
the node. -/
theorem allowed_step_usable (c : Connector) (hg : c.graph.wf) (mnw : Int) (BB : BoundingBox)
    (u w : Nat) (h : allowed_step c mnw BB u w) :
    ∃ e ∈ c.graph.get_edgeindices_from_node u, c.graph.other_node e u = w
      ∧ c.usable mnw BB true u e ∧ e < c.graph.count_edges := by
  obtain ⟨e, he, hj, hbb, hcap⟩ := h
  obtain ⟨_, _, hne⟩ := Graph.nodes_of_edge_lt c.graph hg e he
  have huw : u ≠ w := by
    rcases hj with hj | hj <;> rw [hj] at hne
    · exact hne
    · exact fun hc => hne hc.symm
  have hother := (Graph.joins_other_node c.graph e u w hj huw).1
  obtain ⟨m1, m2⟩ := Graph.edge_mem_edgeindices c.graph hg e he
  have hmem : e ∈ c.graph.get_edgeindices_from_node u := by
    rcases hj with hj | hj <;> rw [hj] at m1 m2
    · exact m1
    · exact m2
  refine ⟨e, hmem, hother, ⟨?_, ?_⟩, he⟩
  · rw [hother, hbb]
    simp
  · rintro ⟨h1, _, h3⟩
    rcases hcap with hcap | hcap
    · exact h1 hcap
    · omega

/-- When the queue has run empty in respect-capacity mode, every node an
allowed path leads to from a settled node is settled. -/
theorem settled_of_allowed_path (c c1 : Connector) (s : Nat) (mnw : Int)
    (BB : BoundingBox) (f last : Nat) (hafter : after_pass c c1)
    (hinv : SearchInv [s] mnw BB true f last c1) (hcl : closed mnw BB true f c1)
    (hpq : c1.pq = []) (u t k : Nat) (hpath : allowed_path c mnw BB u t k)
    (hu : c1.settled u) : c1.settled t := by
  obtain ⟨a1, a2, a3, a4, a5⟩ := hafter
  induction hpath with
  | nil _ => exact hu
  | cons u w v k hstep _ ih =>
    apply ih
    have hstep1 : allowed_step c1 mnw BB u w := by
      unfold allowed_step required_capacity at hstep ⊢
      rw [a1, a2, a3]
      exact hstep
    obtain ⟨e, hmem, hother, husable, _⟩ :=
      allowed_step_usable c1 hinv.graph_wf mnw BB u w hstep1
    have := (hcl u hu e hmem husable).1
    rw [hother] at this
    exact ⟨this, by unfold in_queue; rw [hpq]; simp⟩

/-- The method `create_search_forest` on a single source returns when the
assertions that depend on the input hold (`search_asserts`): in the mode it was
called in, or, when called in respect-capacity mode, after the one emergency
pass, which the log records. The last hypothesis is that the assertions hold,
or that the call is known to return. -/
theorem create_search_forest_spec (c : Connector) (s : Nat) (T : List Nat) (mnw : Int)
    (BB : BoundingBox) (r : Bool) (f : Nat) (hg : c.graph.wf)
    (hq : ∀ v, c.queued v ≤ c.current_iteration)
    (hs : s < c.graph.count_nodes) (hT : T.Nodup) (hTN : ∀ t ∈ T, t < c.graph.count_nodes)
    (hok : c.search_asserts mnw r ∨ ∃ res, create_search_forest c [s] T mnw BB r f = some res) :
    ∃ ret c1 r1, create_search_forest c [s] T mnw BB r f = some (ret, c1)
      ∧ search_result c1 s T mnw BB r1 f ret
      ∧ c1.problem = c.problem ∧ c1.graph = c.graph
      ∧ c1.aggregated_width = c.aggregated_width
      ∧ (c.current_iteration < c1.current_iteration
          ∧ c1.current_iteration ≤ c.current_iteration + 2)
      ∧ (∀ v, c1.queued v ≤ c1.current_iteration)
      ∧ (r1 = r ∧ c1.emergency_log = c.emergency_log
          ∨ r = true ∧ r1 = false ∧ c1.emergency_log = c.emergency_log + 1
            ∧ ∃ t ∈ T, ∀ k, ¬ allowed_path c mnw BB s t k) := by
  have hok1 : (c.head_asserts mnw ∧ ∀ e, e < c.graph.count_edges → c.edge_asserts mnw r e)
      ∨ ∃ res, search_pass c [s] T mnw BB r f = some res := by
    rcases hok with hok | ⟨res, hres⟩
    · left
      obtain ⟨h1, h2⟩ := hok.counter
      refine ⟨⟨hok.width, ⟨?_, ?_⟩, ?_⟩, hok.edges⟩
      · unfold int_min; omega
      · omega
      · omega
    · right
      unfold create_search_forest at hres
      cases hp : search_pass c [s] T mnw BB r f with
      | none => rw [hp] at hres; simp at hres
      | some res1 => exact ⟨res1, rfl⟩
  obtain ⟨res, c1, hpass, ⟨a1, a2, a3, a4, a5⟩, hlog, hres, hnone⟩ :=
    search_pass_spec c s T mnw BB r f hg hq hs hT hTN hok1
  cases res with
  | some ret =>
    refine ⟨ret, c1, r, ?_, hres ret rfl, a1, a2, a3, by omega, a5, Or.inl ⟨rfl, hlog⟩⟩
    unfold create_search_forest
    simp only [hpass]
  | none =>
    obtain ⟨hr, hpq1, hcl1, ⟨last1, hinv1⟩, t1, ht1, hnot1⟩ := hnone rfl
    subst hr
    have hunreach : ∃ t ∈ T, ∀ k, ¬ allowed_path c mnw BB s t k :=
      ⟨t1, ht1, fun k hpath => hnot1 (settled_of_allowed_path c c1 s mnw BB f last1
        ⟨a1, a2, a3, a4, a5⟩ hinv1 hcl1 hpq1 s t1 k hpath
        ⟨(hinv1.sources s (List.mem_singleton_self _)).1, by unfold in_queue; rw [hpq1]; simp⟩)⟩
    have hok2 : (({ c1 with emergency_log := c1.emergency_log + 1 } : Connector).head_asserts mnw
          ∧ ∀ e, e < c1.graph.count_edges →
              ({ c1 with emergency_log := c1.emergency_log + 1 } : Connector).edge_asserts mnw
                false e)
        ∨ ∃ res, search_pass { c1 with emergency_log := c1.emergency_log + 1 } [s] T mnw BB
            false f = some res := by
      rcases hok with hok | ⟨res, hres⟩
      · left
        obtain ⟨h1, h2⟩ := hok.counter
        have hcur : c1.current_iteration = c.current_iteration + 1 := a4
        refine ⟨⟨hok.width, ⟨?_, ?_⟩, ?_⟩, ?_⟩
        · show int_min ≤ c1.current_iteration + 1
          unfold int_min; omega
        · show c1.current_iteration + 1 ≤ int_max
          omega
        · show 0 ≤ c1.current_iteration + 1
          omega
        · intro e he
          rw [a2] at he
          exact (@edge_asserts_congr c { c1 with emergency_log := c1.emergency_log + 1 }
            a1 a2 a3 mnw false e).2
            (edge_asserts_emergency c mnw true e (hok.edges e he))
      · right
        unfold create_search_forest at hres
        simp only [hpass, if_true] at hres
        cases hp : search_pass { c1 with emergency_log := c1.emergency_log + 1 } [s] T mnw BB
            false f with
        | none => rw [hp] at hres; simp at hres
        | some res2 => exact ⟨res2, rfl⟩
    obtain ⟨res2, c2, hpass2, ⟨b1, b2, b3, b4, b5⟩, hlog2, hres2, hnone2⟩ :=
      search_pass_spec { c1 with emergency_log := c1.emergency_log + 1 } s T mnw BB false f
        (by show c1.graph.wf; rw [a2]; exact hg) a5
        (by show s < c1.graph.count_nodes; rw [a2]; exact hs) hT
        (fun t ht => by show t < c1.graph.count_nodes; rw [a2]; exact hTN t ht) hok2
    cases res2 with
    | none => exact absurd (hnone2 rfl) (by simp)
    | some ret =>
      refine ⟨ret, c2, false, ?_, hres2 ret rfl, b1.trans a1, b2.trans a2, b3.trans a3, ?_, b5,
        Or.inr ⟨rfl, rfl, ?_, hunreach⟩⟩
      · unfold create_search_forest
        simp only [hpass, hpass2, if_true]
      · have h2 : c2.current_iteration = c1.current_iteration + 1 := b4
        have h3 : ({ c1 with emergency_log := c1.emergency_log + 1 } : Connector).current_iteration
            = c1.current_iteration := rfl
        omega
      · rw [hlog2]
        show c1.emergency_log + 1 = c.emergency_log + 1
        rw [hlog]

end Connector
end GlobalRouting

/-! ## Forests from a potential -/

namespace GlobalRouting

end GlobalRouting

/-! ## The returned edge set is a tree -/

namespace GlobalRouting
namespace Connector

theorem on_chain_seen (S : List Nat) (mnw : Int) (BB : BoundingBox) (r : Bool) (f last : Nat)
    (c : Connector) (hinv : SearchInv S mnw BB r f last c) (t v : Nat) (ht : c.seen t)
    (hc : on_chain c t v) : c.seen v := by
  induction hc with
  | start _ => exact ht
  | step t u v hp _ ih =>
    exact ih ((chain_facts_of_inv _ _ _ _ _ _ _ hinv).2 t u ht hp).1

theorem on_chain_tail (c : Connector) (t v u : Nat) (hc : on_chain c t v)
    (hp : c.preceding_node v = some u) : on_chain c t u := by
  induction hc with
  | start t => exact on_chain.step _ _ _ hp (on_chain.start _)
  | step t u' v hp' _ ih => exact on_chain.step _ _ _ hp' (ih hp)

/-- What the invariant says about a seen node with a preceding node. -/
theorem step_info (s : Nat) (mnw : Int) (BB : BoundingBox) (r : Bool) (f last : Nat)
    (c : Connector) (hinv : SearchInv [s] mnw BB r f last c) (v u : Nat) (hv : c.seen v)
    (hp : c.preceding_node v = some u) :
    ∃ e, c.relevant_edge v = some e ∧ c.settled u
      ∧ e ∈ c.graph.get_edgeindices_from_node u ∧ c.graph.other_node e u = v
      ∧ c.usable mnw BB r u e ∧ c.distance v = c.distance u + c.weight r f e
      ∧ e < c.graph.count_edges ∧ c.graph.joins e u v ∧ u ≠ v ∧ c.distance u < c.distance v
      ∧ v ≠ s := by
  rcases hinv.tree v hv with ⟨_, h2, _⟩ | ⟨u', e, h1, h2, h3, h4, h5, h6, h7⟩
  · rw [h2] at hp; simp at hp
  · rw [h1] at hp
    have := Option.some.inj hp
    subst this
    have huN := hinv.seen_lt u' h3.1
    obtain ⟨helt, _, hne, hj⟩ := Graph.other_node_spec c.graph hinv.graph_wf u' e huN h4
    rw [h5] at hne hj
    have := one_le_weight c hinv.graph_wf r f e helt
    refine ⟨e, h2, h3, h4, h5, h6, h7, helt, hj, fun hc => hne hc.symm, by omega, ?_⟩
    intro hc
    subst hc
    have := (hinv.sources v (List.mem_singleton_self _)).2.1
    rw [this] at h1
    simp at h1

theorem root_info (s : Nat) (mnw : Int) (BB : BoundingBox) (r : Bool) (f last : Nat)
    (c : Connector) (hinv : SearchInv [s] mnw BB r f last c) (v : Nat) (hv : c.seen v)
    (hp : c.preceding_node v = none) : v = s := by
  rcases hinv.tree v hv with ⟨h1, _⟩ | ⟨u', e, h1, _⟩
  · simpa using h1
  · rw [h1] at hp; simp at hp

section result

variable {c : Connector} {s : Nat} {T : List Nat} {mnw : Int} {BB : BoundingBox} {r : Bool}
  {f : Nat} {ret : List Nat}

/-- Every returned edge is the relevant edge of a node on the chain of a
target, and joins that node to its preceding node. -/
theorem ret_edge_info (h : search_result c s T mnw BB r f ret) (e : Nat) (he : e ∈ ret) :
    ∃ v u, (∃ t ∈ T, on_chain c t v) ∧ c.seen v ∧ c.settled u
      ∧ c.preceding_node v = some u ∧ c.relevant_edge v = some e
      ∧ e ∈ c.graph.get_edgeindices_from_node u ∧ c.graph.other_node e u = v
      ∧ c.usable mnw BB r u e
      ∧ e < c.graph.count_edges ∧ c.graph.joins e u v ∧ u ≠ v ∧ c.distance u < c.distance v
      ∧ v ≠ s := by
  obtain ⟨last, hinv⟩ := h.inv
  obtain ⟨t, ht, v, u, hc, hp, hr⟩ := (h.mem e).1 he
  have hv := on_chain_seen _ _ _ _ _ _ _ hinv t v (h.targets t ht).1 hc
  obtain ⟨e', a1, a2, a3, a4, a5, a6, a7, a8, a9, a10, a11⟩ :=
    step_info s mnw BB r f last c hinv v u hv hp
  rw [hr] at a1
  have := Option.some.inj a1
  subst this
  exact ⟨v, u, ⟨t, ht, hc⟩, hv, a2, hp, hr, a3, a4, a5, a7, a8, a9, a10, a11⟩

theorem ret_edge_lt (h : search_result c s T mnw BB r f ret) (e : Nat) (he : e ∈ ret) :
    e < c.graph.count_edges := by
  obtain ⟨v, u, _, _, _, _, _, _, _, _, h1, _⟩ := ret_edge_info h e he
  exact h1

/-- Every node on the chain of a target is joined to the source by returned
edges. -/
theorem chain_connected (h : search_result c s T mnw BB r f ret) :
    ∀ (n v : Nat), c.distance v = n → (∃ t ∈ T, on_chain c t v) →
      c.graph.connected_by ret v s := by
  obtain ⟨last, hinv⟩ := h.inv
  intro n
  induction n using Nat.strong_induction_on with
  | _ n ih =>
    intro v hd hv
    obtain ⟨t, ht, hc⟩ := hv
    have hseen := on_chain_seen _ _ _ _ _ _ _ hinv t v (h.targets t ht).1 hc
    cases hp : c.preceding_node v with
    | none =>
      rw [root_info s mnw BB r f last c hinv v hseen hp]
      exact Relation.ReflTransGen.refl
    | some u =>
      obtain ⟨e, a1, a2, a3, a4, a5, a6, a7, a8, a9, a10, a11⟩ :=
        step_info s mnw BB r f last c hinv v u hseen hp
      have hmem : e ∈ ret := (h.mem e).2 ⟨t, ht, v, u, hc, hp, a1⟩
      have hu := ih (c.distance u) (by omega) u rfl ⟨t, ht, on_chain_tail c t v u hc hp⟩
      exact Relation.ReflTransGen.head ⟨e, hmem, Graph.joins_symm _ _ _ _ a8⟩ hu

/-- Every target is joined to the source by a path of returned edges. -/
theorem target_connected (h : search_result c s T mnw BB r f ret) (t : Nat) (ht : t ∈ T) :
    c.graph.connected_by ret t s :=
  chain_connected h _ t rfl ⟨t, ht, on_chain.start t⟩

end result

end Connector
end GlobalRouting

/-! ## Input validation, pin nodes and the capacity update -/

namespace GlobalRouting

namespace GlobalRoutingProblem

/-- What `check` has tested when it returns `true`. -/
theorem check_true (p : GlobalRoutingProblem) (h : p.check = true) :
    0 < p.grid.x_grids ∧ 0 < p.grid.y_grids ∧ 0 < p.grid.layers
      ∧ (p.capacity.vertical.length : Int) = p.grid.layers
      ∧ (p.capacity.horizontal.length : Int) = p.grid.layers
      ∧ (p.dimension.minimum_width.length : Int) = p.grid.layers
      ∧ (p.dimension.minimum_spacing.length : Int) = p.grid.layers
      ∧ (p.dimension.via_spacing.length : Int) = p.grid.layers
      ∧ 0 < p.tileInfo.tile_width ∧ 0 < p.tileInfo.tile_height
      ∧ (∀ net ∈ p.nets, net.num_pins = (net.pins.length : Int)
          ∧ ∀ pin ∈ net.pins, 0 ≤ pin.layer ∧ pin.layer < p.grid.layers
            ∧ p.tileInfo.lower_left_x ≤ pin.x
            ∧ pin.x ≤ p.tileInfo.lower_left_x + p.grid.x_grids * p.tileInfo.tile_width
            ∧ p.tileInfo.lower_left_y ≤ pin.y
            ∧ pin.y ≤ p.tileInfo.lower_left_y + p.grid.y_grids * p.tileInfo.tile_height) := by
  unfold check at h
  split at h
  · simp at h
  · rename_i h1
    split at h
    · simp at h
    · rename_i h2
      split at h
      · simp at h
      · rename_i h3
        split at h
        · simp at h
        · rename_i h4
          split at h
          · simp at h
          · rename_i h5
            push_neg at h1 h2 h3 h4
            refine ⟨h1.1, h1.2.1, h1.2.2, h2.1, h2.2, h3.1, h3.2.1, h3.2.2, h4.1, h4.2, ?_⟩
            intro net hnet
            simp only [List.any_eq_true, Bool.or_eq_true, decide_eq_true_eq, not_exists, not_and,
              not_or] at h5
            have h6 := h5 net hnet
            refine ⟨by have := h6.1; push_neg at this; exact this, ?_⟩
            intro pin hpin
            have h7 := h6.2 pin hpin
            obtain ⟨h8, h9⟩ := h7
            push_neg at h8 h9
            exact ⟨h8.1, h8.2, h9.1, h9.2.1, h9.2.2.1, h9.2.2.2⟩

end GlobalRoutingProblem

theorem sort_unique_sorted (nodes : List Nat) :
    (sort_unique nodes).Sorted (fun a b => a < b) := by
  unfold sort_unique
  induction nodes with
  | nil => exact List.sorted_nil
  | cons a l ih => exact sorted_set_insert a _ ih

theorem mem_sort_unique (nodes : List Nat) (v : Nat) : v ∈ sort_unique nodes ↔ v ∈ nodes := by
  unfold sort_unique
  induction nodes with
  | nil => simp
  | cons a l ih =>
    rw [List.foldr_cons, mem_set_insert, ih, List.mem_cons]

theorem sort_unique_ne_nil (nodes : List Nat) (h : nodes ≠ []) : sort_unique nodes ≠ [] := by
  cases nodes with
  | nil => exact absurd rfl h
  | cons a l =>
    intro hc
    have := (mem_sort_unique (a :: l) a).2 (List.mem_cons_self _ _)
    rw [hc] at this
    simp at this

namespace Connector

theorem pin_nodes_some (c : Connector) (pins : List Pin)
    (h : ∀ pin ∈ pins, ∃ v, pin_node c pin = some v ∧ v < c.graph.count_nodes) :
    ∃ nodes, pin_nodes c pins = some nodes ∧ nodes.length = pins.length
      ∧ ∀ v ∈ nodes, v < c.graph.count_nodes := by
  induction pins with
  | nil => exact ⟨[], rfl, rfl, by simp⟩
  | cons pin pins ih =>
    obtain ⟨v, hv, hvN⟩ := h pin (List.mem_cons_self _ _)
    obtain ⟨nodes, hn, hlen, hall⟩ := ih (fun q hq => h q (List.mem_cons_of_mem _ hq))
    refine ⟨v :: nodes, by simp [pin_nodes, hv, hn], by simp [hlen], ?_⟩
    intro w hw
    rcases List.mem_cons.1 hw with rfl | hw
    · exact hvN
    · exact hall w hw

/-- The nodes of the pins depend on the problem and the graph only. -/
theorem pin_nodes_congr (c c1 : Connector) (hp : c1.problem = c.problem)
    (hg : c1.graph = c.graph) (pins : List Pin) : pin_nodes c1 pins = pin_nodes c pins := by
  induction pins with
  | nil => rfl
  | cons pin pins ih =>
    unfold pin_nodes
    rw [ih]
    unfold pin_node
    rw [hp, hg]

/-- The update loop of `connect` adds, for every edge of the tree that is not
a via, the capacity the net takes, and changes nothing else. It gets to its
end when its assertions hold of the edges of the tree that are not vias; the
last hypothesis is that, or that the loop is known to get to its end. -/
theorem commit_spec (mnw : Int) (tree : List Nat) :
    ∀ (c : Connector), tree.Nodup →
      (∀ e ∈ tree, ∃ d, c.graph.get_edge_direction e = some d) →
      ((∀ e ∈ tree, c.graph.get_edge_direction e ≠ some .z_plus → c.commit_asserts mnw e)
        ∨ ∃ c1, commit mnw c tree = some c1) →
      ∃ c1, commit mnw c tree = some c1 ∧ c1.problem = c.problem ∧ c1.graph = c.graph
        ∧ c1.queued = c.queued ∧ c1.current_iteration = c.current_iteration
        ∧ c1.emergency_log = c.emergency_log
        ∧ ∀ e, c1.aggregated_width e = c.aggregated_width e + committed c mnw tree e := by
  induction tree with
  | nil =>
    intro c _ _ _
    exact ⟨c, rfl, rfl, rfl, rfl, rfl, rfl, fun e => by simp [committed]⟩
  | cons a tree ih =>
    intro c hnd hdir hok
    obtain ⟨d, hd⟩ := hdir a (List.mem_cons_self _ _)
    have hnd' := (List.nodup_cons.1 hnd)
    by_cases hz : d = .z_plus
    · subst hz
      have hok' : (∀ e ∈ tree, c.graph.get_edge_direction e ≠ some .z_plus
            → c.commit_asserts mnw e) ∨ ∃ c1, commit mnw c tree = some c1 := by
        rcases hok with hok | ⟨c1, hc1⟩
        · exact Or.inl (fun e he => hok e (List.mem_cons_of_mem _ he))
        · right
          simp only [commit, hd, if_true] at hc1
          exact ⟨c1, hc1⟩
      obtain ⟨c1, h1, h2, h3, h4, h5, h6, h7⟩ := ih c hnd'.2
        (fun e he => hdir e (List.mem_cons_of_mem _ he)) hok'
      refine ⟨c1, by simp [commit, hd, h1], h2, h3, h4, h5, h6, ?_⟩
      intro e
      rw [h7]
      unfold committed
      by_cases hea : e = a
      · subst hea
        simp [hd, hnd'.1]
      · simp [hea]
    · have hasrt : ¬ ¬ c.commit_asserts mnw a := by
        rcases hok with hok | ⟨c1, hc1⟩
        · exact not_not.2 (hok a (List.mem_cons_self _ _)
            (by rw [hd]; exact fun hc => hz (Option.some.inj hc)))
        · intro hc
          simp only [commit, hd, hz, if_false, if_pos hc] at hc1
          simp at hc1
      obtain ⟨cA, hcA⟩ : ∃ cA : Connector, cA = { c with
          aggregated_width :=
            assign c.aggregated_width a (c.aggregated_width a + c.commit_capacity mnw a) } :=
        ⟨_, rfl⟩
      have hok' : (∀ e ∈ tree, cA.graph.get_edge_direction e ≠ some .z_plus
            → cA.commit_asserts mnw e) ∨ ∃ c1, commit mnw cA tree = some c1 := by
        rcases hok with hok | ⟨c1, hc1⟩
        · left
          intro e he hne
          have hea : e ≠ a := fun hc => hnd'.1 (hc ▸ he)
          subst hcA
          have := hok e (List.mem_cons_of_mem _ he) hne
          unfold commit_asserts commit_capacity at this ⊢
          dsimp only
          rw [assign_ne _ _ _ _ hea]
          exact this
        · right
          simp only [commit, hd, hz, if_false, if_neg hasrt] at hc1
          subst hcA
          exact ⟨c1, hc1⟩
      obtain ⟨c1, h1, h2, h3, h4, h5, h6, h7⟩ := ih cA
        hnd'.2 (fun e he => by subst hcA; exact hdir e (List.mem_cons_of_mem _ he)) hok'
      subst hcA
      refine ⟨c1, by simp [commit, hd, hz, hasrt, h1], h2, h3, h4, h5, h6, ?_⟩
      intro e
      rw [h7]
      unfold committed commit_capacity
      dsimp only
      by_cases hea : e = a
      · subst hea
        have : some d ≠ some direction.z_plus := fun hc => hz (Option.some.inj hc)
        simp [hd, hnd'.1, this, assign_same]
      · simp [hea, assign_ne _ _ _ _ hea]

end Connector
end GlobalRouting

/-! ## The loop over the nets -/

namespace GlobalRouting
namespace Connector

theorem committed_congr (c c1 : Connector) (hp : c1.problem = c.problem)
    (hg : c1.graph = c.graph) (mnw : Int) (tree : List Nat) (e : Nat) :
    committed c1 mnw tree e = committed c mnw tree e := by
  unfold committed commit_capacity
  rw [hp, hg]

theorem required_capacity_congr (c c1 : Connector) (hp : c1.problem = c.problem)
    (hg : c1.graph = c.graph) (mnw : Int) (e : Nat) :
    c1.required_capacity mnw e = c.required_capacity mnw e := by
  unfold required_capacity
  rw [hp, hg]

theorem commit_capacity_required (c : Connector) (mnw : Int) (e : Nat) :
    c.commit_capacity mnw e = c.required_capacity mnw e := by
  unfold commit_capacity required_capacity
  dsimp only
  rw [max_comm, add_comm]

/-- The assertions of the update loop depend on the problem, the graph and the
aggregated widths only. -/
theorem commit_asserts_congr (c c1 : Connector) (hp : c1.problem = c.problem)
    (hg : c1.graph = c.graph) (ha : c1.aggregated_width = c.aggregated_width) (mnw : Int)
    (e : Nat) : c1.commit_asserts mnw e ↔ c.commit_asserts mnw e := by
  unfold commit_asserts commit_capacity
  rw [hp, hg, ha]

/-- Routing one net: `connect` returns a tree and a state, related as
`net_routed` says, when the assertions of the search and of the update loop
that depend on the input hold. The last hypothesis is that, or that the net is
known to get routed. -/
theorem connect_net_spec (c : Connector) (net : Net) (hr : c.ready)
    (hpins : ∀ pin ∈ net.pins, ∃ v, pin_node c pin = some v ∧ v < c.graph.count_nodes)
    (hok : (c.search_asserts net.minimum_width true
        ∧ ∀ e, e < c.graph.count_edges → c.graph.get_edge_direction e ≠ some .z_plus →
            c.commit_asserts net.minimum_width e)
      ∨ ∃ res, connect_net c net = some res) :
    ∃ tree c2, connect_net c net = some (tree, c2) ∧ net_routed c net tree c2 := by
  obtain ⟨hg, hm, hq⟩ := hr
  by_cases hempty : net.pins = []
  · refine ⟨[], c, by simp [connect_net, hempty], by simp [connect_net, hempty], rfl, rfl,
      ⟨hg, hm, hq⟩, ⟨le_refl _, by omega⟩, ?_, le_refl _,
      fun _ => ⟨rfl, rfl⟩, fun h => absurd hempty h⟩
    intro e
    simp [committed]
  · obtain ⟨nodes0, hn0, hlen, hall⟩ := pin_nodes_some c net.pins hpins
    have hne0 : nodes0 ≠ [] := by
      intro hc
      rw [hc] at hlen
      exact hempty (List.length_eq_zero.1 hlen.symm)
    have hsorted := sort_unique_sorted nodes0
    have hne := sort_unique_ne_nil nodes0 hne0
    obtain ⟨s, T, hsT⟩ := List.exists_cons_of_ne_nil hne
    rw [hsT] at hsorted
    have hsN : s < c.graph.count_nodes :=
      hall s ((mem_sort_unique nodes0 s).1 (by rw [hsT]; exact List.mem_cons_self _ _))
    have hTN : ∀ t ∈ T, t < c.graph.count_nodes := fun t ht =>
      hall t ((mem_sort_unique nodes0 t).1 (by rw [hsT]; exact List.mem_cons_of_mem _ ht))
    have hTnd : T.Nodup := (List.sorted_cons.1 hsorted).2.nodup
    have hie : net.pins.isEmpty = false := by
      cases hp : net.pins with
      | nil => exact absurd hp hempty
      | cons _ _ => rfl
    have hok1 : c.search_asserts net.minimum_width true
        ∨ ∃ res, create_search_forest c [s] T net.minimum_width (bounding_box c (s :: T)) true 10
            = some res := by
      rcases hok with hok | ⟨res, hres⟩
      · exact Or.inl hok.1
      · right
        unfold connect_net at hres
        simp only [hie, Bool.false_eq_true, if_false, hn0, hsT, List.take_succ_cons,
          List.take_zero, List.drop_succ_cons, List.drop_zero] at hres
        cases hc : create_search_forest c [s] T net.minimum_width (bounding_box c (s :: T))
            true 10 with
        | none => rw [hc] at hres; simp at hres
        | some res1 => exact ⟨res1, rfl⟩
    obtain ⟨ret, c1, r1, hcsf, hres, a1, a2, a3, a4, a5, a6⟩ :=
      create_search_forest_spec c s T net.minimum_width (bounding_box c (s :: T)) true 10
        hg hq hsN hTnd hTN hok1
    have hdir : ∀ e ∈ ret, ∃ d, c1.graph.get_edge_direction e = some d := by
      intro e he
      have hlt := ret_edge_lt hres e he
      rcases Graph.edge_direction_plus c1.graph (by rw [a2]; exact hg) e hlt with h | h | h <;>
        exact ⟨_, h⟩
    have hok2 : (∀ e ∈ ret, c1.graph.get_edge_direction e ≠ some .z_plus
          → c1.commit_asserts net.minimum_width e)
        ∨ ∃ c2, commit net.minimum_width c1 ret = some c2 := by
      rcases hok with hok | ⟨res, hres1⟩
      · left
        intro e he hne
        have hlt := ret_edge_lt hres e he
        rw [a2] at hlt hne
        exact (commit_asserts_congr c c1 a1 a2 a3 _ e).2 (hok.2 e hlt hne)
      · right
        unfold connect_net at hres1
        simp only [hie, Bool.false_eq_true, if_false, hn0, hsT, List.take_succ_cons,
          List.take_zero, List.drop_succ_cons, List.drop_zero, hcsf] at hres1
        cases hc : commit net.minimum_width c1 ret with
        | none => rw [hc] at hres1; simp at hres1
        | some c2 => exact ⟨c2, rfl⟩
    obtain ⟨c2, hcom, b1, b2, b3, b4, b5, b6⟩ :=
      commit_spec net.minimum_width ret c1 hres.sorted.nodup hdir hok2
    have hrun : connect_net c net = some (ret, c2) := by
      unfold connect_net
      simp only [hie, Bool.false_eq_true, if_false, hn0, hsT, List.take_succ_cons,
        List.take_zero, List.drop_succ_cons, List.drop_zero, hcsf, hcom]
    refine ⟨ret, c2, hrun, hrun, b1.trans a1, b2.trans a2, ?_, ?_, ?_, ?_,
      fun h => absurd h hempty, ?_⟩
    · refine ⟨by rw [b2, a2]; exact hg, ?_, ?_⟩
      · unfold grid_matches
        rw [b2, a2, b1, a1]
        exact hm
      · intro v
        rw [b3, b4]
        exact a5 v
    · rw [b4]
      omega
    · intro e
      rw [b6, a3, committed_congr c c1 a1 a2]
    · rw [b5]
      rcases a6 with ⟨_, h⟩ | ⟨_, _, h, _⟩ <;> omega
    · intro _
      refine ⟨nodes0, s, T, c1, r1, hn0, hsT, hres, a1, a2, a3, ?_⟩
      rw [b5]
      rcases a6 with ⟨h1, h2⟩ | ⟨_, h1, h2, h3⟩
      · exact Or.inl ⟨h1, h2⟩
      · exact Or.inr ⟨h1, h2, h3⟩

theorem pins_mapped_congr (c c1 : Connector) (hp : c1.problem = c.problem)
    (hg : c1.graph = c.graph) (nets : List Net) (h : pins_mapped c nets) :
    pins_mapped c1 nets := by
  intro net hnet pin hpin
  obtain ⟨v, hv, hvN⟩ := h net hnet pin hpin
  refine ⟨v, ?_, by rw [hg]; exact hvN⟩
  unfold pin_node at hv ⊢
  rw [hp, hg]
  exact hv

/-- From a state that can route a list of nets no assertion of the search or
of the update loop fails for the first net. -/
theorem can_route_head (c : Connector) (net : Net) (nets : List Net) (D : Int)
    (h : c.can_route (net :: nets) D) :
    c.search_asserts net.minimum_width true
      ∧ ∀ e, e < c.graph.count_edges → c.graph.get_edge_direction e ≠ some .z_plus →
          c.commit_asserts net.minimum_width e := by
  have hnet : net ∈ net :: nets := List.mem_cons_self _ _
  have hlen : (((net :: nets).length : Nat) : Int) * D = (nets.length : Int) * D + D := by
    rw [List.length_cons]
    push_cast
    ring
  have hfacts : ∀ e, e < c.graph.count_edges →
      0 ≤ c.required_capacity net.minimum_width e ∧ 0 ≤ c.aggregated_width e
        ∧ c.aggregated_width e + c.required_capacity net.minimum_width e ≤ int_max := by
    intro e he
    have h1 := h.takes_nonneg net hnet e he
    have h2 := h.takes_le net hnet e he
    have h3 := h.agg_nonneg e
    have h4 := h.agg_le e
    rw [hlen] at h4
    have h5 : 0 ≤ (nets.length : Int) * D :=
      mul_nonneg (Int.ofNat_nonneg _) (le_trans h1 h2)
    generalize (nets.length : Int) * D = X at h4 h5
    exact ⟨h1, h3, by omega⟩
  have hmax : (0 : Int) ≤ int_max := by unfold int_max; omega
  have hmin : int_min ≤ (0 : Int) := by unfold int_min; omega
  constructor
  · refine ⟨h.widths net hnet, ?_, ?_⟩
    · obtain ⟨h1, h2⟩ := h.counter
      rw [List.length_cons] at h2
      push_cast at h2
      exact ⟨h1, by omega⟩
    · intro e he
      obtain ⟨f1, f2, f3⟩ := hfacts e he
      unfold edge_asserts block_asserts fits_int
      refine ⟨fun hd => ⟨⟨⟨by omega, by omega⟩, f2, fun _ => ⟨by omega, f3⟩⟩, ?_⟩, ?_⟩
      · intro _ hroom
        rcases h.usable e he with hc | ⟨_, hc⟩
        · exact hc
        · have := hc net hnet
          omega
      · intro hd _
        rcases h.usable e he with hc | ⟨hc, _⟩
        · rw [h.agg_via e hd]
          exact ⟨by omega, hc⟩
        · exact absurd hd hc
  · intro e he _
    obtain ⟨f1, f2, f3⟩ := hfacts e he
    unfold commit_asserts fits_int
    rw [commit_capacity_required]
    exact ⟨⟨by omega, by omega⟩, by omega, by omega, ⟨by omega, f3⟩, by omega⟩

/-- After the first net the state can route the other nets. -/
theorem can_route_step (c c1 : Connector) (net : Net) (nets : List Net) (D : Int)
    (tree : List Nat) (h : c.can_route (net :: nets) D) (hnr : net_routed c net tree c1) :
    c1.can_route nets D := by
  have hnet : net ∈ net :: nets := List.mem_cons_self _ _
  have hreq := required_capacity_congr c c1 hnr.problem_eq hnr.graph_eq
  have htree : ∀ e ∈ tree, e < c.graph.count_edges := by
    intro e he
    by_cases hp : net.pins = []
    · rw [(hnr.empty hp).1] at he
      simp at he
    · obtain ⟨_, s, T, c', r1, _, _, hres, _, a2, _⟩ := hnr.search hp
      have := ret_edge_lt hres e he
      rw [a2] at this
      exact this
  have hcom : ∀ e, 0 ≤ committed c net.minimum_width tree e
      ∧ committed c net.minimum_width tree e ≤ D
      ∧ (c.graph.get_edge_direction e = some .z_plus → committed c net.minimum_width tree e = 0)
      := by
    intro e
    have hD : 0 ≤ D := h.bound_nonneg
    unfold committed
    by_cases hc : e ∈ tree ∧ c.graph.get_edge_direction e ≠ some .z_plus
    · rw [if_pos hc, commit_capacity_required]
      exact ⟨h.takes_nonneg net hnet e (htree e hc.1), h.takes_le net hnet e (htree e hc.1),
        fun hz => absurd hz hc.2⟩
    · rw [if_neg hc]
      exact ⟨le_refl _, hD, fun _ => rfl⟩
  have hlen : (((net :: nets).length : Nat) : Int) * D = (nets.length : Int) * D + D := by
    rw [List.length_cons]
    push_cast
    ring
  constructor
  · exact h.bound_nonneg
  · exact fun n hn => h.widths n (List.mem_cons_of_mem _ hn)
  · intro n hn e he
    rw [hreq]
    rw [hnr.graph_eq] at he
    exact h.takes_nonneg n (List.mem_cons_of_mem _ hn) e he
  · intro n hn e he
    rw [hreq]
    rw [hnr.graph_eq] at he
    exact h.takes_le n (List.mem_cons_of_mem _ hn) e he
  · intro e he
    rw [hnr.graph_eq] at he ⊢
    rcases h.usable e he with hc | ⟨hc1, hc2⟩
    · exact Or.inl hc
    · exact Or.inr ⟨hc1, fun n hn => by rw [hreq]; exact hc2 n (List.mem_cons_of_mem _ hn)⟩
  · intro e
    rw [hnr.agg e]
    have := (hcom e).1
    have := h.agg_nonneg e
    omega
  · intro e he
    rw [hnr.graph_eq] at he
    rw [hnr.agg e, h.agg_via e he, (hcom e).2.2 he]
    rfl
  · intro e
    rw [hnr.agg e]
    have h1 := (hcom e).2.1
    have h2 := h.agg_le e
    rw [hlen] at h2
    generalize (nets.length : Int) * D = X at h2 ⊢
    omega
  · obtain ⟨h1, h2⟩ := h.counter
    obtain ⟨h3, h4⟩ := hnr.counter
    rw [List.length_cons] at h2
    push_cast at h2
    exact ⟨by omega, by omega⟩

/-- Routing a list of nets: `connect` returns one tree per net and a state,
related net by net as `nets_routed` says, from a state that can route the
nets. The last hypothesis is that, or that the nets are known to get routed. -/
theorem connect_nets_spec (nets : List Net) :
    ∀ (c : Connector), c.ready → pins_mapped c nets →
      ((∃ D, c.can_route nets D) ∨ ∃ res, connect_nets c nets = some res) →
      ∃ trees c2, connect_nets c nets = some (trees, c2) ∧ nets_routed c nets trees c2 := by
  induction nets with
  | nil =>
    intro c _ _ _
    exact ⟨[], c, rfl, nets_routed.nil c⟩
  | cons net nets ih =>
    intro c hr hpins hok
    have hok1 : (c.search_asserts net.minimum_width true
          ∧ ∀ e, e < c.graph.count_edges → c.graph.get_edge_direction e ≠ some .z_plus →
              c.commit_asserts net.minimum_width e)
        ∨ ∃ res, connect_net c net = some res := by
      rcases hok with ⟨D, hD⟩ | ⟨res, hres⟩
      · exact Or.inl (can_route_head c net nets D hD)
      · right
        unfold connect_nets at hres
        cases hc : connect_net c net with
        | none => rw [hc] at hres; simp at hres
        | some res1 => exact ⟨res1, rfl⟩
    obtain ⟨tree, c1, h1, h2⟩ :=
      connect_net_spec c net hr (hpins net (List.mem_cons_self _ _)) hok1
    have hok2 : (∃ D, c1.can_route nets D) ∨ ∃ res, connect_nets c1 nets = some res := by
      rcases hok with ⟨D, hD⟩ | ⟨res, hres⟩
      · exact Or.inl ⟨D, can_route_step c c1 net nets D tree hD h2⟩
      · right
        unfold connect_nets at hres
        rw [h1] at hres
        simp only at hres
        cases hc : connect_nets c1 nets with
        | none => rw [hc] at hres; simp at hres
        | some res2 => exact ⟨res2, rfl⟩
    obtain ⟨trees, c2, h3, h4⟩ := ih c1 h2.is_ready
      (pins_mapped_congr c c1 h2.problem_eq h2.graph_eq nets
        (fun n hn => hpins n (List.mem_cons_of_mem _ hn))) hok2
    exact ⟨tree :: trees, c2, by simp [connect_nets, h1, h3],
      nets_routed.cons c c1 c2 net nets tree trees h2 h4⟩

/-- A pin that maps to a node maps to a node of the graph. -/
theorem pin_node_lt (c : Connector) (pin : Pin) (v : Nat) (h : pin_node c pin = some v) :
    v < c.graph.count_nodes := by
  unfold pin_node at h
  simp only at h
  split at h
  · rename_i hc
    simp only [Option.some.injEq] at h
    subst h
    apply Graph.nodeindex_lt <;> omega
  · simp at h

theorem pin_nodes_mapped (c : Connector) :
    ∀ (pins : List Pin) (nodes : List Nat), pin_nodes c pins = some nodes →
      ∀ pin ∈ pins, ∃ v, pin_node c pin = some v ∧ v < c.graph.count_nodes := by
  intro pins
  induction pins with
  | nil =>
    intro _ _ pin hpin
    simp at hpin
  | cons p0 pins ih =>
    intro nodes hn pin hpin
    unfold pin_nodes at hn
    cases h0 : pin_node c p0 with
    | none => rw [h0] at hn; simp at hn
    | some v0 =>
      cases hrest : pin_nodes c pins with
      | none => rw [h0, hrest] at hn; simp at hn
      | some rest =>
        rcases List.mem_cons.1 hpin with h | h
        · subst h
          exact ⟨v0, h0, pin_node_lt c _ v0 h0⟩
        · exact ih rest hrest pin h

/-- The capacity a net requires on an edge is its demand on the layer of the
edge. -/
theorem required_capacity_demand (p : GlobalRoutingProblem) (g : Graph) (net : Net) (e : Nat) :
    (create p g).required_capacity net.minimum_width e = demand p net (g.layer_of_edge e) := by
  unfold required_capacity demand Graph.layer_of_edge create
  rfl

end Connector
end GlobalRouting

/-! ## Spanning trees -/

namespace GlobalRouting
namespace Connector

end Connector

end GlobalRouting

/-! ## Capacities and accounting -/

namespace GlobalRouting
namespace Connector

theorem commit_capacity_eq_demand (c : Connector) (net : Net) (e : Nat) :
    c.commit_capacity net.minimum_width e = demand c.problem net (c.graph.layer_of_edge e) := by
  unfold commit_capacity demand Graph.layer_of_edge
  simp only
  rw [max_comm, add_comm]

end Connector

end GlobalRouting

/-! ## Emergency pass and shortest paths -/

namespace GlobalRouting
namespace Connector

/-- In respect-capacity mode every edge of the graph has weight one. -/
theorem weight_respect (c : Connector) (hg : c.graph.wf) (f e : Nat)
    (he : e < c.graph.count_edges) : weight c true f e = 1 := by
  unfold weight edge_weight
  rcases Graph.edge_direction_plus c.graph hg e he with h | h | h <;> rw [h] <;> simp

theorem allowed_path_snoc (c : Connector) (mnw : Int) (BB : BoundingBox) (u v w k : Nat)
    (h : allowed_path c mnw BB u v k) (hs : allowed_step c mnw BB v w) :
    allowed_path c mnw BB u w (k + 1) := by
  induction h with
  | nil u => exact allowed_path.cons _ _ _ _ hs (allowed_path.nil _)
  | cons u x v k hstep _ ih => exact allowed_path.cons _ _ _ _ hstep (ih hs)

theorem allowed_step_frame (c c1 : Connector) (hp : c1.problem = c.problem)
    (hg : c1.graph = c.graph) (ha : c1.aggregated_width = c.aggregated_width) (mnw : Int)
    (BB : BoundingBox) (u w : Nat) : allowed_step c1 mnw BB u w ↔ allowed_step c mnw BB u w := by
  unfold allowed_step required_capacity
  rw [hp, hg, ha]

theorem allowed_path_frame (c c1 : Connector) (hp : c1.problem = c.problem)
    (hg : c1.graph = c.graph) (ha : c1.aggregated_width = c.aggregated_width) (mnw : Int)
    (BB : BoundingBox) (u w k : Nat) (h : allowed_path c mnw BB u w k) :
    allowed_path c1 mnw BB u w k := by
  induction h with
  | nil u => exact allowed_path.nil _
  | cons u x v k hstep _ ih =>
    exact allowed_path.cons _ _ _ _ ((allowed_step_frame c c1 hp hg ha mnw BB u x).2 hstep) ih

section result

variable {c : Connector} {s : Nat} {T : List Nat} {mnw : Int} {BB : BoundingBox}
  {f : Nat} {ret : List Nat}

/-- In respect-capacity mode the chain of a node on the chain of a target is an
allowed path from the source with as many steps as the distance of the node. -/
theorem chain_is_path (h : search_result c s T mnw BB true f ret) (t : Nat) (ht : t ∈ T) :
    ∀ (n v : Nat), c.distance v = n → on_chain c t v →
      chain_steps c ret v s n ∧ allowed_path c mnw BB s v n := by
  obtain ⟨last, hinv⟩ := h.inv
  intro n
  induction n using Nat.strong_induction_on with
  | _ n ih =>
    intro v hd hc
    have hseen := on_chain_seen _ _ _ _ _ _ _ hinv t v (h.targets t ht).1 hc
    cases hp : c.preceding_node v with
    | none =>
      have hvs := root_info s mnw BB true f last c hinv v hseen hp
      subst hvs
      have := (hinv.sources v (List.mem_singleton_self _)).2.2.2
      rw [← hd, this]
      exact ⟨chain_steps.zero _, allowed_path.nil _⟩
    | some u =>
      obtain ⟨e, a1, a2, a3, a4, a5, a6, a7, a8, a9, a10, a11⟩ :=
        step_info s mnw BB true f last c hinv v u hseen hp
      have hmem : e ∈ ret := (h.mem e).2 ⟨t, ht, v, u, hc, hp, a1⟩
      have hw := weight_respect c hinv.graph_wf f e a7
      rw [hw] at a6
      obtain ⟨g1, g2⟩ := ih (c.distance u) (by omega) u rfl (on_chain_tail c t v u hc hp)
      have hn : n = c.distance u + 1 := by omega
      rw [hn]
      refine ⟨chain_steps.succ _ _ _ _ _ hp a1 hmem a8 g1, allowed_path_snoc _ _ _ _ _ _ _ g2 ?_⟩
      refine ⟨e, a7, a8, ?_, ?_⟩
      · have := a5.1
        rw [a4] at this
        simpa using this
      · have := a5.2
        by_contra hcon
        push_neg at hcon
        exact this ⟨by intro hz; exact hcon.1 hz, rfl, by omega⟩

/-- In respect-capacity mode a settled target is not farther from a settled
node than any allowed path between them is long. -/
theorem distance_le_path (h : search_result c s T mnw BB true f ret) (t : Nat) (ht : t ∈ T) :
    ∀ (u k : Nat), allowed_path c mnw BB u t k → c.settled u →
      c.distance t ≤ c.distance u + k := by
  obtain ⟨last, hinv⟩ := h.inv
  intro u k hpath
  induction hpath with
  | nil _ => intro _; omega
  | cons u w v k hstep _ ih =>
    intro hu
    obtain ⟨e, hmem, hother, husable, helt⟩ :=
      allowed_step_usable c hinv.graph_wf mnw BB u w hstep
    obtain ⟨hseen, hle⟩ := h.all_relaxed u hu e hmem husable
    rw [hother, weight_respect c hinv.graph_wf f e helt] at hle
    rw [hother] at hseen
    by_cases hq : c.in_queue w
    · obtain ⟨entry, hentry, hval⟩ := List.mem_map.1 hq
      obtain ⟨_, h2, h3⟩ := hinv.pq_seen entry hentry
      rw [hval] at h2
      have := hinv.settled_le v (h.targets v ht)
      omega
    · have := ih ht ⟨hseen, hq⟩
      omega

/-- When a target other than the source is settled, the source is settled. -/
theorem source_settled (h : search_result c s T mnw BB true f ret) (t : Nat) (ht : t ∈ T)
    (hts : t ≠ s) : c.settled s := by
  obtain ⟨last, hinv⟩ := h.inv
  obtain ⟨hseen, _, _, hd⟩ := hinv.sources s (List.mem_singleton_self _)
  refine ⟨hseen, ?_⟩
  intro hq
  obtain ⟨entry, hentry, hval⟩ := List.mem_map.1 hq
  obtain ⟨_, h2, h3⟩ := hinv.pq_seen entry hentry
  rw [hval] at h2
  have h4 := hinv.settled_le t (h.targets t ht)
  have hseent := (h.targets t ht).1
  cases hp : c.preceding_node t with
  | none => exact hts (root_info s mnw BB true f last c hinv t hseent hp)
  | some u =>
    obtain ⟨e, _, _, _, _, _, _, _, _, _, a10, _⟩ :=
      step_info s mnw BB true f last c hinv t u hseent hp
    omega

end result

end Connector

/-- Where the assertions that depend on the input hold the emergency fallback
succeeds. For every well-formed grid graph, every source `s` and every set `T`
of nodes of the graph, from a state in which no entry of `queued` exceeds the
iteration counter: `create_search_forest` called without respect for
capacities returns with every target settled (the queue does not run empty
while targets remain), and `create_search_forest` called in respect-capacity
mode returns an edge set that joins every target to `s`, each when
`search_asserts` holds for its mode. -/
theorem emergency_succeeds (c : Connector) (s : Nat) (T : List Nat) (mnw : Int)
    (BB : BoundingBox) (f : Nat) (hg : c.graph.wf)
    (hq : ∀ v, c.queued v ≤ c.current_iteration) (hs : s < c.graph.count_nodes)
    (hT : T.Nodup) (hTN : ∀ t ∈ T, t < c.graph.count_nodes) :
    (c.search_asserts mnw false →
        ∃ ret c1, c.create_search_forest [s] T mnw BB false f = some (ret, c1)
          ∧ (∀ t ∈ T, c1.settled t) ∧ ∀ t ∈ T, c1.graph.connected_by ret t s)
      ∧ (c.search_asserts mnw true →
        ∃ ret c1, c.create_search_forest [s] T mnw BB true f = some (ret, c1)
          ∧ (∀ t ∈ T, c1.settled t) ∧ ∀ t ∈ T, c1.graph.connected_by ret t s) := by
  constructor
  · intro hok
    obtain ⟨ret, c1, r1, h1, hres, _⟩ :=
      Connector.create_search_forest_spec c s T mnw BB false f hg hq hs hT hTN (Or.inl hok)
    exact ⟨ret, c1, h1, hres.targets, fun t ht => Connector.target_connected hres t ht⟩
  · intro hok
    obtain ⟨ret, c1, r1, h1, hres, _⟩ :=
      Connector.create_search_forest_spec c s T mnw BB true f hg hq hs hT hTN (Or.inl hok)
    exact ⟨ret, c1, h1, hres.targets, fun t ht => Connector.target_connected hres t ht⟩

/-- C6, the input on which the code breaks the claim. `free_problem` (a 2x1x1
grid whose edge has capacity 0, minimum width 0, minimum spacing 0, one net of
width 0 with a pin on each tile) is accepted by `check`, its graph is
`free_graph`, and `connect` calls `create_search_forest` with `S = {0}`,
`T = {1}`, width 0, the box of the two tiles and `respect_capacity = true`.
That call does not return: it relaxes the edge from node 0, where
`assert( current_edge_capacity > 0 )` fails, and never gets to the emergency
pass. The same call with `respect_capacity = false` returns the edge. -/
theorem respect_call_stops_at_free_edge :
    free_problem.check = true ∧ free_problem.check_assertions
      ∧ (createGraphFromGlobalRoutingProblem free_problem).map
          (fun g => (g.dim_x, g.dim_y, g.dim_z, g.capacities))
        = some (free_graph.dim_x, free_graph.dim_y, free_graph.dim_z, free_graph.capacities)
      ∧ free_problem.nets.map
          (fun net => (Connector.search_sets (Connector.create free_problem free_graph) net,
            net.minimum_width))
        = [(some ([0], [1]), 0)]
      ∧ ((Connector.create free_problem free_graph).create_search_forest [0] [1] 0
            (Connector.bounding_box (Connector.create free_problem free_graph) [0, 1])
            true 10).isNone = true
      ∧ ((Connector.create free_problem free_graph).create_search_forest [0] [1] 0
            (Connector.bounding_box (Connector.create free_problem free_graph) [0, 1])
            false 10).map (fun r => r.1) = some [0] := by
  refine ⟨by decide, by decide, by decide, by decide, by decide, by decide⟩

/-- C7. Shortest paths. For a well-formed graph, inside the range where the
`float` distances of the search are exact (`weights_exact`), a source `s` and
targets `T` that are nodes of the graph, from a state in which no entry of
`queued` exceeds the iteration counter: `create_search_forest` called in
respect-capacity mode returns when the assertions that depend on the input
hold (`search_asserts`); and whenever it returns without the emergency pass
(the log is as before), then for every target `t` the chain of returned edges
from `t` back to the source has `k` edges, is an allowed path, and no path
from the source to `t` by steps to nodes inside the bounding box along edges
that are vias or satisfy `aggregated_width[e] + demand <= capacity(e)` has
fewer than `k` steps. -/
theorem search_finds_shortest_paths (c : Connector) (s : Nat) (T : List Nat) (mnw : Int)
    (BB : BoundingBox) (f : Nat) (hg : c.graph.wf)
    (hq : ∀ v, c.queued v ≤ c.current_iteration) (hs : s < c.graph.count_nodes)
    (hT : T.Nodup) (hTN : ∀ t ∈ T, t < c.graph.count_nodes)
    (_hexact : c.weights_exact false f) :
    (c.search_asserts mnw true →
        ∃ ret c1, c.create_search_forest [s] T mnw BB true f = some (ret, c1))
      ∧ ∀ ret c1, c.create_search_forest [s] T mnw BB true f = some (ret, c1) →
          c1.emergency_log = c.emergency_log →
          ∀ t ∈ T, ∃ k, Connector.chain_steps c1 ret t s k
            ∧ Connector.allowed_path c mnw BB s t k
            ∧ ∀ k', Connector.allowed_path c mnw BB s t k' → k ≤ k' := by
  constructor
  · intro hok
    obtain ⟨ret, c1, _, h1, _⟩ :=
      Connector.create_search_forest_spec c s T mnw BB true f hg hq hs hT hTN (Or.inl hok)
    exact ⟨ret, c1, h1⟩
  intro ret c1 hrun
  obtain ⟨ret', c1', r1, h1, hres, a1, a2, a3, _, _, a6⟩ :=
    Connector.create_search_forest_spec c s T mnw BB true f hg hq hs hT hTN (Or.inr ⟨_, hrun⟩)
  rw [hrun] at h1
  simp only [Option.some.injEq, Prod.mk.injEq] at h1
  obtain ⟨rfl, rfl⟩ := h1
  intro hlog t ht
  have hr1 : r1 = true := by
    rcases a6 with ⟨h, _⟩ | ⟨_, _, h, _⟩
    · exact h
    · omega
  subst hr1
  obtain ⟨g1, g2⟩ := Connector.chain_is_path hres t ht (c1.distance t) t rfl
    (Connector.on_chain.start t)
  have g2' := Connector.allowed_path_frame c1 c a1.symm a2.symm a3.symm mnw BB s t _ g2
  refine ⟨c1.distance t, g1, g2', ?_⟩
  intro k' hpath
  have hpath1 := Connector.allowed_path_frame c c1 a1 a2 a3 mnw BB s t k' hpath
  obtain ⟨last, hinv⟩ := hres.inv
  by_cases hts : t = s
  · subst hts
    rw [(hinv.sources t (List.mem_singleton_self _)).2.2.2]
    omega
  · have hss := Connector.source_settled hres t ht hts
    have := Connector.distance_le_path hres t ht s k' hpath1 hss
    rw [(hinv.sources s (List.mem_singleton_self _)).2.2.2] at this
    omega

end GlobalRouting

/-! ## Nets without edges -/

namespace GlobalRouting
namespace Connector

end Connector

end GlobalRouting

/-! ## Straight segments: one step -/

namespace GlobalRouting
namespace Graph

/-- The ends of an edge, as positions: the base position and the position one
step further in a plus direction, with the index of the edge at the base. -/
theorem edge_positions (g : Graph) (hg : g.wf) (e : Nat) (he : e < g.count_edges) :
    ∃ d : direction, d.is_plus ∧ g.get_edge_direction e = some d
      ∧ (g.get_nodes_of_edge e).1 < g.count_nodes ∧ (g.get_nodes_of_edge e).2 < g.count_nodes
      ∧ g.get_position_from_nodeindex (g.get_nodes_of_edge e).2
          = d.move (g.get_position_from_nodeindex (g.get_nodes_of_edge e).1) 1
      ∧ e = g.get_edgeindex_from_node_and_direction (g.get_nodes_of_edge e).1 d := by
  obtain ⟨hlt1, hlt2, _⟩ := nodes_of_edge_lt g hg e he
  rcases edge_cases g hg e he with ⟨_, x, y, z, h⟩ | ⟨_, _, x, y, z, h⟩ | ⟨_, x, y, z, h⟩
  · have hd := x_edge_direction g e x y z h
    obtain ⟨hx, hy, hz, hi, hn⟩ := h
    refine ⟨.x_plus, Or.inl rfl, hd, hlt1, hlt2, ?_, ?_⟩
    · rw [hn]
      simp only [position_of_nodeindex g _ y z hy hz, direction.move]
    · rw [hn]
      simp only [edgeindex_at g x y z hy hz]
      exact hi
  · have hd := y_edge_direction g e x y z h
    obtain ⟨hx, hy, hz, hi, hn⟩ := h
    refine ⟨.y_plus, Or.inr (Or.inl rfl), hd, hlt1, hlt2, ?_, ?_⟩
    · rw [hn]
      simp only [position_of_nodeindex g x y z (by omega) hz,
        position_of_nodeindex g x (y + 1) z hy hz, direction.move]
    · rw [hn]
      simp only [edgeindex_at g x y z (by omega) hz]
      exact hi
  · have hd := z_edge_direction g e x y z h
    obtain ⟨hx, hy, hz, hi, hn⟩ := h
    refine ⟨.z_plus, Or.inr (Or.inr rfl), hd, hlt1, hlt2, ?_, ?_⟩
    · rw [hn]
      simp only [position_of_nodeindex g x y z hy (by omega),
        position_of_nodeindex g x y (z + 1) hy hz, direction.move]
    · rw [hn]
      simp only [edgeindex_at g x y z hy (by omega)]
      exact hi

/-- One step along an edge raises the coordinate on the axis of a plus
direction by at most one, and by one only along the edge that leaves the node in
that direction. -/
theorem join_coordinate (g : Graph) (hg : g.wf) (dir : direction) (hdir : dir.is_plus)
    (e u t : Nat) (he : e < g.count_edges) (hj : g.joins e u t) :
    dir.coordinate (g.get_position_from_nodeindex t)
        ≤ dir.coordinate (g.get_position_from_nodeindex u) + 1
      ∧ (dir.coordinate (g.get_position_from_nodeindex t)
            = dir.coordinate (g.get_position_from_nodeindex u) + 1 →
          g.get_position_from_nodeindex t = dir.move (g.get_position_from_nodeindex u) 1
            ∧ e = g.get_edgeindex_from_node_and_direction u dir) := by
  obtain ⟨d, hd, _, _, _, hpos, hidx⟩ := edge_positions g hg e he
  rcases hj with hj | hj
  · have h1 : (g.get_nodes_of_edge e).1 = u := by rw [hj]
    have h2 : (g.get_nodes_of_edge e).2 = t := by rw [hj]
    rw [h1, h2] at hpos
    rw [h1] at hidx
    rw [hpos]
    rcases hd with rfl | rfl | rfl <;> rcases hdir with rfl | rfl | rfl <;>
      simp [direction.coordinate, direction.move] <;> exact hidx
  · have h1 : (g.get_nodes_of_edge e).1 = t := by rw [hj]
    have h2 : (g.get_nodes_of_edge e).2 = u := by rw [hj]
    rw [h1, h2] at hpos
    rw [hpos]
    rcases hd with rfl | rfl | rfl <;> rcases hdir with rfl | rfl | rfl <;>
      simp [direction.coordinate, direction.move] <;> omega

end Graph
end GlobalRouting

/-! ## Straight segments: edges -/

namespace GlobalRouting

theorem direction.move_zero (dir : direction) (pos : Nat × Nat × Nat) : dir.move pos 0 = pos := by
  cases dir <;> simp [direction.move]

theorem direction.move_add (dir : direction) (hdir : dir.is_plus) (pos : Nat × Nat × Nat)
    (i j : Nat) : dir.move (dir.move pos i) j = dir.move pos (i + j) := by
  rcases hdir with rfl | rfl | rfl <;> simp [direction.move, Nat.add_assoc]

theorem direction.coordinate_move (dir : direction) (hdir : dir.is_plus)
    (pos : Nat × Nat × Nat) (i : Nat) :
    dir.coordinate (dir.move pos i) = dir.coordinate pos + i := by
  rcases hdir with rfl | rfl | rfl <;> simp [direction.move, direction.coordinate]

namespace Graph

theorem segment_node_of_position (g : Graph) (dir : direction) (a u i : Nat)
    (h : g.get_position_from_nodeindex u = dir.move (g.get_position_from_nodeindex a) i) :
    g.segment_node dir a i = u := by
  unfold segment_node
  simp only
  rw [← h]
  exact nodeindex_of_position g u

/-- The edges of a straight segment that stays inside the grid. -/
theorem segment_edge_spec (g : Graph) (hg : g.wf) (dir : direction) (hdir : dir.is_plus)
    (a b k : Nat) (ha : a < g.count_nodes) (hb : b < g.count_nodes)
    (hpos : g.get_position_from_nodeindex b = dir.move (g.get_position_from_nodeindex a) k)
    (i : Nat) (hi : i < k) :
    g.segment_edge dir a i < g.count_edges
      ∧ g.get_nodes_of_edge (g.segment_edge dir a i)
          = (g.segment_node dir a i, g.segment_node dir a (i + 1))
      ∧ g.get_edge_direction (g.segment_edge dir a i) = some dir
      ∧ g.get_position_from_nodeindex (g.segment_node dir a i)
          = dir.move (g.get_position_from_nodeindex a) i
      ∧ g.get_position_from_nodeindex (g.segment_node dir a (i + 1))
          = dir.move (g.get_position_from_nodeindex a) (i + 1)
      ∧ g.segment_edge dir a i < g.segment_edge dir a (i + 1) := by
  obtain ⟨hxa, hya, hza⟩ := position_lt g hg a ha
  obtain ⟨hxb, hyb, hzb⟩ := position_lt g hg b hb
  obtain ⟨hx1, hy1, hz1, _⟩ := hg
  have hoff : g.offset_y ≤ g.offset_z := by unfold offset_y offset_z; omega
  have hcnt : g.offset_z ≤ g.count_edges := by rw [count_edges_eq]; omega
  rw [hpos] at hxb hyb hzb
  unfold segment_edge segment_node
  rcases hdir with rfl | rfl | rfl
  · simp only [direction.move] at hxb hyb hzb ⊢
    obtain ⟨h1, h2⟩ := x_edge_index g ((g.get_position_from_nodeindex a).1 + i)
      (g.get_position_from_nodeindex a).2.1 (g.get_position_from_nodeindex a).2.2
      (by omega) hya hza
    have hd := x_edge_direction g _ _ _ _ h2
    obtain ⟨_, _, _, _, hn⟩ := h2
    simp only [edgeindex_at g _ _ _ hya hza, position_of_nodeindex g _ _ _ hya hza]
    refine ⟨by omega, ?_, hd, trivial, trivial, ?_⟩
    · rw [hn, Nat.add_assoc]
    · have : 0 < g.dim_y * g.dim_z := Nat.mul_pos hy1 hz1
      have e1 : ((g.get_position_from_nodeindex a).1 + (i + 1)) * g.dim_y * g.dim_z
          = ((g.get_position_from_nodeindex a).1 + i) * g.dim_y * g.dim_z
            + g.dim_y * g.dim_z := by ring
      omega
  · simp only [direction.move] at hxb hyb hzb ⊢
    obtain ⟨h1, h2⟩ := y_edge_index g (g.get_position_from_nodeindex a).1
      ((g.get_position_from_nodeindex a).2.1 + i) (g.get_position_from_nodeindex a).2.2
      hxa (by omega) hza
    have hd := y_edge_direction g _ _ _ _ h2
    obtain ⟨_, _, _, _, hn⟩ := h2
    simp only [edgeindex_at g _ _ _ (show (g.get_position_from_nodeindex a).2.1 + i < g.dim_y
        from by omega) hza,
      edgeindex_at g _ _ _ (show (g.get_position_from_nodeindex a).2.1 + (i + 1) < g.dim_y
        from by omega) hza,
      position_of_nodeindex g _ _ _ (show (g.get_position_from_nodeindex a).2.1 + i < g.dim_y
        from by omega) hza,
      position_of_nodeindex g _ _ _
        (show (g.get_position_from_nodeindex a).2.1 + (i + 1) < g.dim_y from by omega) hza]
    refine ⟨by omega, ?_, hd, trivial, trivial, ?_⟩
    · rw [hn, Nat.add_assoc]
    · have : 0 < g.dim_x * g.dim_z := Nat.mul_pos hx1 hz1
      have e1 : ((g.get_position_from_nodeindex a).2.1 + (i + 1)) * g.dim_x * g.dim_z
          = ((g.get_position_from_nodeindex a).2.1 + i) * g.dim_x * g.dim_z
            + g.dim_x * g.dim_z := by ring
      omega
  · simp only [direction.move] at hxb hyb hzb ⊢
    obtain ⟨h1, h2⟩ := z_edge_index g (g.get_position_from_nodeindex a).1
      (g.get_position_from_nodeindex a).2.1 ((g.get_position_from_nodeindex a).2.2 + i)
      hxa hya (by omega)
    have hd := z_edge_direction g _ _ _ _ h2
    obtain ⟨_, _, _, _, hn⟩ := h2
    simp only [edgeindex_at g _ _ _ hya (show (g.get_position_from_nodeindex a).2.2 + i < g.dim_z
        from by omega),
      edgeindex_at g _ _ _ hya (show (g.get_position_from_nodeindex a).2.2 + (i + 1) < g.dim_z
        from by omega),
      position_of_nodeindex g _ _ _ hya (show (g.get_position_from_nodeindex a).2.2 + i < g.dim_z
        from by omega),
      position_of_nodeindex g _ _ _ hya
        (show (g.get_position_from_nodeindex a).2.2 + (i + 1) < g.dim_z from by omega)]
    refine ⟨by omega, ?_, hd, trivial, trivial, ?_⟩
    · rw [hn, Nat.add_assoc]
    · have : 0 < g.dim_x * g.dim_y := Nat.mul_pos hx1 hy1
      have e1 : ((g.get_position_from_nodeindex a).2.2 + (i + 1)) * g.dim_x * g.dim_y
          = ((g.get_position_from_nodeindex a).2.2 + i) * g.dim_x * g.dim_y
            + g.dim_x * g.dim_y := by ring
      omega

end Graph
end GlobalRouting

/-! ## Straight segments: chains and boxes -/

namespace GlobalRouting
namespace Connector

/-- A chain of preceding nodes that gains one step on the axis of `dir` with
every edge runs along the straight segment from its end `a`, and its relevant
edges are the edges of that segment. -/
theorem chain_on_segment (c : Connector) (hg : c.graph.wf) (E : List Nat)
    (hE : ∀ e ∈ E, e < c.graph.count_edges) (dir : direction) (hdir : dir.is_plus) :
    ∀ (t a j : Nat), chain_steps c E t a j → c.preceding_node a = none →
      dir.coordinate (c.graph.get_position_from_nodeindex t)
          ≤ dir.coordinate (c.graph.get_position_from_nodeindex a) + j
        ∧ (dir.coordinate (c.graph.get_position_from_nodeindex t)
              = dir.coordinate (c.graph.get_position_from_nodeindex a) + j →
            c.graph.get_position_from_nodeindex t
                = dir.move (c.graph.get_position_from_nodeindex a) j
              ∧ (∀ v u e, on_chain c t v → c.preceding_node v = some u →
                  c.relevant_edge v = some e → ∃ i, i < j ∧ e = c.graph.segment_edge dir a i)
              ∧ (∀ i, i < j → ∃ v u, on_chain c t v ∧ c.preceding_node v = some u
                  ∧ c.relevant_edge v = some (c.graph.segment_edge dir a i))) := by
  intro t a j h
  induction h with
  | zero t =>
    intro ha
    refine ⟨le_refl _, fun _ => ⟨(direction.move_zero _ _).symm, ?_, ?_⟩⟩
    · intro v u e hc hp _
      rw [on_chain_of_none c t v ha hc, ha] at hp
      simp at hp
    · intro i hi
      omega
  | succ t u a k e hp hr he hj _ ih =>
    intro ha
    obtain ⟨ih1, ih2⟩ := ih ha
    obtain ⟨s1, s2⟩ := Graph.join_coordinate c.graph hg dir hdir e u t (hE e he) hj
    refine ⟨by omega, ?_⟩
    intro heq
    obtain ⟨p1, p2, p3⟩ := ih2 (by omega)
    obtain ⟨q1, q2⟩ := s2 (by omega)
    have hu : c.graph.segment_node dir a k = u :=
      Graph.segment_node_of_position c.graph dir a u k p1
    have hek : c.graph.segment_edge dir a k = e := by
      unfold Graph.segment_edge
      rw [hu]
      exact q2.symm
    refine ⟨?_, ?_, ?_⟩
    · rw [q1, p1, direction.move_add dir hdir]
    · intro v u' e' hc hp' hr'
      rcases (on_chain_of_some c t u v hp).1 hc with hv | hv
      · subst hv
        rw [hr] at hr'
        exact ⟨k, by omega, by rw [hek]; exact Option.some.inj hr'.symm⟩
      · obtain ⟨i, hi, hie⟩ := p2 v u' e' hv hp' hr'
        exact ⟨i, by omega, hie⟩
    · intro i hi
      by_cases hik : i = k
      · subst hik
        exact ⟨t, u, on_chain.start t, hp, by rw [hek]; exact hr⟩
      · obtain ⟨v, u', g1, g2, g3⟩ := p3 i (by omega)
        exact ⟨v, u', on_chain.step _ _ _ hp g1, g2, g3⟩

/-- The bounding box of two nodes on a line holds the positions between them. -/
theorem bounding_box_segment (c : Connector) (hg : c.graph.wf) (hm : c.grid_matches)
    (dir : direction) (hdir : dir.is_plus) (a b k : Nat) (ha : a < c.graph.count_nodes)
    (hb : b < c.graph.count_nodes)
    (hpos : c.graph.get_position_from_nodeindex b
      = dir.move (c.graph.get_position_from_nodeindex a) k)
    (i : Nat) (hi : i ≤ k) :
    (bounding_box c [a, b]).outside
      (dir.move (c.graph.get_position_from_nodeindex a) i) = false := by
  obtain ⟨hxa, hya, hza⟩ := Graph.position_lt c.graph hg a ha
  obtain ⟨hxb, hyb, hzb⟩ := Graph.position_lt c.graph hg b hb
  obtain ⟨mx, my, mz⟩ := hm
  unfold bounding_box BoundingBox.outside
  simp only [List.foldl_cons, List.foldl_nil, decide_eq_false_iff_not]
  rw [hpos] at hxb hyb hzb ⊢
  rw [← mx, ← my, ← mz]
  rcases hdir with rfl | rfl | rfl <;> simp only [direction.move] at hxb hyb hzb ⊢ <;> omega

/-- The straight segment between two nodes on a line is an allowed path when
its edges that are not vias have room for the net. -/
theorem segment_allowed (c : Connector) (hg : c.graph.wf) (hm : c.grid_matches) (mnw : Int)
    (dir : direction) (hdir : dir.is_plus) (a b k : Nat) (ha : a < c.graph.count_nodes)
    (hb : b < c.graph.count_nodes)
    (hpos : c.graph.get_position_from_nodeindex b
      = dir.move (c.graph.get_position_from_nodeindex a) k)
    (room : ∀ i, i < k → dir ≠ .z_plus →
      c.aggregated_width (c.graph.segment_edge dir a i)
          + c.required_capacity mnw (c.graph.segment_edge dir a i)
        ≤ c.graph.get_capacity (c.graph.segment_edge dir a i)) :
    allowed_path c mnw (bounding_box c [a, b]) a b k := by
  have key : ∀ i, i ≤ k →
      allowed_path c mnw (bounding_box c [a, b]) a (c.graph.segment_node dir a i) i := by
    intro i
    induction i with
    | zero =>
      intro _
      rw [Graph.segment_node_of_position c.graph dir a a 0 (direction.move_zero _ _).symm]
      exact allowed_path.nil a
    | succ i ih =>
      intro hi
      obtain ⟨e1, e2, e3, e4, e5, _⟩ :=
        Graph.segment_edge_spec c.graph hg dir hdir a b k ha hb hpos i (by omega)
      refine allowed_path_snoc _ _ _ _ _ _ _ (ih (by omega)) ?_
      refine ⟨c.graph.segment_edge dir a i, e1, Or.inl e2, ?_, ?_⟩
      · rw [e5]
        exact bounding_box_segment c hg hm dir hdir a b k ha hb hpos (i + 1) hi
      · by_cases hz : dir = .z_plus
        · left
          rw [e3, hz]
        · right
          exact room i (by omega) hz
  have := key k (le_refl _)
  rw [Graph.segment_node_of_position c.graph dir a b k hpos] at this
  exact this

end Connector
end GlobalRouting

/-! ## Straight connections -/

namespace GlobalRouting
namespace Connector

theorem required_capacity_eq_demand (c : Connector) (net : Net) (e : Nat) :
    c.required_capacity net.minimum_width e = demand c.problem net (c.graph.layer_of_edge e) := by
  unfold required_capacity demand Graph.layer_of_edge
  rfl

theorem required_capacity_frame (c c1 : Connector) (hp : c1.problem = c.problem)
    (hg : c1.graph = c.graph) (mnw : Int) (e : Nat) :
    c1.required_capacity mnw e = c.required_capacity mnw e := by
  unfold required_capacity
  rw [hp, hg]

/-- The tree of a net with two pin nodes on a line whose straight segment has
room: the edges of the segment, found without the emergency pass. -/
theorem straight_net {ca cb : Connector} {net : Net} {tree : List Nat}
    (h : net_routed ca net tree cb) (hr : ca.ready) (nodes0 : List Nat) (a b : Nat)
    (dir : direction) (k : Nat) (hn : pin_nodes ca net.pins = some nodes0)
    (hs : sort_unique nodes0 = [a, b]) (hdir : dir.is_plus)
    (hpos : ca.graph.get_position_from_nodeindex b
      = dir.move (ca.graph.get_position_from_nodeindex a) k)
    (room : ∀ i, i < k → dir ≠ .z_plus →
      ca.aggregated_width (ca.graph.segment_edge dir a i)
          + demand ca.problem net (ca.graph.layer_of_edge (ca.graph.segment_edge dir a i))
        ≤ ca.graph.get_capacity (ca.graph.segment_edge dir a i)) :
    tree = (List.range k).map (ca.graph.segment_edge dir a)
      ∧ cb.emergency_log = ca.emergency_log := by
  obtain ⟨hg, hm, _⟩ := hr
  have hpins : net.pins ≠ [] := by
    intro hc
    rw [hc] at hn
    simp only [pin_nodes, Option.some.injEq] at hn
    subst hn
    simp [sort_unique] at hs
  obtain ⟨nodes0', s, T, c1, r1, a1, a2, hres, a4, a5, a6, a7⟩ := h.search hpins
  rw [hn] at a1
  have := Option.some.inj a1
  subst this
  rw [hs] at a2
  simp only [List.cons.injEq] at a2
  obtain ⟨rfl, rfl⟩ := a2
  have hsorted := sort_unique_sorted nodes0
  rw [hs] at hsorted
  have hab : a < b := (List.sorted_cons.1 hsorted).1 b (List.mem_singleton_self _)
  have hbT : b ∈ [b] := List.mem_singleton_self _
  obtain ⟨last, hinv⟩ := hres.inv
  have hsrc := hinv.sources a (List.mem_singleton_self _)
  have haN : a < ca.graph.count_nodes := by rw [← a5]; exact hinv.seen_lt a hsrc.1
  have hbN : b < ca.graph.count_nodes := by rw [← a5]; exact hinv.seen_lt b (hres.targets b hbT).1
  have hpath : allowed_path ca net.minimum_width (bounding_box ca [a, b]) a b k := by
    apply segment_allowed ca hg hm net.minimum_width dir hdir a b k haN hbN hpos
    intro i hi hz
    rw [required_capacity_eq_demand]
    exact room i hi hz
  have hmode : r1 = true ∧ cb.emergency_log = ca.emergency_log := by
    rcases a7 with h1 | ⟨_, _, t, ht, hno⟩
    · exact h1
    · rw [List.mem_singleton.1 ht] at hno
      exact absurd hpath (hno k)
  obtain ⟨hr1, hlog⟩ := hmode
  subst hr1
  refine ⟨?_, hlog⟩
  have hpath1 := allowed_path_frame ca c1 a4 a5 a6 _ _ a b k hpath
  have hle := distance_le_path hres b hbT a k hpath1
    (source_settled hres b hbT (by omega))
  rw [hsrc.2.2.2] at hle
  obtain ⟨hchain, _⟩ := chain_is_path hres b hbT (c1.distance b) b rfl (on_chain.start b)
  have hwf1 : c1.graph.wf := by rw [a5]; exact hg
  obtain ⟨g1, g2⟩ := chain_on_segment c1 hwf1 tree (fun e he => ret_edge_lt hres e he) dir hdir
    b a (c1.distance b) hchain hsrc.2.1
  rw [a5, hpos, direction.coordinate_move dir hdir] at g1 g2
  have hd : c1.distance b = k := by omega
  rw [hd] at g2
  obtain ⟨_, m1, m2⟩ := g2 rfl
  have hmem : ∀ e, e ∈ tree ↔ e ∈ (List.range k).map (ca.graph.segment_edge dir a) := by
    intro e
    rw [hres.mem e, List.mem_map]
    constructor
    · rintro ⟨t, ht, v, u, hc, hp, hre⟩
      rw [List.mem_singleton.1 ht] at hc
      obtain ⟨i, hi, hie⟩ := m1 v u e hc hp hre
      exact ⟨i, List.mem_range.2 hi, hie.symm⟩
    · rintro ⟨i, hi, hie⟩
      obtain ⟨v, u, hc, hp, hre⟩ := m2 i (List.mem_range.1 hi)
      exact ⟨b, hbT, v, u, hc, hp, by rw [hre, hie]⟩
  have hmono : ∀ i j, i < j → j < k →
      ca.graph.segment_edge dir a i < ca.graph.segment_edge dir a j := by
    intro i j hij
    induction j with
    | zero => omega
    | succ j ih =>
      intro hj
      have hstep := (Graph.segment_edge_spec ca.graph hg dir hdir a b k haN hbN hpos j
        (by omega)).2.2.2.2.2
      by_cases hc : i = j
      · rw [hc]; exact hstep
      · exact lt_trans (ih (by omega) (by omega)) hstep
  have hsorted2 : ((List.range k).map (ca.graph.segment_edge dir a)).Sorted
      (fun x y => x < y) := by
    unfold List.Sorted
    rw [List.pairwise_map]
    exact (List.pairwise_lt_range k).imp_of_mem
      (fun {i j} _ hj hij => hmono i j hij (List.mem_range.1 hj))
  exact List.eq_of_perm_of_sorted
    ((List.perm_ext_iff_of_nodup hres.sorted.nodup hsorted2.nodup).2 hmem) hres.sorted hsorted2

end Connector

end GlobalRouting

/-! ## The grid of 3 by 2 tiles -/

namespace GlobalRouting
namespace Graph

theorem nodes_of_edge_dims (a b c : Nat) (caps caps1 : List Int) (e : Nat) :
    get_nodes_of_edge ⟨a, b, c, caps⟩ e = get_nodes_of_edge ⟨a, b, c, caps1⟩ e := rfl

theorem edge_direction_dims (a b c : Nat) (caps caps1 : List Int) (e : Nat) :
    get_edge_direction ⟨a, b, c, caps⟩ e = get_edge_direction ⟨a, b, c, caps1⟩ e := rfl

theorem segment_edge_dims (a b c : Nat) (caps caps1 : List Int) (d : direction) (v i : Nat) :
    segment_edge ⟨a, b, c, caps⟩ d v i = segment_edge ⟨a, b, c, caps1⟩ d v i := rfl

/-- The nodes, edges and positions of a grid of 3 by 2 tiles on one layer. -/
theorem grid_3_2_1 (g : Graph) (hx : g.dim_x = 3) (hy : g.dim_y = 2) (hz : g.dim_z = 1) :
    g.count_nodes = 6 ∧ g.count_edges = 7
      ∧ (∀ e u t, e < 7 → g.joins e u t →
          (e, u, t) ∈ ([(0, 0, 2), (0, 2, 0), (1, 1, 3), (1, 3, 1), (2, 2, 4), (2, 4, 2),
            (3, 3, 5), (3, 5, 3), (4, 0, 1), (4, 1, 0), (5, 2, 3), (5, 3, 2), (6, 4, 5),
            (6, 5, 4)] : List (Nat × Nat × Nat)))
      ∧ (g.get_nodes_of_edge 0 = (0, 2) ∧ g.get_nodes_of_edge 1 = (1, 3)
          ∧ g.get_nodes_of_edge 4 = (0, 1) ∧ g.get_nodes_of_edge 5 = (2, 3))
      ∧ (∀ e, e < 4 → g.get_edge_direction e = some direction.x_plus)
      ∧ (∀ e, 4 ≤ e → e < 7 → g.get_edge_direction e = some direction.y_plus)
      ∧ (∀ v, g.get_position_from_nodeindex v = (v / 2, v % 2, 0))
      ∧ (∀ e, g.layer_of_edge e = 0)
      ∧ (∀ x y z, g.get_nodeindex_from_position x y z = 2 * x + y + z)
      ∧ g.segment_edge .x_plus 0 0 = 0 := by
  obtain ⟨dx, dy, dz, caps⟩ := g
  simp only at hx hy hz
  subst hx; subst hy; subst hz
  refine ⟨rfl, rfl, ?_, ⟨?_, ?_, ?_, ?_⟩, ?_, ?_, ?_, ?_, ?_, ?_⟩
  · intro e u t he hj
    unfold joins at hj
    rw [nodes_of_edge_dims 3 2 1 caps []] at hj
    have key : ∀ e, e < 7 → Graph.get_nodes_of_edge ⟨3, 2, 1, []⟩ e
        = ([(0, 2), (1, 3), (2, 4), (3, 5), (0, 1), (2, 3), (4, 5)] : List (Nat × Nat)).getD e
            (0, 0) := by decide
    rw [key e he] at hj
    interval_cases e <;> simp at hj <;> rcases hj with ⟨rfl, rfl⟩ | ⟨rfl, rfl⟩ <;> simp
  · rw [nodes_of_edge_dims 3 2 1 caps []]; decide
  · rw [nodes_of_edge_dims 3 2 1 caps []]; decide
  · rw [nodes_of_edge_dims 3 2 1 caps []]; decide
  · rw [nodes_of_edge_dims 3 2 1 caps []]; decide
  · intro e he
    rw [edge_direction_dims 3 2 1 caps []]
    interval_cases e <;> decide
  · intro e h1 h2
    rw [edge_direction_dims 3 2 1 caps []]
    interval_cases e <;> decide
  · intro v
    unfold get_position_from_nodeindex
    simp [Nat.mod_one]
  · intro e
    unfold layer_of_edge get_position_from_nodeindex
    simp [Nat.mod_one]
  · intro x y z
    unfold get_nodeindex_from_position
    simp only
    omega
  · rw [segment_edge_dims 3 2 1 caps []]; decide

end Graph

namespace Connector

theorem chain_steps_inv (c : Connector) (E : List Nat) (t a j : Nat)
    (h : chain_steps c E t a j) (hta : t ≠ a) :
    ∃ u e k, j = k + 1 ∧ c.preceding_node t = some u ∧ c.relevant_edge t = some e ∧ e ∈ E
      ∧ c.graph.joins e u t ∧ chain_steps c E u a k := by
  cases h with
  | zero => exact absurd rfl hta
  | succ _ u _ k e hp hr he hj hrest => exact ⟨u, e, k, rfl, hp, hr, he, hj, hrest⟩

end Connector
end GlobalRouting

/-! ## The detour -/

namespace GlobalRouting
namespace Connector

/-- On the grid of 3 by 2 tiles, a chain of at most three steps from node 2
back to node 0 that does not use edge 0 runs over the nodes 3 and 1. -/
theorem detour_chain (c : Connector) (E : List Nat) (j : Nat)
    (hjoin : ∀ e u t, e ∈ E → c.graph.joins e u t →
      e ≠ 0 ∧ (e, u, t) ∈ ([(0, 0, 2), (0, 2, 0), (1, 1, 3), (1, 3, 1), (2, 2, 4), (2, 4, 2),
            (3, 3, 5), (3, 5, 3), (4, 0, 1), (4, 1, 0), (5, 2, 3), (5, 3, 2), (6, 4, 5),
            (6, 5, 4)] : List (Nat × Nat × Nat)))
    (hchain : chain_steps c E 2 0 j) (hj : j ≤ 3) :
    c.preceding_node 2 = some 3 ∧ c.relevant_edge 2 = some 5
      ∧ c.preceding_node 3 = some 1 ∧ c.relevant_edge 3 = some 1
      ∧ c.preceding_node 1 = some 0 ∧ c.relevant_edge 1 = some 4 := by
  obtain ⟨u1, e1, k1, hk1, p1, r1, m1, j1, rest1⟩ :=
    chain_steps_inv c E 2 0 _ hchain (by omega)
  obtain ⟨z1, t1⟩ := hjoin e1 u1 2 m1 j1
  simp only [List.mem_cons, Prod.mk.injEq, List.mem_singleton, List.not_mem_nil,
    or_false] at t1
  have hu1 : u1 ≠ 0 := by omega
  obtain ⟨u2, e2, k2, hk2, p2, r2, m2, j2, rest2⟩ :=
    chain_steps_inv c E u1 0 _ rest1 hu1
  obtain ⟨z2, t2⟩ := hjoin e2 u2 u1 m2 j2
  simp only [List.mem_cons, Prod.mk.injEq, List.mem_singleton, List.not_mem_nil,
    or_false] at t2
  have hu2 : u2 ≠ 0 := by omega
  obtain ⟨u3, e3, k3, hk3, p3, r3, m3, j3, rest3⟩ :=
    chain_steps_inv c E u2 0 _ rest2 hu2
  obtain ⟨z3, t3⟩ := hjoin e3 u3 u2 m3 j3
  simp only [List.mem_cons, Prod.mk.injEq, List.mem_singleton, List.not_mem_nil,
    or_false] at t3
  have hk0 : k3 = 0 := by omega
  subst hk0
  have hu3 : u3 = 0 := by
    by_contra hc
    obtain ⟨_, _, k4, hk4, _⟩ := chain_steps_inv c E u3 0 _ rest3 hc
    omega
  subst hu3
  have hall : u1 = 3 ∧ e1 = 5 ∧ u2 = 1 ∧ e2 = 1 ∧ e3 = 4 := by
    clear rest1 rest2 rest3 j1 j2 j3 p1 p2 p3 r1 r2 r3 m1 m2 m3 hjoin hchain
    omega
  obtain ⟨rfl, rfl, rfl, rfl, rfl⟩ := hall
  exact ⟨p1, r1, p2, r2, p3, r3⟩

/-- The second net of the scenario "capacity forces detour": on the grid of 3
by 2 tiles, a net from tile `(0,0)` to tile `(1,0)` that finds the direct edge
full and room on the three edges around it takes those three edges, without
the emergency pass. -/
theorem detour_net {c1 c2 : Connector} {net : Net} {tree : List Nat}
    (h : net_routed c1 net tree c2) (hr : c1.ready)
    (hx : c1.graph.dim_x = 3) (hy : c1.graph.dim_y = 2) (hz : c1.graph.dim_z = 1)
    (nodes0 : List Nat) (hn : pin_nodes c1 net.pins = some nodes0)
    (hs : sort_unique nodes0 = [0, 2])
    (hfull : c1.graph.get_capacity 0 < c1.aggregated_width 0 + demand c1.problem net 0)
    (hroom : ∀ e, e = 1 ∨ e = 4 ∨ e = 5 →
      c1.aggregated_width e + demand c1.problem net 0 ≤ c1.graph.get_capacity e) :
    tree = [1, 4, 5] ∧ c2.emergency_log = c1.emergency_log := by
  obtain ⟨hg, hm, _⟩ := hr
  obtain ⟨tN, tE, tjoin, ⟨n0, n1, n4, n5⟩, tdx, tdy, tpos, tlayer, _, _⟩ :=
    Graph.grid_3_2_1 c1.graph hx hy hz
  have hpins : net.pins ≠ [] := by
    intro hc
    rw [hc] at hn
    simp only [pin_nodes, Option.some.injEq] at hn
    subst hn
    simp [sort_unique] at hs
  obtain ⟨nodes0', s, T, cs, r1, a1, a2, hres, a4, a5, a6, a7⟩ := h.search hpins
  rw [hn] at a1
  have := Option.some.inj a1
  subst this
  rw [hs] at a2
  simp only [List.cons.injEq] at a2
  obtain ⟨rfl, rfl⟩ := a2
  have hreq : ∀ e, c1.required_capacity net.minimum_width e = demand c1.problem net 0 := by
    intro e
    rw [required_capacity_eq_demand, tlayer]
  have hbox : ∀ v, v < 6 →
      (bounding_box c1 [0, 2]).outside (c1.graph.get_position_from_nodeindex v) = false := by
    intro v hv
    obtain ⟨mx, my, mz⟩ := hm
    unfold bounding_box BoundingBox.outside
    simp only [List.foldl_cons, List.foldl_nil, decide_eq_false_iff_not, tpos]
    rw [← mx, ← my, ← mz, hx, hy, hz]
    omega
  have hpath : allowed_path c1 net.minimum_width (bounding_box c1 [0, 2]) 0 2 3 := by
    refine allowed_path.cons 0 1 2 2 ⟨4, by omega, Or.inl n4, hbox 1 (by omega), Or.inr ?_⟩
      (allowed_path.cons 1 3 2 1 ⟨1, by omega, Or.inl n1, hbox 3 (by omega), Or.inr ?_⟩
        (allowed_path.cons 3 2 2 0 ⟨5, by omega, Or.inr n5, hbox 2 (by omega), Or.inr ?_⟩
          (allowed_path.nil 2)))
    · rw [hreq]; exact hroom 4 (by omega)
    · rw [hreq]; exact hroom 1 (by omega)
    · rw [hreq]; exact hroom 5 (by omega)
  have hmode : r1 = true ∧ c2.emergency_log = c1.emergency_log := by
    rcases a7 with h1 | ⟨_, _, t, ht, hno⟩
    · exact h1
    · rw [List.mem_singleton.1 ht] at hno
      exact absurd hpath (hno 3)
  obtain ⟨hr1, hlog⟩ := hmode
  subst hr1
  refine ⟨?_, hlog⟩
  have hbT : 2 ∈ [2] := List.mem_singleton_self _
  obtain ⟨last, hinv⟩ := hres.inv
  have hsrc := hinv.sources 0 (List.mem_singleton_self _)
  have hpath1 := allowed_path_frame c1 cs a4 a5 a6 _ _ 0 2 3 hpath
  have hle := distance_le_path hres 2 hbT 0 3 hpath1 (source_settled hres 2 hbT (by omega))
  rw [hsrc.2.2.2] at hle
  obtain ⟨hchain, _⟩ := chain_is_path hres 2 hbT (cs.distance 2) 2 rfl (on_chain.start 2)
  have hlt : ∀ e ∈ tree, e < 7 := fun e he => by
    have := ret_edge_lt hres e he
    rw [a5, tE] at this
    exact this
  have hne : ∀ e ∈ tree, e ≠ 0 := by
    intro e he h0
    subst h0
    obtain ⟨v, u, _, _, _, _, _, _, _, huse, _⟩ := ret_edge_info hres 0 he
    apply huse.2
    refine ⟨?_, rfl, ?_⟩
    · rw [a5, tdx 0 (by omega)]
      simp
    · rw [a6, required_capacity_frame c1 cs a4 a5, a5, hreq]
      exact hfull
  have hjoin : ∀ e u t, e ∈ tree → cs.graph.joins e u t →
      e ≠ 0 ∧ (e, u, t) ∈ ([(0, 0, 2), (0, 2, 0), (1, 1, 3), (1, 3, 1), (2, 2, 4), (2, 4, 2),
            (3, 3, 5), (3, 5, 3), (4, 0, 1), (4, 1, 0), (5, 2, 3), (5, 3, 2), (6, 4, 5),
            (6, 5, 4)] : List (Nat × Nat × Nat)) := by
    intro e u t he hj
    rw [a5] at hj
    exact ⟨hne e he, tjoin e u t (hlt e he) hj⟩
  obtain ⟨p1, r1, p2, r2, p3, r3⟩ := detour_chain cs tree _ hjoin hchain hle
  have hmem : ∀ e, e ∈ tree ↔ e ∈ [1, 4, 5] := by
    intro e
    rw [hres.mem e]
    constructor
    · rintro ⟨t, ht, v, u, hc, hp, hre⟩
      rw [List.mem_singleton.1 ht] at hc
      have hv : v = 2 ∨ v = 3 ∨ v = 1 ∨ v = 0 := by
        rcases (on_chain_of_some cs 2 3 v p1).1 hc with h | hc
        · exact Or.inl h
        rcases (on_chain_of_some cs 3 1 v p2).1 hc with h | hc
        · exact Or.inr (Or.inl h)
        rcases (on_chain_of_some cs 1 0 v p3).1 hc with h | hc
        · exact Or.inr (Or.inr (Or.inl h))
        exact Or.inr (Or.inr (Or.inr (on_chain_of_none cs 0 v hsrc.2.1 hc)))
      rcases hv with rfl | rfl | rfl | rfl
      · rw [r1] at hre; simp at hre; simp [← hre]
      · rw [r2] at hre; simp at hre; simp [← hre]
      · rw [r3] at hre; simp at hre; simp [← hre]
      · rw [hsrc.2.1] at hp; simp at hp
    · intro he
      simp only [List.mem_cons, List.mem_singleton, List.not_mem_nil, or_false] at he
      rcases he with rfl | rfl | rfl
      · exact ⟨2, hbT, 3, 1, on_chain.step _ _ _ p1 (on_chain.start 3), p2, r2⟩
      · exact ⟨2, hbT, 1, 0,
          on_chain.step _ _ _ p1 (on_chain.step _ _ _ p2 (on_chain.start 1)), p3, r3⟩
      · exact ⟨2, hbT, 2, 3, on_chain.start 2, p1, r1⟩
  have hsorted2 : ([1, 4, 5] : List Nat).Sorted (fun x y => x < y) := by
    unfold List.Sorted
    decide
  exact List.eq_of_perm_of_sorted
    ((List.perm_ext_iff_of_nodup hres.sorted.nodup hsorted2.nodup).2 hmem) hres.sorted hsorted2

end Connector
end GlobalRouting

/-! ## Capacity forces a detour -/

namespace GlobalRouting

/-- C9. Capacity forces a detour. On a grid of 3 by 2 tiles on one layer whose
X edges have capacity `d`, the demand of each of the two nets, with `d >= 1`,
and whose Y edges have capacity at least `d`, with two nets of widths that are
not negative that each have their pins on the tiles `(0,0)` and `(1,0)`,
inside the range where the arithmetic is exact (`tiles_exact`, and `2 * d` is
a value of `int`): `connect` gives the first net the
one X edge between the two tiles (edge 0) and the second net exactly the three
edges 1, 4 and 5, which are the Y edge `(0,0)-(0,1)`, the X edge `(0,1)-(1,1)`
and the Y edge `(1,0)-(1,1)`; the emergency pass is not entered and no
aggregated width exceeds the capacity of its edge. -/
theorem capacity_forces_detour (p : GlobalRoutingProblem) (g : Graph) (net1 net2 : Net)
    (d : Int) (nodes1 nodes2 : List Nat)
    (hg : g.wf) (hgx : g.dim_x = 3) (hgy : g.dim_y = 2) (hgz : g.dim_z = 1)
    (hx : p.grid.x_grids = 3) (hy : p.grid.y_grids = 2) (hz : p.grid.layers = 1)
    (hnets : p.nets = [net1, net2])
    (_htiles : p.tiles_exact) (hw1 : 0 ≤ net1.minimum_width) (hw2 : 0 ≤ net2.minimum_width)
    (hd : 1 ≤ d) (hdd : 2 * d ≤ int_max) (hd1 : demand p net1 0 = d) (hd2 : demand p net2 0 = d)
    (hh : ∀ e, e < 4 → g.get_capacity e = d)
    (hv : ∀ e, 4 ≤ e → e < 7 → d ≤ g.get_capacity e)
    (hp1 : Connector.pin_nodes (Connector.create p g) net1.pins = some nodes1)
    (hs1 : sort_unique nodes1
      = [g.get_nodeindex_from_position 0 0 0, g.get_nodeindex_from_position 1 0 0])
    (hp2 : Connector.pin_nodes (Connector.create p g) net2.pins = some nodes2)
    (hs2 : sort_unique nodes2
      = [g.get_nodeindex_from_position 0 0 0, g.get_nodeindex_from_position 1 0 0]) :
    ∃ c2, (Connector.create p g).connect = some ([[0], [1, 4, 5]], c2)
      ∧ c2.emergency_log = 0
      ∧ (∀ e, e < g.count_edges → c2.aggregated_width e ≤ g.get_capacity e)
      ∧ (g.get_nodes_of_edge 0
            = (g.get_nodeindex_from_position 0 0 0, g.get_nodeindex_from_position 1 0 0)
          ∧ g.get_edge_direction 0 = some .x_plus)
      ∧ (g.get_nodes_of_edge 4
            = (g.get_nodeindex_from_position 0 0 0, g.get_nodeindex_from_position 0 1 0)
          ∧ g.get_edge_direction 4 = some .y_plus)
      ∧ (g.get_nodes_of_edge 1
            = (g.get_nodeindex_from_position 0 1 0, g.get_nodeindex_from_position 1 1 0)
          ∧ g.get_edge_direction 1 = some .x_plus)
      ∧ (g.get_nodes_of_edge 5
            = (g.get_nodeindex_from_position 1 0 0, g.get_nodeindex_from_position 1 1 0)
          ∧ g.get_edge_direction 5 = some .y_plus) := by
  obtain ⟨tN, tE, tjoin, ⟨n0, n1, n4, n5⟩, tdx, tdy, tpos, tlayer, tnode, tseg⟩ :=
    Graph.grid_3_2_1 g hgx hgy hgz
  simp only [tnode] at hs1 hs2 ⊢
  have hready : (Connector.create p g).ready := by
    refine ⟨hg, ⟨?_, ?_, ?_⟩, fun v => by simp [Connector.create]⟩
    · show ((g.dim_x : Nat) : Int) = p.grid.x_grids
      rw [hgx, hx]; rfl
    · show ((g.dim_y : Nat) : Int) = p.grid.y_grids
      rw [hgy, hy]; rfl
    · show ((g.dim_z : Nat) : Int) = p.grid.layers
      rw [hgz, hz]; rfl
  have hmapped : Connector.pins_mapped (Connector.create p g) p.nets := by
    intro net hnet
    rw [hnets] at hnet
    simp only [List.mem_cons, List.mem_singleton, List.not_mem_nil, or_false] at hnet
    rcases hnet with rfl | rfl
    · exact Connector.pin_nodes_mapped _ _ nodes1 hp1
    · exact Connector.pin_nodes_mapped _ _ nodes2 hp2
  have hreq : ∀ net ∈ p.nets, ∀ e,
      (Connector.create p g).required_capacity net.minimum_width e = d := by
    intro net hnet e
    rw [Connector.required_capacity_demand, tlayer]
    rw [hnets] at hnet
    simp only [List.mem_cons, List.mem_singleton, List.not_mem_nil, or_false] at hnet
    rcases hnet with rfl | rfl
    · exact hd1
    · exact hd2
  have hroute : (Connector.create p g).can_route p.nets d := by
    refine ⟨by omega, ?_, ?_, ?_, ?_, ?_, ?_, ?_, ?_⟩
    · intro net hnet
      rw [hnets] at hnet
      simp only [List.mem_cons, List.mem_singleton, List.not_mem_nil, or_false] at hnet
      rcases hnet with rfl | rfl
      · exact hw1
      · exact hw2
    · intro net hnet e _
      rw [hreq net hnet e]
      omega
    · intro net hnet e _
      rw [hreq net hnet e]
    · intro e he
      left
      have he' : e < g.count_edges := he
      rw [tE] at he'
      show 0 < g.get_capacity e
      by_cases h4 : e < 4
      · rw [hh e h4]; omega
      · have := hv e (by omega) he'; omega
    · intro e
      exact le_refl _
    · intro e _
      rfl
    · intro e
      rw [hnets]
      show (0 : Int) + ((2 : Nat) : Int) * d ≤ int_max
      push_cast
      omega
    · rw [hnets]
      show (0 : Int) ≤ 0 ∧ (0 : Int) + 2 * ((2 : Nat) : Int) ≤ int_max
      unfold int_max
      omega
  obtain ⟨trees, c2, hrun, hrouted⟩ :=
    Connector.connect_nets_spec p.nets (Connector.create p g) hready hmapped
      (Or.inl ⟨d, hroute⟩)
  rw [hnets] at hrouted
  cases hrouted with
  | cons _ c1 _ _ _ tree1 trees1 h1 hrest =>
  cases hrest with
  | cons _ _ _ _ _ tree2 trees2 h2 hnil =>
  cases hnil
  have hc0agg : ∀ e, (Connector.create p g).aggregated_width e = 0 := fun _ => rfl
  have hc0g : (Connector.create p g).graph = g := rfl
  have hc0p : (Connector.create p g).problem = p := rfl
  -- the first net
  obtain ⟨ht1, hlog1⟩ := Connector.straight_net h1 hready nodes1 0 2 .x_plus 1 hp1 hs1
    (Or.inl rfl) (by rw [hc0g, tpos, tpos]; simp [direction.move])
    (by
      intro i hi _
      have : i = 0 := by omega
      subst this
      rw [hc0g, hc0p, tseg, hc0agg, tlayer, hd1, hh 0 (by omega)]
      omega)
  rw [hc0g] at ht1
  simp only [List.range_succ, List.range_zero, List.nil_append, List.map_cons, List.map_nil,
    tseg] at ht1
  subst ht1
  have hg1 : c1.graph = g := h1.graph_eq
  have hp1' : c1.problem = p := h1.problem_eq
  have hagg1 : c1.aggregated_width 0 = d ∧ ∀ e, e ≠ 0 → c1.aggregated_width e = 0 := by
    constructor
    · rw [h1.agg 0, hc0agg]
      unfold Connector.committed
      rw [if_pos ⟨List.mem_singleton_self _, by rw [hc0g, tdx 0 (by omega)]; simp⟩,
        Connector.commit_capacity_eq_demand, hc0g, hc0p, tlayer, hd1]
      omega
    · intro e he
      rw [h1.agg e, hc0agg]
      unfold Connector.committed
      rw [if_neg (by simp [he])]
      rfl
  -- the second net
  have hp2' : Connector.pin_nodes c1 net2.pins = some nodes2 := by
    rw [Connector.pin_nodes_congr (Connector.create p g) c1 h1.problem_eq h1.graph_eq]
    exact hp2
  obtain ⟨ht2, hlog2⟩ := Connector.detour_net h2 h1.is_ready (by rw [hg1]; exact hgx)
    (by rw [hg1]; exact hgy) (by rw [hg1]; exact hgz) nodes2 hp2' hs2
    (by rw [hg1, hp1', hagg1.1, hd2, hh 0 (by omega)]; omega)
    (by
      intro e he
      rw [hg1, hp1', hagg1.2 e (by omega), hd2]
      rcases he with rfl | rfl | rfl
      · rw [hh 1 (by omega)]; omega
      · have := hv 4 (by omega) (by omega); omega
      · have := hv 5 (by omega) (by omega); omega)
  subst ht2
  refine ⟨c2, ?_, ?_, ?_, ⟨n0, tdx 0 (by omega)⟩, ⟨n4, tdy 4 (by omega) (by omega)⟩,
    ⟨n1, tdx 1 (by omega)⟩, ⟨n5, tdy 5 (by omega) (by omega)⟩⟩
  · unfold Connector.connect
    exact hrun
  · rw [hlog2, hlog1]
    rfl
  · intro e he
    rw [tE] at he
    rw [h2.agg e]
    unfold Connector.committed
    have hc : Connector.commit_capacity c1 net2.minimum_width e = d := by
      rw [Connector.commit_capacity_eq_demand, hg1, hp1', tlayer, hd2]
    rw [hc, hg1]
    by_cases h0 : e = 0
    · subst h0
      rw [hagg1.1, if_neg (by simp), hh 0 (by omega)]
      omega
    · rw [hagg1.2 e h0]
      by_cases hm : e ∈ [1, 4, 5]
      · have hdir : g.get_edge_direction e ≠ some direction.z_plus := by
          simp only [List.mem_cons, List.mem_singleton, List.not_mem_nil, or_false] at hm
          rcases hm with rfl | rfl | rfl
          · rw [tdx 1 (by omega)]; simp
          · rw [tdy 4 (by omega) (by omega)]; simp
          · rw [tdy 5 (by omega) (by omega)]; simp
        rw [if_pos ⟨hm, hdir⟩]
        simp only [List.mem_cons, List.mem_singleton, List.not_mem_nil, or_false] at hm
        rcases hm with rfl | rfl | rfl
        · rw [hh 1 (by omega)]; omega
        · have := hv 4 (by omega) (by omega); omega
        · have := hv 5 (by omega) (by omega); omega
      · rw [if_neg (fun hcon => hm hcon.1)]
        by_cases h4 : e < 4
        · rw [hh e h4]; omega
        · have := hv e (by omega) he; omega

end GlobalRouting

/-! ## The scenarios are routable and lie inside the exact range -/

namespace GlobalRouting

theorem via_routable : via_problem.routable via_graph :=
  ⟨by unfold GlobalRoutingProblem.pins_inside; decide, by decide, by decide⟩

theorem via_exact : via_problem.exact_range via_graph :=
  ⟨⟨by decide, by decide, by decide, by decide⟩, by decide, 1, by decide, by decide, by decide⟩

theorem detour_exact : detour_problem.exact_range detour_graph :=
  ⟨⟨by decide, by decide, by decide, by decide⟩, by decide, 1, by decide, by decide, by decide⟩

theorem reversed_routable : reversed_problem.routable straight_graph :=
  ⟨by unfold GlobalRoutingProblem.pins_inside; decide, by decide, by decide⟩

theorem reversed_exact : reversed_problem.exact_range straight_graph :=
  ⟨⟨by decide, by decide, by decide, by decide⟩, by decide, 1, by decide, by decide, by decide⟩

/-- The connector of the scenario "straight horizontal" searches inside the
exact range. -/
theorem straight_weights_exact :
    (Connector.create straight_problem straight_graph).weights_exact false 10 :=
  ⟨by decide, fun _ => ⟨by decide, 1, by decide, by decide⟩⟩

/-- The connector of the scenario "emergency fallback" searches inside the
exact range. -/
theorem saturated_weights_exact :
    (Connector.create saturated_problem saturated_graph).weights_exact false 10 :=
  ⟨by decide, fun _ => ⟨by decide, 1, by decide, by decide⟩⟩

theorem saturated_search_asserts :
    (Connector.create saturated_problem saturated_graph).search_asserts 0 true :=
  ⟨by decide, by decide, by decide⟩

theorem straight_search_asserts :
    (Connector.create straight_problem straight_graph).search_asserts 0 true :=
  ⟨by decide, by decide, by decide⟩

end GlobalRouting

/-! ## The statements on the scenarios -/

namespace GlobalRouting

/-- C7 on the connector of the scenario "straight horizontal": from node 0 to
node 2. -/
theorem search_finds_shortest_paths_witness :
    (Connector.create straight_problem straight_graph).graph.wf
      ∧ (∀ v, (Connector.create straight_problem straight_graph).queued v
          ≤ (Connector.create straight_problem straight_graph).current_iteration)
      ∧ 0 < (Connector.create straight_problem straight_graph).graph.count_nodes
      ∧ ([2] : List Nat).Nodup
      ∧ (∀ t ∈ ([2] : List Nat),
          t < (Connector.create straight_problem straight_graph).graph.count_nodes)
      ∧ (Connector.create straight_problem straight_graph).weights_exact false 10
      ∧ (Connector.create straight_problem straight_graph).search_asserts 0 true
      ∧ (∃ ret c1,
          (Connector.create straight_problem straight_graph).create_search_forest [0] [2] 0
              ⟨0, 2, 0, 0, 0, 0⟩ true 10 = some (ret, c1))
      ∧ ∀ ret c1,
          (Connector.create straight_problem straight_graph).create_search_forest [0] [2] 0
              ⟨0, 2, 0, 0, 0, 0⟩ true 10 = some (ret, c1) →
          c1.emergency_log = (Connector.create straight_problem straight_graph).emergency_log →
          ∀ t ∈ ([2] : List Nat), ∃ k, Connector.chain_steps c1 ret t 0 k
            ∧ Connector.allowed_path (Connector.create straight_problem straight_graph) 0
                ⟨0, 2, 0, 0, 0, 0⟩ 0 t k
            ∧ ∀ k', Connector.allowed_path
                (Connector.create straight_problem straight_graph) 0
                ⟨0, 2, 0, 0, 0, 0⟩ 0 t k' → k ≤ k' :=
  ⟨by unfold Graph.wf; decide, fun _ => by simp [Connector.create], by decide, by decide, by decide,
    straight_weights_exact, straight_search_asserts,
    (search_finds_shortest_paths (Connector.create straight_problem straight_graph) 0 [2] 0
      ⟨0, 2, 0, 0, 0, 0⟩ 10 (by unfold Graph.wf; decide) (fun _ => by simp [Connector.create])
      (by decide) (by decide) (by decide) straight_weights_exact).1 straight_search_asserts,
    (search_finds_shortest_paths (Connector.create straight_problem straight_graph) 0 [2] 0
      ⟨0, 2, 0, 0, 0, 0⟩ 10 (by unfold Graph.wf; decide) (fun _ => by simp [Connector.create])
      (by decide) (by decide) (by decide) straight_weights_exact).2⟩

end GlobalRouting

/-! ## The statements on the scenarios, continued -/

namespace GlobalRouting

/-- C9 on the scenario "capacity forces detour" with demand 1. -/
theorem capacity_forces_detour_witness :
    detour_graph.wf ∧ detour_graph.dim_x = 3 ∧ detour_graph.dim_y = 2 ∧ detour_graph.dim_z = 1
      ∧ detour_problem.grid.x_grids = 3 ∧ detour_problem.grid.y_grids = 2
      ∧ detour_problem.grid.layers = 1
      ∧ detour_problem.nets = [detour_net 0 "n0", detour_net 1 "n1"]
      ∧ detour_problem.tiles_exact
      ∧ 0 ≤ (detour_net 0 "n0").minimum_width ∧ 0 ≤ (detour_net 1 "n1").minimum_width
      ∧ (1 : Int) ≤ 1 ∧ 2 * (1 : Int) ≤ int_max
      ∧ demand detour_problem (detour_net 0 "n0") 0 = 1
      ∧ demand detour_problem (detour_net 1 "n1") 0 = 1
      ∧ (∀ e, e < 4 → detour_graph.get_capacity e = 1)
      ∧ (∀ e, 4 ≤ e → e < 7 → 1 ≤ detour_graph.get_capacity e)
      ∧ Connector.pin_nodes (Connector.create detour_problem detour_graph)
          (detour_net 0 "n0").pins = some [0, 2]
      ∧ sort_unique [0, 2]
          = [detour_graph.get_nodeindex_from_position 0 0 0,
              detour_graph.get_nodeindex_from_position 1 0 0]
      ∧ Connector.pin_nodes (Connector.create detour_problem detour_graph)
          (detour_net 1 "n1").pins = some [0, 2]
      ∧ ∃ c2, (Connector.create detour_problem detour_graph).connect
            = some ([[0], [1, 4, 5]], c2)
          ∧ c2.emergency_log = 0
          ∧ (∀ e, e < detour_graph.count_edges →
              c2.aggregated_width e ≤ detour_graph.get_capacity e)
          ∧ (detour_graph.get_nodes_of_edge 0
                = (detour_graph.get_nodeindex_from_position 0 0 0,
                    detour_graph.get_nodeindex_from_position 1 0 0)
              ∧ detour_graph.get_edge_direction 0 = some .x_plus)
          ∧ (detour_graph.get_nodes_of_edge 4
                = (detour_graph.get_nodeindex_from_position 0 0 0,
                    detour_graph.get_nodeindex_from_position 0 1 0)
              ∧ detour_graph.get_edge_direction 4 = some .y_plus)
          ∧ (detour_graph.get_nodes_of_edge 1
                = (detour_graph.get_nodeindex_from_position 0 1 0,
                    detour_graph.get_nodeindex_from_position 1 1 0)
              ∧ detour_graph.get_edge_direction 1 = some .x_plus)
          ∧ (detour_graph.get_nodes_of_edge 5
                = (detour_graph.get_nodeindex_from_position 1 0 0,
                    detour_graph.get_nodeindex_from_position 1 1 0)
              ∧ detour_graph.get_edge_direction 5 = some .y_plus) :=
  ⟨by unfold Graph.wf; decide, rfl, rfl, rfl, rfl, rfl, rfl, rfl, detour_exact.tiles, by decide,
    by decide, by decide, by decide, by decide,
    by decide, by decide, fun e h1 h2 => by interval_cases e <;> decide, by decide, by decide,
    by decide,
    capacity_forces_detour detour_problem detour_graph (detour_net 0 "n0") (detour_net 1 "n1")
      1 [0, 2] [0, 2] (by unfold Graph.wf; decide) rfl rfl rfl rfl rfl rfl rfl detour_exact.tiles
      (by decide) (by decide) (by decide) (by decide)
      (by decide) (by decide) (by decide) (fun e h1 h2 => by interval_cases e <;> decide)
      (by decide) (by decide) (by decide) (by decide)⟩

end GlobalRouting

/-! ## Nodes, positions and neighbours -/

namespace GlobalRouting
namespace Graph

theorem position_in_range (g : Graph) (hy : 1 ≤ g.dim_y) (hz : 1 ≤ g.dim_z) (n : Nat)
    (hn : n < g.count_nodes) :
    (g.get_position_from_nodeindex n).1 < g.dim_x
      ∧ (g.get_position_from_nodeindex n).2.1 < g.dim_y
      ∧ (g.get_position_from_nodeindex n).2.2 < g.dim_z := by
  unfold get_position_from_nodeindex
  exact ⟨radix_high_lt _ _ _ _ hn, radix_mid_lt _ _ _ hy hz, radix_low_lt _ _ _ hz⟩

/-- What `is_direction_possible` and `get_neighbor` compute at a node of the
graph. -/
theorem neighbor_spec (g : Graph) (hy : 1 ≤ g.dim_y) (hz : 1 ≤ g.dim_z) (u : Nat)
    (hu : u < g.count_nodes) (d : direction) :
    (g.is_direction_possible u d = true ↔ g.step_inside (g.get_position_from_nodeindex u) d)
      ∧ (g.is_direction_possible u d = true →
          g.get_position_from_nodeindex (g.get_neighbor u d)
              = d.move (g.get_position_from_nodeindex u) 1
            ∧ Graph.adjacent_positions (g.get_position_from_nodeindex u)
                (g.get_position_from_nodeindex (g.get_neighbor u d))
            ∧ g.get_neighbor u d < g.count_nodes
            ∧ g.is_direction_possible (g.get_neighbor u d) d.opposite_direction = true
            ∧ g.get_neighbor (g.get_neighbor u d) d.opposite_direction = u) := by
  obtain ⟨hxu, hyu, hzu⟩ := position_in_range g hy hz u hu
  have hrec := nodeindex_of_position g u
  generalize g.get_position_from_nodeindex u = pos at hxu hyu hzu hrec
  obtain ⟨x, y, z⟩ := pos
  simp only at hxu hyu hzu hrec
  subst hrec
  rw [possible_at g x y z hyu hzu, neighbor_at g x y z hyu hzu]
  cases d
  all_goals simp only [step_inside, adjacent_positions, direction.move, direction.opposite_direction,
    decide_eq_true_eq]
  · refine ⟨by omega, fun h => ?_⟩
    rw [position_of_nodeindex g _ y z hyu hzu, possible_at g _ y z hyu hzu,
      neighbor_at g _ y z hyu hzu]
    refine ⟨rfl, Or.inl ⟨Or.inl rfl, rfl, rfl⟩, nodeindex_lt g _ _ _ (by omega) hyu hzu,
      by simp, by simp⟩
  · refine ⟨trivial, fun h => ?_⟩
    rw [position_of_nodeindex g _ y z hyu hzu, possible_at g _ y z hyu hzu,
      neighbor_at g _ y z hyu hzu]
    refine ⟨rfl, Or.inl ⟨Or.inr (by simp only; omega), rfl, rfl⟩,
      nodeindex_lt g _ _ _ (by omega) hyu hzu, by simp only [decide_eq_true_eq]; omega, ?_⟩
    simp only
    rw [Nat.sub_add_cancel h]
  · refine ⟨by omega, fun h => ?_⟩
    have hy1 : y + 1 < g.dim_y := by omega
    rw [position_of_nodeindex g x _ z hy1 hzu, possible_at g x _ z hy1 hzu,
      neighbor_at g x _ z hy1 hzu]
    refine ⟨rfl, Or.inr (Or.inl ⟨rfl, Or.inl rfl, rfl⟩), nodeindex_lt g _ _ _ hxu hy1 hzu,
      by simp, by simp⟩
  · refine ⟨trivial, fun h => ?_⟩
    have hy1 : y - 1 < g.dim_y := by omega
    rw [position_of_nodeindex g x _ z hy1 hzu, possible_at g x _ z hy1 hzu,
      neighbor_at g x _ z hy1 hzu]
    refine ⟨rfl, Or.inr (Or.inl ⟨rfl, Or.inr (by simp only; omega), rfl⟩),
      nodeindex_lt g _ _ _ hxu hy1 hzu, by simp only [decide_eq_true_eq]; omega, ?_⟩
    simp only
    rw [Nat.sub_add_cancel h]
  · refine ⟨by omega, fun h => ?_⟩
    have hz1 : z + 1 < g.dim_z := by omega
    rw [position_of_nodeindex g x y _ hyu hz1, possible_at g x y _ hyu hz1,
      neighbor_at g x y _ hyu hz1]
    refine ⟨rfl, Or.inr (Or.inr ⟨rfl, rfl, Or.inl rfl⟩), nodeindex_lt g _ _ _ hxu hyu hz1,
      by simp, by simp⟩
  · refine ⟨trivial, fun h => ?_⟩
    have hz1 : z - 1 < g.dim_z := by omega
    rw [position_of_nodeindex g x y _ hyu hz1, possible_at g x y _ hyu hz1,
      neighbor_at g x y _ hyu hz1]
    refine ⟨rfl, Or.inr (Or.inr ⟨rfl, rfl, Or.inr (by simp only; omega)⟩),
      nodeindex_lt g _ _ _ hxu hyu hz1, by simp only [decide_eq_true_eq]; omega, ?_⟩
    simp only
    rw [Nat.sub_add_cancel h]

end Graph

/-- C13. Node indexing is a bijection: in a graph with dimensions at least 1
(for `Nx` the statement itself makes it so), for every position `(x, y, z)` inside the grid
`get_nodeindex_from_position` gives an index below `Nx * Ny * Nz` whose
position is `(x, y, z)` again, and for every index `n` below `Nx * Ny * Nz`
the position of `n` lies inside the grid and has the index `n`. -/
theorem node_indexing_bijection (g : Graph) (hy : 1 ≤ g.dim_y) (hz : 1 ≤ g.dim_z) :
    (∀ x y z, x < g.dim_x → y < g.dim_y → z < g.dim_z →
        g.get_nodeindex_from_position x y z < g.dim_x * g.dim_y * g.dim_z
          ∧ g.get_position_from_nodeindex (g.get_nodeindex_from_position x y z) = (x, y, z))
      ∧ (∀ n, n < g.dim_x * g.dim_y * g.dim_z →
          (g.get_position_from_nodeindex n).1 < g.dim_x
            ∧ (g.get_position_from_nodeindex n).2.1 < g.dim_y
            ∧ (g.get_position_from_nodeindex n).2.2 < g.dim_z
            ∧ g.get_nodeindex_from_position (g.get_position_from_nodeindex n).1
                (g.get_position_from_nodeindex n).2.1 (g.get_position_from_nodeindex n).2.2
              = n) := by
  constructor
  · intro x y z h1 h2 h3
    exact ⟨Graph.nodeindex_lt g x y z h1 h2 h3, Graph.position_of_nodeindex g x y z h2 h3⟩
  · intro n hn
    obtain ⟨a, b, c⟩ := Graph.position_in_range g hy hz n hn
    exact ⟨a, b, c, Graph.nodeindex_of_position g n⟩

/-- C16. For every node `u` of a graph and every direction `d`:
`is_direction_possible(u, d)` is true exactly when the step from the position
of `u` in direction `d` stays inside the grid; and when it is, the position of
`get_neighbor(u, d)` is the position of `u` moved one step in direction `d`
(it differs by 1 in the coordinate of `d` and is equal in the other two), the
neighbour is a node of the graph, `opposite_direction(d)` is possible at the
neighbour, and the neighbour of the neighbour in that direction is `u`. -/
theorem neighbor_round_trip (g : Graph) (hy : 1 ≤ g.dim_y)
    (hz : 1 ≤ g.dim_z) (u : Nat) (hu : u < g.count_nodes) (d : direction) :
    (g.is_direction_possible u d = true ↔ g.step_inside (g.get_position_from_nodeindex u) d)
      ∧ (g.is_direction_possible u d = true →
          g.get_position_from_nodeindex (g.get_neighbor u d)
              = d.move (g.get_position_from_nodeindex u) 1
            ∧ Graph.adjacent_positions (g.get_position_from_nodeindex u)
                (g.get_position_from_nodeindex (g.get_neighbor u d))
            ∧ g.get_neighbor u d < g.count_nodes
            ∧ g.is_direction_possible (g.get_neighbor u d) d.opposite_direction = true
            ∧ g.get_neighbor (g.get_neighbor u d) d.opposite_direction = u) :=
  Graph.neighbor_spec g hy hz u hu d

end GlobalRouting

/-! ## Edges between nodes -/

namespace GlobalRouting
namespace Graph

/-- Two directions possible at a node that lead to the same position are the
same direction. -/
theorem move_injective (g : Graph) (pos : Nat × Nat × Nat) (d1 d2 : direction)
    (h1 : g.step_inside pos d1) (h2 : g.step_inside pos d2)
    (h : d1.move pos 1 = d2.move pos 1) : d1 = d2 := by
  obtain ⟨x, y, z⟩ := pos
  cases d1 <;> cases d2 <;>
    simp only [direction.move, step_inside, Prod.mk.injEq] at h h1 h2 <;>
    first | rfl | (exfalso; omega)

theorem node_eq_of_position (g : Graph) (u v : Nat)
    (h : g.get_position_from_nodeindex u = g.get_position_from_nodeindex v) : u = v := by
  rw [← nodeindex_of_position g u, ← nodeindex_of_position g v, h]

/-- The edge of a possible direction: its index is in range and it joins the
node and its neighbour. -/
theorem edge_of_possible (g : Graph) (hg : g.wf) (u : Nat) (hu : u < g.count_nodes)
    (d : direction) (hd : g.is_direction_possible u d = true) :
    g.get_edgeindex_from_node_and_direction u d < g.count_edges
      ∧ g.joins (g.get_edgeindex_from_node_and_direction u d) u (g.get_neighbor u d) := by
  obtain ⟨hx, hy, hz⟩ := position_lt g hg u hu
  have hrec := nodeindex_of_position g u
  rw [← hrec] at hd ⊢
  exact edge_of_direction g _ _ _ hx hy hz d hd

theorem joins_ne (g : Graph) (hg : g.wf) (e u v : Nat) (he : e < g.count_edges)
    (hj : g.joins e u v) : u ≠ v := by
  obtain ⟨_, _, hne⟩ := nodes_of_edge_lt g hg e he
  rcases hj with hj | hj <;> rw [hj] at hne
  · exact hne
  · exact fun h => hne h.symm

theorem edgeindex_injective (g : Graph) (hg : g.wf) (u : Nat) (hu : u < g.count_nodes)
    (d1 d2 : direction) (h1 : g.is_direction_possible u d1 = true)
    (h2 : g.is_direction_possible u d2 = true)
    (h : g.get_edgeindex_from_node_and_direction u d1
      = g.get_edgeindex_from_node_and_direction u d2) : d1 = d2 := by
  obtain ⟨_, hy, hz, _⟩ := hg
  have hg : g.wf := ⟨by assumption, hy, hz, by assumption⟩
  obtain ⟨e1, j1⟩ := edge_of_possible g hg u hu d1 h1
  obtain ⟨e2, j2⟩ := edge_of_possible g hg u hu d2 h2
  have hne1 := joins_ne g hg _ _ _ e1 j1
  have hne2 := joins_ne g hg _ _ _ e2 j2
  rw [h] at j1
  have hnb : g.get_neighbor u d1 = g.get_neighbor u d2 := by
    rcases j1 with a | a <;> rcases j2 with b | b <;> rw [a] at b <;>
      simp only [Prod.mk.injEq] at b
    · exact b.2
    · exact absurd b.1.symm hne2.symm
    · exact absurd b.1 hne1.symm
    · exact b.1
  obtain ⟨s1, n1⟩ := neighbor_spec g hy hz u hu d1
  obtain ⟨s2, n2⟩ := neighbor_spec g hy hz u hu d2
  apply move_injective g _ d1 d2 (s1.1 h1) (s2.1 h2)
  rw [← (n1 h1).1, ← (n2 h2).1, hnb]

theorem edgeindices_nodup (g : Graph) (hg : g.wf) (u : Nat) (hu : u < g.count_nodes) :
    (g.get_edgeindices_from_node u).Nodup := by
  unfold get_edgeindices_from_node
  apply List.Nodup.map_on
  · intro d1 hd1 d2 hd2 h
    exact edgeindex_injective g hg u hu d1 d2 (List.mem_filter.1 hd1).2
      (List.mem_filter.1 hd2).2 h
  · apply List.Nodup.filter
    unfold direction.all
    decide

theorem edgeindices_length (g : Graph) (u : Nat) : (g.get_edgeindices_from_node u).length ≤ 6 := by
  unfold get_edgeindices_from_node
  rw [List.length_map]
  exact le_trans (List.length_filter_le _ _) (by unfold direction.all; simp)

/-- An edge is determined by the nodes it joins. -/
theorem edge_unique (g : Graph) (hg : g.wf) (e1 e2 u v : Nat) (h1 : e1 < g.count_edges)
    (h2 : e2 < g.count_edges) (j1 : g.joins e1 u v) (j2 : g.joins e2 u v) : e1 = e2 := by
  obtain ⟨d1, p1, _, _, _, m1, i1⟩ := edge_positions g hg e1 h1
  obtain ⟨d2, p2, _, _, _, m2, i2⟩ := edge_positions g hg e2 h2
  have key : ∀ (a b : Nat) (d1 d2 : direction), d1.is_plus → d2.is_plus →
      g.get_position_from_nodeindex b = d1.move (g.get_position_from_nodeindex a) 1 →
      (g.get_position_from_nodeindex b = d2.move (g.get_position_from_nodeindex a) 1 → d1 = d2)
        ∧ (g.get_position_from_nodeindex a = d2.move (g.get_position_from_nodeindex b) 1 →
            False) := by
    intro a b d1 d2 q1 q2 ha
    generalize g.get_position_from_nodeindex a = pa at ha ⊢
    generalize g.get_position_from_nodeindex b = pb at ha ⊢
    obtain ⟨xa, ya, za⟩ := pa
    obtain ⟨xb, yb, zb⟩ := pb
    rcases q1 with rfl | rfl | rfl <;> rcases q2 with rfl | rfl | rfl <;>
      simp only [direction.move, Prod.mk.injEq] at ha ⊢ <;>
      constructor <;> intro hb <;> first | trivial | (exfalso; omega)
  rcases j1 with a | a <;> rcases j2 with b | b
  · rw [a] at m1 i1
    rw [b] at m2 i2
    have := (key u v d1 d2 p1 p2 m1).1 m2
    rw [i1, i2, this]
  · rw [a] at m1
    rw [b] at m2
    exact absurd m2 (key u v d1 d2 p1 p2 m1).2
  · rw [a] at m1
    rw [b] at m2
    exact absurd m2 (key v u d1 d2 p1 p2 m1).2
  · rw [a] at m1 i1
    rw [b] at m2 i2
    have := (key v u d1 d2 p1 p2 m1).1 m2
    rw [i1, i2, this]

/-- Adjacent positions, as a step in a direction from the first. -/
theorem adjacent_iff_step (g : Graph) (p q : Nat × Nat × Nat) (hq : q.1 < g.dim_x)
    (hq1 : q.2.1 < g.dim_y) (hq2 : q.2.2 < g.dim_z) :
    adjacent_positions p q ↔ ∃ d : direction, q = d.move p 1 ∧ g.step_inside p d := by
  obtain ⟨x1, y1, z1⟩ := p
  obtain ⟨x2, y2, z2⟩ := q
  simp only at hq hq1 hq2
  unfold adjacent_positions
  simp only
  constructor
  · rintro (⟨h | h, h2, h3⟩ | ⟨h1, h | h, h3⟩ | ⟨h1, h2, h | h⟩)
    · exact ⟨.x_plus, by simp only [direction.move, Prod.mk.injEq]; omega,
        by simp only [step_inside]; omega⟩
    · exact ⟨.x_minus, by simp only [direction.move, Prod.mk.injEq]; omega,
        by simp only [step_inside]; omega⟩
    · exact ⟨.y_plus, by simp only [direction.move, Prod.mk.injEq]; omega,
        by simp only [step_inside]; omega⟩
    · exact ⟨.y_minus, by simp only [direction.move, Prod.mk.injEq]; omega,
        by simp only [step_inside]; omega⟩
    · exact ⟨.z_plus, by simp only [direction.move, Prod.mk.injEq]; omega,
        by simp only [step_inside]; omega⟩
    · exact ⟨.z_minus, by simp only [direction.move, Prod.mk.injEq]; omega,
        by simp only [step_inside]; omega⟩
  · rintro ⟨d, hm, hs⟩
    cases d <;> simp only [direction.move, Prod.mk.injEq, step_inside] at hm hs <;> omega

theorem edgeindex_from_nodes_step (g : Graph) (u v : Nat) (d : direction)
    (hm : g.get_position_from_nodeindex v = d.move (g.get_position_from_nodeindex u) 1)
    (hs : g.step_inside (g.get_position_from_nodeindex u) d) :
    g.get_edgeindex_from_nodes u v = some (g.get_edgeindex_from_node_and_direction u d) := by
  unfold get_edgeindex_from_nodes
  rw [hm]
  generalize g.get_position_from_nodeindex u = p at hs
  obtain ⟨x1, y1, z1⟩ := p
  clear hm
  cases d <;> dsimp only [direction.move, step_inside] at hs ⊢ <;> split_ifs <;>
    first | rfl | (exfalso; omega)

theorem edgeindex_from_nodes_none (g : Graph) (u v : Nat)
    (h : ¬ adjacent_positions (g.get_position_from_nodeindex u)
      (g.get_position_from_nodeindex v)) :
    g.get_edgeindex_from_nodes u v = none := by
  unfold get_edgeindex_from_nodes
  generalize g.get_position_from_nodeindex u = p at h
  generalize g.get_position_from_nodeindex v = q at h
  obtain ⟨x1, y1, z1⟩ := p
  obtain ⟨x2, y2, z2⟩ := q
  unfold adjacent_positions at h
  simp only at h ⊢
  split_ifs <;> first | rfl | (exfalso; omega)

theorem adjacent_symm (p q : Nat × Nat × Nat) (h : adjacent_positions p q) :
    adjacent_positions q p := by
  unfold adjacent_positions at h ⊢
  omega

/-- What `get_edgeindex_from_nodes` returns for two adjacent nodes. -/
theorem edgeindex_from_nodes_some (g : Graph) (hg : g.wf) (u v : Nat)
    (hu : u < g.count_nodes) (hv : v < g.count_nodes)
    (h : adjacent_positions (g.get_position_from_nodeindex u)
      (g.get_position_from_nodeindex v)) :
    ∃ e, g.get_edgeindex_from_nodes u v = some e ∧ e < g.count_edges ∧ g.joins e u v := by
  obtain ⟨hxv, hyv, hzv⟩ := position_lt g hg v hv
  obtain ⟨d, hm, hs⟩ := (adjacent_iff_step g _ _ hxv hyv hzv).1 h
  obtain ⟨s1, n1⟩ := neighbor_spec g hg.2.1 hg.2.2.1 u hu d
  have hd := s1.2 hs
  have hnb : g.get_neighbor u d = v :=
    node_eq_of_position g _ _ (by rw [(n1 hd).1, hm])
  obtain ⟨e1, j1⟩ := edge_of_possible g hg u hu d hd
  rw [hnb] at j1
  exact ⟨_, edgeindex_from_nodes_step g u v d hm hs, e1, j1⟩

end Graph

/-- C14. Incidence: for every node `u` of a graph and every edge index `e`
below `count_edges()`, `e` occurs in `get_edgeindices_from_node(u)` exactly
when `u` is one of the two nodes `get_nodes_of_edge(e)` returns; the list has
no duplicates, at most 6 entries, and only indices below `count_edges()`. -/
theorem edgeindices_incidence (g : Graph) (hg : g.wf) (u : Nat) (hu : u < g.count_nodes) :
    (∀ e, e < g.count_edges →
        (e ∈ g.get_edgeindices_from_node u
          ↔ (g.get_nodes_of_edge e).1 = u ∨ (g.get_nodes_of_edge e).2 = u))
      ∧ (g.get_edgeindices_from_node u).Nodup
      ∧ (g.get_edgeindices_from_node u).length ≤ 6
      ∧ ∀ e ∈ g.get_edgeindices_from_node u, e < g.count_edges := by
  refine ⟨?_, Graph.edgeindices_nodup g hg u hu, Graph.edgeindices_length g u, ?_⟩
  · intro e he
    constructor
    · intro hmem
      exact (Graph.edgeindices_incident g hg u e hu hmem).2
    · intro h
      obtain ⟨m1, m2⟩ := Graph.edge_mem_edgeindices g hg e he
      rcases h with h | h
      · rw [← h]; exact m1
      · rw [← h]; exact m2
  · intro e hmem
    exact (Graph.edgeindices_incident g hg u e hu hmem).1

/-- C15. For all nodes `u`, `v` of a graph: when their positions differ by
exactly 1 in exactly one coordinate, `get_edgeindex_from_nodes(u, v)` returns
an edge index `e` below `count_edges()` with `get_nodes_of_edge(e)` equal to
`(u, v)` or `(v, u)`, and no other edge has these two end nodes; otherwise,
as for `u = v`, it returns `invalid_index`; and the result is the same for
`(u, v)` and `(v, u)`. -/
theorem edgeindex_from_nodes_spec (g : Graph) (hg : g.wf) (u v : Nat)
    (hu : u < g.count_nodes) (hv : v < g.count_nodes) :
    (Graph.adjacent_positions (g.get_position_from_nodeindex u)
          (g.get_position_from_nodeindex v) →
        ∃ e, g.get_edgeindex_from_nodes u v = some e ∧ e < g.count_edges
          ∧ (g.get_nodes_of_edge e = (u, v) ∨ g.get_nodes_of_edge e = (v, u))
          ∧ ∀ e1, e1 < g.count_edges →
              (g.get_nodes_of_edge e1 = (u, v) ∨ g.get_nodes_of_edge e1 = (v, u)) → e1 = e)
      ∧ (¬ Graph.adjacent_positions (g.get_position_from_nodeindex u)
            (g.get_position_from_nodeindex v) →
          g.get_edgeindex_from_nodes u v = none)
      ∧ (u = v → g.get_edgeindex_from_nodes u v = none)
      ∧ g.get_edgeindex_from_nodes u v = g.get_edgeindex_from_nodes v u := by
  refine ⟨?_, Graph.edgeindex_from_nodes_none g u v, ?_, ?_⟩
  · intro h
    obtain ⟨e, h1, h2, h3⟩ := Graph.edgeindex_from_nodes_some g hg u v hu hv h
    exact ⟨e, h1, h2, h3, fun e1 he1 hj1 => Graph.edge_unique g hg e1 e u v he1 h2 hj1 h3⟩
  · intro huv
    apply Graph.edgeindex_from_nodes_none
    rw [huv]
    unfold Graph.adjacent_positions
    omega
  · by_cases h : Graph.adjacent_positions (g.get_position_from_nodeindex u)
        (g.get_position_from_nodeindex v)
    · obtain ⟨e, h1, h2, h3⟩ := Graph.edgeindex_from_nodes_some g hg u v hu hv h
      obtain ⟨e', h1', h2', h3'⟩ :=
        Graph.edgeindex_from_nodes_some g hg v u hv hu (Graph.adjacent_symm _ _ h)
      rw [h1, h1', Graph.edge_unique g hg e e' u v h2 h2' h3 (Graph.joins_symm g e' v u h3')]
    · rw [Graph.edgeindex_from_nodes_none g u v h,
        Graph.edgeindex_from_nodes_none g v u (fun hc => h (Graph.adjacent_symm _ _ hc))]

end GlobalRouting

/-! ## The priority queue as a sorter -/

namespace GlobalRouting
namespace PriorityQueue
variable {V P : Type} [LinearOrder V] [LinearOrder P]

theorem heap_ok_nil : heap_ok ([] : List (Entry V P)) := by
  intro i _ hi
  simp at hi

theorem not_lt_iff_key (a b : Entry V P) : ¬ b.lt a ↔ a.key ≤ b.key := by
  rw [Entry.lt_iff_key, not_lt]

/-- The loop of pushes keeps the heap invariant and adds the entries. -/
theorem push_all_spec (entries : List (Entry V P)) :
    ∀ (h : List (Entry V P)), heap_ok h →
      heap_ok (push_all h entries) ∧ List.Perm (push_all h entries) (entries ++ h) := by
  induction entries with
  | nil =>
    intro h hok
    exact ⟨hok, by simp [push_all]⟩
  | cons e es ih =>
    intro h hok
    have hstep : push_all h (e :: es) = push_all (push h e.value e.priority) es := rfl
    rw [hstep]
    obtain ⟨g1, g2⟩ := ih (push h e.value e.priority) (push_ok h _ _ hok)
    refine ⟨g1, g2.trans ?_⟩
    have hp : List.Perm (push h e.value e.priority) (e :: h) := push_perm h e.value e.priority
    exact (List.Perm.append_left es hp).trans (by simp [List.perm_middle])

/-- Popping a heap until it is empty returns its entries in ascending order. -/
theorem pop_all_spec :
    ∀ (fuel : Nat) (h : List (Entry V P)), heap_ok h → h.length ≤ fuel →
      ∃ out, pop_all fuel h = some (out, []) ∧ List.Perm out h
        ∧ out.Sorted (fun a b => ¬ b.lt a) := by
  intro fuel
  induction fuel with
  | zero =>
    intro h _ hlen
    have : h = [] := List.length_eq_zero.1 (by omega)
    subst this
    exact ⟨[], rfl, List.Perm.refl _, List.sorted_nil⟩
  | succ fuel ih =>
    intro h hok hlen
    by_cases hne : h = []
    · subst hne
      exact ⟨[], rfl, List.Perm.refl _, List.sorted_nil⟩
    · obtain ⟨top, h1, hp⟩ := pop_isSome h hne
      obtain ⟨hperm, hrest⟩ := pop_spec h top h1 hp
      obtain ⟨hok1, hmin⟩ := hrest hok
      have hlen1 : h1.length ≤ fuel := by
        have := hperm.length_eq
        simp only [List.length_cons] at this
        omega
      obtain ⟨out, ho, hoperm, hosorted⟩ := ih h1 hok1 hlen1
      refine ⟨top :: out, ?_, ?_, ?_⟩
      · unfold pop_all
        rw [hp]
        simp only
        rw [ho]
      · exact (List.Perm.cons top hoperm).trans hperm.symm
      · refine List.sorted_cons.2 ⟨?_, hosorted⟩
        intro b hb
        rw [not_lt_iff_key]
        apply hmin
        exact hperm.symm.subset (List.mem_cons_of_mem _ (hoperm.subset hb))

theorem drain_spec (h : List (Entry V P)) (hok : heap_ok h) :
    ∃ out, drain h = some (out, []) ∧ List.Perm out h
      ∧ out.Sorted (fun a b => ¬ b.lt a) :=
  pop_all_spec h.length h hok (le_refl _)

/-- With distinct values, writing the entry of a value at its index is
replacing the entry of the value wherever it stands. -/
theorem set_eq_map (h : List (Entry V P)) (v : V) (a : Entry V P) (idx : Nat)
    (hidx : idx < h.length) (hv : h[idx].value = v)
    (hnd : (h.map (fun e => e.value)).Nodup) :
    h.set idx a = h.map (fun e => if e.value = v then a else e) := by
  apply List.ext_getElem
  · simp
  · intro j h1 h2
    rw [List.getElem_set, List.getElem_map]
    have hj : j < h.length := by simpa using h1
    by_cases hij : idx = j
    · subst hij
      rw [if_pos rfl, if_pos hv]
    · rw [if_neg hij]
      have hne : h[j].value ≠ v := by
        intro hc
        apply hij
        have hidx1 : idx < (h.map (fun e => e.value)).length := by simpa using hidx
        have hj1 : j < (h.map (fun e => e.value)).length := by simpa using hj
        have h4 : (h.map (fun e => e.value))[idx] = (h.map (fun e => e.value))[j] := by
          simp [hv, hc]
        exact (List.Nodup.getElem_inj_iff hnd).1 h4
      rw [if_neg hne]

/-- What `setPriority` does to a queue with distinct values: it replaces the
entry of the value and keeps the heap invariant. -/
theorem setPriority_map (h : List (Entry V P)) (v : V) (p : P)
    (hv : v ∈ h.map (fun e => e.value)) (hnd : (h.map (fun e => e.value)).Nodup) :
    ∃ h1, setPriority h v p = some h1 ∧ (heap_ok h → heap_ok h1)
      ∧ List.Perm h1 (h.map (fun e => if e.value = v then (⟨v, p⟩ : Entry V P) else e)) := by
  obtain ⟨h1, idx, hidx, hsp, hval, hperm, hok⟩ := setPriority_spec h v p hv
  refine ⟨h1, hsp, hok, ?_⟩
  rw [← set_eq_map h v ⟨v, p⟩ idx hidx hval hnd]
  exact hperm

theorem map_value_replace (h : List (Entry V P)) (v : V) (p : P) :
    (h.map (fun e => if e.value = v then (⟨v, p⟩ : Entry V P) else e)).map (fun e => e.value)
      = h.map (fun e => e.value) := by
  rw [List.map_map]
  apply List.map_congr_left
  intro e _
  simp only [Function.comp]
  split
  · rename_i hc; exact hc.symm
  · rfl

theorem last_priority_cons (v : V) (p : P) (updates : List (V × P)) (value : V) (priority : P) :
    last_priority ((v, p) :: updates) value priority
      = last_priority updates value (if value = v then p else priority) := by
  unfold last_priority
  simp only [List.foldl_cons]
  by_cases h : v = value
  · rw [if_pos h, if_pos h.symm]
  · rw [if_neg h, if_neg (fun hc => h hc.symm)]

/-- The loop of `setPriority` calls on a queue with distinct values. -/
theorem set_all_spec (updates : List (V × P)) :
    ∀ (h : List (Entry V P)), (h.map (fun e => e.value)).Nodup → heap_ok h →
      (∀ u ∈ updates, u.1 ∈ h.map (fun e => e.value)) →
      ∃ h1, set_all h updates = some h1 ∧ heap_ok h1
        ∧ List.Perm h1
            (h.map (fun e => (⟨e.value, last_priority updates e.value e.priority⟩ : Entry V P))) := by
  induction updates with
  | nil =>
    intro h _ hok _
    refine ⟨h, rfl, hok, ?_⟩
    have : h.map (fun e => (⟨e.value, last_priority [] e.value e.priority⟩ : Entry V P)) = h := by
      conv_rhs => rw [← List.map_id h]
      apply List.map_congr_left
      intro e _
      rfl
    rw [this]
  | cons u updates ih =>
    intro h hnd hok hmem
    obtain ⟨v, p⟩ := u
    obtain ⟨h1, hsp, hok1, hperm⟩ :=
      setPriority_map h v p (hmem (v, p) (List.mem_cons_self _ _)) hnd
    have hvals : List.Perm (h1.map (fun e => e.value)) (h.map (fun e => e.value)) := by
      have := hperm.map (fun e : Entry V P => e.value)
      rwa [map_value_replace] at this
    obtain ⟨h2, hs2, hok2, hperm2⟩ := ih h1 (hvals.nodup_iff.2 hnd) (hok1 hok)
      (fun u hu => hvals.symm.subset (hmem u (List.mem_cons_of_mem _ hu)))
    refine ⟨h2, ?_, hok2, hperm2.trans ?_⟩
    · unfold set_all
      rw [hsp]
      exact hs2
    · have := hperm.map
        (fun e : Entry V P => (⟨e.value, last_priority updates e.value e.priority⟩ : Entry V P))
      refine this.trans ?_
      rw [List.map_map]
      apply List.Perm.of_eq
      apply List.map_congr_left
      intro e _
      simp only [Function.comp]
      rw [last_priority_cons]
      by_cases hc : e.value = v
      · rw [if_pos hc, if_pos hc]
        simp only [hc, if_true]
      · rw [if_neg hc, if_neg hc]

/-- A queue built by `push`, `pop` and `setPriority` satisfies the heap
invariant. -/
theorem built_ok (h : List (Entry V P)) (hb : built h) : heap_ok h := by
  induction hb with
  | empty => exact heap_ok_nil
  | push heap value priority _ ih => exact push_ok heap value priority ih
  | pop heap heap1 top _ hp ih => exact ((pop_spec heap top heap1 hp).2 ih).1
  | setPriority heap heap1 value new_priority _ hs ih =>
    by_cases hv : value ∈ heap.map (fun e => e.value)
    · obtain ⟨h1, _, _, hsp, _, _, hok⟩ := setPriority_spec heap value new_priority hv
      rw [hs] at hsp
      rw [Option.some.inj hsp]
      exact hok ih
    · rw [setPriority_eq_none heap value new_priority hv] at hs
      simp at hs

theorem getPriority_of_mem (h : List (Entry V P)) (v : V) (p : P)
    (hmem : (⟨v, p⟩ : Entry V P) ∈ h)
    (hall : ∀ e ∈ h, e.value = v → e = ⟨v, p⟩) : getPriority h v = some p := by
  unfold getPriority
  cases hf : h.find? (fun entry => decide (entry.value = v)) with
  | none =>
    have := List.find?_eq_none.1 hf ⟨v, p⟩ hmem
    simp at this
  | some it =>
    have h1 := List.find?_some hf
    have h2 := List.mem_of_find?_eq_some hf
    simp only [decide_eq_true_eq] at h1
    rw [hall it h2 h1]

end PriorityQueue

/-- C17. Priority queue sort: for every list of entries pushed one after the
other into an empty queue, popping until the queue is empty returns exactly the
pushed entries (`out` is a permutation of `entries`) sorted in non-decreasing
lexicographic (priority, value) order (no entry is `<` an earlier one), and
the queue is then empty. -/
theorem priority_queue_sorts {V P : Type} [LinearOrder V] [LinearOrder P]
    (entries : List (Entry V P)) :
    ∃ out, PriorityQueue.drain (PriorityQueue.push_all [] entries) = some (out, [])
      ∧ List.Perm out entries ∧ out.Sorted (fun a b => ¬ b.lt a) := by
  obtain ⟨hok, hperm⟩ := PriorityQueue.push_all_spec entries [] PriorityQueue.heap_ok_nil
  obtain ⟨out, h1, h2, h3⟩ := PriorityQueue.drain_spec _ hok
  exact ⟨out, h1, h2.trans (by simpa using hperm), h3⟩

/-- C18. Priority queue under updates: for every list of entries with pairwise
distinct values pushed into an empty queue and every following sequence of
`setPriority(v, w)` calls on values present in the queue, the calls succeed and
popping until the queue is empty returns every value exactly once with the
priority assigned to it last (`out` is a permutation of the entries with their
last priorities), in non-decreasing lexicographic (priority, value) order, and
leaves the queue empty. -/
theorem priority_queue_sorts_after_updates {V P : Type} [LinearOrder V] [LinearOrder P]
    (entries : List (Entry V P)) (updates : List (V × P))
    (hnd : (entries.map (fun e => e.value)).Nodup)
    (hmem : ∀ u ∈ updates, u.1 ∈ entries.map (fun e => e.value)) :
    ∃ heap out,
      PriorityQueue.set_all (PriorityQueue.push_all [] entries) updates = some heap
        ∧ PriorityQueue.drain heap = some (out, [])
        ∧ List.Perm out (entries.map (fun e =>
            (⟨e.value, PriorityQueue.last_priority updates e.value e.priority⟩ : Entry V P)))
        ∧ out.Sorted (fun a b => ¬ b.lt a) := by
  obtain ⟨hok, hperm⟩ := PriorityQueue.push_all_spec entries [] PriorityQueue.heap_ok_nil
  have hperm0 : List.Perm (PriorityQueue.push_all [] entries) entries := by simpa using hperm
  have hvals := hperm0.map (fun e : Entry V P => e.value)
  obtain ⟨h1, hs, hok1, hp1⟩ := PriorityQueue.set_all_spec updates _ (hvals.nodup_iff.2 hnd) hok
    (fun u hu => hvals.symm.subset (hmem u hu))
  obtain ⟨out, d1, d2, d3⟩ := PriorityQueue.drain_spec h1 hok1
  exact ⟨h1, out, hs, d1, d2.trans (hp1.trans (hperm0.map _)), d3⟩

/-- C19. On every non-empty queue built by `push`, `pop` and `setPriority`,
`pop` returns an entry `top` of the queue that is least in the lexicographic
order on (priority, value): no entry is `<` it, so no entry has a smaller
priority and among the entries of its priority it has the smallest value; the
heap left holds the other entries and nothing else (the queue is a permutation
of `top` and the heap left) and is one shorter; and `peek` returns the same
entry and leaves the heap as it was. -/
theorem pop_returns_least {V P : Type} [LinearOrder V] [LinearOrder P]
    (heap : List (Entry V P)) (hb : PriorityQueue.built heap) (hne : heap ≠ []) :
    ∃ top heap1, PriorityQueue.pop heap = some (top, heap1)
      ∧ top ∈ heap
      ∧ (∀ e ∈ heap, ¬ e.lt top)
      ∧ (∀ e ∈ heap, top.priority ≤ e.priority)
      ∧ (∀ e ∈ heap, e.priority = top.priority → top.value ≤ e.value)
      ∧ List.Perm heap (top :: heap1)
      ∧ heap1.length + 1 = heap.length
      ∧ PriorityQueue.peek heap = some (top, heap) := by
  obtain ⟨top, h1, hp⟩ := PriorityQueue.pop_isSome heap hne
  obtain ⟨hperm, hrest⟩ := PriorityQueue.pop_spec heap top h1 hp
  obtain ⟨_, hmin⟩ := hrest (PriorityQueue.built_ok heap hb)
  have hnl : ∀ e ∈ heap, ¬ e.lt top := fun e he =>
    (PriorityQueue.not_lt_iff_key top e).2 (hmin e he)
  refine ⟨top, h1, hp, hperm.symm.subset (List.mem_cons_self _ _), hnl, ?_, ?_, hperm, ?_, ?_⟩
  · intro e he
    have := hnl e he
    unfold Entry.lt at this
    push_neg at this
    exact this.1
  · intro e he heq
    have := hnl e he
    unfold Entry.lt at this
    push_neg at this
    exact this.2 heq
  · have := hperm.length_eq
    simp only [List.length_cons] at this
    omega
  · unfold PriorityQueue.pop at hp
    cases heap with
    | nil => exact absurd rfl hne
    | cons t rest =>
      simp only [Option.some.injEq, Prod.mk.injEq] at hp
      rw [← hp.1]
      rfl

/-- C20. For every queue with pairwise distinct values that satisfies the heap
invariant (no entry is `<` its parent) and every value `v` present in it,
`setPriority(v, p)` succeeds, and after it `getPriority(v)` returns `p`, every
other entry is in the queue as it was (same value, same priority) and no new
one is, the size is unchanged, the values are still pairwise distinct, and the
heap invariant holds again. -/
theorem setPriority_restores_heap {V P : Type} [LinearOrder V] [LinearOrder P]
    (heap : List (Entry V P)) (v : V) (p : P)
    (hnd : (heap.map (fun e => e.value)).Nodup) (hok : PriorityQueue.heap_ok heap)
    (hv : v ∈ heap.map (fun e => e.value)) :
    ∃ heap1, PriorityQueue.setPriority heap v p = some heap1
      ∧ PriorityQueue.getPriority heap1 v = some p
      ∧ (∀ e : Entry V P, e.value ≠ v → (e ∈ heap1 ↔ e ∈ heap))
      ∧ heap1.length = heap.length
      ∧ (heap1.map (fun e => e.value)).Nodup
      ∧ PriorityQueue.heap_ok heap1 := by
  obtain ⟨h1, hsp, hok1, hperm, hlen, hmem, hall⟩ :=
    PriorityQueue.setPriority_mem heap v p hv hnd
  refine ⟨h1, hsp, ?_, ?_, hlen, hperm.nodup_iff.2 hnd, hok1 hok⟩
  · apply PriorityQueue.getPriority_of_mem h1 v p hmem
    intro e he hev
    rcases hall e he with h | ⟨_, h⟩
    · exact h
    · exact absurd hev h
  · intro e hev
    obtain ⟨h2, hsp2, _, hperm2⟩ := PriorityQueue.setPriority_map heap v p hv hnd
    rw [hsp] at hsp2
    have h12 : h1 = h2 := Option.some.inj hsp2
    subst h12
    rw [hperm2.mem_iff, List.mem_map]
    constructor
    · rintro ⟨a, ha, hae⟩
      by_cases hc : a.value = v
      · rw [if_pos hc] at hae
        rw [← hae] at hev
        exact absurd rfl hev
      · rw [if_neg hc] at hae
        rw [← hae]
        exact ha
    · intro he
      exact ⟨e, he, by rw [if_neg hev]⟩

end GlobalRouting

/-! ## Source set and monotone widths -/

namespace GlobalRouting
namespace Connector

theorem pin_nodes_ne_nil (c : Connector) (pins : List Pin) (nodes0 : List Nat)
    (hpins : pins ≠ []) (hn : pin_nodes c pins = some nodes0) : nodes0 ≠ [] := by
  cases pins with
  | nil => exact absurd rfl hpins
  | cons pin pins =>
    unfold pin_nodes at hn
    split at hn
    · simp only [Option.some.injEq] at hn
      rw [← hn]
      simp
    · simp at hn

end Connector

/-- C11 as the code has it. For every net with at least one pin whose pins map
to nodes `nodes0` of the graph, the sets that `connect` passes to the search
are `S = {s}` and `T`, where `s` is the least of the pin nodes (the node at
index 0 of the sorted, duplicate-free list, whichever pin it comes from) and
`T` holds, in ascending order and once each, the pin nodes other than `s`; and
`connect` routes the net by `create_search_forest` on these sets. -/
theorem connect_source_is_least (c : Connector) (net : Net) (nodes0 : List Nat)
    (hpins : net.pins ≠ []) (hn : c.pin_nodes net.pins = some nodes0) :
    ∃ s T, c.search_sets net = some ([s], T)
      ∧ s ∈ nodes0 ∧ (∀ v ∈ nodes0, s ≤ v)
      ∧ T.Sorted (fun a b => a < b) ∧ (∀ v, v ∈ T ↔ v ∈ nodes0 ∧ v ≠ s)
      ∧ c.connect_net net
          = (match c.create_search_forest [s] T net.minimum_width
                (c.bounding_box (s :: T)) true 10 with
              | none => none
              | some (edgeindices, c1) =>
                match Connector.commit net.minimum_width c1 edgeindices with
                | none => none
                | some c2 => some (edgeindices, c2)) := by
  have hne := sort_unique_ne_nil nodes0 (Connector.pin_nodes_ne_nil c net.pins nodes0 hpins hn)
  have hsorted := sort_unique_sorted nodes0
  have hmem := mem_sort_unique nodes0
  cases hsu : sort_unique nodes0 with
  | nil => exact absurd hsu hne
  | cons s T =>
    rw [hsu] at hsorted hmem
    obtain ⟨hlt, hT⟩ := List.sorted_cons.1 hsorted
    refine ⟨s, T, ?_, ?_, ?_, hT, ?_, ?_⟩
    · unfold Connector.search_sets
      rw [hn]
      simp only
      rw [hsu]
      rfl
    · exact (hmem s).1 (List.mem_cons_self _ _)
    · intro v hv
      rcases List.mem_cons.1 ((hmem v).2 hv) with h | h
      · exact le_of_eq h.symm
      · exact le_of_lt (hlt v h)
    · intro v
      constructor
      · intro hv
        exact ⟨(hmem v).1 (List.mem_cons_of_mem _ hv), fun hc => by
          have := hlt v hv
          omega⟩
      · rintro ⟨hv, hvs⟩
        rcases List.mem_cons.1 ((hmem v).2 hv) with h | h
        · exact absurd h hvs
        · exact h
    · unfold Connector.connect_net
      have he : net.pins.isEmpty = false := by
        cases hp : net.pins with
        | nil => exact absurd hp hpins
        | cons _ _ => rfl
      rw [he, hn]
      simp only [Bool.false_eq_true, if_false]
      rw [hsu]
      rfl

/-- C11, the input on which the claim fails: in the scenario "straight
horizontal" with the pins listed as `(25,5)`, `(5,5)`, the problem passes
`check`, the first pin of the net lies on the tile with node 2, and `connect`
searches from `S = {0}`, the node of the second pin, to `T = {2}`. -/
theorem reversed_source_is_second_pin :
    reversed_problem.check = true
      ∧ reversed_problem.nets.map (fun net =>
          net.pins.head?.bind (Connector.pin_node (Connector.create reversed_problem straight_graph)))
        = [some 2]
      ∧ reversed_problem.nets.map
          (Connector.search_sets (Connector.create reversed_problem straight_graph))
        = [some ([0], [2])] := by
  decide

end GlobalRouting

/-! ## The statements on the grid of 3 by 2 tiles and on small queues -/

namespace GlobalRouting

/-- C11 as the code has it, on the first net of the scenario "capacity forces
detour": the pins map to the nodes 0 and 2. -/
theorem connect_source_is_least_witness :
    (detour_net 0 "n0").pins ≠ []
      ∧ (Connector.create detour_problem detour_graph).pin_nodes (detour_net 0 "n0").pins
          = some [0, 2]
      ∧ ∃ s T, (Connector.create detour_problem detour_graph).search_sets (detour_net 0 "n0")
            = some ([s], T)
          ∧ s ∈ [0, 2] ∧ (∀ v ∈ [0, 2], s ≤ v)
          ∧ T.Sorted (fun a b => a < b) ∧ (∀ v, v ∈ T ↔ v ∈ [0, 2] ∧ v ≠ s)
          ∧ (Connector.create detour_problem detour_graph).connect_net (detour_net 0 "n0")
              = (match (Connector.create detour_problem detour_graph).create_search_forest [s] T
                    (detour_net 0 "n0").minimum_width
                    ((Connector.create detour_problem detour_graph).bounding_box (s :: T))
                    true 10 with
                  | none => none
                  | some (edgeindices, c1) =>
                    match Connector.commit (detour_net 0 "n0").minimum_width c1 edgeindices with
                    | none => none
                    | some c2 => some (edgeindices, c2)) :=
  ⟨List.cons_ne_nil _ _, by decide,
    connect_source_is_least (Connector.create detour_problem detour_graph) (detour_net 0 "n0")
      [0, 2] (List.cons_ne_nil _ _) (by decide)⟩

/-- C13 on the grid of 3 by 2 tiles with one layer. -/
theorem node_indexing_bijection_witness :
    1 ≤ detour_graph.dim_y ∧ 1 ≤ detour_graph.dim_z
      ∧ (∀ x y z, x < detour_graph.dim_x → y < detour_graph.dim_y → z < detour_graph.dim_z →
          detour_graph.get_nodeindex_from_position x y z
              < detour_graph.dim_x * detour_graph.dim_y * detour_graph.dim_z
            ∧ detour_graph.get_position_from_nodeindex
                (detour_graph.get_nodeindex_from_position x y z) = (x, y, z))
      ∧ (∀ n, n < detour_graph.dim_x * detour_graph.dim_y * detour_graph.dim_z →
          (detour_graph.get_position_from_nodeindex n).1 < detour_graph.dim_x
            ∧ (detour_graph.get_position_from_nodeindex n).2.1 < detour_graph.dim_y
            ∧ (detour_graph.get_position_from_nodeindex n).2.2 < detour_graph.dim_z
            ∧ detour_graph.get_nodeindex_from_position
                (detour_graph.get_position_from_nodeindex n).1
                (detour_graph.get_position_from_nodeindex n).2.1
                (detour_graph.get_position_from_nodeindex n).2.2 = n) :=
  ⟨by decide, by decide, node_indexing_bijection detour_graph (by decide) (by decide)⟩

/-- C14 on the grid of 3 by 2 tiles, at the node of the tile `(1, 0)`. -/
theorem edgeindices_incidence_witness :
    detour_graph.wf ∧ 2 < detour_graph.count_nodes
      ∧ (∀ e, e < detour_graph.count_edges →
          (e ∈ detour_graph.get_edgeindices_from_node 2
            ↔ (detour_graph.get_nodes_of_edge e).1 = 2
                ∨ (detour_graph.get_nodes_of_edge e).2 = 2))
      ∧ (detour_graph.get_edgeindices_from_node 2).Nodup
      ∧ (detour_graph.get_edgeindices_from_node 2).length ≤ 6
      ∧ ∀ e ∈ detour_graph.get_edgeindices_from_node 2, e < detour_graph.count_edges :=
  ⟨by unfold Graph.wf; decide, by decide,
    edgeindices_incidence detour_graph (by unfold Graph.wf; decide) 2 (by decide)⟩

/-- C15 on the grid of 3 by 2 tiles, at the nodes of the tiles `(0, 0)` and
`(1, 0)`, which the edge 0 joins. -/
theorem edgeindex_from_nodes_spec_witness :
    detour_graph.wf ∧ 0 < detour_graph.count_nodes ∧ 2 < detour_graph.count_nodes
      ∧ Graph.adjacent_positions (detour_graph.get_position_from_nodeindex 0)
          (detour_graph.get_position_from_nodeindex 2)
      ∧ detour_graph.get_edgeindex_from_nodes 0 2 = some 0
      ∧ (∃ e, detour_graph.get_edgeindex_from_nodes 0 2 = some e ∧ e < detour_graph.count_edges
          ∧ (detour_graph.get_nodes_of_edge e = (0, 2) ∨ detour_graph.get_nodes_of_edge e = (2, 0))
          ∧ ∀ e1, e1 < detour_graph.count_edges →
              (detour_graph.get_nodes_of_edge e1 = (0, 2)
                ∨ detour_graph.get_nodes_of_edge e1 = (2, 0)) → e1 = e)
      ∧ detour_graph.get_edgeindex_from_nodes 0 2 = detour_graph.get_edgeindex_from_nodes 2 0 :=
  ⟨by unfold Graph.wf; decide, by decide, by decide,
    by unfold Graph.adjacent_positions; decide, by decide,
    (edgeindex_from_nodes_spec detour_graph (by unfold Graph.wf; decide) 0 2 (by decide)
      (by decide)).1 (by unfold Graph.adjacent_positions; decide),
    (edgeindex_from_nodes_spec detour_graph (by unfold Graph.wf; decide) 0 2 (by decide)
      (by decide)).2.2.2⟩

/-- C16 on the grid of 3 by 2 tiles, from the node of the tile `(0, 0)` in
direction `x_plus`. -/
theorem neighbor_round_trip_witness :
    1 ≤ detour_graph.dim_y ∧ 1 ≤ detour_graph.dim_z ∧ 0 < detour_graph.count_nodes
      ∧ detour_graph.is_direction_possible 0 .x_plus = true
      ∧ detour_graph.get_position_from_nodeindex (detour_graph.get_neighbor 0 .x_plus)
          = direction.x_plus.move (detour_graph.get_position_from_nodeindex 0) 1
      ∧ Graph.adjacent_positions (detour_graph.get_position_from_nodeindex 0)
          (detour_graph.get_position_from_nodeindex (detour_graph.get_neighbor 0 .x_plus))
      ∧ detour_graph.get_neighbor 0 .x_plus < detour_graph.count_nodes
      ∧ detour_graph.is_direction_possible (detour_graph.get_neighbor 0 .x_plus)
          direction.x_plus.opposite_direction = true
      ∧ detour_graph.get_neighbor (detour_graph.get_neighbor 0 .x_plus)
          direction.x_plus.opposite_direction = 0 :=
  ⟨by decide, by decide, by decide, by decide,
    (neighbor_round_trip detour_graph (by decide) (by decide) 0 (by decide) .x_plus).2
      (by decide)⟩

/-- C18 on the entries `(0, 5)`, `(1, 3)` (value, priority) and the one update
`setPriority(0, 1)`. -/
theorem priority_queue_sorts_after_updates_witness :
    (([⟨0, 5⟩, ⟨1, 3⟩] : List (Entry Nat Nat)).map (fun e => e.value)).Nodup
      ∧ (∀ u ∈ ([(0, 1)] : List (Nat × Nat)),
          u.1 ∈ ([⟨0, 5⟩, ⟨1, 3⟩] : List (Entry Nat Nat)).map (fun e => e.value))
      ∧ ∃ heap out,
          PriorityQueue.set_all
              (PriorityQueue.push_all [] ([⟨0, 5⟩, ⟨1, 3⟩] : List (Entry Nat Nat))) [(0, 1)]
            = some heap
          ∧ PriorityQueue.drain heap = some (out, [])
          ∧ List.Perm out (([⟨0, 5⟩, ⟨1, 3⟩] : List (Entry Nat Nat)).map (fun e =>
              (⟨e.value, PriorityQueue.last_priority [(0, 1)] e.value e.priority⟩ : Entry Nat Nat)))
          ∧ out.Sorted (fun a b => ¬ b.lt a) :=
  ⟨by decide, by decide,
    priority_queue_sorts_after_updates ([⟨0, 5⟩, ⟨1, 3⟩] : List (Entry Nat Nat)) [(0, 1)]
      (by decide) (by decide)⟩

/-- C19 on the queue that two calls of `push` build. -/
theorem pop_returns_least_witness :
    PriorityQueue.built (PriorityQueue.push (PriorityQueue.push ([] : List (Entry Nat Nat)) 0 5) 1 3)
      ∧ PriorityQueue.push (PriorityQueue.push ([] : List (Entry Nat Nat)) 0 5) 1 3 ≠ []
      ∧ ∃ top heap1,
          PriorityQueue.pop (PriorityQueue.push (PriorityQueue.push ([] : List (Entry Nat Nat)) 0 5) 1 3)
            = some (top, heap1)
          ∧ top ∈ PriorityQueue.push (PriorityQueue.push ([] : List (Entry Nat Nat)) 0 5) 1 3
          ∧ (∀ e ∈ PriorityQueue.push (PriorityQueue.push ([] : List (Entry Nat Nat)) 0 5) 1 3,
              ¬ e.lt top)
          ∧ (∀ e ∈ PriorityQueue.push (PriorityQueue.push ([] : List (Entry Nat Nat)) 0 5) 1 3,
              top.priority ≤ e.priority)
          ∧ (∀ e ∈ PriorityQueue.push (PriorityQueue.push ([] : List (Entry Nat Nat)) 0 5) 1 3,
              e.priority = top.priority → top.value ≤ e.value)
          ∧ List.Perm (PriorityQueue.push (PriorityQueue.push ([] : List (Entry Nat Nat)) 0 5) 1 3)
              (top :: heap1)
          ∧ heap1.length + 1
              = (PriorityQueue.push (PriorityQueue.push ([] : List (Entry Nat Nat)) 0 5) 1 3).length
          ∧ PriorityQueue.peek (PriorityQueue.push (PriorityQueue.push ([] : List (Entry Nat Nat)) 0 5) 1 3)
              = some (top, PriorityQueue.push (PriorityQueue.push ([] : List (Entry Nat Nat)) 0 5) 1 3) :=
  ⟨PriorityQueue.built.push _ 1 3 (PriorityQueue.built.push [] 0 5 PriorityQueue.built.empty),
    fun h => by have := congrArg List.length h; simp [PriorityQueue.push_length] at this,
    pop_returns_least _
      (PriorityQueue.built.push _ 1 3 (PriorityQueue.built.push [] 0 5 PriorityQueue.built.empty))
      (fun h => by have := congrArg List.length h; simp [PriorityQueue.push_length] at this)⟩

/-- C20 on the queue that two calls of `push` build, for `setPriority(0, 1)`. -/
theorem setPriority_restores_heap_witness :
    ((PriorityQueue.push (PriorityQueue.push ([] : List (Entry Nat Nat)) 0 5) 1 3).map
        (fun e => e.value)).Nodup
      ∧ PriorityQueue.heap_ok (PriorityQueue.push (PriorityQueue.push ([] : List (Entry Nat Nat)) 0 5) 1 3)
      ∧ 0 ∈ (PriorityQueue.push (PriorityQueue.push ([] : List (Entry Nat Nat)) 0 5) 1 3).map
          (fun e => e.value)
      ∧ ∃ heap1,
          PriorityQueue.setPriority
              (PriorityQueue.push (PriorityQueue.push ([] : List (Entry Nat Nat)) 0 5) 1 3) 0 1
            = some heap1
          ∧ PriorityQueue.getPriority heap1 0 = some 1
          ∧ (∀ e : Entry Nat Nat, e.value ≠ 0 →
              (e ∈ heap1
                ↔ e ∈ PriorityQueue.push (PriorityQueue.push ([] : List (Entry Nat Nat)) 0 5) 1 3))
          ∧ heap1.length
              = (PriorityQueue.push (PriorityQueue.push ([] : List (Entry Nat Nat)) 0 5) 1 3).length
          ∧ (heap1.map (fun e => e.value)).Nodup
          ∧ PriorityQueue.heap_ok heap1 :=
  ⟨by decide,
    PriorityQueue.push_ok _ 1 3 (PriorityQueue.push_ok [] 0 5 PriorityQueue.heap_ok_nil),
    by decide,
    setPriority_restores_heap _ 0 1 (by decide)
      (PriorityQueue.push_ok _ 1 3 (PriorityQueue.push_ok [] 0 5 PriorityQueue.heap_ok_nil))
      (by decide)⟩

end GlobalRouting

/-! ## Pushing a value twice, a pin on the border, the order of the pins -/

namespace GlobalRouting

namespace PriorityQueue
variable {V P : Type} [LinearOrder V] [LinearOrder P]

theorem contains_iff (heap : List (Entry V P)) (value : V) :
    contains heap value = true ↔ value ∈ heap.map (fun e => e.value) := by
  unfold contains
  simp only [List.any_eq_true, decide_eq_true_eq, List.mem_map]

end PriorityQueue

namespace GlobalRoutingProblem

theorem compare_and_swap_congr {K L : Type} [LinearOrder K] [LinearOrder L] (d1 : Pin → K)
    (d2 : Pin → L) (h : ∀ a b, d1 a > d1 b ↔ d2 a > d2 b) (pins : List Pin) (m n : Nat) :
    compare_and_swap d1 pins m n = compare_and_swap d2 pins m n := by
  unfold compare_and_swap
  split
  · rename_i pin1 pin2 _ _
    exact if_congr (h pin1 pin2) rfl rfl
  · rfl

/-- The two loops depend on the distances only through their comparisons. -/
theorem exchange_loops_congr {K L : Type} [LinearOrder K] [LinearOrder L] (d1 : Pin → K)
    (d2 : Pin → L) (h : ∀ a b, d1 a > d1 b ↔ d2 a > d2 b) (pins : List Pin) :
    exchange_loops d1 pins = exchange_loops d2 pins := by
  unfold exchange_loops
  have : compare_and_swap d1 = compare_and_swap d2 := by
    funext pins m n
    exact compare_and_swap_congr d1 d2 h pins m n
  rw [this]

theorem spread_centroid : centroid spread_pins = ((4 : ℚ), (0 : ℚ), (0 : ℚ)) := by
  simp only [centroid, spread_pins, List.map_cons, List.map_nil, List.sum_cons, List.sum_nil,
    List.length_cons, List.length_nil]
  norm_num

/-- The distance of a pin from the centroid of `spread_pins`, times three. -/
theorem spread_distance (pin : Pin) :
    centroid_distance (centroid spread_pins) pin
      = (((pin.x - 4).natAbs + pin.y.natAbs + pin.layer.natAbs : Nat) : ℚ) := by
  rw [spread_centroid]
  unfold centroid_distance
  simp only [sub_zero]
  push_cast
  rw [Nat.cast_natAbs, Nat.cast_natAbs, Nat.cast_natAbs]
  push_cast
  rfl

theorem spread_order :
    order_pins spread_pins
      = exchange_loops (fun pin => (pin.x - 4).natAbs + pin.y.natAbs + pin.layer.natAbs)
          spread_pins := by
  unfold order_pins
  apply exchange_loops_congr
  intro a b
  rw [spread_distance, spread_distance]
  exact Nat.cast_lt

end GlobalRoutingProblem

/-- C21 as the code has it. `push(v, p)` tests nothing: on every queue, with
or without an entry for `v`, it returns the queue with the entry `(v, p)`
added (a permutation of the new entry and the old ones, one longer) and keeps
the heap invariant; the values of the queue are pairwise distinct after the
call exactly when they were before and `contains(v)` was false. -/
theorem push_inserts_always {V P : Type} [LinearOrder V] [LinearOrder P]
    (heap : List (Entry V P)) (value : V) (priority : P) :
    List.Perm (PriorityQueue.push heap value priority) (⟨value, priority⟩ :: heap)
      ∧ (PriorityQueue.push heap value priority).length = heap.length + 1
      ∧ (PriorityQueue.heap_ok heap → PriorityQueue.heap_ok (PriorityQueue.push heap value priority))
      ∧ (((PriorityQueue.push heap value priority).map (fun e => e.value)).Nodup
          ↔ PriorityQueue.contains heap value = false ∧ (heap.map (fun e => e.value)).Nodup) := by
  have hperm := PriorityQueue.push_perm heap value priority
  refine ⟨hperm, ?_, PriorityQueue.push_ok heap value priority, ?_⟩
  · have := hperm.length_eq
    simpa using this
  · have hv := hperm.map (fun e : Entry V P => e.value)
    rw [hv.nodup_iff, List.map_cons, List.nodup_cons, ← PriorityQueue.contains_iff]
    simp

/-- C21, the input on which the claim fails: the queue with the one entry
`(0, 5)` (value, priority) contains the value 0, and `push(0, 3)` returns the
queue with the two entries `(0, 3)` and `(0, 5)`. -/
theorem push_duplicate_value :
    PriorityQueue.contains ([⟨0, 5⟩] : List (Entry Nat Nat)) 0 = true
      ∧ (PriorityQueue.push ([⟨0, 5⟩] : List (Entry Nat Nat)) 0 3).map
          (fun e => (e.value, e.priority)) = [(0, 3), (0, 5)] := by
  decide

/-- C25 at the input where the code fails: `border_problem`, one tile of 10 by
10 with a pin at `(10, 5)` on layer 0, passes `check` and its assertions;
`tile_of_coordinate` maps the pin to the tile `(1, 0)`, outside the grid of one
tile, so the pin has no node and `connect` does not return. -/
theorem border_pin_outside_grid :
    border_problem.check = true ∧ border_problem.check_assertions
      ∧ (createGraphFromGlobalRoutingProblem border_problem).map
          (fun g => (g.dim_x, g.dim_y, g.dim_z, g.capacities)) = some (1, 1, 1, [])
      ∧ border_problem.tile_of_coordinate 10 5 = (1, 0)
      ∧ border_problem.grid.x_grids = 1
      ∧ (Connector.create border_problem border_graph).pin_node { x := 10, y := 5, layer := 0 }
          = none
      ∧ (Connector.create border_problem border_graph).connect.isNone = true := by
  decide

/-- C27 at the input where the code fails: the pins `(0,0,0)`, `(3,0,0)`,
`(9,0,0)` have the centroid `(4, 0, 0)` and the distances 4, 1 and 5 from it;
the two loops of `heuristic_optimization` leave them in the order `(9,0,0)`,
`(0,0,0)`, `(3,0,0)`, by descending distance, so that pin #0 is the pin
farthest from the centroid. -/
theorem spread_pins_farthest_first :
    GlobalRoutingProblem.centroid spread_pins = ((4 : ℚ), (0 : ℚ), (0 : ℚ))
      ∧ spread_pins.map
          (GlobalRoutingProblem.centroid_distance (GlobalRoutingProblem.centroid spread_pins))
        = [4, 1, 5]
      ∧ (GlobalRoutingProblem.order_pins spread_pins).map (fun pin => (pin.x, pin.y, pin.layer))
        = [(9, 0, 0), (0, 0, 0), (3, 0, 0)]
      ∧ spread_problem.heuristic_optimization.nets.map
          (fun net => net.pins.map (fun pin => (pin.x, pin.y, pin.layer)))
        = [[(9, 0, 0), (0, 0, 0), (3, 0, 0)]] := by
  have h3 : (GlobalRoutingProblem.order_pins spread_pins).map
      (fun pin => (pin.x, pin.y, pin.layer)) = [(9, 0, 0), (0, 0, 0), (3, 0, 0)] := by
    rw [GlobalRoutingProblem.spread_order]
    decide
  refine ⟨GlobalRoutingProblem.spread_centroid, ?_, h3, ?_⟩
  · simp only [spread_pins, List.map_cons, List.map_nil]
    rw [← show spread_pins = [{ x := 0, y := 0, layer := 0 }, { x := 3, y := 0, layer := 0 },
      { x := 9, y := 0, layer := 0 }] from rfl]
    rw [GlobalRoutingProblem.spread_distance, GlobalRoutingProblem.spread_distance,
      GlobalRoutingProblem.spread_distance]
    norm_num
  · have : spread_problem.heuristic_optimization.nets
        = [{ name := "n0", id := 0, num_pins := 3, minimum_width := 0,
             pins := GlobalRoutingProblem.order_pins spread_pins }] := rfl
    rw [this]
    simp only [List.map_cons, List.map_nil, h3]

end GlobalRouting

/-! ## What check rejects -/

namespace GlobalRouting

/-- A problem for which `check` returns true has both ends of every capacity
adjustment inside the grid. -/
theorem check_adjustments_inside (p : GlobalRoutingProblem) (h : p.check = true)
    (capAdj : CapacityAdjustment) (hmem : capAdj ∈ p.capacityAdjustments) :
    (0 ≤ capAdj.col_start ∧ capAdj.col_start < p.grid.x_grids
      ∧ 0 ≤ capAdj.row_start ∧ capAdj.row_start < p.grid.y_grids
      ∧ 0 ≤ capAdj.layer_start ∧ capAdj.layer_start < p.grid.layers)
    ∧ (0 ≤ capAdj.col_end ∧ capAdj.col_end < p.grid.x_grids
      ∧ 0 ≤ capAdj.row_end ∧ capAdj.row_end < p.grid.y_grids
      ∧ 0 ≤ capAdj.layer_end ∧ capAdj.layer_end < p.grid.layers) := by
  unfold GlobalRoutingProblem.check at h
  split_ifs at h with h1 h2 h3 h4 h5 h6
  rw [List.any_eq_true] at h6
  have hn : ¬ (capAdj.col_start < 0 ∨ capAdj.col_start ≥ p.grid.x_grids
        ∨ capAdj.row_start < 0 ∨ capAdj.row_start ≥ p.grid.y_grids
        ∨ capAdj.layer_start < 0 ∨ capAdj.layer_start ≥ p.grid.layers
        ∨ capAdj.col_end < 0 ∨ capAdj.col_end ≥ p.grid.x_grids
        ∨ capAdj.row_end < 0 ∨ capAdj.row_end ≥ p.grid.y_grids
        ∨ capAdj.layer_end < 0 ∨ capAdj.layer_end ≥ p.grid.layers) := by
    intro hc
    exact h6 ⟨capAdj, hmem, decide_eq_true hc⟩
  omega

end GlobalRouting

/-! ## The graph of a problem: one block of the loop -/

namespace GlobalRouting
namespace Graph

theorem getD_set (caps : List Int) (e e1 : Nat) (c : Int) (he : e < caps.length) :
    (caps.set e c).getD e1 0 = if e1 = e then c else caps.getD e1 0 := by
  rw [List.getD_eq_getElem?_getD, List.getD_eq_getElem?_getD, List.getElem?_set]
  by_cases h : e = e1
  · subst h
    simp [he]
  · rw [if_neg h, if_neg (fun hc => h hc.symm)]

/-- A graph is its dimensions and its capacities. -/
theorem eq_with_capacities (g g1 : Graph) (hx : g1.dim_x = g.dim_x) (hy : g1.dim_y = g.dim_y)
    (hz : g1.dim_z = g.dim_z) : g1 = { g with capacities := g1.capacities } := by
  obtain ⟨a, b, c, caps⟩ := g
  obtain ⟨a1, b1, c1, caps1⟩ := g1
  simp only at hx hy hz
  subst hx; subst hy; subst hz
  rfl

theorem caps_dim_x (g : Graph) (caps : List Int) :
    ({ g with capacities := caps } : Graph).dim_x = g.dim_x := rfl

theorem caps_dim_y (g : Graph) (caps : List Int) :
    ({ g with capacities := caps } : Graph).dim_y = g.dim_y := rfl

theorem caps_dim_z (g : Graph) (caps : List Int) :
    ({ g with capacities := caps } : Graph).dim_z = g.dim_z := rfl

theorem caps_capacities (g : Graph) (caps : List Int) :
    ({ g with capacities := caps } : Graph).capacities = caps := rfl

theorem caps_count_edges (g : Graph) (caps : List Int) :
    count_edges { g with capacities := caps } = g.count_edges := rfl

theorem caps_get_capacity (g : Graph) (caps : List Int) (e : Nat) :
    get_capacity { g with capacities := caps } e = caps.getD e 0 := rfl

theorem caps_edge_direction (g : Graph) (caps : List Int) (e : Nat) :
    get_edge_direction { g with capacities := caps } e = g.get_edge_direction e := rfl

theorem caps_layer_of_edge (g : Graph) (caps : List Int) (e : Nat) :
    layer_of_edge { g with capacities := caps } e = g.layer_of_edge e := rfl

/-- One block of the loop that sets the default capacities: it writes the
capacity of the edge of a possible direction and nothing else. -/
theorem init_capacity_spec (g : Graph) (D : Nat → Int) (W : Nat → Prop) (u : Nat)
    (d : direction) (capacity : Option Int) (caps : List Int)
    (hW : ∀ e, W e → caps.getD e 0 = D e)
    (hd : g.is_direction_possible u d = true →
      capacity = some (D (g.get_edgeindex_from_node_and_direction u d))
        ∧ g.get_edgeindex_from_node_and_direction u d < caps.length) :
    ∃ caps1, init_capacity { g with capacities := caps } u d capacity
        = some { g with capacities := caps1 }
      ∧ caps1.length = caps.length
      ∧ ∀ e, (W e ∨ (g.is_direction_possible u d = true
            ∧ e = g.get_edgeindex_from_node_and_direction u d)) → caps1.getD e 0 = D e := by
  by_cases hp : g.is_direction_possible u d = true
  · obtain ⟨hc, hlt⟩ := hd hp
    refine ⟨caps.set (g.get_edgeindex_from_node_and_direction u d)
      (D (g.get_edgeindex_from_node_and_direction u d)), ?_, by simp, ?_⟩
    · unfold init_capacity
      have : is_direction_possible { g with capacities := caps } u d = true := hp
      rw [if_pos this, hc]
      rfl
    · intro e he
      rw [getD_set _ _ _ _ hlt]
      by_cases h : e = g.get_edgeindex_from_node_and_direction u d
      · rw [if_pos h, h]
      · rw [if_neg h]
        rcases he with he | ⟨_, he⟩
        · exact hW e he
        · exact absurd he h
  · refine ⟨caps, ?_, rfl, ?_⟩
    · unfold init_capacity
      have : ¬ is_direction_possible { g with capacities := caps } u d = true := hp
      rw [if_neg this]
    · intro e he
      rcases he with he | ⟨h, _⟩
      · exact hW e he
      · exact absurd h hp

/-- The direction and the layer of the edge of a possible direction at the
node of a position. -/
theorem edge_axis_layer (g : Graph) (x y z : Nat) (hx : x < g.dim_x) (hy : y < g.dim_y)
    (hz : z < g.dim_z) (d : direction)
    (hd : g.is_direction_possible (g.get_nodeindex_from_position x y z) d = true) :
    (d = .x_plus ∨ d = .x_minus →
        g.get_edge_direction
            (g.get_edgeindex_from_node_and_direction (g.get_nodeindex_from_position x y z) d)
          = some .x_plus
        ∧ g.layer_of_edge
            (g.get_edgeindex_from_node_and_direction (g.get_nodeindex_from_position x y z) d) = z)
      ∧ (d = .y_plus ∨ d = .y_minus →
        g.get_edge_direction
            (g.get_edgeindex_from_node_and_direction (g.get_nodeindex_from_position x y z) d)
          = some .y_plus
        ∧ g.layer_of_edge
            (g.get_edgeindex_from_node_and_direction (g.get_nodeindex_from_position x y z) d) = z)
      ∧ (d = .z_plus ∨ d = .z_minus →
        g.get_edge_direction
            (g.get_edgeindex_from_node_and_direction (g.get_nodeindex_from_position x y z) d)
          = some .z_plus) := by
  rw [possible_at g x y z hy hz d] at hd
  rw [edgeindex_at g x y z hy hz d]
  have hlayer : ∀ e a b c a1 b1 c1, b < g.dim_y → c < g.dim_z →
      g.get_nodes_of_edge e
        = (g.get_nodeindex_from_position a b c, g.get_nodeindex_from_position a1 b1 c1) →
      g.layer_of_edge e = c := by
    intro e a b c a1 b1 c1 hb hc h
    unfold layer_of_edge
    rw [h]
    simp only
    rw [position_of_nodeindex g a b c hb hc]
  cases d <;> simp only [decide_eq_true_eq] at hd <;>
    refine ⟨fun h => ?_, fun h => ?_, fun h => ?_⟩ <;>
    first
    | (exfalso; rcases h with h | h <;> exact absurd h (by decide))
    | skip
  · obtain ⟨_, hxe⟩ := x_edge_index g x y z (by omega) hy hz
    exact ⟨x_edge_direction g _ x y z hxe, hlayer _ _ _ _ _ _ _ hy hz hxe.2.2.2.2⟩
  · obtain ⟨_, hxe⟩ := x_edge_index g (x - 1) y z (by omega) hy hz
    exact ⟨x_edge_direction g _ (x - 1) y z hxe, hlayer _ _ _ _ _ _ _ hy hz hxe.2.2.2.2⟩
  · obtain ⟨_, hye⟩ := y_edge_index g x y z hx (by omega) hz
    exact ⟨y_edge_direction g _ x y z hye, hlayer _ _ _ _ _ _ _ (by omega) hz hye.2.2.2.2⟩
  · obtain ⟨_, hye⟩ := y_edge_index g x (y - 1) z hx (by omega) hz
    exact ⟨y_edge_direction g _ x (y - 1) z hye, hlayer _ _ _ _ _ _ _ (by omega) hz hye.2.2.2.2⟩
  · obtain ⟨_, hze⟩ := z_edge_index g x y z hx hy (by omega)
    exact z_edge_direction g _ x y z hze
  · obtain ⟨_, hze⟩ := z_edge_index g x y (z - 1) hx hy (by omega)
    exact z_edge_direction g _ x y (z - 1) hze

end Graph
end GlobalRouting

/-! ## The graph of a problem: default capacities -/

namespace GlobalRouting

theorem default_capacity_caps (p : GlobalRoutingProblem) (g : Graph) (caps : List Int) :
    default_capacity p { g with capacities := caps } = default_capacity p g := rfl

/-- The value a block of the loop over the positions writes is the default
capacity of the edge it writes to. -/
theorem default_at (p : GlobalRoutingProblem) (g : Graph) (x y z : Nat) (hx : x < g.dim_x)
    (hy : y < g.dim_y) (hz : z < g.dim_z) (hh : p.capacity.horizontal.length = g.dim_z)
    (hv : p.capacity.vertical.length = g.dim_z) (d : direction)
    (hd : g.is_direction_possible (g.get_nodeindex_from_position x y z) d = true) :
    (match d with
      | .x_plus => p.capacity.horizontal[z]?
      | .x_minus => p.capacity.horizontal[z]?
      | .y_plus => p.capacity.vertical[z]?
      | .y_minus => p.capacity.vertical[z]?
      | .z_plus => some int_max
      | .z_minus => some int_max)
      = some (default_capacity p g
          (g.get_edgeindex_from_node_and_direction (g.get_nodeindex_from_position x y z) d)) := by
  obtain ⟨h1, h2, h3⟩ := Graph.edge_axis_layer g x y z hx hy hz d hd
  have hH : p.capacity.horizontal[z]? = some (p.capacity.horizontal.getD z 0) := by
    rw [List.getD_eq_getElem?_getD, List.getElem?_eq_getElem (by omega)]
    rfl
  have hV : p.capacity.vertical[z]? = some (p.capacity.vertical.getD z 0) := by
    rw [List.getD_eq_getElem?_getD, List.getElem?_eq_getElem (by omega)]
    rfl
  unfold default_capacity
  cases d
  · obtain ⟨a, b⟩ := h1 (Or.inl rfl)
    simp only [a, b, hH]
  · obtain ⟨a, b⟩ := h1 (Or.inr rfl)
    simp only [a, b, hH]
  · obtain ⟨a, b⟩ := h2 (Or.inl rfl)
    simp only [a, b, hV]
  · obtain ⟨a, b⟩ := h2 (Or.inr rfl)
    simp only [a, b, hV]
  · have a := h3 (Or.inl rfl)
    simp only [a]
  · have a := h3 (Or.inr rfl)
    simp only [a]

/-- The six blocks at one position write the default capacities of the edges
of its node. -/
theorem init_capacities_at_spec (p : GlobalRoutingProblem) (g : Graph)
    (hh : p.capacity.horizontal.length = g.dim_z) (hv : p.capacity.vertical.length = g.dim_z)
    (W : Nat → Prop) (caps : List Int) (hlen : caps.length = g.count_edges)
    (hW : ∀ e, W e → caps.getD e 0 = default_capacity p g e)
    (x y z : Nat) (hx : x < g.dim_x) (hy : y < g.dim_y) (hz : z < g.dim_z) :
    ∃ caps1, init_capacities_at p { g with capacities := caps } (x, y, z)
        = some { g with capacities := caps1 }
      ∧ caps1.length = g.count_edges
      ∧ ∀ e, (W e ∨ e ∈ g.get_edgeindices_from_node (g.get_nodeindex_from_position x y z)) →
          caps1.getD e 0 = default_capacity p g e := by
  have hedge : ∀ d, g.is_direction_possible (g.get_nodeindex_from_position x y z) d = true →
      g.get_edgeindex_from_node_and_direction (g.get_nodeindex_from_position x y z) d
        < g.count_edges :=
    fun d hd => (Graph.edge_of_direction g x y z hx hy hz d hd).1
  have step : ∀ (W1 : Nat → Prop) (caps1 : List Int) (d : direction) (capacity : Option Int),
      caps1.length = g.count_edges →
      (∀ e, W1 e → caps1.getD e 0 = default_capacity p g e) →
      (g.is_direction_possible (g.get_nodeindex_from_position x y z) d = true →
        capacity = some (default_capacity p g
          (g.get_edgeindex_from_node_and_direction (g.get_nodeindex_from_position x y z) d))) →
      ∃ caps2, Graph.init_capacity { g with capacities := caps1 }
          (g.get_nodeindex_from_position x y z) d capacity = some { g with capacities := caps2 }
        ∧ caps2.length = g.count_edges
        ∧ ∀ e, (W1 e ∨ (g.is_direction_possible (g.get_nodeindex_from_position x y z) d = true
            ∧ e = g.get_edgeindex_from_node_and_direction (g.get_nodeindex_from_position x y z) d))
            → caps2.getD e 0 = default_capacity p g e := by
    intro W1 caps1 d capacity hl hW1 hc
    obtain ⟨caps2, a, b, c⟩ := Graph.init_capacity_spec g (default_capacity p g) W1
      (g.get_nodeindex_from_position x y z) d capacity caps1 hW1
      (fun hd => ⟨hc hd, by rw [hl]; exact hedge d hd⟩)
    exact ⟨caps2, a, by rw [b, hl], c⟩
  obtain ⟨c1, r1, l1, w1⟩ := step W caps .x_plus p.capacity.horizontal[z]? hlen hW
    (fun hd => default_at p g x y z hx hy hz hh hv .x_plus hd)
  obtain ⟨c2, r2, l2, w2⟩ := step _ c1 .x_minus p.capacity.horizontal[z]? l1 w1
    (fun hd => default_at p g x y z hx hy hz hh hv .x_minus hd)
  obtain ⟨c3, r3, l3, w3⟩ := step _ c2 .y_plus p.capacity.vertical[z]? l2 w2
    (fun hd => default_at p g x y z hx hy hz hh hv .y_plus hd)
  obtain ⟨c4, r4, l4, w4⟩ := step _ c3 .y_minus p.capacity.vertical[z]? l3 w3
    (fun hd => default_at p g x y z hx hy hz hh hv .y_minus hd)
  obtain ⟨c5, r5, l5, w5⟩ := step _ c4 .z_plus (some int_max) l4 w4
    (fun hd => default_at p g x y z hx hy hz hh hv .z_plus hd)
  obtain ⟨c6, r6, l6, w6⟩ := step _ c5 .z_minus (some int_max) l5 w5
    (fun hd => default_at p g x y z hx hy hz hh hv .z_minus hd)
  refine ⟨c6, ?_, l6, ?_⟩
  · have hunf : init_capacities_at p { g with capacities := caps } (x, y, z)
        = (Graph.init_capacity { g with capacities := caps }
            (g.get_nodeindex_from_position x y z) .x_plus p.capacity.horizontal[z]?).bind
          (fun g1 => (g1.init_capacity (g.get_nodeindex_from_position x y z) .x_minus
              p.capacity.horizontal[z]?).bind
            (fun g2 => (g2.init_capacity (g.get_nodeindex_from_position x y z) .y_plus
                p.capacity.vertical[z]?).bind
              (fun g3 => (g3.init_capacity (g.get_nodeindex_from_position x y z) .y_minus
                  p.capacity.vertical[z]?).bind
                (fun g4 => (g4.init_capacity (g.get_nodeindex_from_position x y z) .z_plus
                    (some int_max)).bind
                  (fun g5 => g5.init_capacity (g.get_nodeindex_from_position x y z) .z_minus
                    (some int_max)))))) := rfl
    rw [hunf, r1, Option.some_bind, r2, Option.some_bind, r3, Option.some_bind, r4,
      Option.some_bind, r5, Option.some_bind, r6]
  · intro e he
    apply w6
    rcases he with he | he
    · exact Or.inl (Or.inl (Or.inl (Or.inl (Or.inl (Or.inl he)))))
    · obtain ⟨d, hd, hde⟩ := (Graph.mem_edgeindices g _ e).1 he
      cases d
      · exact Or.inl (Or.inl (Or.inl (Or.inl (Or.inl (Or.inr ⟨hd, hde.symm⟩)))))
      · exact Or.inl (Or.inl (Or.inl (Or.inl (Or.inr ⟨hd, hde.symm⟩))))
      · exact Or.inl (Or.inl (Or.inl (Or.inr ⟨hd, hde.symm⟩)))
      · exact Or.inl (Or.inl (Or.inr ⟨hd, hde.symm⟩))
      · exact Or.inl (Or.inr ⟨hd, hde.symm⟩)
      · exact Or.inr ⟨hd, hde.symm⟩

/-- The loop over the positions writes the default capacities of the edges of
all their nodes. -/
theorem init_capacities_spec (p : GlobalRoutingProblem) (g : Graph)
    (hh : p.capacity.horizontal.length = g.dim_z) (hv : p.capacity.vertical.length = g.dim_z)
    (L : List (Nat × Nat × Nat)) :
    ∀ (W : Nat → Prop) (caps : List Int), caps.length = g.count_edges →
      (∀ e, W e → caps.getD e 0 = default_capacity p g e) →
      (∀ pos ∈ L, pos.1 < g.dim_x ∧ pos.2.1 < g.dim_y ∧ pos.2.2 < g.dim_z) →
      ∃ caps1, init_capacities p { g with capacities := caps } L
          = some { g with capacities := caps1 }
        ∧ caps1.length = g.count_edges
        ∧ ∀ e, (W e ∨ ∃ pos ∈ L, e ∈ g.get_edgeindices_from_node
              (g.get_nodeindex_from_position pos.1 pos.2.1 pos.2.2)) →
            caps1.getD e 0 = default_capacity p g e := by
  induction L with
  | nil =>
    intro W caps hlen hW _
    refine ⟨caps, rfl, hlen, ?_⟩
    intro e he
    rcases he with he | ⟨pos, hpos, _⟩
    · exact hW e he
    · simp at hpos
  | cons pos L ih =>
    intro W caps hlen hW hL
    obtain ⟨x, y, z⟩ := pos
    obtain ⟨hx, hy, hz⟩ := hL (x, y, z) (List.mem_cons_self _ _)
    obtain ⟨caps1, r1, l1, w1⟩ :=
      init_capacities_at_spec p g hh hv W caps hlen hW x y z hx hy hz
    obtain ⟨caps2, r2, l2, w2⟩ := ih _ caps1 l1 w1 (fun q hq => hL q (List.mem_cons_of_mem _ hq))
    refine ⟨caps2, ?_, l2, ?_⟩
    · unfold init_capacities
      rw [r1]
      exact r2
    · intro e he
      apply w2
      rcases he with he | ⟨q, hq, he⟩
      · exact Or.inl (Or.inl he)
      · rcases List.mem_cons.1 hq with rfl | hq
        · exact Or.inl (Or.inr he)
        · exact Or.inr ⟨q, hq, he⟩

theorem mem_grid_positions (nx ny nz : Nat) (pos : Nat × Nat × Nat) :
    pos ∈ Graph.grid_positions nx ny nz ↔ pos.1 < nx ∧ pos.2.1 < ny ∧ pos.2.2 < nz := by
  obtain ⟨x, y, z⟩ := pos
  unfold Graph.grid_positions
  simp only [List.mem_flatMap, List.mem_range, List.mem_map, Prod.mk.injEq]
  constructor
  · rintro ⟨a, ha, b, hb, c, hc, rfl, rfl, rfl⟩
    exact ⟨ha, hb, hc⟩
  · rintro ⟨ha, hb, hc⟩
    exact ⟨x, ha, y, hb, z, hc, rfl, rfl, rfl⟩

theorem create_wf (a b c : Nat) (ha : 1 ≤ a) (hb : 1 ≤ b) (hc : 1 ≤ c) : (Graph.create a b c).wf := by
  unfold Graph.wf Graph.create Graph.count_edges
  simp only [List.length_replicate]
  exact ⟨ha, hb, hc, trivial⟩

/-- The three loops over the positions of a graph fresh from its constructor
give every edge its default capacity. -/
theorem init_default (p : GlobalRoutingProblem) (a b c : Nat) (ha : 1 ≤ a) (hb : 1 ≤ b)
    (hc : 1 ≤ c) (hh : p.capacity.horizontal.length = c) (hv : p.capacity.vertical.length = c) :
    ∃ caps1, init_capacities p (Graph.create a b c) (Graph.grid_positions a b c)
        = some { Graph.create a b c with capacities := caps1 }
      ∧ caps1.length = (Graph.create a b c).count_edges
      ∧ ∀ e, e < (Graph.create a b c).count_edges →
          caps1.getD e 0 = default_capacity p (Graph.create a b c) e := by
  have hg := create_wf a b c ha hb hc
  obtain ⟨caps1, r, l, w⟩ := init_capacities_spec p (Graph.create a b c) hh hv
    (Graph.grid_positions a b c) (fun _ => False) (Graph.create a b c).capacities hg.2.2.2
    (fun e he => absurd he id)
    (fun pos hpos => (mem_grid_positions a b c pos).1 hpos)
  refine ⟨caps1, r, l, ?_⟩
  intro e he
  apply w
  right
  obtain ⟨h1, _⟩ := Graph.edge_mem_edgeindices _ hg e he
  obtain ⟨n1, _, _⟩ := Graph.nodes_of_edge_lt _ hg e he
  obtain ⟨p1, p2, p3⟩ := Graph.position_lt _ hg _ n1
  refine ⟨(Graph.create a b c).get_position_from_nodeindex
    ((Graph.create a b c).get_nodes_of_edge e).1, (mem_grid_positions a b c _).2 ⟨p1, p2, p3⟩, ?_⟩
  rw [Graph.nodeindex_of_position]
  exact h1

end GlobalRouting

/-! ## The graph of a problem: capacity adjustments -/

namespace GlobalRouting

theorem adjusted_from_cons (g : Graph) (capAdj : CapacityAdjustment)
    (rest : List CapacityAdjustment) (capacity : Int) (e : Nat) :
    adjusted_from g (capAdj :: rest) capacity e
      = adjusted_from g rest
          (if capAdj.edge g = some e then capAdj.adjusted_capacity else capacity) e := rfl

namespace CapacityAdjustment

theorem edge_caps (capAdj : CapacityAdjustment) (g : Graph) (caps : List Int) :
    capAdj.edge { g with capacities := caps } = capAdj.edge g := rfl

/-- The nodes of the two ends of an adjustment inside the grid, and their
positions. -/
theorem inside_nodes (capAdj : CapacityAdjustment) (g : Graph) (h : capAdj.inside g) :
    g.get_nodeindex_from_position capAdj.col_start.toNat capAdj.row_start.toNat
        capAdj.layer_start.toNat < g.count_nodes
      ∧ g.get_nodeindex_from_position capAdj.col_end.toNat capAdj.row_end.toNat
        capAdj.layer_end.toNat < g.count_nodes
      ∧ g.get_position_from_nodeindex
          (g.get_nodeindex_from_position capAdj.col_start.toNat capAdj.row_start.toNat
            capAdj.layer_start.toNat) = capAdj.start_position
      ∧ g.get_position_from_nodeindex
          (g.get_nodeindex_from_position capAdj.col_end.toNat capAdj.row_end.toNat
            capAdj.layer_end.toNat) = capAdj.end_position := by
  obtain ⟨a1, a2, b1, b2, c1, c2, d1, d2, e1, e2, f1, f2⟩ := h
  have ha : capAdj.col_start.toNat < g.dim_x := by omega
  have hb : capAdj.row_start.toNat < g.dim_y := by omega
  have hc : capAdj.layer_start.toNat < g.dim_z := by omega
  have hd : capAdj.col_end.toNat < g.dim_x := by omega
  have he : capAdj.row_end.toNat < g.dim_y := by omega
  have hf : capAdj.layer_end.toNat < g.dim_z := by omega
  exact ⟨Graph.nodeindex_lt g _ _ _ ha hb hc, Graph.nodeindex_lt g _ _ _ hd he hf,
    Graph.position_of_nodeindex g _ _ _ hb hc, Graph.position_of_nodeindex g _ _ _ he hf⟩

/-- An adjustment inside the grid names an edge exactly when its two ends are
adjacent; the edge is then an edge of the graph that joins the two nodes. -/
theorem edge_iff_adjacent (capAdj : CapacityAdjustment) (g : Graph) (hg : g.wf)
    (h : capAdj.inside g) :
    ((∃ e, capAdj.edge g = some e)
        ↔ Graph.adjacent_positions capAdj.start_position capAdj.end_position)
      ∧ ∀ e, capAdj.edge g = some e → e < g.count_edges := by
  obtain ⟨n1, n2, p1, p2⟩ := inside_nodes capAdj g h
  by_cases hadj : Graph.adjacent_positions capAdj.start_position capAdj.end_position
  · have hadj1 := hadj
    rw [← p1, ← p2] at hadj1
    obtain ⟨e, he, hlt, _⟩ := Graph.edgeindex_from_nodes_some g hg _ _ n1 n2 hadj1
    refine ⟨⟨fun _ => hadj, fun _ => ⟨e, he⟩⟩, ?_⟩
    intro e1 he1
    unfold edge at he1
    rw [he] at he1
    rw [← Option.some.inj he1]
    exact hlt
  · have hnone : capAdj.edge g = none := by
      apply Graph.edgeindex_from_nodes_none
      rw [p1, p2]
      exact hadj
    refine ⟨⟨fun ⟨e, he⟩ => ?_, fun h1 => absurd h1 hadj⟩, ?_⟩
    · rw [hnone] at he
      exact absurd he (by simp)
    · intro e he
      rw [hnone] at he
      exact absurd he (by simp)

end CapacityAdjustment

/-- What the body of the loop over the adjustments does to the capacities. -/
theorem apply_adjustment_iff (g : Graph) (hg : g.wf) (caps : List Int)
    (hlen : caps.length = g.count_edges) (capAdj : CapacityAdjustment) (g1 : Graph) :
    apply_adjustment { g with capacities := caps } capAdj = some g1
      ↔ capAdj.inside g ∧ ∃ e, capAdj.edge g = some e
          ∧ capAdj.adjusted_capacity ≤ caps.getD e 0
          ∧ g1 = { g with capacities := caps.set e capAdj.adjusted_capacity } := by
  have hin : (0 ≤ capAdj.col_start
      ∧ capAdj.col_start < (({ g with capacities := caps } : Graph).dim_x : Int)
      ∧ 0 ≤ capAdj.row_start
      ∧ capAdj.row_start < (({ g with capacities := caps } : Graph).dim_y : Int)
      ∧ 0 ≤ capAdj.layer_start
      ∧ capAdj.layer_start < (({ g with capacities := caps } : Graph).dim_z : Int)
      ∧ 0 ≤ capAdj.col_end
      ∧ capAdj.col_end < (({ g with capacities := caps } : Graph).dim_x : Int)
      ∧ 0 ≤ capAdj.row_end
      ∧ capAdj.row_end < (({ g with capacities := caps } : Graph).dim_y : Int)
      ∧ 0 ≤ capAdj.layer_end
      ∧ capAdj.layer_end < (({ g with capacities := caps } : Graph).dim_z : Int))
      ↔ capAdj.inside g := Iff.rfl
  unfold apply_adjustment
  by_cases hi : capAdj.inside g
  · rw [if_pos (hin.2 hi)]
    obtain ⟨n1, n2, p1, p2⟩ := CapacityAdjustment.inside_nodes capAdj g hi
    obtain ⟨_, hedge⟩ := CapacityAdjustment.edge_iff_adjacent capAdj g hg hi
    simp only
    have hn : Graph.get_nodeindex_from_position { g with capacities := caps }
          capAdj.col_start.toNat capAdj.row_start.toNat capAdj.layer_start.toNat
            < Graph.count_nodes { g with capacities := caps }
        ∧ Graph.get_nodeindex_from_position { g with capacities := caps }
          capAdj.col_end.toNat capAdj.row_end.toNat capAdj.layer_end.toNat
            < Graph.count_nodes { g with capacities := caps } := ⟨n1, n2⟩
    rw [if_pos hn]
    have hedge_eq : Graph.get_edgeindex_from_nodes { g with capacities := caps }
        (Graph.get_nodeindex_from_position { g with capacities := caps }
          capAdj.col_start.toNat capAdj.row_start.toNat capAdj.layer_start.toNat)
        (Graph.get_nodeindex_from_position { g with capacities := caps }
          capAdj.col_end.toNat capAdj.row_end.toNat capAdj.layer_end.toNat)
        = capAdj.edge g := rfl
    rw [hedge_eq]
    cases he : capAdj.edge g with
    | none =>
      simp only
      constructor
      · intro h
        exact absurd h (by simp)
      · rintro ⟨_, e, h, _⟩
        exact absurd h (by simp)
    | some e =>
      simp only
      have hlt := hedge e he
      by_cases hle : capAdj.adjusted_capacity ≤ caps.getD e 0
      · have hcond : e < Graph.count_edges { g with capacities := caps }
            ∧ e < ({ g with capacities := caps } : Graph).capacities.length
            ∧ capAdj.adjusted_capacity ≤ Graph.get_capacity { g with capacities := caps } e
            ∧ Graph.get_position_from_nodeindex { g with capacities := caps }
                (Graph.get_nodeindex_from_position { g with capacities := caps }
                  capAdj.col_start.toNat capAdj.row_start.toNat capAdj.layer_start.toNat)
                = (capAdj.col_start.toNat, capAdj.row_start.toNat, capAdj.layer_start.toNat)
            ∧ Graph.get_position_from_nodeindex { g with capacities := caps }
                (Graph.get_nodeindex_from_position { g with capacities := caps }
                  capAdj.col_end.toNat capAdj.row_end.toNat capAdj.layer_end.toNat)
                = (capAdj.col_end.toNat, capAdj.row_end.toNat, capAdj.layer_end.toNat) :=
          ⟨hlt, by rw [← hlen] at hlt; exact hlt, hle, p1, p2⟩
        rw [if_pos hcond]
        constructor
        · intro h
          exact ⟨hi, e, rfl, hle, (Option.some.inj h).symm⟩
        · rintro ⟨_, e1, h1, _, h2⟩
          rw [← Option.some.inj h1] at h2
          rw [h2]
          rfl
      · have hcond : ¬ (e < Graph.count_edges { g with capacities := caps }
            ∧ e < ({ g with capacities := caps } : Graph).capacities.length
            ∧ capAdj.adjusted_capacity ≤ Graph.get_capacity { g with capacities := caps } e
            ∧ Graph.get_position_from_nodeindex { g with capacities := caps }
                (Graph.get_nodeindex_from_position { g with capacities := caps }
                  capAdj.col_start.toNat capAdj.row_start.toNat capAdj.layer_start.toNat)
                = (capAdj.col_start.toNat, capAdj.row_start.toNat, capAdj.layer_start.toNat)
            ∧ Graph.get_position_from_nodeindex { g with capacities := caps }
                (Graph.get_nodeindex_from_position { g with capacities := caps }
                  capAdj.col_end.toNat capAdj.row_end.toNat capAdj.layer_end.toNat)
                = (capAdj.col_end.toNat, capAdj.row_end.toNat, capAdj.layer_end.toNat)) :=
          fun h => hle h.2.2.1
        rw [if_neg hcond]
        constructor
        · intro h
          exact absurd h (by simp)
        · rintro ⟨_, e1, h1, h2, _⟩
          rw [← Option.some.inj h1] at h2
          exact absurd h2 hle
  · rw [if_neg (fun h => hi (hin.1 h))]
    constructor
    · intro h
      exact absurd h (by simp)
    · rintro ⟨h, _⟩
      exact absurd h hi

/-- The loop over the adjustments: what it returns, and when it returns. -/
theorem apply_adjustments_spec (g : Graph) (hg : g.wf) (adjs : List CapacityAdjustment) :
    ∀ (caps : List Int), caps.length = g.count_edges →
      (∀ g1, apply_adjustments { g with capacities := caps } adjs = some g1 →
        ∃ caps1, g1 = { g with capacities := caps1 } ∧ caps1.length = g.count_edges
          ∧ ∀ e, caps1.getD e 0 = adjusted_from g adjs (caps.getD e 0) e)
      ∧ ((∃ g1, apply_adjustments { g with capacities := caps } adjs = some g1)
          ↔ ∀ i capAdj, adjs[i]? = some capAdj →
              capAdj.inside g ∧ ∃ e, capAdj.edge g = some e
                ∧ capAdj.adjusted_capacity
                    ≤ adjusted_from g (adjs.take i) (caps.getD e 0) e) := by
  induction adjs with
  | nil =>
    intro caps hlen
    refine ⟨?_, ?_⟩
    · intro g1 h
      refine ⟨caps, (Option.some.inj h).symm, hlen, fun e => rfl⟩
    · refine ⟨fun _ i capAdj h => ?_, fun _ => ⟨_, rfl⟩⟩
      simp at h
  | cons a rest ih =>
    intro caps hlen
    have hstep : ∀ e0, a.edge g = some e0 → e0 < g.count_edges →
        ∀ e, (caps.set e0 a.adjusted_capacity).getD e 0
          = (if a.edge g = some e then a.adjusted_capacity else caps.getD e 0) := by
      intro e0 he0 hlt e
      rw [Graph.getD_set _ _ _ _ (by rw [hlen]; exact hlt), he0]
      by_cases h : e = e0
      · rw [if_pos h, if_pos (by rw [h])]
      · rw [if_neg h, if_neg (fun hc => h (Option.some.inj hc).symm)]
    refine ⟨?_, ?_⟩
    · intro g1 h
      unfold apply_adjustments at h
      cases h1 : apply_adjustment { g with capacities := caps } a with
      | none =>
        rw [h1] at h
        exact absurd h (by simp)
      | some g2 =>
        rw [h1] at h
        simp only at h
        obtain ⟨hi, e0, he0, hle, hg2⟩ := (apply_adjustment_iff g hg caps hlen a g2).1 h1
        have hlt := (CapacityAdjustment.edge_iff_adjacent a g hg hi).2 e0 he0
        rw [hg2] at h
        obtain ⟨caps1, r1, l1, w1⟩ := (ih (caps.set e0 a.adjusted_capacity)
          (by rw [List.length_set]; exact hlen)).1 g1 h
        refine ⟨caps1, r1, l1, ?_⟩
        intro e
        rw [w1 e, adjusted_from_cons, hstep e0 he0 hlt e]
    · constructor
      · rintro ⟨g1, h⟩
        unfold apply_adjustments at h
        cases h1 : apply_adjustment { g with capacities := caps } a with
        | none =>
          rw [h1] at h
          exact absurd h (by simp)
        | some g2 =>
          rw [h1] at h
          simp only at h
          obtain ⟨hi, e0, he0, hle, hg2⟩ := (apply_adjustment_iff g hg caps hlen a g2).1 h1
          have hlt := (CapacityAdjustment.edge_iff_adjacent a g hg hi).2 e0 he0
          rw [hg2] at h
          have hrest := (ih (caps.set e0 a.adjusted_capacity)
            (by rw [List.length_set]; exact hlen)).2.1 ⟨g1, h⟩
          intro i capAdj hget
          cases i with
          | zero =>
            simp only [List.getElem?_cons_zero, Option.some.injEq] at hget
            subst hget
            exact ⟨hi, e0, he0, hle⟩
          | succ i =>
            simp only [List.getElem?_cons_succ] at hget
            obtain ⟨hi1, e1, he1, hle1⟩ := hrest i capAdj hget
            refine ⟨hi1, e1, he1, ?_⟩
            rw [List.take_succ_cons, adjusted_from_cons, ← hstep e0 he0 hlt e1]
            exact hle1
      · intro hall
        obtain ⟨hi, e0, he0, hle⟩ := hall 0 a (List.getElem?_cons_zero)
        have hlt := (CapacityAdjustment.edge_iff_adjacent a g hg hi).2 e0 he0
        have h1 : apply_adjustment { g with capacities := caps } a
            = some { g with capacities := caps.set e0 a.adjusted_capacity } :=
          (apply_adjustment_iff g hg caps hlen a _).2 ⟨hi, e0, he0, hle, rfl⟩
        have hrest : ∃ g1, apply_adjustments
            { g with capacities := caps.set e0 a.adjusted_capacity } rest = some g1 := by
          apply (ih (caps.set e0 a.adjusted_capacity)
            (by rw [List.length_set]; exact hlen)).2.2
          intro i capAdj hget
          obtain ⟨hi1, e1, he1, hle1⟩ := hall (i + 1) capAdj
            (by simpa only [List.getElem?_cons_succ] using hget)
          refine ⟨hi1, e1, he1, ?_⟩
          rw [List.take_succ_cons, adjusted_from_cons, ← hstep e0 he0 hlt e1] at hle1
          exact hle1
        obtain ⟨g1, hg1⟩ := hrest
        refine ⟨g1, ?_⟩
        unfold apply_adjustments
        rw [h1]
        exact hg1

end GlobalRouting

/-! ## The graph of a problem: what the function returns -/

namespace GlobalRouting

theorem adjusted_from_not_named (g : Graph) (adjs : List CapacityAdjustment) (e : Nat) :
    ∀ (capacity : Int), (∀ capAdj ∈ adjs, capAdj.edge g ≠ some e) →
      adjusted_from g adjs capacity e = capacity := by
  induction adjs with
  | nil => intro c _; rfl
  | cons a rest ih =>
    intro c h
    rw [adjusted_from_cons, if_neg (h a (List.mem_cons_self _ _))]
    exact ih c (fun b hb => h b (List.mem_cons_of_mem _ hb))

theorem adjusted_from_append (g : Graph) (l1 l2 : List CapacityAdjustment) (capacity : Int)
    (e : Nat) :
    adjusted_from g (l1 ++ l2) capacity e = adjusted_from g l2 (adjusted_from g l1 capacity e) e := by
  unfold adjusted_from
  rw [List.foldl_append]

/-- The adjustment that names an edge last decides its capacity. -/
theorem adjusted_from_last (g : Graph) (l1 l2 : List CapacityAdjustment)
    (capAdj : CapacityAdjustment) (capacity : Int) (e : Nat) (he : capAdj.edge g = some e)
    (hl2 : ∀ b ∈ l2, b.edge g ≠ some e) :
    adjusted_from g (l1 ++ capAdj :: l2) capacity e = capAdj.adjusted_capacity := by
  rw [adjusted_from_append, adjusted_from_cons, if_pos he]
  exact adjusted_from_not_named g l2 e _ hl2

theorem adjusted_from_nonneg (g : Graph) (adjs : List CapacityAdjustment) (e : Nat) :
    ∀ (capacity : Int), 0 ≤ capacity → (∀ capAdj ∈ adjs, 0 ≤ capAdj.adjusted_capacity) →
      0 ≤ adjusted_from g adjs capacity e := by
  induction adjs with
  | nil => intro c hc _; exact hc
  | cons a rest ih =>
    intro c hc h
    rw [adjusted_from_cons]
    apply ih
    · split
      · exact h a (List.mem_cons_self _ _)
      · exact hc
    · exact fun b hb => h b (List.mem_cons_of_mem _ hb)

theorem getD_nonneg (l : List Int) (h : ∀ x ∈ l, x ≥ 0) (z : Nat) : 0 ≤ l.getD z 0 := by
  by_cases hz : z < l.length
  · rw [List.getD_eq_getElem _ _ hz]
    exact h _ (List.getElem_mem _)
  · rw [List.getD_eq_default _ _ (by omega)]

theorem default_capacity_nonneg (p : GlobalRoutingProblem) (h : p.check_assertions) (g : Graph)
    (e : Nat) : 0 ≤ default_capacity p g e := by
  unfold default_capacity
  split
  · exact getD_nonneg _ h.2.1 _
  · exact getD_nonneg _ h.1 _
  · decide

/-- What `createGraphFromGlobalRoutingProblem` returns for a problem that
`check` accepts, and when it returns: `g0` is the graph fresh from the
constructor. -/
theorem createGraph_spec (p : GlobalRoutingProblem) (hcheck : p.check = true) (g0 : Graph)
    (hg0 : g0 = Graph.create p.grid.x_grids.toNat p.grid.y_grids.toNat p.grid.layers.toNat) :
    g0.wf ∧ (g0.dim_x : Int) = p.grid.x_grids ∧ (g0.dim_y : Int) = p.grid.y_grids
      ∧ (g0.dim_z : Int) = p.grid.layers
      ∧ (∀ g, createGraphFromGlobalRoutingProblem p = some g →
          ∃ caps, g = { g0 with capacities := caps } ∧ caps.length = g0.count_edges
            ∧ ∀ e, e < g0.count_edges →
                caps.getD e 0 = adjusted_capacity p g0 p.capacityAdjustments e
                  ∧ 0 ≤ caps.getD e 0)
      ∧ ((∃ g, createGraphFromGlobalRoutingProblem p = some g)
          ↔ (∀ i capAdj, p.capacityAdjustments[i]? = some capAdj →
                capAdj.inside g0 ∧ ∃ e, capAdj.edge g0 = some e
                  ∧ capAdj.adjusted_capacity
                      ≤ adjusted_capacity p g0 (p.capacityAdjustments.take i) e)
            ∧ ∀ e, e < g0.count_edges →
                0 ≤ adjusted_capacity p g0 p.capacityAdjustments e) := by
  obtain ⟨hx, hy, hz, hv, hh, _⟩ := GlobalRoutingProblem.check_true p hcheck
  have ha : 1 ≤ p.grid.x_grids.toNat := by omega
  have hb : 1 ≤ p.grid.y_grids.toNat := by omega
  have hc : 1 ≤ p.grid.layers.toNat := by omega
  have hg : g0.wf := by rw [hg0]; exact create_wf _ _ _ ha hb hc
  have hdx : (g0.dim_x : Int) = p.grid.x_grids := by
    rw [hg0]; show ((p.grid.x_grids.toNat : Nat) : Int) = _; omega
  have hdy : (g0.dim_y : Int) = p.grid.y_grids := by
    rw [hg0]; show ((p.grid.y_grids.toNat : Nat) : Int) = _; omega
  have hdz : (g0.dim_z : Int) = p.grid.layers := by
    rw [hg0]; show ((p.grid.layers.toNat : Nat) : Int) = _; omega
  obtain ⟨caps1, r1, l1, w1⟩ := init_default p p.grid.x_grids.toNat p.grid.y_grids.toNat
    p.grid.layers.toNat ha hb hc (by omega) (by omega)
  rw [← hg0] at r1 l1 w1
  obtain ⟨s1, s2⟩ := apply_adjustments_spec g0 hg p.capacityAdjustments caps1 l1
  have hdims : 1 ≤ p.grid.x_grids ∧ 1 ≤ p.grid.y_grids ∧ 1 ≤ p.grid.layers := by omega
  have hrun : createGraphFromGlobalRoutingProblem p =
      match apply_adjustments { g0 with capacities := caps1 } p.capacityAdjustments with
      | none => none
      | some graph =>
        if (List.range graph.count_edges).all (fun e => decide (graph.get_capacity e ≥ 0)) then
          some graph
        else none := by
    unfold createGraphFromGlobalRoutingProblem
    rw [if_pos hdims, ← hg0]
    rw [r1]
    try rfl
  have hall : ∀ caps : List Int,
      (List.range (Graph.count_edges { g0 with capacities := caps })).all
          (fun e => decide (Graph.get_capacity { g0 with capacities := caps } e ≥ 0)) = true
        ↔ ∀ e, e < g0.count_edges → 0 ≤ caps.getD e 0 := by
    intro caps
    rw [List.all_eq_true]
    constructor
    · intro h e he
      have := h e (List.mem_range.2 he)
      simpa [Graph.get_capacity] using this
    · intro h e he
      have := h e (List.mem_range.1 he)
      simpa [Graph.get_capacity] using this
  have hadj : ∀ (l : List CapacityAdjustment) e, e < g0.count_edges →
      adjusted_from g0 l (caps1.getD e 0) e = adjusted_capacity p g0 l e := by
    intro l e he
    unfold adjusted_capacity
    rw [w1 e he]
  have hcond : (∀ i capAdj, p.capacityAdjustments[i]? = some capAdj →
        capAdj.inside g0 ∧ ∃ e, capAdj.edge g0 = some e
          ∧ capAdj.adjusted_capacity
              ≤ adjusted_from g0 (p.capacityAdjustments.take i) (caps1.getD e 0) e)
      ↔ (∀ i capAdj, p.capacityAdjustments[i]? = some capAdj →
        capAdj.inside g0 ∧ ∃ e, capAdj.edge g0 = some e
          ∧ capAdj.adjusted_capacity
              ≤ adjusted_capacity p g0 (p.capacityAdjustments.take i) e) := by
    constructor
    · intro h i capAdj hget
      obtain ⟨a, e, b, c⟩ := h i capAdj hget
      refine ⟨a, e, b, ?_⟩
      rw [← hadj _ e ((CapacityAdjustment.edge_iff_adjacent capAdj g0 hg a).2 e b)]
      exact c
    · intro h i capAdj hget
      obtain ⟨a, e, b, c⟩ := h i capAdj hget
      refine ⟨a, e, b, ?_⟩
      rw [hadj _ e ((CapacityAdjustment.edge_iff_adjacent capAdj g0 hg a).2 e b)]
      exact c
  refine ⟨hg, hdx, hdy, hdz, ?_, ?_⟩
  · intro g hrun1
    rw [hrun] at hrun1
    cases h2 : apply_adjustments { g0 with capacities := caps1 } p.capacityAdjustments with
    | none =>
      rw [h2] at hrun1
      exact absurd hrun1 (by simp)
    | some g2 =>
      rw [h2] at hrun1
      simp only at hrun1
      obtain ⟨caps2, e2, l2, w2⟩ := s1 g2 h2
      subst e2
      split at hrun1
      · rename_i hok
        refine ⟨caps2, (Option.some.inj hrun1).symm, l2, ?_⟩
        intro e he
        refine ⟨by rw [w2 e, hadj _ e he], ((hall caps2).1 hok) e he⟩
      · exact absurd hrun1 (by simp)
  · constructor
    · rintro ⟨g, hrun1⟩
      rw [hrun] at hrun1
      cases h2 : apply_adjustments { g0 with capacities := caps1 } p.capacityAdjustments with
      | none =>
        rw [h2] at hrun1
        exact absurd hrun1 (by simp)
      | some g2 =>
        rw [h2] at hrun1
        simp only at hrun1
        obtain ⟨caps2, e2, l2, w2⟩ := s1 g2 h2
        subst e2
        refine ⟨hcond.1 (s2.1 ⟨_, h2⟩), ?_⟩
        split at hrun1
        · rename_i hok
          intro e he
          rw [← hadj _ e he, ← w2 e]
          exact ((hall caps2).1 hok) e he
        · exact absurd hrun1 (by simp)
    · rintro ⟨h1, h2⟩
      obtain ⟨g2, hg2⟩ := s2.2 (hcond.2 h1)
      obtain ⟨caps2, e2, l2, w2⟩ := s1 g2 hg2
      subst e2
      refine ⟨{ g0 with capacities := caps2 }, ?_⟩
      rw [hrun, hg2]
      simp only
      rw [if_pos]
      apply (hall caps2).2
      intro e he
      rw [w2 e, hadj _ e he]
      exact h2 e he

end GlobalRouting

/-! ## Default capacities and adjustments -/

namespace GlobalRouting

theorem layer_of_edge_lt (g : Graph) (hg : g.wf) (e : Nat) (he : e < g.count_edges) :
    g.layer_of_edge e < g.dim_z := by
  obtain ⟨n1, _, _⟩ := Graph.nodes_of_edge_lt g hg e he
  exact (Graph.position_lt g hg _ n1).2.2

theorem getElem?_of_getD (l : List Int) (z : Nat) (hz : z < l.length) :
    l[z]? = some (l.getD z 0) := by
  rw [List.getD_eq_getElem?_getD, List.getElem?_eq_getElem hz]
  rfl

/-- C22. For every problem that `check` accepts (it returns true and its
assertions hold) and that has no capacity adjustments,
`createGraphFromGlobalRoutingProblem` returns a graph with the dimensions
`(Nx, Ny, Nz)` and one capacity for each edge, in which every X-axis edge on
layer `z` has the capacity `horizontal[z]`, every Y-axis edge on layer `z` the
capacity `vertical[z]`, and every Z-axis edge the largest `int`; every edge is
of one of the three kinds. -/
theorem default_capacities (p : GlobalRoutingProblem) (hcheck : p.check = true)
    (hassert : p.check_assertions) (hnone : p.capacityAdjustments = []) :
    ∃ g, createGraphFromGlobalRoutingProblem p = some g
      ∧ (g.dim_x : Int) = p.grid.x_grids ∧ (g.dim_y : Int) = p.grid.y_grids
      ∧ (g.dim_z : Int) = p.grid.layers
      ∧ g.capacities.length = g.count_edges
      ∧ ∀ e, e < g.count_edges →
          (g.get_edge_direction e = some .x_plus →
            p.capacity.horizontal[g.layer_of_edge e]? = some (g.get_capacity e))
          ∧ (g.get_edge_direction e = some .y_plus →
            p.capacity.vertical[g.layer_of_edge e]? = some (g.get_capacity e))
          ∧ (g.get_edge_direction e = some .z_plus → g.get_capacity e = int_max)
          ∧ (g.get_edge_direction e = some .x_plus ∨ g.get_edge_direction e = some .y_plus
              ∨ g.get_edge_direction e = some .z_plus) := by
  obtain ⟨g0, hg0⟩ : ∃ g0, g0 = Graph.create p.grid.x_grids.toNat p.grid.y_grids.toNat
      p.grid.layers.toNat := ⟨_, rfl⟩
  obtain ⟨hg, hdx, hdy, hdz, hret, hiff⟩ := createGraph_spec p hcheck g0 hg0
  obtain ⟨_, _, _, hv, hh, _⟩ := GlobalRoutingProblem.check_true p hcheck
  have hex : ∃ g, createGraphFromGlobalRoutingProblem p = some g := by
    apply hiff.2
    rw [hnone]
    refine ⟨fun i capAdj h => ?_, fun e _ => default_capacity_nonneg p hassert _ e⟩
    simp at h
  obtain ⟨g, hrun⟩ := hex
  obtain ⟨caps, hgc, hlen, hcap⟩ := hret g hrun
  subst hgc
  refine ⟨_, hrun, ?_, ?_, ?_, ?_, ?_⟩
  · rw [Graph.caps_dim_x]; exact hdx
  · rw [Graph.caps_dim_y]; exact hdy
  · rw [Graph.caps_dim_z]; exact hdz
  · rw [Graph.caps_capacities, Graph.caps_count_edges]; exact hlen
  intro e he
  rw [Graph.caps_count_edges] at he
  rw [Graph.caps_edge_direction, Graph.caps_layer_of_edge, Graph.caps_get_capacity]
  have hlz : g0.layer_of_edge e < g0.dim_z := layer_of_edge_lt g0 hg e he
  have hval : caps.getD e 0 = default_capacity p g0 e := by
    have := (hcap e he).1
    rw [hnone] at this
    exact this
  have hlh : g0.layer_of_edge e < p.capacity.horizontal.length := by omega
  have hlv : g0.layer_of_edge e < p.capacity.vertical.length := by omega
  clear hret hiff hcap hrun
  refine ⟨?_, ?_, ?_, Graph.edge_direction_plus g0 hg e he⟩
  · intro hd
    rw [hval]
    unfold default_capacity
    rw [hd]
    exact getElem?_of_getD _ _ hlh
  · intro hd
    rw [hval]
    unfold default_capacity
    rw [hd]
    exact getElem?_of_getD _ _ hlv
  · intro hd
    rw [hval]
    unfold default_capacity
    rw [hd]

/-- C23 as the code has it. For every problem that `check` accepts (it
returns true and its assertions hold) whose capacity adjustments all name two
grid-adjacent ends and carry an `adjusted_capacity >= 0` that is not above the
capacity the edge holds when the adjustment is applied (its default capacity
after the adjustments before it), `createGraphFromGlobalRoutingProblem`
returns a graph with the dimensions of the grid in which every edge has the
capacity the adjustments make of its default: the `adjusted_capacity` of the
last adjustment naming it, whatever the adjustments before it were, and its
default capacity when no adjustment names it. -/
theorem adjustments_overwrite (p : GlobalRoutingProblem) (hcheck : p.check = true)
    (hassert : p.check_assertions)
    (hadj : ∀ capAdj ∈ p.capacityAdjustments,
      Graph.adjacent_positions capAdj.start_position capAdj.end_position
        ∧ 0 ≤ capAdj.adjusted_capacity)
    (hle : ∀ i capAdj e, p.capacityAdjustments[i]? = some capAdj →
      capAdj.edge (Graph.create p.grid.x_grids.toNat p.grid.y_grids.toNat p.grid.layers.toNat)
        = some e →
      capAdj.adjusted_capacity
        ≤ adjusted_capacity p
            (Graph.create p.grid.x_grids.toNat p.grid.y_grids.toNat p.grid.layers.toNat)
            (p.capacityAdjustments.take i) e) :
    ∃ g, createGraphFromGlobalRoutingProblem p = some g
      ∧ (g.dim_x : Int) = p.grid.x_grids ∧ (g.dim_y : Int) = p.grid.y_grids
      ∧ (g.dim_z : Int) = p.grid.layers
      ∧ g.capacities.length = g.count_edges
      ∧ (∀ e, e < g.count_edges →
          g.get_capacity e = adjusted_capacity p g p.capacityAdjustments e)
      ∧ (∀ e, e < g.count_edges → (∀ capAdj ∈ p.capacityAdjustments, capAdj.edge g ≠ some e) →
          g.get_capacity e = default_capacity p g e)
      ∧ (∀ e l1 capAdj l2, e < g.count_edges → p.capacityAdjustments = l1 ++ capAdj :: l2 →
          capAdj.edge g = some e → (∀ b ∈ l2, b.edge g ≠ some e) →
          g.get_capacity e = capAdj.adjusted_capacity) := by
  generalize hg0 : Graph.create p.grid.x_grids.toNat p.grid.y_grids.toNat p.grid.layers.toNat
    = g0 at hle
  obtain ⟨hg, hdx, hdy, hdz, hret, hiff⟩ := createGraph_spec p hcheck g0 hg0.symm
  have hinside : ∀ capAdj ∈ p.capacityAdjustments, capAdj.inside g0 := by
    intro capAdj hmem
    have := check_adjustments_inside p hcheck capAdj hmem
    unfold CapacityAdjustment.inside
    rw [hdx, hdy, hdz]
    omega
  have hex : ∃ g, createGraphFromGlobalRoutingProblem p = some g := by
    apply hiff.2
    constructor
    · intro i capAdj hget
      have hmem : capAdj ∈ p.capacityAdjustments := List.mem_iff_getElem?.2 ⟨i, hget⟩
      have hi := hinside capAdj hmem
      obtain ⟨e, he⟩ := ((CapacityAdjustment.edge_iff_adjacent capAdj _ hg hi).1).2
        (hadj capAdj hmem).1
      exact ⟨hi, e, he, hle i capAdj e hget he⟩
    · intro e _
      exact adjusted_from_nonneg _ _ e _ (default_capacity_nonneg p hassert _ e)
        (fun capAdj hmem => (hadj capAdj hmem).2)
  obtain ⟨g, hrun⟩ := hex
  obtain ⟨caps, hgc, hlen, hcap⟩ := hret g hrun
  subst hgc
  have hall : ∀ e, e < g0.count_edges →
      caps.getD e 0 = adjusted_capacity p g0 p.capacityAdjustments e := fun e he => (hcap e he).1
  clear hret hiff hcap hle hinside
  refine ⟨_, hrun, ?_, ?_, ?_, ?_, ?_, ?_, ?_⟩
  · rw [Graph.caps_dim_x]; exact hdx
  · rw [Graph.caps_dim_y]; exact hdy
  · rw [Graph.caps_dim_z]; exact hdz
  · rw [Graph.caps_capacities, Graph.caps_count_edges]; exact hlen
  · intro e he
    rw [Graph.caps_count_edges] at he
    rw [Graph.caps_get_capacity]
    exact hall e he
  · intro e he hno
    rw [Graph.caps_count_edges] at he
    rw [Graph.caps_get_capacity, default_capacity_caps]
    simp only [CapacityAdjustment.edge_caps] at hno
    exact (hall e he).trans (adjusted_from_not_named g0 _ e _ hno)
  · intro e l1 capAdj l2 he hsplit hedge hl2
    rw [Graph.caps_count_edges] at he
    rw [CapacityAdjustment.edge_caps] at hedge
    simp only [CapacityAdjustment.edge_caps] at hl2
    rw [Graph.caps_get_capacity]
    refine (hall e he).trans ?_
    unfold adjusted_capacity
    rw [hsplit]
    exact adjusted_from_last g0 l1 l2 capAdj _ e hedge hl2

/-- C23, the input on which the claim fails: `raised_problem`, a 2x1x1 grid
with capacity 5 and one adjustment of its edge to 7, passes `check` and its
assertions, its adjustment names two adjacent ends and carries a value `>= 0`,
and `createGraphFromGlobalRoutingProblem` returns no graph: 7 is above the
capacity 5 of the edge. -/
theorem raised_capacity_stops_builder :
    raised_problem.check = true ∧ raised_problem.check_assertions
      ∧ (∀ capAdj ∈ raised_problem.capacityAdjustments,
          Graph.adjacent_positions capAdj.start_position capAdj.end_position
            ∧ 0 ≤ capAdj.adjusted_capacity)
      ∧ raised_problem.capacityAdjustments.map
          (fun capAdj => (capAdj.edge (Graph.create 2 1 1), capAdj.adjusted_capacity))
        = [(some 0, 7)]
      ∧ default_capacity raised_problem (Graph.create 2 1 1) 0 = 5
      ∧ (createGraphFromGlobalRoutingProblem raised_problem).isNone = true :=
  ⟨by decide, by decide, by decide, by decide, by decide, by decide⟩

/-- C24 as the code has it. A problem that `check` accepts and that contains
a capacity adjustment whose two ends are not grid-adjacent gets no graph:
`createGraphFromGlobalRoutingProblem` stops at the assertion on the edge index
that `get_edgeindex_from_nodes` returns. -/
theorem nonadjacent_adjustment_stops_builder (p : GlobalRoutingProblem)
    (hcheck : p.check = true) (capAdj : CapacityAdjustment)
    (hmem : capAdj ∈ p.capacityAdjustments)
    (hnon : ¬ Graph.adjacent_positions capAdj.start_position capAdj.end_position) :
    createGraphFromGlobalRoutingProblem p = none := by
  obtain ⟨g0, hg0⟩ : ∃ g0, g0 = Graph.create p.grid.x_grids.toNat p.grid.y_grids.toNat
      p.grid.layers.toNat := ⟨_, rfl⟩
  obtain ⟨hg, _, _, _, _, hiff⟩ := createGraph_spec p hcheck g0 hg0
  cases hrun : createGraphFromGlobalRoutingProblem p with
  | none => rfl
  | some g =>
    exfalso
    obtain ⟨hall, _⟩ := hiff.1 ⟨g, hrun⟩
    obtain ⟨i, hi, hget⟩ := List.getElem_of_mem hmem
    have hget1 : p.capacityAdjustments[i]? = some capAdj := by
      rw [List.getElem?_eq_getElem hi, hget]
    obtain ⟨hin, e, he, _⟩ := hall i capAdj hget1
    exact hnon (((CapacityAdjustment.edge_iff_adjacent capAdj _ hg hin).1).1 ⟨e, he⟩)

/-- C24, the input on which the claim fails: `nonadjacent_problem`, a 3x1x1
grid with one capacity adjustment between the tiles `(0,0)` and `(2,0)`, both
inside the grid and two steps apart; `check` returns true for it. -/
theorem nonadjacent_adjustment_passes_check :
    nonadjacent_problem.capacityAdjustments.map
        (fun capAdj => (capAdj.start_position, capAdj.end_position))
      = [((0, 0, 0), (2, 0, 0))]
      ∧ (∀ capAdj ∈ nonadjacent_problem.capacityAdjustments,
          capAdj.inside (Graph.create 3 1 1)
            ∧ ¬ Graph.adjacent_positions capAdj.start_position capAdj.end_position)
      ∧ nonadjacent_problem.check = true ∧ nonadjacent_problem.check_assertions :=
  ⟨by decide, by decide, by decide, by decide⟩

end GlobalRouting

/-! ## The bounding box of a net -/

namespace GlobalRouting

theorem foldl_min_spec (f : Nat → Int) (L : List Nat) :
    ∀ m0 : Int, (L.foldl (fun m v => min (f v) m) m0 ≤ m0
        ∧ ∀ v ∈ L, L.foldl (fun m v => min (f v) m) m0 ≤ f v)
      ∧ (L.foldl (fun m v => min (f v) m) m0 = m0
        ∨ ∃ v ∈ L, L.foldl (fun m v => min (f v) m) m0 = f v) := by
  induction L with
  | nil => intro m0; simp
  | cons a L ih =>
    intro m0
    obtain ⟨⟨h1, h2⟩, h3⟩ := ih (min (f a) m0)
    simp only [List.foldl_cons]
    refine ⟨⟨le_trans h1 (min_le_right _ _), ?_⟩, ?_⟩
    · intro v hv
      rcases List.mem_cons.1 hv with rfl | hv
      · exact le_trans h1 (min_le_left _ _)
      · exact h2 v hv
    · rcases h3 with h3 | ⟨v, hv, h3⟩
      · rcases min_choice (f a) m0 with h | h
        · exact Or.inr ⟨a, List.mem_cons_self _ _, by rw [h3, h]⟩
        · exact Or.inl (by rw [h3, h])
      · exact Or.inr ⟨v, List.mem_cons_of_mem _ hv, h3⟩

theorem foldl_max_spec (f : Nat → Int) (L : List Nat) :
    ∀ m0 : Int, (m0 ≤ L.foldl (fun m v => max (f v) m) m0
        ∧ ∀ v ∈ L, f v ≤ L.foldl (fun m v => max (f v) m) m0)
      ∧ (L.foldl (fun m v => max (f v) m) m0 = m0
        ∨ ∃ v ∈ L, L.foldl (fun m v => max (f v) m) m0 = f v) := by
  induction L with
  | nil => intro m0; simp
  | cons a L ih =>
    intro m0
    obtain ⟨⟨h1, h2⟩, h3⟩ := ih (max (f a) m0)
    simp only [List.foldl_cons]
    refine ⟨⟨le_trans (le_max_right _ _) h1, ?_⟩, ?_⟩
    · intro v hv
      rcases List.mem_cons.1 hv with rfl | hv
      · exact le_trans (le_max_left _ _) h1
      · exact h2 v hv
    · rcases h3 with h3 | ⟨v, hv, h3⟩
      · rcases max_choice (f a) m0 with h | h
        · exact Or.inr ⟨a, List.mem_cons_self _ _, by rw [h3, h]⟩
        · exact Or.inl (by rw [h3, h])
      · exact Or.inr ⟨v, List.mem_cons_of_mem _ hv, h3⟩

namespace Connector

/-- The hull that the loop over the nodes in `connect` computes, one
coordinate at a time. -/
theorem hull_fold (g : Graph) (L : List Nat) :
    ∀ BB : BoundingBox,
      L.foldl (fun (BB : BoundingBox) nodeindex =>
          { minx := min ((g.get_position_from_nodeindex nodeindex).1 : Int) BB.minx,
            maxx := max ((g.get_position_from_nodeindex nodeindex).1 : Int) BB.maxx,
            miny := min ((g.get_position_from_nodeindex nodeindex).2.1 : Int) BB.miny,
            maxy := max ((g.get_position_from_nodeindex nodeindex).2.1 : Int) BB.maxy,
            minz := min ((g.get_position_from_nodeindex nodeindex).2.2 : Int) BB.minz,
            maxz := max ((g.get_position_from_nodeindex nodeindex).2.2 : Int) BB.maxz }) BB
        = { minx := L.foldl (fun m v => min ((g.get_position_from_nodeindex v).1 : Int) m) BB.minx,
            maxx := L.foldl (fun m v => max ((g.get_position_from_nodeindex v).1 : Int) m) BB.maxx,
            miny := L.foldl (fun m v => min ((g.get_position_from_nodeindex v).2.1 : Int) m) BB.miny,
            maxy := L.foldl (fun m v => max ((g.get_position_from_nodeindex v).2.1 : Int) m) BB.maxy,
            minz := L.foldl (fun m v => min ((g.get_position_from_nodeindex v).2.2 : Int) m) BB.minz,
            maxz := L.foldl (fun m v => max ((g.get_position_from_nodeindex v).2.2 : Int) m)
              BB.maxz } := by
  induction L with
  | nil => intro BB; rfl
  | cons a L ih =>
    intro BB
    simp only [List.foldl_cons]
    rw [ih]

/-- The least and the greatest value of a coordinate over a non-empty list of
nodes whose coordinates are below `N`, as the loop over the nodes finds them
from the start values `N` and `0`. -/
theorem hull_coordinate (f : Nat → Nat) (L : List Nat) (hL : L ≠ []) (N : Int)
    (hN : ∀ v ∈ L, (f v : Int) < N) :
    ∃ lo hi : Nat, (∃ v ∈ L, f v = lo) ∧ (∀ v ∈ L, lo ≤ f v)
      ∧ (∃ v ∈ L, f v = hi) ∧ (∀ v ∈ L, f v ≤ hi)
      ∧ L.foldl (fun m v => min ((f v : Nat) : Int) m) N = lo
      ∧ L.foldl (fun m v => max ((f v : Nat) : Int) m) 0 = hi := by
  obtain ⟨⟨a1, a2⟩, a3⟩ := foldl_min_spec (fun v => ((f v : Nat) : Int)) L N
  obtain ⟨⟨b1, b2⟩, b3⟩ := foldl_max_spec (fun v => ((f v : Nat) : Int)) L 0
  obtain ⟨w, hw⟩ := List.exists_mem_of_ne_nil L hL
  have ha : ∃ v ∈ L, L.foldl (fun m v => min ((f v : Nat) : Int) m) N = f v := by
    rcases a3 with h | h
    · have h1 := a2 w hw
      have h2 := hN w hw
      simp only at h1
      omega
    · exact h
  have hb : ∃ v ∈ L, L.foldl (fun m v => max ((f v : Nat) : Int) m) 0 = f v := by
    rcases b3 with h | h
    · have h0 := b2 w hw
      simp only at h0
      refine ⟨w, hw, ?_⟩
      omega
    · exact h
  obtain ⟨u, hu, hu1⟩ := ha
  obtain ⟨t, ht, ht1⟩ := hb
  refine ⟨f u, f t, ⟨u, hu, rfl⟩, ?_, ⟨t, ht, rfl⟩, ?_, hu1, ht1⟩
  · intro v hv
    have := a2 v hv
    simp only at this
    omega
  · intro v hv
    have := b2 v hv
    simp only at this
    omega

theorem pin_nodes_lt (c : Connector) :
    ∀ (pins : List Pin) (nodes : List Nat), pin_nodes c pins = some nodes →
      ∀ v ∈ nodes, v < c.graph.count_nodes := by
  intro pins
  induction pins with
  | nil =>
    intro nodes hn v hv
    simp only [pin_nodes, Option.some.injEq] at hn
    subst hn
    simp at hv
  | cons p0 pins ih =>
    intro nodes hn v hv
    unfold pin_nodes at hn
    cases h0 : pin_node c p0 with
    | none => rw [h0] at hn; simp at hn
    | some v0 =>
      cases h1 : pin_nodes c pins with
      | none => rw [h0, h1] at hn; simp at hn
      | some rest =>
        rw [h0, h1] at hn
        simp only [Option.some.injEq] at hn
        subst hn
        rcases List.mem_cons.1 hv with rfl | hv
        · exact pin_node_lt c p0 _ h0
        · exact ih rest h1 v hv

end Connector

/-- C28. For every net with at least one pin whose pins map to the nodes
`nodes0` of a well-formed graph with the grid of the problem: with `lox`,
`hix`, `loy`, `hiy`, `loz`, `hiz` the smallest and the largest coordinate of
the pin tiles on each axis, the bounding box that `connect` computes and
passes to the search has `min = max(smallest - 10, 0)` and
`max = min(largest + 10, N - 1)` on each axis, `N` being `Nx`, `Ny`, `Nz`; it
contains every pin tile of the net and lies inside the grid. -/
theorem connect_bounding_box (c : Connector) (hg : c.graph.wf) (hm : c.grid_matches)
    (net : Net) (nodes0 : List Nat) (hpins : net.pins ≠ [])
    (hn : c.pin_nodes net.pins = some nodes0) :
    ∃ lox hix loy hiy loz hiz : Nat,
      ((∃ v ∈ nodes0, (c.graph.get_position_from_nodeindex v).1 = lox)
        ∧ (∀ v ∈ nodes0, lox ≤ (c.graph.get_position_from_nodeindex v).1)
        ∧ (∃ v ∈ nodes0, (c.graph.get_position_from_nodeindex v).1 = hix)
        ∧ (∀ v ∈ nodes0, (c.graph.get_position_from_nodeindex v).1 ≤ hix))
      ∧ ((∃ v ∈ nodes0, (c.graph.get_position_from_nodeindex v).2.1 = loy)
        ∧ (∀ v ∈ nodes0, loy ≤ (c.graph.get_position_from_nodeindex v).2.1)
        ∧ (∃ v ∈ nodes0, (c.graph.get_position_from_nodeindex v).2.1 = hiy)
        ∧ (∀ v ∈ nodes0, (c.graph.get_position_from_nodeindex v).2.1 ≤ hiy))
      ∧ ((∃ v ∈ nodes0, (c.graph.get_position_from_nodeindex v).2.2 = loz)
        ∧ (∀ v ∈ nodes0, loz ≤ (c.graph.get_position_from_nodeindex v).2.2)
        ∧ (∃ v ∈ nodes0, (c.graph.get_position_from_nodeindex v).2.2 = hiz)
        ∧ (∀ v ∈ nodes0, (c.graph.get_position_from_nodeindex v).2.2 ≤ hiz))
      ∧ c.bounding_box (sort_unique nodes0)
          = { minx := max ((lox : Int) - 10) 0,
              maxx := min ((hix : Int) + 10) (c.problem.grid.x_grids - 1),
              miny := max ((loy : Int) - 10) 0,
              maxy := min ((hiy : Int) + 10) (c.problem.grid.y_grids - 1),
              minz := max ((loz : Int) - 10) 0,
              maxz := min ((hiz : Int) + 10) (c.problem.grid.layers - 1) }
      ∧ (∀ v ∈ nodes0,
          (c.bounding_box (sort_unique nodes0)).outside (c.graph.get_position_from_nodeindex v)
            = false)
      ∧ (0 ≤ (c.bounding_box (sort_unique nodes0)).minx
        ∧ (c.bounding_box (sort_unique nodes0)).minx ≤ (c.bounding_box (sort_unique nodes0)).maxx
        ∧ (c.bounding_box (sort_unique nodes0)).maxx < c.problem.grid.x_grids)
      ∧ (0 ≤ (c.bounding_box (sort_unique nodes0)).miny
        ∧ (c.bounding_box (sort_unique nodes0)).miny ≤ (c.bounding_box (sort_unique nodes0)).maxy
        ∧ (c.bounding_box (sort_unique nodes0)).maxy < c.problem.grid.y_grids)
      ∧ (0 ≤ (c.bounding_box (sort_unique nodes0)).minz
        ∧ (c.bounding_box (sort_unique nodes0)).minz ≤ (c.bounding_box (sort_unique nodes0)).maxz
        ∧ (c.bounding_box (sort_unique nodes0)).maxz < c.problem.grid.layers)
      ∧ c.connect_net net
          = (match c.create_search_forest ((sort_unique nodes0).take 1)
                ((sort_unique nodes0).drop 1) net.minimum_width
                (c.bounding_box (sort_unique nodes0)) true 10 with
              | none => none
              | some (edgeindices, c1) =>
                match Connector.commit net.minimum_width c1 edgeindices with
                | none => none
                | some c2 => some (edgeindices, c2)) := by
  have hne0 := Connector.pin_nodes_ne_nil c net.pins nodes0 hpins hn
  have hne := sort_unique_ne_nil nodes0 hne0
  have hlt := Connector.pin_nodes_lt c net.pins nodes0 hn
  obtain ⟨hmx, hmy, hmz⟩ := hm
  have hpos : ∀ v ∈ sort_unique nodes0,
      ((c.graph.get_position_from_nodeindex v).1 : Int) < c.problem.grid.x_grids
      ∧ ((c.graph.get_position_from_nodeindex v).2.1 : Int) < c.problem.grid.y_grids
      ∧ ((c.graph.get_position_from_nodeindex v).2.2 : Int) < c.problem.grid.layers := by
    intro v hv
    obtain ⟨a, b, d⟩ := Graph.position_lt c.graph hg v (hlt v ((mem_sort_unique nodes0 v).1 hv))
    omega
  obtain ⟨lox, hix, x1, x2, x3, x4, x5, x6⟩ := Connector.hull_coordinate
    (fun v => (c.graph.get_position_from_nodeindex v).1) (sort_unique nodes0) hne
    c.problem.grid.x_grids (fun v hv => (hpos v hv).1)
  obtain ⟨loy, hiy, y1, y2, y3, y4, y5, y6⟩ := Connector.hull_coordinate
    (fun v => (c.graph.get_position_from_nodeindex v).2.1) (sort_unique nodes0) hne
    c.problem.grid.y_grids (fun v hv => (hpos v hv).2.1)
  obtain ⟨loz, hiz, z1, z2, z3, z4, z5, z6⟩ := Connector.hull_coordinate
    (fun v => (c.graph.get_position_from_nodeindex v).2.2) (sort_unique nodes0) hne
    c.problem.grid.layers (fun v hv => (hpos v hv).2.2)
  have hBB : c.bounding_box (sort_unique nodes0)
      = { minx := max ((lox : Int) - 10) 0,
          maxx := min ((hix : Int) + 10) (c.problem.grid.x_grids - 1),
          miny := max ((loy : Int) - 10) 0,
          maxy := min ((hiy : Int) + 10) (c.problem.grid.y_grids - 1),
          minz := max ((loz : Int) - 10) 0,
          maxz := min ((hiz : Int) + 10) (c.problem.grid.layers - 1) } := by
    unfold Connector.bounding_box
    simp only
    rw [Connector.hull_fold]
    simp only
    rw [x5, x6, y5, y6, z5, z6]
  have mem : ∀ {P : Nat → Prop}, (∃ v ∈ sort_unique nodes0, P v) → ∃ v ∈ nodes0, P v :=
    fun ⟨v, hv, h⟩ => ⟨v, (mem_sort_unique nodes0 v).1 hv, h⟩
  have all : ∀ {P : Nat → Prop}, (∀ v ∈ sort_unique nodes0, P v) → ∀ v ∈ nodes0, P v :=
    fun h v hv => h v ((mem_sort_unique nodes0 v).2 hv)
  obtain ⟨vx, hvx, hvx1⟩ := x1
  obtain ⟨vy, hvy, hvy1⟩ := y1
  obtain ⟨vz, hvz, hvz1⟩ := z1
  obtain ⟨ux, hux, hux1⟩ := x3
  obtain ⟨uy, huy, huy1⟩ := y3
  obtain ⟨uz, huz, huz1⟩ := z3
  have bx := hpos ux hux
  have by1 := hpos uy huy
  have bz := hpos uz huz
  have lx := x2 ux hux
  have ly := y2 uy huy
  have lz := z2 uz huz
  simp only at hux1 huy1 huz1 lx ly lz hvx1 hvy1 hvz1
  refine ⟨lox, hix, loy, hiy, loz, hiz,
    ⟨mem ⟨vx, hvx, hvx1⟩, all x2, mem ⟨ux, hux, hux1⟩, all x4⟩,
    ⟨mem ⟨vy, hvy, hvy1⟩, all y2, mem ⟨uy, huy, huy1⟩, all y4⟩,
    ⟨mem ⟨vz, hvz, hvz1⟩, all z2, mem ⟨uz, huz, huz1⟩, all z4⟩, hBB, ?_, ?_, ?_, ?_, ?_⟩
  · intro v hv
    have hv1 := (mem_sort_unique nodes0 v).2 hv
    have a1 := x2 v hv1
    have a2 := x4 v hv1
    have a3 := y2 v hv1
    have a4 := y4 v hv1
    have a5 := z2 v hv1
    have a6 := z4 v hv1
    have a7 := hpos v hv1
    simp only at a1 a2 a3 a4 a5 a6
    rw [hBB]
    unfold BoundingBox.outside
    simp only [decide_eq_false_iff_not, not_or, not_lt, gt_iff_lt]
    omega
  · rw [hBB]
    simp only
    omega
  · rw [hBB]
    simp only
    omega
  · rw [hBB]
    simp only
    omega
  · unfold Connector.connect_net
    have he : net.pins.isEmpty = false := by
      cases hp : net.pins with
      | nil => exact absurd hp hpins
      | cons _ _ => rfl
    rw [he, hn]
    simp only [Bool.false_eq_true, if_false]
    try rfl

end GlobalRouting

/-! ## The search inside the box and its assertions -/

namespace GlobalRouting
namespace Connector

/-- In respect-capacity mode every node entered into the queue lies inside
the bounding box when the source does. -/
theorem seen_inside (s : Nat) (mnw : Int) (BB : BoundingBox) (f last : Nat) (c : Connector)
    (hinv : SearchInv [s] mnw BB true f last c)
    (hs : BB.outside (c.graph.get_position_from_nodeindex s) = false) (v : Nat)
    (hv : c.seen v) : BB.outside (c.graph.get_position_from_nodeindex v) = false := by
  rcases hinv.tree v hv with ⟨hm, _⟩ | ⟨u, e, _, _, _, _, hother, husable, _⟩
  · rw [List.mem_singleton.1 hm]
    exact hs
  · have h1 := husable.1
    rw [hother] at h1
    cases h : BB.outside (c.graph.get_position_from_nodeindex v) with
    | false => rfl
    | true => exact absurd ⟨rfl, h⟩ h1

/-- The assertions of the body of the loop over the edges hold in every state
that satisfies the invariant of the search, for the node popped last. -/
theorem relax_asserts_hold (S : List Nat) (mnw : Int) (BB : BoundingBox) (r : Bool)
    (f last u : Nat) (c : Connector) (e : Nat) (hinv : SearchInv S mnw BB r f last c)
    (hdu : c.distance u = last) : relax_asserts mnw BB r f u c e = true := by
  unfold relax_asserts
  simp only
  split
  · rfl
  · split
    · rfl
    · rename_i d hd
      split
      · rfl
      split
      · rfl
      split
      · rfl
      · have hq := hinv.queued_le (c.graph.other_node e u)
        rw [Bool.and_eq_true, decide_eq_true_eq]
        refine ⟨hq, ?_⟩
        split
        · rename_i hlt
          rw [Bool.not_eq_true']
          cases hc : PriorityQueue.contains c.pq (c.graph.other_node e u) with
          | false => rfl
          | true =>
            exfalso
            obtain ⟨entry, hentry, hval⟩ := List.mem_map.1 ((PriorityQueue.contains_iff _ _).1 hc)
            have hseen := (hinv.pq_seen entry hentry).1
            unfold seen at hseen
            rw [hval] at hseen
            omega
        · split
          · rename_i hcond
            cases hc : PriorityQueue.contains c.pq (c.graph.other_node e u) with
            | true => rfl
            | false =>
              exfalso
              have hnot : ¬ c.in_queue (c.graph.other_node e u) := by
                intro hin
                have := (PriorityQueue.contains_iff _ _).2 hin
                rw [hc] at this
                exact absurd this (by decide)
              have hle := hinv.settled_le _ ⟨hcond.1, hnot⟩
              omega
          · rename_i hn1 hn2
            rw [Bool.and_eq_true, decide_eq_true_eq, decide_eq_true_eq]
            have heq : c.queued (c.graph.other_node e u) = c.current_iteration := by omega
            refine ⟨heq, ?_⟩
            by_contra hlt
            exact hn2 ⟨heq, by omega⟩

/-- The assertions hold in every pass through the body of the loop over the
edges of a popped node. -/
theorem relax_all_calls_hold (S : List Nat) (mnw : Int) (BB : BoundingBox) (r : Bool)
    (f last u : Nat) (es : List Nat) :
    ∀ (c : Connector), SearchInv S mnw BB r f last c → c.settled u → c.distance u = last →
      (∀ e ∈ es, e ∈ c.graph.get_edgeindices_from_node u) →
      ∀ x ∈ relax_all_calls mnw BB r f u c es,
        relax_asserts mnw BB x.respect_capacity f x.current_node x.state x.edgeindex = true := by
  induction es with
  | nil =>
    intro c _ _ _ _ x hx
    simp [relax_all_calls] at hx
  | cons e es ih =>
    intro c hinv hu hdu hes x hx
    unfold relax_all_calls at hx
    rcases List.mem_cons.1 hx with rfl | hx
    · exact relax_asserts_hold S mnw BB r f last u c e hinv hdu
    · cases hrel : relax mnw BB r f u c e with
      | none =>
        rw [hrel] at hx
        simp at hx
      | some c1 =>
        rw [hrel] at hx
        simp only at hx
        obtain ⟨hinv1, hext, _, _⟩ := relax_step S mnw BB r f last u c c1 e hinv hu hdu
          (hes e (List.mem_cons_self _ _)) hrel
        refine ih c1 hinv1 ((hext.settled_iff u).2 hu) ?_ ?_ x hx
        · rw [hext.dist_settled u hu]
          exact hdu
        · intro e1 he1
          rw [hext.frame.2.1]
          exact hes e1 (List.mem_cons_of_mem _ he1)

/-- The assertions hold in every pass through the body of the loop over the
edges during the search loop. -/
theorem search_loop_calls_hold (S : List Nat) (mnw : Int) (BB : BoundingBox) (r : Bool)
    (f : Nat) :
    ∀ (fuel : Nat) (c : Connector) (active_T : List Nat) (last : Nat),
      SearchInv S mnw BB r f last c → closed mnw BB r f c →
      ∀ x ∈ search_loop_calls mnw BB r f fuel c active_T,
        relax_asserts mnw BB x.respect_capacity f x.current_node x.state x.edgeindex = true := by
  intro fuel
  induction fuel with
  | zero =>
    intro c active_T last _ _ x hx
    simp [search_loop_calls] at hx
  | succ fuel ih =>
    intro c active_T last hinv hcl x hx
    unfold search_loop_calls at hx
    cases active_T with
    | nil => simp at hx
    | cons a rest =>
      simp only [List.isEmpty_cons, Bool.false_eq_true, if_false] at hx
      cases hpop : PriorityQueue.pop c.pq with
      | none =>
        rw [hpop] at hx
        simp at hx
      | some res =>
        obtain ⟨top, pq1⟩ := res
        rw [hpop] at hx
        simp only at hx
        obtain ⟨hinv', hset, hdist, hcb, _, _⟩ :=
          pop_step S mnw BB r f last c top pq1 hinv hcl hpop
        rcases List.mem_append.1 hx with hx | hx
        · exact relax_all_calls_hold S mnw BB r f top.priority top.value _ { c with pq := pq1 }
            hinv' hset hdist (fun e he => he) x hx
        cases hrun : relax_all mnw BB r f top.value { c with pq := pq1 }
            (c.graph.get_edgeindices_from_node top.value) with
        | none =>
          rw [hrun] at hx
          simp at hx
        | some c0 =>
          obtain ⟨c1, hrel, hinv1, hext, _, hcb1⟩ :=
            relax_all_step S mnw BB r f top.priority top.value
              (c.graph.get_edgeindices_from_node top.value) { c with pq := pq1 } [] hinv' hset
              hdist (fun e he => he) hcb (Or.inr ⟨c0, hrun⟩)
          have hcl1 : closed mnw BB r f c1 := by
            intro u hu e he husable
            apply hcb1 u hu e he _ husable
            intro huu
            have hgraph : c1.graph = c.graph := hext.frame.2.1
            rw [hgraph, huu] at he
            simpa using he
          rw [hrel] at hx
          exact ih c1 _ top.priority hinv1 hcl1 x hx

/-- The assertions hold in every pass through the body of the loop over the
edges during one activation of the search. -/
theorem search_pass_calls_hold (c : Connector) (s : Nat) (T : List Nat) (mnw : Int)
    (BB : BoundingBox) (r : Bool) (f : Nat) (hg : c.graph.wf)
    (hq : ∀ v, c.queued v ≤ c.current_iteration) (hs : s < c.graph.count_nodes) :
    ∀ x ∈ search_pass_calls c [s] T mnw BB r f,
      relax_asserts mnw BB x.respect_capacity f x.current_node x.state x.edgeindex = true := by
  obtain ⟨c0, h0, hinv0, hcl0, _⟩ := push_sources_spec c s mnw BB r f hg hq hs
  intro x hx
  unfold search_pass_calls at hx
  by_cases hhead : ¬ c.head_asserts mnw
  · rw [if_pos hhead] at hx
    simp at hx
  rw [if_neg hhead, h0] at hx
  exact search_loop_calls_hold [s] mnw BB r f _ c0 T 0 hinv0 hcl0 x hx

end Connector

/-- C29. For a well-formed graph, inside the range where the `float`
distances of the search are exact (`weights_exact`), a source `s` inside the
bounding box `BB` and targets that are nodes of the graph, from a state in
which no entry of `queued` exceeds the iteration counter: a call of
`create_search_forest` in respect-capacity mode returns when the assertions
that depend on the input hold (`search_asserts`); and whenever it returns
without the emergency pass (no line `EMERGENCY MODE` was logged), both end
nodes of every edge it returns lie inside `BB`. -/
theorem forest_inside_box (c : Connector) (s : Nat) (T : List Nat) (mnw : Int)
    (BB : BoundingBox) (f : Nat) (hg : c.graph.wf)
    (hq : ∀ v, c.queued v ≤ c.current_iteration) (hs : s < c.graph.count_nodes) (hT : T.Nodup)
    (hTN : ∀ t ∈ T, t < c.graph.count_nodes)
    (hin : BB.outside (c.graph.get_position_from_nodeindex s) = false)
    (_hexact : c.weights_exact false f) :
    (c.search_asserts mnw true →
        ∃ ret c1, c.create_search_forest [s] T mnw BB true f = some (ret, c1))
      ∧ ∀ ret c1, c.create_search_forest [s] T mnw BB true f = some (ret, c1) →
          c1.emergency_log = c.emergency_log →
          ∀ e ∈ ret,
            BB.outside (c.graph.get_position_from_nodeindex (c.graph.get_nodes_of_edge e).1)
                = false
              ∧ BB.outside (c.graph.get_position_from_nodeindex (c.graph.get_nodes_of_edge e).2)
                = false := by
  constructor
  · intro hok
    obtain ⟨ret, c1, _, hrun, _⟩ :=
      Connector.create_search_forest_spec c s T mnw BB true f hg hq hs hT hTN (Or.inl hok)
    exact ⟨ret, c1, hrun⟩
  intro ret c1 hrun0
  obtain ⟨ret', c1', r1, hrun, hres, _, hgraph, _, _, _, hmode⟩ :=
    Connector.create_search_forest_spec c s T mnw BB true f hg hq hs hT hTN (Or.inr ⟨_, hrun0⟩)
  rw [hrun0] at hrun
  simp only [Option.some.injEq, Prod.mk.injEq] at hrun
  obtain ⟨rfl, rfl⟩ := hrun
  intro hlog e he
  have hr1 : r1 = true := by
    rcases hmode with ⟨h, _⟩ | ⟨_, _, h, _⟩
    · exact h
    · omega
  subst hr1
  obtain ⟨last, hinv⟩ := hres.inv
  obtain ⟨v, u, _, hv, hu, _, _, _, _, _, _, hj, _⟩ := Connector.ret_edge_info hres e he
  have hsin : BB.outside (c1.graph.get_position_from_nodeindex s) = false := by
    rw [hgraph]; exact hin
  have iv := Connector.seen_inside s mnw BB f last c1 hinv hsin v hv
  have iu := Connector.seen_inside s mnw BB f last c1 hinv hsin u hu.1
  rw [hgraph] at iv iu hj
  rcases hj with hj | hj <;> rw [hj] <;> simp only
  · exact ⟨iu, iv⟩
  · exact ⟨iv, iu⟩

/-- C30. For a well-formed graph, a source and targets that are nodes of the
graph, from a state in which no entry of `queued` exceeds the iteration
counter, inside the range where the `float` arithmetic of the search is exact:
a call of `create_search_forest`, in either mode, returns when the assertions
that depend on the input hold (`search_asserts`); and in every call, whether
it returns or stops at an assertion, every pass through the body of the loop
over the edges, in the first pass and in the emergency pass, meets the
assertions on the queue: `queued[other_node] <= current_iteration`; where it
pushes `other_node`, the queue does not contain it; where it calls
`setPriority`, the queue contains it; and where it does neither, `other_node`
was queued in this call and `new_distance >= distance[other_node]`. -/
theorem search_guards_hold (c : Connector) (s : Nat) (T : List Nat) (mnw : Int)
    (BB : BoundingBox) (r : Bool) (f : Nat) (hg : c.graph.wf)
    (hq : ∀ v, c.queued v ≤ c.current_iteration) (hs : s < c.graph.count_nodes) (hT : T.Nodup)
    (hTN : ∀ t ∈ T, t < c.graph.count_nodes) (_hexact : c.weights_exact false f) :
    (c.search_asserts mnw r →
        ∃ ret c1, c.create_search_forest [s] T mnw BB r f = some (ret, c1))
      ∧ ∀ x ∈ c.create_search_forest_calls [s] T mnw BB r f,
          Connector.relax_asserts mnw BB x.respect_capacity f x.current_node x.state x.edgeindex
            = true := by
  constructor
  · intro hok
    obtain ⟨ret, c1, _, hrun, _⟩ :=
      Connector.create_search_forest_spec c s T mnw BB r f hg hq hs hT hTN (Or.inl hok)
    exact ⟨ret, c1, hrun⟩
  intro x hx
  unfold Connector.create_search_forest_calls at hx
  rcases List.mem_append.1 hx with hx | hx
  · exact Connector.search_pass_calls_hold c s T mnw BB r f hg hq hs x hx
  cases hp : Connector.search_pass c [s] T mnw BB r f with
  | none =>
    rw [hp] at hx
    simp at hx
  | some res0 =>
    obtain ⟨res, c1, hpass, hafter, _, _, _⟩ :=
      Connector.search_pass_spec c s T mnw BB r f hg hq hs hT hTN (Or.inr ⟨res0, hp⟩)
    rw [hpass] at hx
    cases res with
    | some ret => simp at hx
    | none =>
      simp only at hx
      cases r with
      | false => simp at hx
      | true =>
        simp only [if_true] at hx
        obtain ⟨_, a2, _, _, a5⟩ := hafter
        exact Connector.search_pass_calls_hold { c1 with emergency_log := c1.emergency_log + 1 }
          s T mnw BB false f (by rw [show ({ c1 with emergency_log := c1.emergency_log + 1 }
            : Connector).graph = c1.graph from rfl, a2]; exact hg) a5
          (by rw [show ({ c1 with emergency_log := c1.emergency_log + 1 }
            : Connector).graph = c1.graph from rfl, a2]; exact hs) x hx

end GlobalRouting

/-! ## The statements on further problems -/

namespace GlobalRouting

/-- C22 on the scenario "capacity forces detour", which has no capacity
adjustments. -/
theorem default_capacities_witness :
    detour_problem.check = true ∧ detour_problem.check_assertions
      ∧ detour_problem.capacityAdjustments = []
      ∧ ∃ g, createGraphFromGlobalRoutingProblem detour_problem = some g
        ∧ (g.dim_x : Int) = detour_problem.grid.x_grids
        ∧ (g.dim_y : Int) = detour_problem.grid.y_grids
        ∧ (g.dim_z : Int) = detour_problem.grid.layers
        ∧ g.capacities.length = g.count_edges
        ∧ ∀ e, e < g.count_edges →
            (g.get_edge_direction e = some .x_plus →
              detour_problem.capacity.horizontal[g.layer_of_edge e]? = some (g.get_capacity e))
            ∧ (g.get_edge_direction e = some .y_plus →
              detour_problem.capacity.vertical[g.layer_of_edge e]? = some (g.get_capacity e))
            ∧ (g.get_edge_direction e = some .z_plus → g.get_capacity e = int_max)
            ∧ (g.get_edge_direction e = some .x_plus ∨ g.get_edge_direction e = some .y_plus
                ∨ g.get_edge_direction e = some .z_plus) :=
  ⟨by decide, by decide, rfl, default_capacities detour_problem (by decide) (by decide) rfl⟩

/-- C23 as the code has it, on `lowered_problem`: the edge of capacity 5 is
adjusted to 3 and then, named from its other end, to 2. -/
theorem adjustments_overwrite_witness :
    lowered_problem.check = true ∧ lowered_problem.check_assertions
      ∧ (∀ capAdj ∈ lowered_problem.capacityAdjustments,
          Graph.adjacent_positions capAdj.start_position capAdj.end_position
            ∧ 0 ≤ capAdj.adjusted_capacity)
      ∧ lowered_problem.capacityAdjustments.map
          (fun capAdj => (capAdj.edge (Graph.create 2 1 1), capAdj.adjusted_capacity))
        = [(some 0, 3), (some 0, 2)]
      ∧ ∃ g, createGraphFromGlobalRoutingProblem lowered_problem = some g
        ∧ (g.dim_x : Int) = lowered_problem.grid.x_grids
        ∧ (g.dim_y : Int) = lowered_problem.grid.y_grids
        ∧ (g.dim_z : Int) = lowered_problem.grid.layers
        ∧ g.capacities.length = g.count_edges
        ∧ (∀ e, e < g.count_edges →
            g.get_capacity e = adjusted_capacity lowered_problem g
              lowered_problem.capacityAdjustments e)
        ∧ (∀ e, e < g.count_edges →
            (∀ capAdj ∈ lowered_problem.capacityAdjustments, capAdj.edge g ≠ some e) →
            g.get_capacity e = default_capacity lowered_problem g e)
        ∧ (∀ e l1 capAdj l2, e < g.count_edges →
            lowered_problem.capacityAdjustments = l1 ++ capAdj :: l2 →
            capAdj.edge g = some e → (∀ b ∈ l2, b.edge g ≠ some e) →
            g.get_capacity e = capAdj.adjusted_capacity) :=
  ⟨by decide, by decide, by decide, by decide,
    adjustments_overwrite lowered_problem (by decide) (by decide) (by decide)
      (fun i capAdj e h1 h2 => by
        rcases i with _ | _ | i
        · simp only [lowered_problem, List.getElem?_cons_zero, Option.some.injEq] at h1
          subst h1
          have he : e = 0 := by
            have : some e = some 0 := h2.symm.trans (by decide)
            exact Option.some.inj this
          subst he
          decide
        · simp only [lowered_problem, List.getElem?_cons_succ, List.getElem?_cons_zero,
            Option.some.injEq] at h1
          subst h1
          have he : e = 0 := by
            have : some e = some 0 := h2.symm.trans (by decide)
            exact Option.some.inj this
          subst he
          decide
        · simp [lowered_problem] at h1)⟩

/-- C24 as the code has it, on `nonadjacent_problem`. -/
theorem nonadjacent_adjustment_stops_builder_witness :
    nonadjacent_problem.check = true
      ∧ ¬ Graph.adjacent_positions (0, 0, 0) (2, 0, 0)
      ∧ createGraphFromGlobalRoutingProblem nonadjacent_problem = none :=
  ⟨by decide, by decide,
    nonadjacent_adjustment_stops_builder nonadjacent_problem (by decide)
      { col_start := 0, row_start := 0, layer_start := 0,
        col_end := 2, row_end := 0, layer_end := 0, adjusted_capacity := 50 }
      (List.mem_singleton_self _) (by decide)⟩

/-- C28 on the first net of the scenario "capacity forces detour": the pin
tiles `(0,0,0)` and `(1,0,0)` of a grid of 3 by 2 tiles give the box
`[0, 2] x [0, 1] x [0, 0]`. -/
theorem connect_bounding_box_witness :
    (Connector.create detour_problem detour_graph).graph.wf
      ∧ (Connector.create detour_problem detour_graph).grid_matches
      ∧ (detour_net 0 "n0").pins ≠ []
      ∧ (Connector.create detour_problem detour_graph).pin_nodes (detour_net 0 "n0").pins
          = some [0, 2]
      ∧ (fun BB : BoundingBox => (BB.minx, BB.maxx, BB.miny, BB.maxy, BB.minz, BB.maxz))
          ((Connector.create detour_problem detour_graph).bounding_box (sort_unique [0, 2]))
          = (0, 2, 0, 1, 0, 0)
      ∧ ∃ lox hix loy hiy loz hiz : Nat,
          (Connector.create detour_problem detour_graph).bounding_box (sort_unique [0, 2])
            = { minx := max ((lox : Int) - 10) 0,
                maxx := min ((hix : Int) + 10) (detour_problem.grid.x_grids - 1),
                miny := max ((loy : Int) - 10) 0,
                maxy := min ((hiy : Int) + 10) (detour_problem.grid.y_grids - 1),
                minz := max ((loz : Int) - 10) 0,
                maxz := min ((hiz : Int) + 10) (detour_problem.grid.layers - 1) }
          ∧ ∀ v ∈ [0, 2],
              ((Connector.create detour_problem detour_graph).bounding_box
                (sort_unique [0, 2])).outside (detour_graph.get_position_from_nodeindex v)
                = false := by
  have h := connect_bounding_box (Connector.create detour_problem detour_graph)
    (by unfold Graph.wf; decide) (by unfold Connector.grid_matches; decide)
    (detour_net 0 "n0") [0, 2] (List.cons_ne_nil _ _) (by decide)
  obtain ⟨lox, hix, loy, hiy, loz, hiz, _, _, _, hBB, hin, _⟩ := h
  exact ⟨by unfold Graph.wf; decide, by unfold Connector.grid_matches; decide,
    List.cons_ne_nil _ _, by decide, by decide, lox, hix, loy, hiy, loz, hiz, hBB, hin⟩

/-- C29 on the scenario "straight horizontal": from node 0 to node 2 inside
the box of the whole grid. -/
theorem forest_inside_box_witness :
    (Connector.create straight_problem straight_graph).graph.wf
      ∧ (∀ v, (Connector.create straight_problem straight_graph).queued v
          ≤ (Connector.create straight_problem straight_graph).current_iteration)
      ∧ 0 < (Connector.create straight_problem straight_graph).graph.count_nodes
      ∧ ([2] : List Nat).Nodup
      ∧ (∀ t ∈ ([2] : List Nat),
          t < (Connector.create straight_problem straight_graph).graph.count_nodes)
      ∧ BoundingBox.outside ⟨0, 2, 0, 0, 0, 0⟩
          ((Connector.create straight_problem straight_graph).graph.get_position_from_nodeindex 0)
          = false
      ∧ (Connector.create straight_problem straight_graph).weights_exact false 10
      ∧ (Connector.create straight_problem straight_graph).search_asserts 0 true
      ∧ (∃ ret c1,
          (Connector.create straight_problem straight_graph).create_search_forest [0] [2] 0
            ⟨0, 2, 0, 0, 0, 0⟩ true 10 = some (ret, c1))
      ∧ ∀ ret c1,
          (Connector.create straight_problem straight_graph).create_search_forest [0] [2] 0
            ⟨0, 2, 0, 0, 0, 0⟩ true 10 = some (ret, c1) →
          c1.emergency_log = (Connector.create straight_problem straight_graph).emergency_log →
          ∀ e ∈ ret,
            BoundingBox.outside ⟨0, 2, 0, 0, 0, 0⟩
                ((Connector.create straight_problem straight_graph).graph.get_position_from_nodeindex
                  ((Connector.create straight_problem straight_graph).graph.get_nodes_of_edge e).1)
              = false
            ∧ BoundingBox.outside ⟨0, 2, 0, 0, 0, 0⟩
                ((Connector.create straight_problem straight_graph).graph.get_position_from_nodeindex
                  ((Connector.create straight_problem straight_graph).graph.get_nodes_of_edge e).2)
              = false :=
  ⟨by unfold Graph.wf; decide, fun _ => by simp [Connector.create], by decide, by decide,
    by decide, by decide, straight_weights_exact, straight_search_asserts,
    (forest_inside_box (Connector.create straight_problem straight_graph) 0 [2] 0
      ⟨0, 2, 0, 0, 0, 0⟩ 10 (by unfold Graph.wf; decide) (fun _ => by simp [Connector.create])
      (by decide) (by decide) (by decide) (by decide) straight_weights_exact).1
      straight_search_asserts,
    (forest_inside_box (Connector.create straight_problem straight_graph) 0 [2] 0
      ⟨0, 2, 0, 0, 0, 0⟩ 10 (by unfold Graph.wf; decide) (fun _ => by simp [Connector.create])
      (by decide) (by decide) (by decide) (by decide) straight_weights_exact).2⟩

/-- C30 on the scenario "emergency fallback", where the call runs both
passes: from node 0 to node 1 over the edge without room. -/
theorem search_guards_hold_witness :
    (Connector.create saturated_problem saturated_graph).graph.wf
      ∧ (∀ v, (Connector.create saturated_problem saturated_graph).queued v
          ≤ (Connector.create saturated_problem saturated_graph).current_iteration)
      ∧ 0 < (Connector.create saturated_problem saturated_graph).graph.count_nodes
      ∧ ([1] : List Nat).Nodup
      ∧ (∀ t ∈ ([1] : List Nat),
          t < (Connector.create saturated_problem saturated_graph).graph.count_nodes)
      ∧ (Connector.create saturated_problem saturated_graph).weights_exact false 10
      ∧ (Connector.create saturated_problem saturated_graph).search_asserts 0 true
      ∧ ((Connector.create saturated_problem saturated_graph).create_search_forest_calls [0] [1] 0
            ⟨0, 1, 0, 0, 0, 0⟩ true 10).map
          (fun x => (x.respect_capacity, x.current_node, x.edgeindex))
          = [(true, 0, 0), (false, 0, 0), (false, 1, 0)]
      ∧ (∃ ret c1,
          (Connector.create saturated_problem saturated_graph).create_search_forest [0] [1] 0
            ⟨0, 1, 0, 0, 0, 0⟩ true 10 = some (ret, c1))
      ∧ ∀ x ∈ (Connector.create saturated_problem saturated_graph).create_search_forest_calls
            [0] [1] 0 ⟨0, 1, 0, 0, 0, 0⟩ true 10,
          Connector.relax_asserts 0 ⟨0, 1, 0, 0, 0, 0⟩ x.respect_capacity 10 x.current_node
            x.state x.edgeindex = true :=
  ⟨by unfold Graph.wf; decide, fun _ => by simp [Connector.create], by decide, by decide,
    by decide, saturated_weights_exact, saturated_search_asserts, by decide,
    (search_guards_hold (Connector.create saturated_problem saturated_graph) 0 [1] 0
      ⟨0, 1, 0, 0, 0, 0⟩ true 10 (by unfold Graph.wf; decide)
      (fun _ => by simp [Connector.create]) (by decide) (by decide) (by decide)
      saturated_weights_exact).1 saturated_search_asserts,
    (search_guards_hold (Connector.create saturated_problem saturated_graph) 0 [1] 0
      ⟨0, 1, 0, 0, 0, 0⟩ true 10 (by unfold Graph.wf; decide)
      (fun _ => by simp [Connector.create]) (by decide) (by decide) (by decide)
      saturated_weights_exact).2⟩

end GlobalRouting

/-! ## Edge indices by axis -/

namespace GlobalRouting

/-- C32. The edge indices of a graph are cut by axis into three ranges that
follow one another: `count_edges()` is `(Nx-1)*Ny*Nz + Nx*(Ny-1)*Nz +
Nx*Ny*(Nz-1)`, and for every edge index `e` below it `get_edge_direction(e)`
is `x_plus` exactly when `e < (Nx-1)*Ny*Nz`, `y_plus` exactly when
`(Nx-1)*Ny*Nz <= e < (Nx-1)*Ny*Nz + Nx*(Ny-1)*Nz`, `z_plus` exactly when `e`
lies in neither range, and never a minus direction. -/
theorem edge_ranges_by_axis (g : Graph) (hg : g.wf) :
    g.count_edges
        = (g.dim_x - 1) * g.dim_y * g.dim_z + g.dim_x * (g.dim_y - 1) * g.dim_z
          + g.dim_x * g.dim_y * (g.dim_z - 1)
      ∧ ∀ e, e < g.count_edges →
          (g.get_edge_direction e = some .x_plus ↔ e < (g.dim_x - 1) * g.dim_y * g.dim_z)
          ∧ (g.get_edge_direction e = some .y_plus
              ↔ (g.dim_x - 1) * g.dim_y * g.dim_z ≤ e
                ∧ e < (g.dim_x - 1) * g.dim_y * g.dim_z + g.dim_x * (g.dim_y - 1) * g.dim_z)
          ∧ (g.get_edge_direction e = some .z_plus
              ↔ ¬ e < (g.dim_x - 1) * g.dim_y * g.dim_z
                ∧ ¬ ((g.dim_x - 1) * g.dim_y * g.dim_z ≤ e
                  ∧ e < (g.dim_x - 1) * g.dim_y * g.dim_z
                      + g.dim_x * (g.dim_y - 1) * g.dim_z))
          ∧ g.get_edge_direction e ≠ some .x_minus
          ∧ g.get_edge_direction e ≠ some .y_minus
          ∧ g.get_edge_direction e ≠ some .z_minus := by
  refine ⟨?_, ?_⟩
  · unfold Graph.count_edges
    omega
  · intro e he
    have hcases := Graph.edge_direction_cases g hg e he
    unfold Graph.offset_y Graph.offset_z at hcases
    rcases hcases with ⟨h1, hd⟩ | ⟨h1, h2, hd⟩ | ⟨h1, hd⟩ <;> rw [hd] <;>
      refine ⟨?_, ?_, ?_, by simp, by simp, by simp⟩ <;>
      simp only [Option.some.injEq, reduceCtorEq, iff_true, true_iff, false_iff, iff_false] <;>
      omega

end GlobalRouting

/-! ## Edges, base nodes and directions -/

namespace GlobalRouting
namespace Graph

/-- An edge is the edge of its first node in its own direction, and its second
node is the neighbour of the first in that direction. -/
theorem edge_base (g : Graph) (hg : g.wf) (e : Nat) (he : e < g.count_edges) :
    ∃ d, g.get_edge_direction e = some d ∧ d.is_plus
      ∧ (g.get_nodes_of_edge e).1 < g.count_nodes
      ∧ g.is_direction_possible (g.get_nodes_of_edge e).1 d = true
      ∧ (g.get_nodes_of_edge e).2 = g.get_neighbor (g.get_nodes_of_edge e).1 d
      ∧ g.get_edgeindex_from_node_and_direction (g.get_nodes_of_edge e).1 d = e := by
  have hlt := (nodes_of_edge_lt g hg e he).1
  rcases edge_cases g hg e he with ⟨_, x, y, z, h⟩ | ⟨_, _, x, y, z, h⟩ | ⟨_, x, y, z, h⟩
  · have hd := x_edge_direction g e x y z h
    obtain ⟨hx, hy, hz, hidx, hn⟩ := h
    refine ⟨.x_plus, hd, Or.inl rfl, hlt, ?_, ?_, ?_⟩
    · rw [hn, possible_at g x y z hy hz]
      simp only [decide_eq_true_eq]
      omega
    · rw [hn, neighbor_at g x y z hy hz]
    · rw [hn, edgeindex_at g x y z hy hz]
      exact hidx.symm
  · have hd := y_edge_direction g e x y z h
    obtain ⟨hx, hy, hz, hidx, hn⟩ := h
    refine ⟨.y_plus, hd, Or.inr (Or.inl rfl), hlt, ?_, ?_, ?_⟩
    · rw [hn, possible_at g x y z (by omega) hz]
      simp only [decide_eq_true_eq]
      omega
    · rw [hn, neighbor_at g x y z (by omega) hz]
    · rw [hn, edgeindex_at g x y z (by omega) hz]
      exact hidx.symm
  · have hd := z_edge_direction g e x y z h
    obtain ⟨hx, hy, hz, hidx, hn⟩ := h
    refine ⟨.z_plus, hd, Or.inr (Or.inr rfl), hlt, ?_, ?_, ?_⟩
    · rw [hn, possible_at g x y z hy (by omega)]
      simp only [decide_eq_true_eq]
      omega
    · rw [hn, neighbor_at g x y z hy (by omega)]
    · rw [hn, edgeindex_at g x y z hy (by omega)]
      exact hidx.symm

/-- The edge of a node in a possible direction is the edge of the neighbour in
the opposite direction. -/
theorem edgeindex_opposite (g : Graph) (hg : g.wf) (u : Nat) (hu : u < g.count_nodes)
    (d : direction) (hd : g.is_direction_possible u d = true) :
    g.get_edgeindex_from_node_and_direction (g.get_neighbor u d) d.opposite_direction
      = g.get_edgeindex_from_node_and_direction u d := by
  obtain ⟨hx, hy, hz⟩ := position_lt g hg u hu
  have hu' := nodeindex_of_position g u
  generalize (g.get_position_from_nodeindex u).1 = x at hx hu'
  generalize (g.get_position_from_nodeindex u).2.1 = y at hy hu'
  generalize (g.get_position_from_nodeindex u).2.2 = z at hz hu'
  subst hu'
  rw [possible_at g x y z hy hz] at hd
  rw [neighbor_at g x y z hy hz, edgeindex_at g x y z hy hz]
  cases d <;> simp only [decide_eq_true_eq] at hd <;>
    simp only [direction.opposite_direction]
  · rw [edgeindex_at g (x + 1) y z hy hz]
    simp
  · rw [edgeindex_at g (x - 1) y z hy hz]
  · rw [edgeindex_at g x (y + 1) z (by omega) hz]
    simp
  · rw [edgeindex_at g x (y - 1) z (by omega) hz]
  · rw [edgeindex_at g x y (z + 1) hy (by omega)]
    simp
  · rw [edgeindex_at g x y (z - 1) hy (by omega)]

/-- The edge of a node in a possible plus direction has the node as its first
node, the neighbour as its second, and the direction as its direction. -/
theorem edge_of_plus (g : Graph) (hg : g.wf) (u : Nat) (hu : u < g.count_nodes)
    (d : direction) (hd : g.is_direction_possible u d = true) (hplus : d.is_plus) :
    g.get_nodes_of_edge (g.get_edgeindex_from_node_and_direction u d) = (u, g.get_neighbor u d)
      ∧ g.get_edge_direction (g.get_edgeindex_from_node_and_direction u d) = some d := by
  obtain ⟨hx, hy, hz⟩ := position_lt g hg u hu
  have hu' := nodeindex_of_position g u
  generalize (g.get_position_from_nodeindex u).1 = x at hx hu'
  generalize (g.get_position_from_nodeindex u).2.1 = y at hy hu'
  generalize (g.get_position_from_nodeindex u).2.2 = z at hz hu'
  subst hu'
  rw [possible_at g x y z hy hz] at hd
  rw [neighbor_at g x y z hy hz, edgeindex_at g x y z hy hz]
  rcases hplus with rfl | rfl | rfl <;> simp only [decide_eq_true_eq] at hd
  · have h := (x_edge_index g x y z (by omega) hy hz).2
    exact ⟨h.2.2.2.2, x_edge_direction g _ x y z h⟩
  · have h := (y_edge_index g x y z hx (by omega) hz).2
    exact ⟨h.2.2.2.2, y_edge_direction g _ x y z h⟩
  · have h := (z_edge_index g x y z hx hy (by omega)).2
    exact ⟨h.2.2.2.2, z_edge_direction g _ x y z h⟩

end Graph

/-- C40. Edge indexing is a bijection between the edge indices below
`count_edges()` and the pairs of a base node and a plus direction possible at
it. For every edge index `e` with `get_nodes_of_edge(e) = (u, v)`: its
direction `d` is a plus direction possible at the node `u`,
`v = get_neighbor(u, d)` and `get_edgeindex_from_node_and_direction(u, d) = e`.
For every node `u` and every direction `d` possible at `u`, the edge
`get_edgeindex_from_node_and_direction(u, d)` is an edge index, its two nodes
are `u` and `get_neighbor(u, d)`, and the edge reached from the neighbour in
the opposite direction has the same index; when `d` is a plus direction the
edge has `u` as its first node and `d` as its direction, so that two pairs of
a node and a possible plus direction with the same edge index are equal. -/
theorem edge_indexing_bijection (g : Graph) (hg : g.wf) :
    (∀ e, e < g.count_edges →
        ∃ d, g.get_edge_direction e = some d ∧ d.is_plus
          ∧ (g.get_nodes_of_edge e).1 < g.count_nodes
          ∧ g.is_direction_possible (g.get_nodes_of_edge e).1 d = true
          ∧ (g.get_nodes_of_edge e).2 = g.get_neighbor (g.get_nodes_of_edge e).1 d
          ∧ g.get_edgeindex_from_node_and_direction (g.get_nodes_of_edge e).1 d = e)
      ∧ (∀ u d, u < g.count_nodes → g.is_direction_possible u d = true →
          g.get_edgeindex_from_node_and_direction u d < g.count_edges
            ∧ (g.get_nodes_of_edge (g.get_edgeindex_from_node_and_direction u d)
                  = (u, g.get_neighbor u d)
                ∨ g.get_nodes_of_edge (g.get_edgeindex_from_node_and_direction u d)
                  = (g.get_neighbor u d, u))
            ∧ g.get_edgeindex_from_node_and_direction (g.get_neighbor u d) d.opposite_direction
                = g.get_edgeindex_from_node_and_direction u d
            ∧ (d.is_plus →
                g.get_nodes_of_edge (g.get_edgeindex_from_node_and_direction u d)
                    = (u, g.get_neighbor u d)
                  ∧ g.get_edge_direction (g.get_edgeindex_from_node_and_direction u d)
                    = some d))
      ∧ (∀ u d u1 d1, u < g.count_nodes → u1 < g.count_nodes →
          g.is_direction_possible u d = true → g.is_direction_possible u1 d1 = true →
          d.is_plus → d1.is_plus →
          g.get_edgeindex_from_node_and_direction u d
            = g.get_edgeindex_from_node_and_direction u1 d1 →
          u = u1 ∧ d = d1) := by
  refine ⟨fun e he => Graph.edge_base g hg e he, ?_, ?_⟩
  · intro u d hu hd
    obtain ⟨h1, h2⟩ := Graph.edge_of_possible g hg u hu d hd
    exact ⟨h1, h2, Graph.edgeindex_opposite g hg u hu d hd,
      fun hplus => Graph.edge_of_plus g hg u hu d hd hplus⟩
  · intro u d u1 d1 hu hu1 hd hd1 hp hp1 heq
    obtain ⟨hn, hdir⟩ := Graph.edge_of_plus g hg u hu d hd hp
    obtain ⟨hn1, hdir1⟩ := Graph.edge_of_plus g hg u1 hu1 d1 hd1 hp1
    rw [heq] at hn hdir
    rw [hn1] at hn
    rw [hdir1] at hdir
    exact ⟨(Prod.mk.inj hn).1.symm, (Option.some.inj hdir).symm⟩

end GlobalRouting

/-! ## When the graph of a problem is built -/

namespace GlobalRouting

/-- With non-negative capacity arrays every default capacity is non-negative. -/
theorem default_capacity_nonneg_of (p : GlobalRoutingProblem)
    (hv : ∀ c ∈ p.capacity.vertical, c ≥ 0) (hh : ∀ c ∈ p.capacity.horizontal, c ≥ 0)
    (g : Graph) (e : Nat) : 0 ≤ default_capacity p g e := by
  unfold default_capacity
  split
  · exact getD_nonneg _ hh _
  · exact getD_nonneg _ hv _
  · unfold int_max
    omega

/-- The capacity of edge `e` after the first `n` adjustments of a list. -/
theorem adjusted_from_take_succ (g : Graph) (adjs : List CapacityAdjustment) (capacity : Int)
    (e n : Nat) (capAdj : CapacityAdjustment) (h : adjs[n]? = some capAdj) :
    adjusted_from g (adjs.take (n + 1)) capacity e
      = if capAdj.edge g = some e then capAdj.adjusted_capacity
        else adjusted_from g (adjs.take n) capacity e := by
  rw [List.take_succ, h, adjusted_from_append]
  rfl

/-- When no adjustment raises the capacity of edge `e`, the capacity after all
adjustments is at most the value of every adjustment that names `e`. -/
theorem adjusted_from_le_named (g : Graph) (adjs : List CapacityAdjustment) (capacity : Int)
    (e : Nat)
    (hle : ∀ j capAdj, adjs[j]? = some capAdj → capAdj.edge g = some e →
      capAdj.adjusted_capacity ≤ adjusted_from g (adjs.take j) capacity e)
    (i : Nat) (capAdj : CapacityAdjustment) (hget : adjs[i]? = some capAdj)
    (hedge : capAdj.edge g = some e) :
    adjusted_from g adjs capacity e ≤ capAdj.adjusted_capacity := by
  have hi : i < adjs.length := by
    rcases Nat.lt_or_ge i adjs.length with h | h
    · exact h
    · rw [List.getElem?_eq_none h] at hget
      cases hget
  have hstep : ∀ n, i + 1 ≤ n → n ≤ adjs.length →
      adjusted_from g (adjs.take n) capacity e ≤ capAdj.adjusted_capacity := by
    intro n
    induction n with
    | zero => intro h; omega
    | succ n ih =>
      intro h1 h2
      have hn : n < adjs.length := by omega
      have hgn : adjs[n]? = some adjs[n] := List.getElem?_eq_getElem hn
      rw [adjusted_from_take_succ g adjs capacity e n _ hgn]
      rcases Nat.eq_or_lt_of_le h1 with heq | hlt
      · have hni : n = i := by omega
        subst hni
        rw [hget] at hgn
        have hc : adjs[n] = capAdj := (Option.some.inj hgn).symm
        rw [hc, if_pos hedge]
      · split
        · rename_i hnamed
          exact le_trans (hle n _ hgn hnamed) (ih (by omega) (by omega))
        · exact ih (by omega) (by omega)
  have := hstep adjs.length (by omega) (le_refl _)
  rw [List.take_length] at this
  exact this

/-- C37. For every problem for which `check` returns true and whose capacity
arrays hold no negative value, `createGraphFromGlobalRoutingProblem` returns a
graph, that is, runs through all its assertions, exactly when every capacity
adjustment names two grid-adjacent ends and carries an `adjusted_capacity`
that is `>= 0` and not above the capacity the edge holds when the adjustment
is applied (its default capacity, or the value of the last earlier adjustment
that names the edge). -/
theorem builder_completes_iff (p : GlobalRoutingProblem) (hcheck : p.check = true)
    (hv : ∀ c ∈ p.capacity.vertical, c ≥ 0) (hh : ∀ c ∈ p.capacity.horizontal, c ≥ 0) :
    (∃ g, createGraphFromGlobalRoutingProblem p = some g)
      ↔ ∀ i capAdj, p.capacityAdjustments[i]? = some capAdj →
          Graph.adjacent_positions capAdj.start_position capAdj.end_position
            ∧ 0 ≤ capAdj.adjusted_capacity
            ∧ ∀ e,
                capAdj.edge (Graph.create p.grid.x_grids.toNat p.grid.y_grids.toNat
                  p.grid.layers.toNat) = some e →
                capAdj.adjusted_capacity
                  ≤ adjusted_capacity p
                      (Graph.create p.grid.x_grids.toNat p.grid.y_grids.toNat
                        p.grid.layers.toNat)
                      (p.capacityAdjustments.take i) e := by
  generalize hg0 : Graph.create p.grid.x_grids.toNat p.grid.y_grids.toNat p.grid.layers.toNat
    = g0
  obtain ⟨hg, hdx, hdy, hdz, _, hiff⟩ := createGraph_spec p hcheck g0 hg0.symm
  have hinside : ∀ capAdj ∈ p.capacityAdjustments, capAdj.inside g0 := by
    intro capAdj hmem
    have := check_adjustments_inside p hcheck capAdj hmem
    unfold CapacityAdjustment.inside
    rw [hdx, hdy, hdz]
    omega
  rw [hiff]
  clear hiff
  constructor
  · rintro ⟨hall, hfinal⟩ i capAdj hget
    obtain ⟨hi, e, he, hle⟩ := hall i capAdj hget
    have hadj := ((CapacityAdjustment.edge_iff_adjacent capAdj g0 hg hi).1).1 ⟨e, he⟩
    have helt := (CapacityAdjustment.edge_iff_adjacent capAdj g0 hg hi).2 e he
    refine ⟨hadj, ?_, ?_⟩
    · have h1 := hfinal e helt
      have h2 : adjusted_capacity p g0 p.capacityAdjustments e ≤ capAdj.adjusted_capacity := by
        unfold adjusted_capacity
        apply adjusted_from_le_named g0 p.capacityAdjustments _ e _ i capAdj hget he
        intro j capAdj1 hget1 he1
        obtain ⟨_, e1, he1', hle1⟩ := hall j capAdj1 hget1
        rw [he1] at he1'
        cases he1'
        exact hle1
      omega
    · intro e1 he1
      rw [he] at he1
      cases he1
      exact hle
  · intro hall
    constructor
    · intro i capAdj hget
      have hmem : capAdj ∈ p.capacityAdjustments := List.mem_iff_getElem?.2 ⟨i, hget⟩
      have hi := hinside capAdj hmem
      obtain ⟨hadj, _, hle⟩ := hall i capAdj hget
      obtain ⟨e, he⟩ := ((CapacityAdjustment.edge_iff_adjacent capAdj g0 hg hi).1).2 hadj
      exact ⟨hi, e, he, hle e he⟩
    · intro e _
      apply adjusted_from_nonneg _ _ e _ (default_capacity_nonneg_of p hv hh _ e)
      intro capAdj hmem
      obtain ⟨i, hget⟩ := List.mem_iff_getElem?.1 hmem
      exact (hall i capAdj hget).2.1

end GlobalRouting

/-! ## Removal from the queue -/

namespace GlobalRouting

/-- C38, the input on which the code breaks the claim. The heap array with the
priorities `1, 10, 2, 11, 12, 6, 3` (values equal to the priorities, so
pairwise distinct) satisfies the heap invariant and contains the value 11, at
index 3. `remove(11)` moves the last entry, of priority 3, to index 3 and only
sifts it down: the heap it leaves, `1, 10, 2, 3, 12, 6`, holds exactly the
other entries but has the entry of priority 3 below the entry of priority 10,
so it violates the heap invariant, and popping until it is empty returns the
priorities in the order `1, 2, 6, 3, 10, 12`. -/
theorem remove_breaks_heap :
    (lopsided_heap.map (fun entry => entry.value)).Nodup
      ∧ PriorityQueue.heap_ok lopsided_heap
      ∧ PriorityQueue.contains lopsided_heap 11 = true
      ∧ lopsided_heap.findIdx (fun entry => decide (entry.value = 11)) = 3
      ∧ ∃ heap1, PriorityQueue.remove lopsided_heap 11 = some heap1
          ∧ heap1.map (fun entry => (entry.value, entry.priority))
              = [(1, 1), (10, 10), (2, 2), (3, 3), (12, 12), (6, 6)]
          ∧ PriorityQueue.ltAt heap1 3 1 = true
          ∧ ¬ PriorityQueue.heap_ok heap1
          ∧ (PriorityQueue.drain heap1).map (fun r => r.1.map (fun entry => entry.priority))
              = some [1, 2, 6, 3, 10, 12] := by
  refine ⟨by decide, ?_, by decide, by decide, PriorityQueue.of_priorities [1, 10, 2, 3, 12, 6],
    rfl, by decide, by decide, ?_, by decide⟩
  · intro i h0 hlt
    have hlen : lopsided_heap.length = 7 := rfl
    rw [hlen] at hlt
    interval_cases i <;> decide
  · intro hok
    have h := hok 3 (by decide) (by decide)
    revert h
    decide

/-- C39, the input on which the code breaks the claim. The heap array with the
priorities `1, 2` satisfies the heap invariant and contains the value 2 in its
last element, at index 1. `remove(2)` shrinks the heap to one entry and then
calls `heapifyDown( 1 )`, whose assertion `0 <= index && index < heap.size()`
fails: the call does not complete. -/
theorem remove_last_entry_fails :
    PriorityQueue.heap_ok pair_heap
      ∧ pair_heap.length = 2
      ∧ PriorityQueue.contains pair_heap 2 = true
      ∧ pair_heap.findIdx (fun entry => decide (entry.value = 2)) = 1
      ∧ ((pair_heap.set 1 ⟨2, 2⟩).dropLast).length = 1
      ∧ (PriorityQueue.remove pair_heap 2).isNone = true := by
  refine ⟨?_, rfl, by decide, by decide, by decide, by decide⟩
  intro i h0 hlt
  have hlen : pair_heap.length = 2 := rfl
  rw [hlen] at hlt
  interval_cases i
  decide

end GlobalRouting

/-! ## An edge without capacity -/

namespace GlobalRouting

/-- C36, the input on which the code breaks the claim. `free_problem` (a 2x1x1
grid whose edge has capacity 0, minimum width 0, minimum spacing 0, one net of
width 0 with a pin on each tile) is accepted by `check`, and
`createGraphFromGlobalRoutingProblem` returns its graph, with the one edge of
capacity 0. `connect` searches from `S = {0}` to `T = {1}` in respect-capacity
mode. The search relaxes edge 0 from node 0: the edge is not skipped, because
`aggregated_width + required_capacity = 0` is not above the capacity 0. There
the assertion
`required_capacity + aggregated_width[edgeindex] <= current_edge_capacity`
holds and the assertion `current_edge_capacity > 0` fails: this pass through
the body of the loop is the only one of the call, and neither
`create_search_forest` nor `connect` returns. -/
theorem zero_capacity_edge_relaxed :
    free_problem.check = true ∧ free_problem.check_assertions
      ∧ (createGraphFromGlobalRoutingProblem free_problem).map
          (fun g => (g.dim_x, g.dim_y, g.dim_z, g.capacities))
        = some (free_graph.dim_x, free_graph.dim_y, free_graph.dim_z, free_graph.capacities)
      ∧ free_problem.nets.map
          (fun net => (Connector.search_sets (Connector.create free_problem free_graph) net,
            net.minimum_width))
        = [(some ([0], [1]), 0)]
      ∧ (Connector.create_search_forest_calls (Connector.create free_problem free_graph)
            [0] [1] 0 (Connector.bounding_box (Connector.create free_problem free_graph) [0, 1])
            true 10).map
          (fun x => (x.respect_capacity, x.current_node, x.edgeindex,
            x.state.graph.get_capacity x.edgeindex,
            Connector.relax_capacity_asserts 0
              (Connector.bounding_box (Connector.create free_problem free_graph) [0, 1])
              x.respect_capacity x.current_node x.state x.edgeindex))
        = [(true, 0, 0, 0, (true, false))]
      ∧ ((Connector.create free_problem free_graph).create_search_forest [0] [1] 0
            (Connector.bounding_box (Connector.create free_problem free_graph) [0, 1])
            true 10).isNone = true
      ∧ ((Connector.create free_problem free_graph).connect).isNone = true := by
  refine ⟨by decide, by decide, by decide, by decide, by decide, by decide, by decide⟩

end GlobalRouting

/-! ## The order of the pops -/

namespace GlobalRouting
namespace Connector

/-- The assertions after `pq.pop()` hold at every pop of the search loop, no
popped priority is below `last_distance`, and the popped priorities do not
decrease. -/
theorem search_loop_pops_hold (S : List Nat) (mnw : Int) (BB : BoundingBox) (r : Bool)
    (f : Nat) :
    ∀ (fuel : Nat) (c : Connector) (active_T : List Nat) (last : Nat),
      SearchInv S mnw BB r f last c → closed mnw BB r f c →
      (∀ x ∈ search_loop_pops mnw BB r f fuel c active_T last,
          pop_asserts x = true ∧ last ≤ x.current_entry.priority)
        ∧ (search_loop_pops mnw BB r f fuel c active_T last).Pairwise
            (fun x y => x.current_entry.priority ≤ y.current_entry.priority) := by
  intro fuel
  induction fuel with
  | zero =>
    intro c active_T last _ _
    simp [search_loop_pops]
  | succ fuel ih =>
    intro c active_T last hinv hcl
    unfold search_loop_pops
    cases active_T with
    | nil => simp
    | cons a rest =>
      simp only [List.isEmpty_cons, Bool.false_eq_true, if_false]
      cases hpop : PriorityQueue.pop c.pq with
      | none => simp
      | some res =>
        obtain ⟨top, pq1⟩ := res
        simp only
        obtain ⟨hinv', hset, hdist, hcb, _, _⟩ :=
          pop_step S mnw BB r f last c top pq1 hinv hcl hpop
        have htop : top ∈ c.pq :=
          (PriorityQueue.pop_spec c.pq top pq1 hpop).1.symm.subset (List.mem_cons_self _ _)
        have hlast : last ≤ top.priority := (hinv.pq_seen top htop).2.2
        have hhead : pop_asserts ⟨last, top, { c with pq := pq1 }⟩ = true := by
          unfold pop_asserts
          simp only [Bool.and_eq_true, decide_eq_true_eq]
          exact ⟨hdist.symm, hlast⟩
        cases hrun : relax_all mnw BB r f top.value { c with pq := pq1 }
            (c.graph.get_edgeindices_from_node top.value) with
        | none =>
          simp only
          constructor
          · intro x hx
            rw [List.mem_singleton] at hx
            subst hx
            exact ⟨hhead, hlast⟩
          · exact List.pairwise_singleton _ _
        | some c0 =>
          obtain ⟨c1, hrel, hinv1, hext, _, hcb1⟩ :=
            relax_all_step S mnw BB r f top.priority top.value
              (c.graph.get_edgeindices_from_node top.value) { c with pq := pq1 } [] hinv' hset
              hdist (fun e he => he) hcb (Or.inr ⟨c0, hrun⟩)
          have hcl1 : closed mnw BB r f c1 := by
            intro u hu e he husable
            apply hcb1 u hu e he _ husable
            intro huu
            have hgraph : c1.graph = c.graph := hext.frame.2.1
            rw [hgraph, huu] at he
            simpa using he
          rw [hrun] at hrel
          have := Option.some.inj hrel
          subst this
          simp only
          obtain ⟨ih1, ih2⟩ := ih c0 (List.erase (a :: rest) top.value) top.priority hinv1 hcl1
          constructor
          · intro x hx
            rcases List.mem_cons.1 hx with rfl | hx
            · exact ⟨hhead, hlast⟩
            · exact ⟨(ih1 x hx).1, le_trans hlast (ih1 x hx).2⟩
          · rw [List.pairwise_cons]
            exact ⟨fun x hx => (ih1 x hx).2, ih2⟩

/-- The assertions after `pq.pop()` hold at every pop of one activation of the
search, and the popped priorities do not decrease. -/
theorem search_pass_pops_hold (c : Connector) (s : Nat) (T : List Nat) (mnw : Int)
    (BB : BoundingBox) (r : Bool) (f : Nat) (hg : c.graph.wf)
    (hq : ∀ v, c.queued v ≤ c.current_iteration) (hs : s < c.graph.count_nodes) :
    (∀ x ∈ search_pass_pops c [s] T mnw BB r f, pop_asserts x = true)
      ∧ (search_pass_pops c [s] T mnw BB r f).Pairwise
          (fun x y => x.current_entry.priority ≤ y.current_entry.priority) := by
  obtain ⟨c0, h0, hinv0, hcl0, _⟩ := push_sources_spec c s mnw BB r f hg hq hs
  unfold search_pass_pops
  by_cases hhead : ¬ c.head_asserts mnw
  · rw [if_pos hhead]
    simp
  rw [if_neg hhead, h0]
  obtain ⟨h1, h2⟩ := search_loop_pops_hold [s] mnw BB r f c0.graph.count_nodes c0 T 0 hinv0 hcl0
  exact ⟨fun x hx => (h1 x hx).1, h2⟩

/-- Where the assertions after the pops hold and the priorities do not
decrease, the distances of the popped nodes do not decrease. -/
theorem pops_distances (pops : List pop_call) (h1 : ∀ x ∈ pops, pop_asserts x = true)
    (h2 : pops.Pairwise (fun x y => x.current_entry.priority ≤ y.current_entry.priority)) :
    pops.Pairwise (fun x y =>
      x.state.distance x.current_entry.value ≤ y.state.distance y.current_entry.value) := by
  refine List.Pairwise.imp_of_mem ?_ h2
  intro x y hx hy hxy
  have ex := h1 x hx
  have ey := h1 y hy
  unfold pop_asserts at ex ey
  simp only [Bool.and_eq_true, decide_eq_true_eq] at ex ey
  rw [← ex.1, ← ey.1]
  exact hxy

end Connector

/-- C34. For a well-formed graph, a source and targets that are nodes of the
graph, from a state in which no entry of `queued` exceeds the iteration
counter, inside the range where the `float` distances of the search are exact
(`weights_exact`, so that the distances of the source are the integers of the
model): a call of `create_search_forest`, in either mode, returns when the
assertions that depend on the input hold (`search_asserts`); and in every
call, whether it returns or stops at an assertion, in each activation (the
first pass and the emergency pass) every pop meets the assertions
`current_distance == distance[current_node]` and
`last_distance <= current_distance`, and the distances of the nodes popped one
after the other do not decrease. -/
theorem pops_do_not_decrease (c : Connector) (s : Nat) (T : List Nat) (mnw : Int)
    (BB : BoundingBox) (r : Bool) (f : Nat) (hg : c.graph.wf)
    (hq : ∀ v, c.queued v ≤ c.current_iteration) (hs : s < c.graph.count_nodes) (hT : T.Nodup)
    (hTN : ∀ t ∈ T, t < c.graph.count_nodes) (_hexact : c.weights_exact false f) :
    (c.search_asserts mnw r →
        ∃ ret c1, c.create_search_forest [s] T mnw BB r f = some (ret, c1))
      ∧ ∀ pops ∈ c.create_search_forest_pops [s] T mnw BB r f,
          (∀ x ∈ pops, Connector.pop_asserts x = true)
            ∧ pops.Pairwise (fun x y =>
                x.state.distance x.current_entry.value
                  ≤ y.state.distance y.current_entry.value) := by
  constructor
  · intro hok
    obtain ⟨ret, c1, _, hrun, _⟩ :=
      Connector.create_search_forest_spec c s T mnw BB r f hg hq hs hT hTN (Or.inl hok)
    exact ⟨ret, c1, hrun⟩
  intro pops hpops
  unfold Connector.create_search_forest_pops at hpops
  rcases List.mem_cons.1 hpops with rfl | hpops
  · obtain ⟨h1, h2⟩ := Connector.search_pass_pops_hold c s T mnw BB r f hg hq hs
    exact ⟨h1, Connector.pops_distances _ h1 h2⟩
  cases hp : Connector.search_pass c [s] T mnw BB r f with
  | none =>
    rw [hp] at hpops
    simp at hpops
  | some res0 =>
    obtain ⟨res, c1, hpass, hafter, _, _, _⟩ :=
      Connector.search_pass_spec c s T mnw BB r f hg hq hs hT hTN (Or.inr ⟨res0, hp⟩)
    rw [hpass] at hpops
    cases res with
    | some ret => simp at hpops
    | none =>
      simp only at hpops
      cases r with
      | false => simp at hpops
      | true =>
        simp only [if_true, List.mem_singleton] at hpops
        subst hpops
        obtain ⟨_, a2, _, _, a5⟩ := hafter
        obtain ⟨h1, h2⟩ := Connector.search_pass_pops_hold
          { c1 with emergency_log := c1.emergency_log + 1 }
          s T mnw BB false f (by rw [show ({ c1 with emergency_log := c1.emergency_log + 1 }
            : Connector).graph = c1.graph from rfl, a2]; exact hg) a5
          (by rw [show ({ c1 with emergency_log := c1.emergency_log + 1 }
            : Connector).graph = c1.graph from rfl, a2]; exact hs)
        exact ⟨h1, Connector.pops_distances _ h1 h2⟩

end GlobalRouting

/-! ## Leaves of the returned trees -/

namespace GlobalRouting

namespace Connector

section result

variable {c : Connector} {s : Nat} {T : List Nat} {mnw : Int} {BB : BoundingBox} {r : Bool}
  {f : Nat} {ret : List Nat}

end result

end Connector

end GlobalRouting

/-! ## Two states at the same point of a search -/

namespace GlobalRouting
namespace Connector

theorem same_inputs_refl (c : Connector) (hq : ∀ v, c.queued v ≤ c.current_iteration) :
    same_inputs c c :=
  ⟨⟨rfl, rfl, rfl⟩, rfl, rfl, hq, hq⟩

theorem required_capacity_alike {c c1 : Connector} (h : same_inputs c c1) (w : Int) (e : Nat) :
    c1.required_capacity w e = c.required_capacity w e := by
  unfold required_capacity
  rw [h.graph_eq, h.rules.2.1]

theorem edge_weight_alike {c c1 : Connector} (h : same_inputs c c1) (r : Bool) (f : Nat)
    (d : direction) (e : Nat) : c1.edge_weight r f d e = c.edge_weight r f d e := by
  unfold edge_weight
  rw [h.graph_eq, h.agg_eq]

/-- Two states at the same point of a search stay so when both enter node `o`
with the same distance, preceding node and relevant edge. -/
theorem sim_assign {c c1 : Connector} (h : sim c c1) (o nd : Nat) (pre rel : Option Nat)
    (pq1 : List (Entry Nat Nat)) (q q1 : Nat → Int)
    (hq : ∀ v, q v = if v = o then c.current_iteration else c.queued v)
    (hq1 : ∀ v, q1 v = if v = o then c1.current_iteration else c1.queued v)
    (hpq : ∀ entry ∈ pq1, entry.value = o ∨ c.seen entry.value)
    (hpre : ∀ u, pre = some u → u = o ∨ c.seen u) :
    sim { c with pq := pq1, queued := q, distance := assign c.distance o nd,
                 preceding_node := assign c.preceding_node o pre,
                 relevant_edge := assign c.relevant_edge o rel }
        { c1 with pq := pq1, queued := q1, distance := assign c1.distance o nd,
                  preceding_node := assign c1.preceding_node o pre,
                  relevant_edge := assign c1.relevant_edge o rel }
      ∧ ∀ v, c.seen v →
          ({ c with pq := pq1, queued := q, distance := assign c.distance o nd,
                    preceding_node := assign c.preceding_node o pre,
                    relevant_edge := assign c.relevant_edge o rel } : Connector).seen v := by
  have hseen : ∀ v, q v = c.current_iteration ↔ v = o ∨ c.seen v := by
    intro v
    rw [hq]
    unfold seen
    by_cases hv : v = o
    · simp [hv]
    · simp [hv]
  have hseen1 : ∀ v, q1 v = c1.current_iteration ↔ v = o ∨ c1.seen v := by
    intro v
    rw [hq1]
    unfold seen
    by_cases hv : v = o
    · simp [hv]
    · simp [hv]
  refine ⟨{ inputs := ⟨h.inputs.rules, h.inputs.graph_eq, h.inputs.agg_eq, ?_, ?_⟩
            pq_eq := rfl
            seen_iff := ?_
            distance_eq := ?_
            preceding_eq := ?_
            relevant_eq := ?_
            pq_seen := ?_
            preceding_seen := ?_ }, ?_⟩
  · intro v
    show q v ≤ c.current_iteration
    rw [hq]
    split
    · exact le_refl _
    · exact h.inputs.queued_le v
  · intro v
    show q1 v ≤ c1.current_iteration
    rw [hq1]
    split
    · exact le_refl _
    · exact h.inputs.queued_le1 v
  · intro v
    show q1 v = c1.current_iteration ↔ q v = c.current_iteration
    rw [hseen, hseen1, h.seen_iff v]
  · intro v hv
    have hv' := (hseen v).1 hv
    show assign c1.distance o nd v = assign c.distance o nd v
    unfold assign
    by_cases hvo : v = o
    · simp [hvo]
    · simp only [hvo, if_false]
      exact h.distance_eq v (hv'.resolve_left hvo)
  · intro v hv
    have hv' := (hseen v).1 hv
    show assign c1.preceding_node o pre v = assign c.preceding_node o pre v
    unfold assign
    by_cases hvo : v = o
    · simp [hvo]
    · simp only [hvo, if_false]
      exact h.preceding_eq v (hv'.resolve_left hvo)
  · intro v hv
    have hv' := (hseen v).1 hv
    show assign c1.relevant_edge o rel v = assign c.relevant_edge o rel v
    unfold assign
    by_cases hvo : v = o
    · simp [hvo]
    · simp only [hvo, if_false]
      exact h.relevant_eq v (hv'.resolve_left hvo)
  · intro entry hentry
    exact (hseen _).2 (hpq entry hentry)
  · intro v u hv hp
    have hv' := (hseen v).1 hv
    apply (hseen u).2
    change assign c.preceding_node o pre v = some u at hp
    unfold assign at hp
    by_cases hvo : v = o
    · simp only [hvo, if_true] at hp
      exact hpre u hp
    · simp only [hvo, if_false] at hp
      exact Or.inr (h.preceding_seen v u (hv'.resolve_left hvo) hp)
  · intro v hv
    exact (hseen v).2 (Or.inr hv)


/-- The values of the queue that `setPriority` leaves are values of the queue
it was given. -/
theorem setPriority_values (pq pq1 : List (Entry Nat Nat)) (o nd : Nat)
    (h : PriorityQueue.setPriority pq o nd = some pq1) :
    ∀ entry ∈ pq1, entry.value = o ∨ entry ∈ pq := by
  have hv : o ∈ pq.map (fun e => e.value) := by
    by_contra hn
    rw [PriorityQueue.setPriority_eq_none pq o nd hn] at h
    cases h
  obtain ⟨h1, idx, hidx, hrun, _, hperm, _⟩ := PriorityQueue.setPriority_spec pq o nd hv
  rw [h] at hrun
  cases hrun
  intro entry hentry
  rcases List.mem_or_eq_of_mem_set (hperm.subset hentry) with hm | rfl
  · exact Or.inr hm
  · exact Or.inl rfl

/-- One pass through the body of the loop over the edges keeps two states at
the same point of the search. -/
theorem relax_sim (mnw : Int) (BB : BoundingBox) (r : Bool) (f u e : Nat) {c c1 : Connector}
    (h : sim c c1) (hu : c.seen u) :
    Option.Rel (fun a b => sim a b ∧ (∀ v, c.seen v → a.seen v)
        ∧ a.current_iteration = c.current_iteration)
      (relax mnw BB r f u c e) (relax mnw BB r f u c1 e) := by
  have hg := h.inputs.graph_eq
  have hreq := required_capacity_alike h.inputs mnw e
  have hdu := h.distance_eq u hu
  have hother : c1.graph.other_node e u = c.graph.other_node e u := by rw [hg]
  have hpos : c1.graph.get_position_from_nodeindex = c.graph.get_position_from_nodeindex := by
    rw [hg]
  have hdir : c1.graph.get_edge_direction e = c.graph.get_edge_direction e := by rw [hg]
  have hcap : c1.graph.get_capacity e = c.graph.get_capacity e := by rw [hg]
  have hagg : c1.aggregated_width e = c.aggregated_width e := by rw [h.inputs.agg_eq]
  have hblk : c1.block_asserts mnw r e ↔ c.block_asserts mnw r e := by
    unfold block_asserts
    rw [hreq, hagg]
  have hcapa : ∀ d, c1.capacity_asserts mnw d e ↔ c.capacity_asserts mnw d e := by
    intro d
    unfold capacity_asserts
    rw [hreq, hagg, hcap]
  have hsame : Option.Rel (fun a b => sim a b ∧ (∀ v, c.seen v → a.seen v)
      ∧ a.current_iteration = c.current_iteration) (some c) (some c1) :=
    Option.Rel.some ⟨h, fun v hv => hv, rfl⟩
  have hle := h.inputs.queued_le (c.graph.other_node e u)
  have hle1 := h.inputs.queued_le1 (c.graph.other_node e u)
  have hseen := h.seen_iff (c.graph.other_node e u)
  unfold seen at hseen
  unfold relax
  simp only [hother, hpos, hdir, hcap, hagg, hreq, hdu, h.pq_eq, edge_weight_alike h.inputs]
  by_cases h1 : r = true
      ∧ BB.outside (c.graph.get_position_from_nodeindex (c.graph.other_node e u)) = true
  · rw [if_pos h1, if_pos h1]
    exact hsame
  rw [if_neg h1, if_neg h1]
  cases c.graph.get_edge_direction e with
  | none => exact Option.Rel.none
  | some d =>
    simp only
    by_cases hb : d ≠ .z_plus ∧ ¬ c.block_asserts mnw r e
    · have hb' : d ≠ .z_plus ∧ ¬ c1.block_asserts mnw r e := ⟨hb.1, fun x => hb.2 (hblk.1 x)⟩
      rw [if_pos hb, if_pos hb']
      exact Option.Rel.none
    have hb' : ¬ (d ≠ .z_plus ∧ ¬ c1.block_asserts mnw r e) :=
      fun x => hb ⟨x.1, fun y => x.2 (hblk.2 y)⟩
    rw [if_neg hb, if_neg hb']
    by_cases h2 : d ≠ .z_plus ∧ r = true
        ∧ c.aggregated_width e + c.required_capacity mnw e > c.graph.get_capacity e
    · rw [if_pos h2, if_pos h2]
      exact hsame
    rw [if_neg h2, if_neg h2]
    by_cases hca : r = true ∧ ¬ c.capacity_asserts mnw d e
    · have hca' : r = true ∧ ¬ c1.capacity_asserts mnw d e :=
        ⟨hca.1, fun x => hca.2 ((hcapa d).1 x)⟩
      rw [if_pos hca, if_pos hca']
      exact Option.Rel.none
    have hca' : ¬ (r = true ∧ ¬ c1.capacity_asserts mnw d e) :=
      fun x => hca ⟨x.1, fun y => x.2 ((hcapa d).2 y)⟩
    rw [if_neg hca, if_neg hca']
    by_cases h3 : c.queued (c.graph.other_node e u) < c.current_iteration
    · have h3' : c1.queued (c.graph.other_node e u) < c1.current_iteration := by
        rcases lt_or_eq_of_le hle1 with hlt | heq
        · exact hlt
        · have := hseen.1 heq
          omega
      rw [if_pos h3, if_pos h3']
      obtain ⟨hs1, hs2⟩ := sim_assign h (c.graph.other_node e u)
        (c.distance u + c.edge_weight r f d e) (some u) (some e)
        (PriorityQueue.push c.pq (c.graph.other_node e u) (c.distance u + c.edge_weight r f d e))
        (assign c.queued (c.graph.other_node e u) c.current_iteration)
        (assign c1.queued (c.graph.other_node e u) c1.current_iteration)
        (fun v => rfl) (fun v => rfl)
        (fun entry hentry => by
          rcases (PriorityQueue.mem_push _ _ _ _).1 hentry with rfl | hm
          · exact Or.inl rfl
          · exact Or.inr (h.pq_seen entry hm))
        (fun u1 hu1 => by
          cases hu1
          exact Or.inr hu)
      exact Option.Rel.some ⟨hs1, hs2, rfl⟩
    have h3' : ¬ c1.queued (c.graph.other_node e u) < c1.current_iteration := by
      intro hlt
      have : c.queued (c.graph.other_node e u) = c.current_iteration := by omega
      have := hseen.2 this
      omega
    rw [if_neg h3, if_neg h3']
    have heq : c.queued (c.graph.other_node e u) = c.current_iteration := by omega
    have heq1 : c1.queued (c.graph.other_node e u) = c1.current_iteration := hseen.2 heq
    have hdo := h.distance_eq (c.graph.other_node e u) heq
    rw [hdo]
    by_cases h4 : c.queued (c.graph.other_node e u) = c.current_iteration
        ∧ c.distance u + c.edge_weight r f d e < c.distance (c.graph.other_node e u)
    · have h4' : c1.queued (c.graph.other_node e u) = c1.current_iteration
          ∧ c.distance u + c.edge_weight r f d e < c.distance (c.graph.other_node e u) :=
        ⟨heq1, h4.2⟩
      rw [if_pos h4, if_pos h4']
      cases hset : PriorityQueue.setPriority c.pq (c.graph.other_node e u)
          (c.distance u + c.edge_weight r f d e) with
      | none => exact Option.Rel.none
      | some pq1 =>
        simp only
        obtain ⟨hs1, hs2⟩ := sim_assign h (c.graph.other_node e u)
          (c.distance u + c.edge_weight r f d e) (some u) (some e) pq1 c.queued c1.queued
          (fun v => by
            split
            · rename_i hv
              rw [hv]
              exact heq
            · rfl)
          (fun v => by
            split
            · rename_i hv
              rw [hv]
              exact heq1
            · rfl)
          (fun entry hentry => by
            rcases setPriority_values _ _ _ _ hset entry hentry with hv | hm
            · exact Or.inl hv
            · exact Or.inr (h.pq_seen entry hm))
          (fun u1 hu1 => by
            cases hu1
            exact Or.inr hu)
        exact Option.Rel.some ⟨hs1, hs2, rfl⟩
    · have h4' : ¬ (c1.queued (c.graph.other_node e u) = c1.current_iteration
          ∧ c.distance u + c.edge_weight r f d e < c.distance (c.graph.other_node e u)) :=
        fun hc => h4 ⟨heq, hc.2⟩
      rw [if_neg h4, if_neg h4']
      exact hsame


end Connector

/-- A relation between optional values passes to a weaker relation. -/
theorem option_rel_imp {α β : Type} {r s : α → β → Prop} {x : Option α} {y : Option β}
    (h : Option.Rel r x y) (himp : ∀ a b, r a b → s a b) : Option.Rel s x y := by
  cases h with
  | none => exact Option.Rel.none
  | some hab => exact Option.Rel.some (himp _ _ hab)

/-- Related optional values: a value on the left comes with a related value
on the right. -/
theorem option_rel_some {α β : Type} {r : α → β → Prop} {a : α} {y : Option β}
    (h : Option.Rel r (some a) y) : ∃ b, y = some b ∧ r a b := by
  cases h with
  | some hab => exact ⟨_, rfl, hab⟩

namespace Connector

/-- The loop over the edges of a popped node keeps two states at the same
point of the search. -/
theorem relax_all_sim (mnw : Int) (BB : BoundingBox) (r : Bool) (f u : Nat) (es : List Nat) :
    ∀ {c c1 : Connector}, sim c c1 → c.seen u →
      Option.Rel (fun a b => sim a b ∧ (∀ v, c.seen v → a.seen v)
          ∧ a.current_iteration = c.current_iteration)
        (relax_all mnw BB r f u c es) (relax_all mnw BB r f u c1 es) := by
  induction es with
  | nil =>
    intro c c1 h _
    exact Option.Rel.some ⟨h, fun v hv => hv, rfl⟩
  | cons e es ih =>
    intro c c1 h hu
    have hr := relax_sim mnw BB r f u e h hu
    simp only [relax_all]
    revert hr
    generalize relax mnw BB r f u c e = x
    generalize relax mnw BB r f u c1 e = y
    intro hr
    cases hr with
    | none => exact Option.Rel.none
    | some hab =>
      obtain ⟨hs, hmono, hcur⟩ := hab
      simp only
      refine option_rel_imp (ih hs (hmono u hu)) ?_
      rintro a b ⟨h1, h2, h3⟩
      exact ⟨h1, fun v hv => h2 v (hmono v hv), h3.trans hcur⟩

/-- Two states at the same point of a search stay so when both take the same
part of the queue as their queue. -/
theorem sim_queue {c c1 : Connector} (h : sim c c1) (pq1 : List (Entry Nat Nat))
    (hpq : ∀ entry ∈ pq1, entry ∈ c.pq) :
    sim { c with pq := pq1 } { c1 with pq := pq1 } :=
  { inputs := ⟨h.inputs.rules, h.inputs.graph_eq, h.inputs.agg_eq, h.inputs.queued_le,
      h.inputs.queued_le1⟩
    pq_eq := rfl
    seen_iff := h.seen_iff
    distance_eq := h.distance_eq
    preceding_eq := h.preceding_eq
    relevant_eq := h.relevant_eq
    pq_seen := fun entry hentry => h.pq_seen entry (hpq entry hentry)
    preceding_seen := h.preceding_seen }

/-- The search loop keeps two states at the same point of the search and ends
in both with the same answer; when it ends with no target left, every target
has been entered into the queue. -/
theorem search_loop_sim (mnw : Int) (BB : BoundingBox) (r : Bool) (f : Nat) (T : List Nat) :
    ∀ (fuel : Nat) {c c1 : Connector} (active_T : List Nat), sim c c1 →
      (∀ t ∈ T, t ∈ active_T ∨ c.seen t) →
      Option.Rel (fun a b => a.1 = b.1 ∧ sim a.2 b.2
          ∧ a.2.current_iteration = c.current_iteration
          ∧ (a.1 = true → ∀ t ∈ T, a.2.seen t))
        (search_loop mnw BB r f fuel c active_T) (search_loop mnw BB r f fuel c1 active_T) := by
  intro fuel
  induction fuel with
  | zero =>
    intro c c1 active_T h hT
    unfold search_loop
    rw [h.pq_eq]
    cases active_T with
    | nil =>
      simp only [List.isEmpty_nil, if_true]
      exact Option.Rel.some ⟨rfl, h, rfl, fun _ t ht => (hT t ht).resolve_left (by simp)⟩
    | cons a rest =>
      simp only [List.isEmpty_cons, Bool.false_eq_true, if_false]
      split
      · exact Option.Rel.some ⟨rfl, h, rfl, fun hf => by cases hf⟩
      · exact Option.Rel.none
  | succ fuel ih =>
    intro c c1 active_T h hT
    unfold search_loop
    rw [h.pq_eq]
    cases active_T with
    | nil =>
      simp only [List.isEmpty_nil, if_true]
      exact Option.Rel.some ⟨rfl, h, rfl, fun _ t ht => (hT t ht).resolve_left (by simp)⟩
    | cons a rest =>
      simp only [List.isEmpty_cons, Bool.false_eq_true, if_false]
      cases hpop : PriorityQueue.pop c.pq with
      | none => exact Option.Rel.some ⟨rfl, h, rfl, fun hf => by cases hf⟩
      | some res =>
        obtain ⟨top, pq1⟩ := res
        simp only
        have hperm := (PriorityQueue.pop_spec c.pq top pq1 hpop).1
        have htop : c.seen top.value :=
          h.pq_seen top (hperm.symm.subset (List.mem_cons_self _ _))
        have hs0 := sim_queue h pq1
          (fun entry hentry => hperm.symm.subset (List.mem_cons_of_mem _ hentry))
        have hedges : c1.graph.get_edgeindices_from_node top.value
            = c.graph.get_edgeindices_from_node top.value := by rw [h.inputs.graph_eq]
        rw [hedges]
        have hr := relax_all_sim mnw BB r f top.value
          (c.graph.get_edgeindices_from_node top.value) hs0 htop
        revert hr
        generalize relax_all mnw BB r f top.value { c with pq := pq1 }
          (c.graph.get_edgeindices_from_node top.value) = x
        generalize relax_all mnw BB r f top.value { c1 with pq := pq1 }
          (c.graph.get_edgeindices_from_node top.value) = y
        intro hr
        cases hr with
        | none => exact Option.Rel.none
        | some hab =>
          obtain ⟨hs, hmono, hcur⟩ := hab
          simp only
          rename_i a1 b1
          have hT1 : ∀ t ∈ T, t ∈ (a :: rest).erase top.value ∨ a1.seen t := by
            intro t ht
            rcases hT t ht with hm | hseen
            · by_cases hte : t = top.value
              · right
                rw [hte]
                exact hmono _ htop
              · left
                exact (List.mem_erase_of_ne hte).2 hm
            · exact Or.inr (hmono t hseen)
          refine option_rel_imp (ih ((a :: rest).erase top.value) hs hT1) ?_
          rintro a2 b2 ⟨h1, h2, h3, h4⟩
          exact ⟨h1, h2, h3.trans hcur, h4⟩

/-- Entering the sources into the queue keeps two states at the same point of
the search. -/
theorem push_sources_sim (S : List Nat) :
    ∀ {c c1 : Connector}, sim c c1 →
      Option.Rel (fun a b => sim a b ∧ a.current_iteration = c.current_iteration)
        (push_sources c S) (push_sources c1 S) := by
  induction S with
  | nil =>
    intro c c1 h
    exact Option.Rel.some ⟨h, rfl⟩
  | cons s S ih =>
    intro c c1 h
    simp only [push_sources]
    have hcn : c1.graph.count_nodes = c.graph.count_nodes := by rw [h.inputs.graph_eq]
    rw [hcn, h.pq_eq]
    split
    · obtain ⟨hs1, _⟩ := sim_assign h s 0 none none (PriorityQueue.push c.pq s 0)
        (assign c.queued s c.current_iteration) (assign c1.queued s c1.current_iteration)
        (fun v => rfl) (fun v => rfl)
        (fun entry hentry => by
          rcases (PriorityQueue.mem_push _ _ _ _).1 hentry with rfl | hm
          · exact Or.inl rfl
          · exact Or.inr (h.pq_seen entry hm))
        (fun u1 hu1 => by cases hu1)
      refine option_rel_imp (ih hs1) ?_
      rintro a b ⟨h1, h2⟩
      exact ⟨h1, h2⟩
    · exact Option.Rel.none

/-- Walking back from a node entered into the queue gives the same edges in
two states at the same point of the search. -/
theorem walk_back_sim {c c1 : Connector} (h : sim c c1) :
    ∀ (fuel p : Nat) (ret : List Nat), c.seen p →
      walk_back c1 fuel p ret = walk_back c fuel p ret := by
  intro fuel
  induction fuel with
  | zero =>
    intro p ret hp
    simp only [walk_back]
    rw [h.preceding_eq p hp]
  | succ fuel ih =>
    intro p ret hp
    simp only [walk_back]
    rw [h.preceding_eq p hp, h.relevant_eq p hp]
    cases hpre : c.preceding_node p with
    | none => rfl
    | some q =>
      simp only
      cases c.relevant_edge p with
      | none => rfl
      | some e =>
        simp only
        exact ih q _ (h.preceding_seen p q hp hpre)

/-- The tree extraction gives the same edges in two states at the same point
of the search. -/
theorem collect_edges_sim {c c1 : Connector} (h : sim c c1) :
    ∀ (T ret : List Nat), (∀ t ∈ T, c.seen t) →
      collect_edges c1 T ret = collect_edges c T ret := by
  intro T
  induction T with
  | nil =>
    intro ret _
    rfl
  | cons t T ih =>
    intro ret hT
    simp only [collect_edges]
    rw [h.inputs.graph_eq, walk_back_sim h _ t ret (hT t (List.mem_cons_self _ _))]
    cases walk_back c c.graph.count_nodes t ret with
    | none => rfl
    | some ret1 =>
      simp only
      exact ih ret1 (fun t1 ht1 => hT t1 (List.mem_cons_of_mem _ ht1))

/-- After the iteration counter has been raised no node counts as entered
into the queue, so two states with the same inputs are at the same point of
the search. -/
theorem sim_start {c c1 : Connector} (h : same_inputs c c1) :
    sim { c with pq := [], current_iteration := c.current_iteration + 1 }
      { c1 with pq := [], current_iteration := c1.current_iteration + 1 } := by
  have hn : ∀ v, ¬ ({ c with pq := [], current_iteration := c.current_iteration + 1 }
      : Connector).seen v := by
    intro v hv
    have h1 : c.queued v = c.current_iteration + 1 := hv
    have := h.queued_le v
    omega
  have hn1 : ∀ v, ¬ ({ c1 with pq := [], current_iteration := c1.current_iteration + 1 }
      : Connector).seen v := by
    intro v hv
    have h1 : c1.queued v = c1.current_iteration + 1 := hv
    have := h.queued_le1 v
    omega
  exact
    { inputs := ⟨h.rules, h.graph_eq, h.agg_eq,
        fun v => le_trans (h.queued_le v) (by show c.current_iteration ≤ c.current_iteration + 1; omega),
        fun v => le_trans (h.queued_le1 v)
          (by show c1.current_iteration ≤ c1.current_iteration + 1; omega)⟩
      pq_eq := rfl
      seen_iff := fun v => ⟨fun hv => absurd hv (hn1 v), fun hv => absurd hv (hn v)⟩
      distance_eq := fun v hv => absurd hv (hn v)
      preceding_eq := fun v hv => absurd hv (hn v)
      relevant_eq := fun v hv => absurd hv (hn v)
      pq_seen := fun entry hentry => by cases hentry
      preceding_seen := fun v u hv => absurd hv (hn v) }

/-- One activation of the search gives the same answer from two states with
the same inputs, and leaves states with the same inputs. -/
theorem search_pass_sim {c c1 : Connector} (h : same_inputs c c1) (S T : List Nat) (mnw : Int)
    (BB : BoundingBox) (r : Bool) (f : Nat)
    (hh : c1.head_asserts mnw ↔ c.head_asserts mnw) :
    Option.Rel (fun a b => a.1 = b.1 ∧ same_inputs a.2 b.2
        ∧ a.2.current_iteration = c.current_iteration + 1)
      (search_pass c S T mnw BB r f) (search_pass c1 S T mnw BB r f) := by
  unfold search_pass
  by_cases hhead : ¬ c.head_asserts mnw
  · have hhead' : ¬ c1.head_asserts mnw := fun x => hhead (hh.1 x)
    rw [if_pos hhead, if_pos hhead']
    exact Option.Rel.none
  have hhead' : ¬ ¬ c1.head_asserts mnw := fun x => hhead (fun y => x (hh.2 y))
  rw [if_neg hhead, if_neg hhead']
  have h0 := push_sources_sim S (sim_start h)
  revert h0
  generalize push_sources { c with pq := [], current_iteration := c.current_iteration + 1 } S = x
  generalize push_sources { c1 with pq := [], current_iteration := c1.current_iteration + 1 } S
    = y
  intro h0
  cases h0 with
  | none => exact Option.Rel.none
  | some hab =>
    obtain ⟨hs, hcur⟩ := hab
    rename_i a0 b0
    simp only
    rw [hs.inputs.graph_eq]
    have hl := search_loop_sim mnw BB r f T a0.graph.count_nodes T hs (fun t ht => Or.inl ht)
    revert hl
    generalize search_loop mnw BB r f a0.graph.count_nodes a0 T = x1
    generalize search_loop mnw BB r f a0.graph.count_nodes b0 T = y1
    intro hl
    cases hl with
    | none => exact Option.Rel.none
    | some hab1 =>
      rename_i a1 b1
      obtain ⟨ba, a1⟩ := a1
      obtain ⟨bb, b1⟩ := b1
      obtain ⟨hb, hs1, hcur1, hseen⟩ := hab1
      simp only at hb hs1 hcur1 hseen
      subst hb
      have hc : a1.current_iteration = c.current_iteration + 1 := by
        rw [hcur1, hcur]
      cases ba with
      | false => exact Option.Rel.some ⟨rfl, hs1.inputs, hc⟩
      | true =>
        simp only
        rw [collect_edges_sim hs1 T [] (hseen rfl)]
        cases collect_edges a1 T [] with
        | none => exact Option.Rel.none
        | some ret => exact Option.Rel.some ⟨rfl, hs1.inputs, hc⟩

/-- An activation of the search that returns leaves the counter one higher. -/
theorem search_pass_counter {c : Connector} (hq : ∀ v, c.queued v ≤ c.current_iteration)
    (S T : List Nat) (mnw : Int) (BB : BoundingBox) (r : Bool) (f : Nat)
    (res : Option (List Nat)) (a : Connector)
    (hrun : search_pass c S T mnw BB r f = some (res, a)) :
    a.current_iteration = c.current_iteration + 1 := by
  have h := search_pass_sim (same_inputs_refl c hq) S T mnw BB r f Iff.rfl
  rw [hrun] at h
  obtain ⟨b, _, _, _, hcur⟩ := option_rel_some h
  exact hcur

/-- The assertions at the head of the search give the same in two states
whose counters are equal, or both such that the counter can be raised. -/
theorem head_asserts_alike {a b : Connector} (mnw : Int)
    (h : b.current_iteration = a.current_iteration
      ∨ ((0 ≤ a.current_iteration ∧ a.current_iteration + 1 ≤ int_max)
        ∧ (0 ≤ b.current_iteration ∧ b.current_iteration + 1 ≤ int_max))) :
    b.head_asserts mnw ↔ a.head_asserts mnw := by
  unfold head_asserts fits_int int_min
  unfold int_max at *
  rcases h with h | ⟨⟨h1, h2⟩, h3, h4⟩
  · rw [h]
  · constructor
    · rintro ⟨g1, _, _⟩
      exact ⟨g1, ⟨by omega, by omega⟩, by omega⟩
    · rintro ⟨g1, _, _⟩
      exact ⟨g1, ⟨by omega, by omega⟩, by omega⟩

/-- A call of `create_search_forest` returns the same edges from two states
with the same inputs, and leaves states with the same inputs and a higher
iteration counter; the counters of the two states are equal, or both such that
the call can raise them twice. -/
theorem create_search_forest_sim {c c1 : Connector} (h : same_inputs c c1) (S T : List Nat)
    (mnw : Int) (BB : BoundingBox) (r : Bool) (f : Nat)
    (hcnt : c1.current_iteration = c.current_iteration
      ∨ ((0 ≤ c.current_iteration ∧ c.current_iteration + 2 ≤ int_max)
        ∧ (0 ≤ c1.current_iteration ∧ c1.current_iteration + 2 ≤ int_max))) :
    Option.Rel (fun a b => a.1 = b.1 ∧ same_inputs a.2 b.2
        ∧ c.current_iteration < a.2.current_iteration
        ∧ (c1.current_iteration = c.current_iteration →
            b.2.current_iteration = a.2.current_iteration))
      (create_search_forest c S T mnw BB r f) (create_search_forest c1 S T mnw BB r f) := by
  unfold create_search_forest
  have hh : c1.head_asserts mnw ↔ c.head_asserts mnw := by
    apply head_asserts_alike
    rcases hcnt with hcnt | ⟨⟨h1, h2⟩, h3, h4⟩
    · exact Or.inl hcnt
    · exact Or.inr ⟨⟨h1, by omega⟩, h3, by omega⟩
  have h0 := search_pass_sim h S T mnw BB r f hh
  have hb0 := search_pass_counter h.queued_le1 S T mnw BB r f
  revert h0 hb0
  generalize search_pass c S T mnw BB r f = x
  generalize search_pass c1 S T mnw BB r f = y
  intro h0 hb0
  cases h0 with
  | none => exact Option.Rel.none
  | some hab =>
    rename_i a b
    obtain ⟨ra, a⟩ := a
    obtain ⟨rb, b⟩ := b
    obtain ⟨hres, hin, hcur⟩ := hab
    have hcurb : b.current_iteration = c1.current_iteration + 1 := hb0 rb b rfl
    simp only at hres hin hcur
    subst hres
    cases ra with
    | some ret =>
      exact Option.Rel.some ⟨rfl, hin, by show c.current_iteration < a.current_iteration; omega,
        fun he => by show b.current_iteration = a.current_iteration; omega⟩
    | none =>
      simp only
      cases r with
      | false => exact Option.Rel.none
      | true =>
        simp only [if_true]
        have hin1 : same_inputs { a with emergency_log := a.emergency_log + 1 }
            { b with emergency_log := b.emergency_log + 1 } :=
          ⟨hin.rules, hin.graph_eq, hin.agg_eq, hin.queued_le, hin.queued_le1⟩
        have hh1 : ({ b with emergency_log := b.emergency_log + 1 } : Connector).head_asserts mnw
            ↔ ({ a with emergency_log := a.emergency_log + 1 } : Connector).head_asserts mnw := by
          apply head_asserts_alike
          show b.current_iteration = a.current_iteration
            ∨ ((0 ≤ a.current_iteration ∧ a.current_iteration + 1 ≤ int_max)
              ∧ (0 ≤ b.current_iteration ∧ b.current_iteration + 1 ≤ int_max))
          rcases hcnt with hcnt | ⟨⟨h1, h2⟩, h3, h4⟩
          · left
            omega
          · right
            exact ⟨⟨by omega, by omega⟩, by omega, by omega⟩
        have h1 := search_pass_sim hin1 S T mnw BB false f hh1
        have hb1 := search_pass_counter hin1.queued_le1 S T mnw BB false f
        revert h1 hb1
        generalize search_pass { a with emergency_log := a.emergency_log + 1 } S T mnw BB false f
          = x1
        generalize search_pass { b with emergency_log := b.emergency_log + 1 } S T mnw BB false f
          = y1
        intro h1 hb1
        cases h1 with
        | none => exact Option.Rel.none
        | some hab1 =>
          rename_i a2 b2
          obtain ⟨ra2, a2⟩ := a2
          obtain ⟨rb2, b2⟩ := b2
          obtain ⟨hres2, hin2, hcur2⟩ := hab1
          have hcurb2 : b2.current_iteration
              = ({ b with emergency_log := b.emergency_log + 1 } : Connector).current_iteration
                + 1 := hb1 rb2 b2 rfl
          simp only at hres2 hin2 hcur2 hcurb2
          subst hres2
          cases ra2 with
          | none => exact Option.Rel.none
          | some ret =>
            have : ({ a with emergency_log := a.emergency_log + 1 } : Connector).current_iteration
                = a.current_iteration := rfl
            refine Option.Rel.some ⟨rfl, hin2, ?_, ?_⟩
            · show c.current_iteration < a2.current_iteration
              omega
            · intro he
              show b2.current_iteration = a2.current_iteration
              omega

end Connector
/-- Related optional pairs with equal first components have the same first
component, if any. -/
theorem option_rel_fst {α β γ : Type} {r : α × β → α × γ → Prop} {x : Option (α × β)}
    {y : Option (α × γ)} (h : Option.Rel r x y) (hr : ∀ a b, r a b → a.1 = b.1) :
    x.map Prod.fst = y.map Prod.fst := by
  cases h with
  | none => rfl
  | some hab =>
    simp only [Option.map_some']
    rw [hr _ _ hab]

/-- C31. The iteration counter separates the calls of `create_search_forest`
on one connector. In the connector as constructed no entry of `queued` lies
above `current_iteration`. From any state `c` in which this holds: when a call
has raised the counter no node has `queued[v] == current_iteration`; every
activation that returns, the emergency re-entry included, leaves the counter
one higher and again no entry of `queued` above it; every call that returns
leaves the counter strictly higher and no entry of `queued` above it. And
where in both states the counter is not negative and can be raised twice
inside `int`, the edge set a call returns is the same from any other such
state `c1` of the connector (same problem and graph) with the same aggregated
widths, whatever `queued`, `distance`, `preceding_node`, `relevant_edge`, the
queue and the counter hold in the two states: both calls return the same edge
set or neither returns. With one source and targets that are nodes of a
well-formed graph both calls return when the assertions that depend on the
input hold in both states (`search_asserts`). -/
theorem iteration_counter_separates_calls (c c1 : Connector) (hp : c1.problem = c.problem)
    (hgr : c1.graph = c.graph) (hagg : c1.aggregated_width = c.aggregated_width)
    (hq : ∀ v, c.queued v ≤ c.current_iteration)
    (hq1 : ∀ v, c1.queued v ≤ c1.current_iteration)
    (S T : List Nat) (mnw : Int) (BB : BoundingBox) (r : Bool) (f : Nat) :
    (∀ v, (Connector.create c.problem c.graph).queued v
        ≤ (Connector.create c.problem c.graph).current_iteration)
      ∧ (∀ v, c.queued v ≠ c.current_iteration + 1)
      ∧ (∀ res a, c.search_pass S T mnw BB r f = some (res, a) →
          a.current_iteration = c.current_iteration + 1
            ∧ ∀ v, a.queued v ≤ a.current_iteration)
      ∧ (∀ ret a, c.create_search_forest S T mnw BB r f = some (ret, a) →
          c.current_iteration < a.current_iteration
            ∧ ∀ v, a.queued v ≤ a.current_iteration)
      ∧ (0 ≤ c.current_iteration ∧ c.current_iteration + 2 ≤ int_max →
          0 ≤ c1.current_iteration ∧ c1.current_iteration + 2 ≤ int_max →
          (c.create_search_forest S T mnw BB r f).map Prod.fst
            = (c1.create_search_forest S T mnw BB r f).map Prod.fst)
      ∧ (∀ s, S = [s] → c.graph.wf → s < c.graph.count_nodes → T.Nodup →
          (∀ t ∈ T, t < c.graph.count_nodes) →
          c.search_asserts mnw r → c1.search_asserts mnw r →
          ∃ ret a b, c.create_search_forest S T mnw BB r f = some (ret, a)
            ∧ c1.create_search_forest S T mnw BB r f = some (ret, b)) := by
  have hin : Connector.same_inputs c c1 := ⟨⟨by rw [hp], by rw [hp], by rw [hp]⟩, hgr, hagg, hq, hq1⟩
  have hself := Connector.same_inputs_refl c hq
  refine ⟨?_, ?_, ?_, ?_, ?_, ?_⟩
  · intro v
    show (-1 : Int) ≤ 0
    decide
  · intro v
    have := hq v
    omega
  · intro res a hrun
    have h := Connector.search_pass_sim hself S T mnw BB r f Iff.rfl
    rw [hrun] at h
    obtain ⟨b, hb, _, hin1, hcur⟩ := option_rel_some h
    exact ⟨hcur, hin1.queued_le⟩
  · intro ret a hrun
    have h := Connector.create_search_forest_sim hself S T mnw BB r f (Or.inl rfl)
    rw [hrun] at h
    obtain ⟨b, hb, _, hin1, hcur, _⟩ := option_rel_some h
    exact ⟨hcur, hin1.queued_le⟩
  · intro hc hc1
    exact option_rel_fst
      (Connector.create_search_forest_sim hin S T mnw BB r f (Or.inr ⟨hc, hc1⟩))
      (fun a b hab => hab.1)
  · intro s hS hg hs hT hTN hok hok1
    subst hS
    obtain ⟨ret, a, _, hrun, _⟩ :=
      Connector.create_search_forest_spec c s T mnw BB r f hg hq hs hT hTN (Or.inl hok)
    have h := Connector.create_search_forest_sim hin [s] T mnw BB r f
      (Or.inr ⟨hok.counter, hok1.counter⟩)
    rw [hrun] at h
    obtain ⟨b, hb, hfst, _⟩ := option_rel_some h
    obtain ⟨ret1, b⟩ := b
    simp only at hfst
    subst hfst
    exact ⟨ret, a, b, hrun, hb⟩

end GlobalRouting

/-! ## The order of the pins -/

namespace GlobalRouting

namespace Connector

end Connector

end GlobalRouting

/-! ## The statements on the scenarios, concluded -/

namespace GlobalRouting

/-- C32 on the grid of 3 by 2 tiles: four X edges, then three Y edges, no Z
edge. -/
theorem edge_ranges_by_axis_witness :
    detour_graph.wf
      ∧ (detour_graph.dim_x - 1) * detour_graph.dim_y * detour_graph.dim_z = 4
      ∧ detour_graph.dim_x * (detour_graph.dim_y - 1) * detour_graph.dim_z = 3
      ∧ detour_graph.count_edges
          = (detour_graph.dim_x - 1) * detour_graph.dim_y * detour_graph.dim_z
            + detour_graph.dim_x * (detour_graph.dim_y - 1) * detour_graph.dim_z
            + detour_graph.dim_x * detour_graph.dim_y * (detour_graph.dim_z - 1)
      ∧ ∀ e, e < detour_graph.count_edges →
          (detour_graph.get_edge_direction e = some .x_plus
            ↔ e < (detour_graph.dim_x - 1) * detour_graph.dim_y * detour_graph.dim_z)
          ∧ (detour_graph.get_edge_direction e = some .y_plus
              ↔ (detour_graph.dim_x - 1) * detour_graph.dim_y * detour_graph.dim_z ≤ e
                ∧ e < (detour_graph.dim_x - 1) * detour_graph.dim_y * detour_graph.dim_z
                    + detour_graph.dim_x * (detour_graph.dim_y - 1) * detour_graph.dim_z)
          ∧ (detour_graph.get_edge_direction e = some .z_plus
              ↔ ¬ e < (detour_graph.dim_x - 1) * detour_graph.dim_y * detour_graph.dim_z
                ∧ ¬ ((detour_graph.dim_x - 1) * detour_graph.dim_y * detour_graph.dim_z ≤ e
                  ∧ e < (detour_graph.dim_x - 1) * detour_graph.dim_y * detour_graph.dim_z
                      + detour_graph.dim_x * (detour_graph.dim_y - 1) * detour_graph.dim_z))
          ∧ detour_graph.get_edge_direction e ≠ some .x_minus
          ∧ detour_graph.get_edge_direction e ≠ some .y_minus
          ∧ detour_graph.get_edge_direction e ≠ some .z_minus :=
  ⟨by unfold Graph.wf; decide, by decide, by decide,
    edge_ranges_by_axis detour_graph (by unfold Graph.wf; decide)⟩

/-- C40 on the grid of 3 by 2 tiles: what it says of every edge index. -/
theorem edge_indexing_bijection_witness :
    detour_graph.wf
      ∧ ∀ e, e < detour_graph.count_edges →
          ∃ d, detour_graph.get_edge_direction e = some d ∧ d.is_plus
            ∧ (detour_graph.get_nodes_of_edge e).1 < detour_graph.count_nodes
            ∧ detour_graph.is_direction_possible (detour_graph.get_nodes_of_edge e).1 d = true
            ∧ (detour_graph.get_nodes_of_edge e).2
                = detour_graph.get_neighbor (detour_graph.get_nodes_of_edge e).1 d
            ∧ detour_graph.get_edgeindex_from_node_and_direction
                (detour_graph.get_nodes_of_edge e).1 d = e :=
  ⟨by unfold Graph.wf; decide,
    (edge_indexing_bijection detour_graph (by unfold Graph.wf; decide)).1⟩

/-- C37 on `lowered_problem`, whose two adjustments lower the capacity of the
one edge from 5 to 3 and then to 2: the builder returns a graph. -/
theorem builder_completes_iff_witness :
    lowered_problem.check = true
      ∧ (∀ c ∈ lowered_problem.capacity.vertical, c ≥ 0)
      ∧ (∀ c ∈ lowered_problem.capacity.horizontal, c ≥ 0)
      ∧ (createGraphFromGlobalRoutingProblem lowered_problem).isSome = true
      ∧ ((∃ g, createGraphFromGlobalRoutingProblem lowered_problem = some g)
          ↔ ∀ i capAdj, lowered_problem.capacityAdjustments[i]? = some capAdj →
              Graph.adjacent_positions capAdj.start_position capAdj.end_position
                ∧ 0 ≤ capAdj.adjusted_capacity
                ∧ ∀ e,
                    capAdj.edge (Graph.create lowered_problem.grid.x_grids.toNat
                      lowered_problem.grid.y_grids.toNat lowered_problem.grid.layers.toNat)
                      = some e →
                    capAdj.adjusted_capacity
                      ≤ adjusted_capacity lowered_problem
                          (Graph.create lowered_problem.grid.x_grids.toNat
                            lowered_problem.grid.y_grids.toNat
                            lowered_problem.grid.layers.toNat)
                          (lowered_problem.capacityAdjustments.take i) e) :=
  ⟨by decide, by decide, by decide, by decide,
    builder_completes_iff lowered_problem (by decide) (by decide) (by decide)⟩

/-- C34 on the scenario "emergency fallback", where the call runs both
passes: the first pops node 0 and finds the queue empty, the emergency pass
pops node 0 at distance 0 and node 1 at distance 1. -/
theorem pops_do_not_decrease_witness :
    (Connector.create saturated_problem saturated_graph).graph.wf
      ∧ (∀ v, (Connector.create saturated_problem saturated_graph).queued v
          ≤ (Connector.create saturated_problem saturated_graph).current_iteration)
      ∧ 0 < (Connector.create saturated_problem saturated_graph).graph.count_nodes
      ∧ ([1] : List Nat).Nodup
      ∧ (∀ t ∈ ([1] : List Nat),
          t < (Connector.create saturated_problem saturated_graph).graph.count_nodes)
      ∧ (Connector.create saturated_problem saturated_graph).weights_exact false 10
      ∧ (Connector.create saturated_problem saturated_graph).search_asserts 0 true
      ∧ ((Connector.create saturated_problem saturated_graph).create_search_forest_pops [0] [1] 0
            ⟨0, 1, 0, 0, 0, 0⟩ true 10).map
          (fun pops => pops.map
            (fun x => (x.last_distance, x.current_entry.value, x.current_entry.priority)))
          = [[(0, 0, 0)], [(0, 0, 0), (0, 1, 1)]]
      ∧ (∃ ret c1,
          (Connector.create saturated_problem saturated_graph).create_search_forest [0] [1] 0
            ⟨0, 1, 0, 0, 0, 0⟩ true 10 = some (ret, c1))
      ∧ ∀ pops ∈ (Connector.create saturated_problem saturated_graph).create_search_forest_pops
            [0] [1] 0 ⟨0, 1, 0, 0, 0, 0⟩ true 10,
          (∀ x ∈ pops, Connector.pop_asserts x = true)
            ∧ pops.Pairwise (fun x y =>
                x.state.distance x.current_entry.value
                  ≤ y.state.distance y.current_entry.value) :=
  ⟨by unfold Graph.wf; decide, fun _ => by simp [Connector.create], by decide, by decide,
    by decide, saturated_weights_exact, saturated_search_asserts, by decide,
    (pops_do_not_decrease (Connector.create saturated_problem saturated_graph) 0 [1] 0
      ⟨0, 1, 0, 0, 0, 0⟩ true 10 (by unfold Graph.wf; decide)
      (fun _ => by simp [Connector.create]) (by decide) (by decide) (by decide)
      saturated_weights_exact).1 saturated_search_asserts,
    (pops_do_not_decrease (Connector.create saturated_problem saturated_graph) 0 [1] 0
      ⟨0, 1, 0, 0, 0, 0⟩ true 10 (by unfold Graph.wf; decide)
      (fun _ => by simp [Connector.create]) (by decide) (by decide) (by decide)
      saturated_weights_exact).2⟩

/-- C31 on the scenario "emergency fallback": the call from the connector as
constructed and the call from `stale_connector`, whose counter stands at 5 and
whose vectors hold leftovers, both return, and return the same edge set. -/
theorem iteration_counter_separates_calls_witness :
    stale_connector.problem = (Connector.create saturated_problem saturated_graph).problem
      ∧ stale_connector.graph = (Connector.create saturated_problem saturated_graph).graph
      ∧ stale_connector.aggregated_width
          = (Connector.create saturated_problem saturated_graph).aggregated_width
      ∧ (∀ v, (Connector.create saturated_problem saturated_graph).queued v
          ≤ (Connector.create saturated_problem saturated_graph).current_iteration)
      ∧ (∀ v, stale_connector.queued v ≤ stale_connector.current_iteration)
      ∧ stale_connector.queued 1 = stale_connector.current_iteration
      ∧ (Connector.create saturated_problem saturated_graph).search_asserts 0 true
      ∧ stale_connector.search_asserts 0 true
      ∧ ((Connector.create saturated_problem saturated_graph).create_search_forest [0] [1] 0
            ⟨0, 1, 0, 0, 0, 0⟩ true 10).map Prod.fst = some [0]
      ∧ ((Connector.create saturated_problem saturated_graph).create_search_forest [0] [1] 0
            ⟨0, 1, 0, 0, 0, 0⟩ true 10).map Prod.fst
          = (stale_connector.create_search_forest [0] [1] 0 ⟨0, 1, 0, 0, 0, 0⟩ true 10).map
              Prod.fst
      ∧ ∃ ret a b,
          (Connector.create saturated_problem saturated_graph).create_search_forest [0] [1] 0
              ⟨0, 1, 0, 0, 0, 0⟩ true 10 = some (ret, a)
            ∧ stale_connector.create_search_forest [0] [1] 0 ⟨0, 1, 0, 0, 0, 0⟩ true 10
              = some (ret, b) :=
  ⟨rfl, rfl, rfl, fun _ => by simp [Connector.create],
    fun v => by
      show (if v = 1 then (5 : Int) else 2) ≤ 5
      split <;> decide,
    by decide, saturated_search_asserts, ⟨by decide, by decide, by decide⟩, by decide,
    (iteration_counter_separates_calls (Connector.create saturated_problem saturated_graph)
      stale_connector rfl rfl rfl (fun _ => by simp [Connector.create])
      (fun v => by
        show (if v = 1 then (5 : Int) else 2) ≤ 5
        split <;> decide)
      [0] [1] 0 ⟨0, 1, 0, 0, 0, 0⟩ true 10).2.2.2.2.1 (by decide) (by decide),
    (iteration_counter_separates_calls (Connector.create saturated_problem saturated_graph)
      stale_connector rfl rfl rfl (fun _ => by simp [Connector.create])
      (fun v => by
        show (if v = 1 then (5 : Int) else 2) ≤ 5
        split <;> decide)
      [0] [1] 0 ⟨0, 1, 0, 0, 0, 0⟩ true 10).2.2.2.2.2 0 rfl (by unfold Graph.wf; decide)
      (by decide) (by decide) (by decide) saturated_search_asserts
      ⟨by decide, by decide, by decide⟩⟩

end GlobalRouting
